import Mathlib

/-!
# ISPRE3: isothermal speculative partial redundancy elimination

A shallow embedding of `src/ISPRE/ISPRE3.cpp` (the `ISPRE3Pass` function pass) and the
properties of its analyses.

Modelling conventions.

* A basic block is known to the pass through `BB.getName()`; every scratch map is keyed by
  that name.  Names are used only through equality and through the ordering of `std::map`,
  so a name is a natural number here.
* An `Instruction *` is used only through pointer identity, so an occurrence is the
  identifier `id` of the instruction; `std::set<Instruction *>` is a `Finset` of identifiers.
* `std::map` is an association list (`StdMap`) whose `insert` keeps the key order;
  `m[k]` read on a missing key yields the empty set (`StdMap.get`).
* The `std::set_union`, `std::set_intersection` and `std::set_difference` calls all write
  through a `std::inserter`, that is, they insert every element of the result into the
  destination set, which keeps what it already holds.
* `while (change)` loops take a fuel argument, the number of passes they may make.
-/

namespace ISPRE3

/-! ## Data model -/

/-- A block name (`StringRef`). -/
abbrev BlockName := Nat

/-- The identity of an instruction (`Instruction *`). -/
abbrev InstrId := Nat

/-- A set of expression occurrences (`std::set<Instruction *>`). -/
abbrev OccSet := Finset InstrId

/-- A CFG edge as the pass stores it: (source name, destination name). -/
abbrev Edge := BlockName × BlockName

/-- Opcodes: the thirteen opcodes of the `switch` of `fillXUses`, `fillGens` and `fillKills`,
loads, stores, and every other opcode by its number (1 is `ret`, 2 is `br`). -/
inductive Opcode where
  | Add | Sub | Mul | UDiv | SDiv | URem | Shl | LShr | AShr | And | Or | Xor | SRem
  | Load | Store
  | Other (code : Nat)
  deriving DecidableEq, Repr

/-- An operand: the result of an instruction, or a value that is no instruction (constant,
argument, global), for which `dyn_cast<Instruction>` gives `nullptr`. -/
inductive Value where
  | inst (id : InstrId)
  | other (code : Nat)
  deriving DecidableEq, Repr

/-- An instruction: its identity, its opcode and its ordered operand list. -/
structure Instruction where
  id : InstrId
  opcode : Opcode
  operands : List Value
  deriving DecidableEq, Repr

/-- A basic block: name, instruction sequence, the predecessor and successor blocks in the
order `predecessors(&BB)` and `successors(&BB)` enumerate them, and the execution count
that `getBlockProfileCount` reports for it (a `uint64_t`). -/
structure BasicBlock where
  name : BlockName
  instrs : List Instruction
  preds : List BlockName
  succs : List BlockName
  count : Nat
  deriving DecidableEq, Repr

/-- A function: its blocks in layout order (`for (BasicBlock &BB : F)`). -/
abbrev Func := List BasicBlock

/-- The block names of a function, in layout order. -/
def Func.names (F : Func) : List BlockName := F.map BasicBlock.name

/-- All instructions of a function, in layout order. -/
def Func.allInstrs (F : Func) : List Instruction := F.flatMap BasicBlock.instrs

/-! ## `std::map` -/

/-- An association list standing for `std::map<K, V>`. -/
structure StdMap (K V : Type) where
  entries : List (K × V)
  deriving DecidableEq, Repr

namespace StdMap

variable {K V : Type}

/-- The empty map. -/
def empty : StdMap K V := ⟨[]⟩

/-- Lookup in an entry list. -/
def findIn [DecidableEq K] : List (K × V) → K → Option V
  | [], _ => none
  | (k1, v) :: rest, k => if k1 = k then some v else findIn rest k

/-- Lookup, `m.find(k)`: `none` stands for `m.end()`. -/
def find? [DecidableEq K] (m : StdMap K V) (k : K) : Option V := findIn m.entries k

/-- Insertion into an entry list, in key order; an entry with the same key is overwritten. -/
def insertIn [DecidableEq K] [Ord K] (k : K) (v : V) : List (K × V) → List (K × V)
  | [] => [(k, v)]
  | (k1, v1) :: rest =>
    if k1 = k then (k, v) :: rest
    else if compare k k1 = Ordering.lt then (k, v) :: (k1, v1) :: rest
    else (k1, v1) :: insertIn k v rest

/-- Assignment `m[k] = v`. -/
def insert [DecidableEq K] [Ord K] (m : StdMap K V) (k : K) (v : V) : StdMap K V :=
  ⟨insertIn k v m.entries⟩

/-- The keys of the map, in iteration order. -/
def keys (m : StdMap K V) : List K := m.entries.map Prod.fst

/-- Reading `m[k]` for a map of sets: a missing key reads as the empty set. -/
def get [DecidableEq K] (m : StdMap K OccSet) (k : K) : OccSet := (m.find? k).getD ∅

end StdMap

/-- Pairs of names are ordered lexicographically, as `std::pair` is. -/
instance instOrdEdge : Ord Edge := lexOrd

/-! ## `<algorithm>` set operations writing through `std::inserter` -/

/-- The call `std::set_union(a, b, std::inserter(dest, dest.end()))`. -/
def set_union (a b dest : OccSet) : OccSet := dest ∪ (a ∪ b)

/-- The call `std::set_intersection(a, b, std::inserter(dest, dest.end()))`. -/
def set_intersection (a b dest : OccSet) : OccSet := dest ∪ (a ∩ b)

/-- The call `std::set_difference(a, b, std::inserter(dest, dest.end()))`. -/
def set_difference (a b dest : OccSet) : OccSet := dest ∪ (a \ b)

/-! ## Availability analysis: `fillAvinAvouts` -/

/-- The predecessor loop of `fillAvinAvouts` for one block: the value of `new_avin` after
the loop, from the current `avouts`.  The state is `(new_avin, new_avin_initialized)`. -/
def newAvin (candidates : OccSet) (ingressEdges : List Edge)
    (avouts : StdMap BlockName OccSet) (BB : BasicBlock) : OccSet :=
  (BB.preds.foldl
    (fun (st : OccSet × Bool) (predecessor : BlockName) =>
      let intersect : OccSet :=
        if (predecessor, BB.name) ∈ ingressEdges then candidates else avouts.get predecessor
      if st.2 then (set_intersection st.1 intersect st.1, true) else (intersect, true))
    (∅, false)).1

/-- The transfer step of `fillAvinAvouts`: `new_avout` from `new_avin`. -/
def newAvout (gens kills : StdMap BlockName OccSet) (BB : BasicBlock) (new_avin : OccSet) :
    OccSet :=
  let gen := gens.get BB.name
  let kill := kills.get BB.name
  let new_avout := set_difference new_avin kill ∅
  set_union new_avout gen new_avout

/-- The body of the block loop of `fillAvinAvouts`.  The state is `(avouts, avins, change)`. -/
def avinAvoutBlock (candidates : OccSet) (gens kills : StdMap BlockName OccSet)
    (ingressEdges : List Edge)
    (st : StdMap BlockName OccSet × StdMap BlockName OccSet × Bool) (BB : BasicBlock) :
    StdMap BlockName OccSet × StdMap BlockName OccSet × Bool :=
  let avouts := st.1
  let avins := st.2.1
  let bb_name := BB.name
  let old_avout := avouts.get bb_name
  let new_avin := newAvin candidates ingressEdges avouts BB
  let new_avout := newAvout gens kills BB new_avin
  (avouts.insert bb_name new_avout, avins.insert bb_name new_avin,
    if old_avout ≠ new_avout then true else st.2.2)

/-- One pass of the `while (change)` loop of `fillAvinAvouts` over all blocks. -/
def avinAvoutPass (candidates : OccSet) (gens kills : StdMap BlockName OccSet)
    (ingressEdges : List Edge) (avouts avins : StdMap BlockName OccSet) (F : Func) :
    StdMap BlockName OccSet × StdMap BlockName OccSet × Bool :=
  F.foldl (avinAvoutBlock candidates gens kills ingressEdges) (avouts, avins, false)

/-- The `while (change)` loop of `fillAvinAvouts`, making at most `fuel` passes. -/
def avinAvoutLoop (candidates : OccSet) (gens kills : StdMap BlockName OccSet)
    (ingressEdges : List Edge) (F : Func) :
    Nat → StdMap BlockName OccSet → StdMap BlockName OccSet →
      Option (StdMap BlockName OccSet × StdMap BlockName OccSet)
  | 0, _, _ => none
  | fuel + 1, avouts, avins =>
    let st := avinAvoutPass candidates gens kills ingressEdges avouts avins F
    if st.2.2 then avinAvoutLoop candidates gens kills ingressEdges F fuel st.1 st.2.1
    else some (st.1, st.2.1)

/-- The function `fillAvinAvouts`: returns `(avouts, avins)`, or `none` when the loop has not
stopped within `fuel` passes. -/
def fillAvinAvouts (fuel : Nat) (candidates : OccSet) (gens kills : StdMap BlockName OccSet)
    (ingressEdges : List Edge) (avouts avins : StdMap BlockName OccSet) (F : Func) :
    Option (StdMap BlockName OccSet × StdMap BlockName OccSet) :=
  let avouts := F.foldl (fun m BB => m.insert BB.name ∅) avouts
  avinAvoutLoop candidates gens kills ingressEdges F fuel avouts avins

/-! ## Removability: `fillRemovables` -/

/-- The function `fillRemovables`. -/
def fillRemovables (xUses avins : StdMap BlockName OccSet) (hotNodes : List BlockName)
    (removables : StdMap BlockName OccSet) (F : Func) : StdMap BlockName OccSet :=
  F.foldl
    (fun removables BB =>
      let bb_name := BB.name
      if bb_name ∈ hotNodes then
        let avin := avins.get bb_name
        let xUse := xUses.get bb_name
        let removable := set_intersection avin xUse ∅
        removables.insert bb_name removable
      else removables)
    removables

/-! ## Need analysis: `compute_needin_needout` -/

/-- The successor loop of `compute_needin_needout` for one block: `needout`. -/
def newNeedout (needins : StdMap BlockName OccSet) (BB : BasicBlock) : OccSet :=
  BB.succs.foldl
    (fun (needout : OccSet) (successor : BlockName) =>
      let succ_needin := needins.get successor
      set_union needout succ_needin needout)
    ∅

/-- The transfer step of `compute_needin_needout`: `needin` from `needout`. -/
def newNeedin (removables gens : StdMap BlockName OccSet) (BB : BasicBlock)
    (needout : OccSet) : OccSet :=
  let gen := gens.get BB.name
  let needin := set_difference needout gen ∅
  let removable := removables.get BB.name
  set_union needin removable needin

/-- The body of the block loop of `compute_needin_needout`.  The state is
`(needins, needouts, change)`. -/
def needBlock (removables gens : StdMap BlockName OccSet)
    (st : StdMap BlockName OccSet × StdMap BlockName OccSet × Bool) (BB : BasicBlock) :
    StdMap BlockName OccSet × StdMap BlockName OccSet × Bool :=
  let needins := st.1
  let needouts := st.2.1
  let bb_name := BB.name
  let old_needin := needins.get bb_name
  let needout := newNeedout needins BB
  let needin := newNeedin removables gens BB needout
  (needins.insert bb_name needin, needouts.insert bb_name needout,
    if old_needin ≠ needin then true else st.2.2)

/-- One pass of the `while (change)` loop of `compute_needin_needout`. -/
def needPass (removables gens : StdMap BlockName OccSet)
    (needins needouts : StdMap BlockName OccSet) (F : Func) :
    StdMap BlockName OccSet × StdMap BlockName OccSet × Bool :=
  F.foldl (needBlock removables gens) (needins, needouts, false)

/-- The `while (change)` loop of `compute_needin_needout`, making at most `fuel` passes. -/
def needLoop (removables gens : StdMap BlockName OccSet) (F : Func) :
    Nat → StdMap BlockName OccSet → StdMap BlockName OccSet →
      Option (StdMap BlockName OccSet × StdMap BlockName OccSet)
  | 0, _, _ => none
  | fuel + 1, needins, needouts =>
    let st := needPass removables gens needins needouts F
    if st.2.2 then needLoop removables gens F fuel st.1 st.2.1
    else some (st.1, st.2.1)

/-- The function `compute_needin_needout`: returns `(needins, needouts)`, or `none` when the
loop has not stopped within `fuel` passes. -/
def compute_needin_needout (fuel : Nat) (removables gens : StdMap BlockName OccSet)
    (needins needouts : StdMap BlockName OccSet) (F : Func) :
    Option (StdMap BlockName OccSet × StdMap BlockName OccSet) :=
  let needins := F.foldl (fun m BB => m.insert BB.name ∅) needins
  needLoop removables gens F fuel needins needouts

/-! ## Insertion planning: `compute_inserts` -/

/-- The function `compute_inserts`. -/
def compute_inserts (ingressEdges : List Edge) (needins avouts : StdMap BlockName OccSet)
    (inserts : StdMap Edge OccSet) : StdMap Edge OccSet :=
  ingressEdges.foldl
    (fun inserts itr =>
      let u := itr.1
      let v := itr.2
      let needin := needins.get v
      let avout := avouts.get u
      let insert := set_difference needin avout ∅
      inserts.insert itr insert)
    inserts

/-! ## Candidates: `fillCandidates` -/

/-- The function `fillCandidates`: the loop runs over the entries of `xUses`. -/
def fillCandidates (hotNodes : List BlockName) (xUses : StdMap BlockName OccSet)
    (candidates : OccSet) : OccSet :=
  xUses.entries.foldl
    (fun candidates xUseBB =>
      if xUseBB.1 ∈ hotNodes then set_union candidates xUseBB.2 candidates else candidates)
    candidates


/-! ## Expression sets: `fillXUses`, `fillGens`, `fillKills` -/

/-- The opcodes listed in the `switch` of `fillXUses`, `fillGens` and `fillKills`: the
binary arithmetic and bitwise operations the pass tracks. -/
def Opcode.isBinaryArith : Opcode → Bool
  | Opcode.Add | Opcode.Sub | Opcode.Mul | Opcode.UDiv | Opcode.SDiv | Opcode.URem
  | Opcode.Shl | Opcode.LShr | Opcode.AShr | Opcode.And | Opcode.Or | Opcode.Xor
  | Opcode.SRem => true
  | _ => false

/-- Modelled from the spec: `Instruction::isIdenticalTo` belongs to the host IR library and
is not part of the sources; the data model defines two instructions as structurally
identical when they have the same opcode and an identical operand list. -/
def Instruction.isIdenticalTo (a b : Instruction) : Bool :=
  decide (a.opcode = b.opcode ∧ a.operands = b.operands)

/-- The operand `getOperand(idx)`, when the instruction has one at that index. -/
def Instruction.getOperand (i : Instruction) (idx : Nat) : Option Value := i.operands.get? idx

/-- The test made on a candidate store: `st` is a store and `st->getOperand(1)`, its
destination, is the address `loadedFrom` that a load reads (`getOperand(0)` of the load). -/
def storesTo (st : Instruction) (loadedFrom : Option Value) : Bool :=
  decide (st.opcode = Opcode.Store) &&
    (match st.getOperand 1, loadedFrom with
     | some dest, some addr => decide (dest = addr)
     | _, _ => false)

/-- The three-line idiom that adds an occurrence to the set stored under a block name:
a fresh singleton when the name has no entry, the stored set with the occurrence inserted
otherwise. -/
def addOccurrence (m : StdMap BlockName OccSet) (name : BlockName) (id : InstrId) :
    StdMap BlockName OccSet :=
  match m.find? name with
  | none => m.insert name {id}
  | some instructionToBeAdded => m.insert name (insert id instructionToBeAdded)

/-- The `k` loop of `fillXUses` for one operand of `instr`.  `before` holds the instructions
from `bb->begin()` up to `k`, the remaining list starts at `k`, and the result is the value
of `isThisExprKilled` after the loop. -/
def xUseScan (instr : Instruction) : List Instruction → List Instruction → Bool → Bool
  | _, [], isThisExprKilled => isThisExprKilled
  | before, k :: rest, isThisExprKilled =>
    if instr.isIdenticalTo k then isThisExprKilled
    else if k.opcode = Opcode.Load then
      xUseScan instr (before ++ [k]) rest
        (if before.any (fun kTemp => storesTo kTemp (k.getOperand 0)) then true
         else isThisExprKilled)
    else xUseScan instr (before ++ [k]) rest isThisExprKilled

/-- The operand loop of `fillXUses`: the final `isThisExprKilled` for `instr` in block
`BB`.  The loop body does not use `currentOperand`. -/
def xUseKilled (BB : BasicBlock) (instr : Instruction) : Bool :=
  instr.operands.foldl (fun isThisExprKilled _currentOperand =>
    xUseScan instr [] BB.instrs isThisExprKilled) false

/-- The function `fillXUses`. -/
def fillXUses (F : Func) (xUses : StdMap BlockName OccSet) : StdMap BlockName OccSet :=
  F.foldl
    (fun xUses BB =>
      BB.instrs.foldl
        (fun xUses instr =>
          if instr.opcode.isBinaryArith then
            if xUseKilled BB instr = false then addOccurrence xUses BB.name instr.id
            else xUses
          else xUses)
        xUses)
    xUses

/-- The `while (!instr.isIdenticalTo(&*k)) k++;` loop of `fillGens` followed by `k++`:
the instructions from `bb->begin()` through the first one identical to `instr`, and the
instructions after it; `none` when no instruction is identical to `instr`. -/
def splitAtIdentical (instr : Instruction) :
    List Instruction → Option (List Instruction × List Instruction)
  | [] => none
  | k :: rest =>
    if instr.isIdenticalTo k then some ([k], rest)
    else (splitAtIdentical instr rest).map (fun p => (k :: p.1, p.2))

/-- The body of the operand loop of `fillGens`: the value of `isThisExprKilled` after the
scan for one operand. -/
def genScan (instr : Instruction) (instrs : List Instruction) (isThisExprKilled : Bool) :
    Bool :=
  match splitAtIdentical instr instrs with
  | none => isThisExprKilled
  | some (upto, after) =>
    upto.foldl
      (fun isThisExprKilled kTemp1 =>
        if kTemp1.opcode = Opcode.Load then
          if after.any (fun kTemp => storesTo kTemp (kTemp1.getOperand 0)) then true
          else isThisExprKilled
        else isThisExprKilled)
      isThisExprKilled

/-- The operand loop of `fillGens`: the final `isThisExprKilled` for `instr` in block `BB`.
The loop body does not use `currentOperand`. -/
def genKilled (BB : BasicBlock) (instr : Instruction) : Bool :=
  instr.operands.foldl (fun isThisExprKilled _currentOperand =>
    genScan instr BB.instrs isThisExprKilled) false

/-- The function `fillGens`. -/
def fillGens (F : Func) (gens : StdMap BlockName OccSet) : StdMap BlockName OccSet :=
  F.foldl
    (fun gens BB =>
      BB.instrs.foldl
        (fun gens instr =>
          if instr.opcode.isBinaryArith then
            if genKilled BB instr = false then addOccurrence gens BB.name instr.id
            else gens
          else gens)
        gens)
    gens

/-- The instruction an identifier stands for: the first instruction of the function that
carries it. -/
def Func.getInstr (F : Func) (id : InstrId) : Option Instruction :=
  F.allInstrs.find? (fun i => decide (i.id = id))

/-- The cast `dyn_cast<Instruction>(operand)`: `none` stands for `nullptr`. -/
def Func.asInstr (F : Func) : Value → Option Instruction
  | Value.inst id => F.getInstr id
  | Value.other _ => none

/-- The store scan of `fillKills` over the whole function, for one load address: `instr` is
added to the kill set of every block that holds a store to `loadOperand`. -/
def killStores (F : Func) (instr : Instruction) (loadOperand : Option Value)
    (kills : StdMap BlockName OccSet) : StdMap BlockName OccSet :=
  F.foldl
    (fun kills BB1 =>
      if BB1.instrs.any (fun instr1 => storesTo instr1 loadOperand) then
        addOccurrence kills BB1.name instr.id
      else kills)
    kills

/-- The producer opcodes `fillKills` looks through: `Mul`, `Add` and `Sub`. -/
def Opcode.isMulAddSub (op : Opcode) : Bool :=
  decide (op = Opcode.Mul ∨ op = Opcode.Add ∨ op = Opcode.Sub)

/-- The body of the inner operand loop of `fillKills`, for operand `currentOperand1` of the
producer of an operand of `instr`. -/
def killOperand1 (F : Func) (instr : Instruction) (kills : StdMap BlockName OccSet)
    (currentOperand1 : Value) : StdMap BlockName OccSet :=
  match F.asInstr currentOperand1 with
  | none => kills
  | some getOperandInstr1 =>
    if getOperandInstr1.opcode = Opcode.Load then
      killStores F instr (getOperandInstr1.getOperand 0) kills
    else kills

/-- The body of the operand loop of `fillKills`, for operand `currentOperand` of `instr`. -/
def killOperand (F : Func) (instr : Instruction) (kills : StdMap BlockName OccSet)
    (currentOperand : Value) : StdMap BlockName OccSet :=
  match F.asInstr currentOperand with
  | none => kills
  | some getOperandInstr =>
    if getOperandInstr.opcode = Opcode.Load then
      killStores F instr (getOperandInstr.getOperand 0) kills
    else if getOperandInstr.opcode.isMulAddSub then
      getOperandInstr.operands.foldl (killOperand1 F instr) kills
    else kills

/-- The function `fillKills`. -/
def fillKills (F : Func) (kills : StdMap BlockName OccSet) : StdMap BlockName OccSet :=
  F.foldl
    (fun kills BB =>
      BB.instrs.foldl
        (fun kills instr =>
          if instr.opcode.isBinaryArith then instr.operands.foldl (killOperand F instr) kills
          else kills)
        kills)
    kills

/-! ## Profile classification: `calculateHotColdNodes`

The pass computes with `double`.  A `double` is modelled exactly: a finite value is
`mant * 2 ^ exp`, and the result of a division is the value nearest to the exact quotient,
ties going to the even significand of 53 bits (the default rounding of IEEE 754).  The
exponent is not bounded; the quotients the pass forms have magnitude between `2 ^ (-31)` and
`2 ^ 31`, far from overflow and from subnormal values. -/

/-- The conversion of the `uint64_t` count to `int` in `int freq = ...getValue();`: the
value modulo `2 ^ 32`, read as a two's complement number. -/
def toInt32 (n : Nat) : Int :=
  if n % 2 ^ 32 < 2 ^ 31 then ((n % 2 ^ 32 : Nat) : Int) else ((n % 2 ^ 32 : Nat) : Int) - 2 ^ 32

/-- A `double`: a finite value `mant * 2 ^ exp`, an infinity, or a NaN. -/
inductive Double where
  | finite (mant : Int) (exp : Int)
  | inf (negative : Bool)
  | nan
  deriving DecidableEq, Repr

/-- The conversion of an `int` to `double`, which is exact. -/
def Double.ofInt (i : Int) : Double := Double.finite i 0

/-- The comparison `x < y` of two `double`s; a comparison with a NaN is false. -/
def Double.lt : Double → Double → Bool
  | Double.finite a ea, Double.finite b eb =>
    decide (a * 2 ^ (ea - min ea eb).toNat < b * 2 ^ (eb - min ea eb).toNat)
  | Double.finite _ _, Double.inf negative => !negative
  | Double.inf negative, Double.finite _ _ => negative
  | Double.inf n1, Double.inf n2 => n1 && !n2
  | Double.nan, _ => false
  | _, Double.nan => false

/-- The number of binary digits of `n`, by halving at most `fuel` times. -/
def bitLengthAux : Nat → Nat → Nat
  | 0, _ => 0
  | fuel + 1, n => if n = 0 then 0 else bitLengthAux fuel (n / 2) + 1

/-- The number of binary digits of `n`. -/
def bitLength (n : Nat) : Nat := bitLengthAux n n

/-- The binade of the positive quotient `n / d`: the exponent `e` with
`2 ^ e ≤ n / d < 2 ^ (e + 1)`. -/
def binadeExp (n d : Nat) : Int :=
  let e0 : Int := (bitLength n : Int) - (bitLength d : Int)
  if d * 2 ^ e0.toNat ≤ n * 2 ^ (-e0).toNat then e0 else e0 - 1

/-- The integer nearest to `n / d`, ties going to the even one. -/
def roundNearestEven (n d : Nat) : Nat :=
  let q := n / d
  let r := n % d
  if 2 * r < d then q else if d < 2 * r then q + 1 else if q % 2 = 0 then q else q + 1

/-- The significand and exponent of the `double` nearest to the positive quotient `n / d`:
the quotient is scaled into `[2 ^ 52, 2 ^ 53)` and rounded to an integer. -/
def roundPos (n d : Nat) : Nat × Int :=
  let e := binadeExp n d
  (roundNearestEven (n * 2 ^ (-e).toNat * 2 ^ 52) (d * 2 ^ e.toNat), e - 52)

/-- The `double` nearest to the quotient `n / d` of two integers, `d` not zero. -/
def roundRatio (n d : Int) : Double :=
  if n = 0 then Double.finite 0 0
  else
    let r := roundPos n.natAbs d.natAbs
    Double.finite (if (n < 0) = (d < 0) then (r.1 : Int) else -(r.1 : Int)) r.2

/-- The division `x / m` of a `double` by an `int` converted to `double`. -/
def Double.divInt (x : Double) (m : Int) : Double :=
  match x with
  | Double.nan => Double.nan
  | Double.inf negative => Double.inf (if m < 0 then !negative else negative)
  | Double.finite mant exp =>
    if m = 0 then (if mant = 0 then Double.nan else Double.inf (decide (mant < 0)))
    else roundRatio (mant * 2 ^ exp.toNat) (m * 2 ^ (-exp).toNat)

/-- The constant `THRESHOLD = 0.22`: the `double` nearest to 22/100. -/
def THRESHOLD : Double := roundRatio 22 100

/-- The first loop of `calculateHotColdNodes`: it records every block's count, converted to
`int`, in `freqs` and finds the largest.  The state is `(freqs, maxCount)`. -/
def recordFreqs (F : Func) (freqs : StdMap BlockName Double) : StdMap BlockName Double × Int :=
  F.foldl
    (fun (st : StdMap BlockName Double × Int) BB =>
      let freq := toInt32 BB.count
      (st.1.insert BB.name (Double.ofInt freq), if freq > st.2 then freq else st.2))
    (freqs, -1)

/-- The second loop of `calculateHotColdNodes`, over the entries of `freqs` in key order:
each value is divided by `maxCount` and the name goes to `hotNodes` or to `coldNodes`.  The
state is `(entries already rewritten, hotNodes, coldNodes)`. -/
def classifyNodes (maxCount : Int) (entries : List (BlockName × Double))
    (hotNodes coldNodes : List BlockName) :
    List (BlockName × Double) × List BlockName × List BlockName :=
  entries.foldl
    (fun (st : List (BlockName × Double) × List BlockName × List BlockName) i =>
      let second := i.2.divInt maxCount
      if THRESHOLD.lt second then (st.1 ++ [(i.1, second)], st.2.1 ++ [i.1], st.2.2)
      else (st.1 ++ [(i.1, second)], st.2.1, st.2.2 ++ [i.1]))
    ([], hotNodes, coldNodes)

/-- The function `calculateHotColdNodes`: returns `(freqs, hotNodes, coldNodes, maxCount)`. -/
def calculateHotColdNodes (F : Func) (freqs : StdMap BlockName Double)
    (hotNodes coldNodes : List BlockName) :
    StdMap BlockName Double × List BlockName × List BlockName × Int :=
  let st := recordFreqs F freqs
  let maxCount := st.2
  let r := classifyNodes maxCount st.1.entries hotNodes coldNodes
  (⟨r.1⟩, r.2.1, r.2.2, maxCount)

/-! ## Edge classification: `calculateHotColdEdges`, `calculateIngressEdges` -/

/-- The product `x * m` of a `double` and an `int` converted to `double`: the `double`
nearest to the exact product. -/
def Double.mulInt (x : Double) (m : Int) : Double :=
  match x with
  | Double.nan => Double.nan
  | Double.inf negative =>
    if m = 0 then Double.nan else Double.inf (if m < 0 then !negative else negative)
  | Double.finite mant exp => roundRatio (mant * m * 2 ^ exp.toNat) (2 ^ (-exp).toNat)

/-- The conversion `(uint64_t) x` of a `double`: a finite value that is not negative is
truncated to an integer.  For every other value the conversion is undefined in C++; the
model yields 0. -/
def Double.toUInt64 : Double → Nat
  | Double.finite mant exp =>
    if mant < 0 then 0 else mant.toNat * 2 ^ exp.toNat / 2 ^ (-exp).toNat
  | _ => 0

/-- A branch probability (`BranchProbability`): the numerator `N` of the fraction
`N / 2 ^ 31`. -/
abbrev BranchProbability := Nat

/-- Modelled from the spec: `BranchProbability::scale` belongs to the host IR library and is
not part of the sources; it applies the edge probability `N / 2 ^ 31` to a count: the
product, rounded down to an integer, and no more than the largest `uint64_t`. -/
def BranchProbability.scale (N : BranchProbability) (num : Nat) : Nat :=
  min (num * N / 2 ^ 31) (2 ^ 64 - 1)

/-- Reading `freqs[name]` in a map of `double`s: a missing key reads as 0. -/
def StdMap.getDouble (m : StdMap BlockName Double) (k : BlockName) : Double :=
  (m.find? k).getD (Double.finite 0 0)

/-- The function `calculateHotColdEdges`: `bpi` gives the probability of every edge, `freqs`
holds the normalised block counts that `calculateHotColdNodes` left.  Returns
`(hotEdges, coldEdges)`. -/
def calculateHotColdEdges (F : Func) (bpi : BlockName → BlockName → BranchProbability)
    (freqs : StdMap BlockName Double) (hotEdges coldEdges : List Edge) (maxCount : Int) :
    List Edge × List Edge :=
  F.foldl
    (fun (st : List Edge × List Edge) BB =>
      BB.succs.foldl
        (fun (st : List Edge × List Edge) successor =>
          let edgeProb := bpi BB.name successor
          let val := ((freqs.getDouble BB.name).mulInt maxCount).toUInt64
          let edgeProb2 := toInt32 (BranchProbability.scale edgeProb val)
          let scaled := (Double.ofInt edgeProb2).divInt maxCount
          if THRESHOLD.lt scaled then (st.1 ++ [(BB.name, successor)], st.2)
          else (st.1, st.2 ++ [(BB.name, successor)]))
        st)
    (hotEdges, coldEdges)

/-- The function `calculateIngressEdges`. -/
def calculateIngressEdges (coldEdges : List Edge) (hotNodes coldNodes : List BlockName)
    (ingressEdges : List Edge) : List Edge :=
  coldEdges.foldl
    (fun ingressEdges i =>
      if i.1 ∈ coldNodes ∧ i.2 ∈ hotNodes then ingressEdges ++ [i] else ingressEdges)
    ingressEdges

/-! ## Code motion: `performRemoveAndInsert`

New instructions get their identity from a supply of fresh identifiers, `next`.  The state
also keeps a record, `created`, of every slot, store and load that the function creates,
with the occurrence it was created for; the record does not influence the run. -/

/-- The terminator opcodes of the host IR: `ret`, `br`, `switch`, `indirectbr`, `invoke`,
`resume`, `unreachable`, `cleanupret`, `catchret`, `catchswitch`, `callbr` (1 to 11). -/
def Opcode.isTerminator : Opcode → Bool
  | Opcode.Other code => decide (1 ≤ code ∧ code ≤ 11)
  | _ => false

/-- The opcode of `alloca`. -/
def Opcode.Alloca : Opcode := Opcode.Other 31

/-- The opcode of a PHI node. -/
def Opcode.PHI : Opcode := Opcode.Other 55

/-- The terminator of a block, `getTerminator()`: its last instruction when that is a
terminator, `none` (`nullptr`) otherwise. -/
def BasicBlock.getTerminator (BB : BasicBlock) : Option Instruction :=
  match BB.instrs.getLast? with
  | some t => if t.opcode.isTerminator then some t else none
  | none => none

/-- The first instruction of a block that is no PHI node, `getFirstNonPHI()`. -/
def BasicBlock.getFirstNonPHI (BB : BasicBlock) : Option Instruction :=
  BB.instrs.find? (fun i => decide (i.opcode ≠ Opcode.PHI))

/-- Insertion of `inst` before the instruction `target` in an instruction list. -/
def insertBeforeIn (target : InstrId) (inst : Instruction) :
    List Instruction → List Instruction
  | [] => []
  | i :: rest =>
    if i.id = target then inst :: i :: rest else i :: insertBeforeIn target inst rest

/-- Insertion of `inst` before the instruction `target`, in the block that holds it. -/
def Func.insertBefore (F : Func) (target : InstrId) (inst : Instruction) : Func :=
  F.map (fun BB => { BB with instrs := insertBeforeIn target inst BB.instrs })

/-- An operand after `old->replaceAllUsesWith(new)`. -/
def Value.replaceUse (old new : InstrId) : Value → Value
  | Value.inst x => if x = old then Value.inst new else Value.inst x
  | Value.other code => Value.other code

/-- The call `old->replaceAllUsesWith(new)`: every operand of the function that is the
result of `old` becomes the result of `new`. -/
def Func.replaceAllUsesWith (F : Func) (old new : InstrId) : Func :=
  F.map (fun BB =>
    { BB with instrs := BB.instrs.map (fun i =>
        { i with operands := i.operands.map (Value.replaceUse old new) }) })

/-- An operand after `RemapInstruction` with the map `vmap` (pairs of an instruction and its
clone, the latest first) and `RF_IgnoreMissingLocals`: a mapped instruction becomes its
clone, every other operand stays. -/
def remapValue (vmap : List (InstrId × InstrId)) : Value → Value
  | Value.inst x =>
    match vmap.find? (fun p => decide (p.1 = x)) with
    | some p => Value.inst p.2
    | none => Value.inst x
  | Value.other code => Value.other code

/-- The call `Inst->clone()` followed by `RemapInstruction(clone, vmap)`: a new instruction
with the opcode of `inst` and its operands remapped. -/
def cloneAndRemap (inst : Instruction) (fresh : InstrId) (vmap : List (InstrId × InstrId)) :
    Instruction :=
  { id := fresh, opcode := inst.opcode, operands := inst.operands.map (remapValue vmap) }

/-- What `performRemoveAndInsert` creates: the slot of an occurrence, a store of the clone
of an occurrence into a slot at the end of an edge's source block, a load from a slot before
an occurrence.  The last component is the identity of the created instruction. -/
inductive Created where
  | slot (occ : InstrId) (alloc : InstrId)
  | store (occ : InstrId) (edge : Edge) (alloc : InstrId) (id : InstrId)
  | load (occ : InstrId) (alloc : InstrId) (id : InstrId)
  deriving DecidableEq, Repr

/-- The state of `performRemoveAndInsert`: the function, the map `allocas` from an
occurrence to its slot, the next fresh identifier and the record of created instructions. -/
structure MotionState where
  F : Func
  allocas : StdMap InstrId InstrId
  next : InstrId
  created : List Created
  deriving DecidableEq, Repr

/-- The slot of occurrence `e`: the one that `allocas` holds, or else a new `alloca` inserted
before `firstPossInsert` and entered in `allocas`.  `none` when a slot has to be created and
`firstPossInsert` is `nullptr`. -/
def obtainSlot (firstPossInsert : Option InstrId) (st : MotionState) (e : InstrId) :
    Option (InstrId × MotionState) :=
  match st.allocas.find? e with
  | some alloc => some (alloc, st)
  | none =>
    match firstPossInsert with
    | none => none
    | some fp =>
      let alloc := st.next
      some (alloc,
        { F := st.F.insertBefore fp ⟨alloc, Opcode.Alloca, []⟩,
          allocas := st.allocas.insert e alloc,
          next := st.next + 1,
          created := st.created ++ [Created.slot e alloc] })

/-- The loop over the operands of the occurrence: every operand that is an instruction is
cloned, the clone is inserted before `insertBefore`, entered in `vmap` and remapped.  The
state is `(function, next fresh identifier, vmap)`. -/
def cloneOperands (insertBefore : InstrId) (operands : List Value)
    (st : Func × InstrId × List (InstrId × InstrId)) :
    Func × InstrId × List (InstrId × InstrId) :=
  operands.foldl
    (fun (st : Func × InstrId × List (InstrId × InstrId)) U =>
      match st.1.asInstr U with
      | none => st
      | some Inst =>
        let vmap := (Inst.id, st.2.1) :: st.2.2
        (st.1.insertBefore insertBefore (cloneAndRemap Inst st.2.1 vmap), st.2.1 + 1, vmap))
    st

/-- The body of the inner loop of `performRemoveAndInsert`, for the occurrence `e` of the
INSERT set of `edge`: `firstPossInsert` is the first instruction of the entry block and
`insertBefore` the terminator of the edge's source block, `none` standing for `nullptr`.
The result is `none` when the occurrence is no instruction of the function, or when an
instruction has to be placed before `nullptr`. -/
def motionOccurrence (edge : Edge) (firstPossInsert insertBefore : Option InstrId)
    (st : MotionState) (e : InstrId) : Option MotionState :=
  match obtainSlot firstPossInsert st e with
  | none => none
  | some (alloc, st1) =>
    match st1.F.getInstr e, insertBefore with
    | some allInstrInBB, some insertBefore =>
      let ops := cloneOperands insertBefore allInstrInBB.operands (st1.F, st1.next, [])
      let cloneId := ops.2.1
      let vmap := (e, cloneId) :: ops.2.2
      let F2 := ops.1.insertBefore insertBefore (cloneAndRemap allInstrInBB cloneId vmap)
      let storeId := cloneId + 1
      let F3 := F2.insertBefore insertBefore
        ⟨storeId, Opcode.Store, [Value.inst cloneId, Value.inst alloc]⟩
      let loadId := cloneId + 2
      let F4 := F3.insertBefore e ⟨loadId, Opcode.Load, [Value.inst alloc]⟩
      some
        { F := F4.replaceAllUsesWith e loadId,
          allocas := st1.allocas,
          next := cloneId + 3,
          created := st1.created ++
            [Created.store e edge alloc storeId, Created.load e alloc loadId] }
    | _, _ => none

/-- The inner loop of `performRemoveAndInsert` over the occurrences of one INSERT set. -/
def motionOccurrences (edge : Edge) (firstPossInsert insertBefore : Option InstrId) :
    List InstrId → MotionState → Option MotionState
  | [], st => some st
  | e :: rest, st =>
    match motionOccurrence edge firstPossInsert insertBefore st e with
    | none => none
    | some st1 => motionOccurrences edge firstPossInsert insertBefore rest st1

/-- The elements of a set in the order the loop `for (Instruction *allInstrInBB : values)`
visits them.  A `std::set<Instruction *>` is ordered by address; the model orders the
occurrences by identifier. -/
def valuesInOrder (values : OccSet) : List InstrId :=
  (List.range (values.sup id + 1)).filter (fun x => decide (x ∈ values))

/-- The block that the search loop of `performRemoveAndInsert` leaves in `toInsert`: the last
block of the function with the given name. -/
def Func.findBlock (F : Func) (name : BlockName) : Option BasicBlock :=
  F.foldl (fun toInsert BB => if BB.name = name then some BB else toInsert) none

/-- The body of the outer loop of `performRemoveAndInsert`, for one entry of `inserts`.
`none` when the function has no entry block or no block has the name of the edge's source
(`toInsert` is then read uninitialised). -/
def motionPair (st : MotionState) (pair : Edge × OccSet) : Option MotionState :=
  match st.F.head? with
  | none => none
  | some entry =>
    let firstPossInsert := (entry.getFirstNonPHI).map Instruction.id
    match st.F.findBlock pair.1.1 with
    | none => none
    | some toInsert =>
      let insertBefore := (toInsert.getTerminator).map Instruction.id
      let values := pair.2
      motionOccurrences pair.1 firstPossInsert insertBefore (valuesInOrder values) st

/-- The outer loop of `performRemoveAndInsert` over the entries of `inserts`. -/
def motionPairs : List (Edge × OccSet) → MotionState → Option MotionState
  | [], st => some st
  | pair :: rest, st =>
    match motionPair st pair with
    | none => none
    | some st1 => motionPairs rest st1

/-- The function `performRemoveAndInsert`. -/
def performRemoveAndInsert (inserts : StdMap Edge OccSet) (st : MotionState) :
    Option MotionState :=
  motionPairs inserts.entries st

/-! ## The pass: `runOnFunction` -/

/-- The collections that `runOnFunction` computes before it changes the function (the
arguments of `printAll`). -/
structure Analysis where
  hotNodes : List BlockName
  coldNodes : List BlockName
  hotEdges : List Edge
  coldEdges : List Edge
  ingressEdges : List Edge
  xUses : StdMap BlockName OccSet
  gens : StdMap BlockName OccSet
  kills : StdMap BlockName OccSet
  candidates : OccSet
  avins : StdMap BlockName OccSet
  avouts : StdMap BlockName OccSet
  removables : StdMap BlockName OccSet
  needins : StdMap BlockName OccSet
  needouts : StdMap BlockName OccSet
  inserts : StdMap Edge OccSet
  deriving DecidableEq

/-- The analyses of `runOnFunction`, from `calculateHotColdNodes` to `compute_inserts`, in
the order of the source; `bpi` is the branch probability analysis and `fuel` bounds the
passes of each fixpoint loop. -/
def runAnalyses (fuel : Nat) (bpi : BlockName → BlockName → BranchProbability) (F : Func) :
    Option Analysis :=
  let nodes := calculateHotColdNodes F StdMap.empty [] []
  let freqs := nodes.1
  let hotNodes := nodes.2.1
  let coldNodes := nodes.2.2.1
  let maxCount := nodes.2.2.2
  let edges := calculateHotColdEdges F bpi freqs [] [] maxCount
  let hotEdges := edges.1
  let coldEdges := edges.2
  let ingressEdges := calculateIngressEdges coldEdges hotNodes coldNodes []
  let xUses := fillXUses F StdMap.empty
  let gens := fillGens F StdMap.empty
  let kills := fillKills F StdMap.empty
  let candidates := fillCandidates hotNodes xUses ∅
  match fillAvinAvouts fuel candidates gens kills ingressEdges StdMap.empty StdMap.empty F with
  | none => none
  | some (avouts, avins) =>
    let removables := fillRemovables xUses avins hotNodes StdMap.empty F
    match compute_needin_needout fuel removables gens StdMap.empty StdMap.empty F with
    | none => none
    | some (needins, needouts) =>
      some
        { hotNodes := hotNodes, coldNodes := coldNodes, hotEdges := hotEdges,
          coldEdges := coldEdges, ingressEdges := ingressEdges, xUses := xUses, gens := gens,
          kills := kills, candidates := candidates, avins := avins, avouts := avouts,
          removables := removables, needins := needins, needouts := needouts,
          inserts := compute_inserts ingressEdges needins avouts StdMap.empty }

/-- A fresh identifier for a function: one more than every identifier in it. -/
def Func.freshId (F : Func) : InstrId :=
  (F.allInstrs.map Instruction.id).foldl max 0 + 1

/-- The state in which `runOnFunction` calls `performRemoveAndInsert`: the function as it
is, an empty `allocas` map. -/
def MotionState.initial (F : Func) : MotionState :=
  { F := F, allocas := StdMap.empty, next := F.freshId, created := [] }

/-- The function `runOnFunction`: returns the function it leaves and the value it
returns. -/
def runOnFunction (fuel : Nat) (bpi : BlockName → BlockName → BranchProbability) (F : Func) :
    Option (Func × Bool) :=
  match runAnalyses fuel bpi F with
  | none => none
  | some a =>
    match performRemoveAndInsert a.inserts (MotionState.initial F) with
    | none => none
    | some st => some (st.F, true)

/-! ## Execution of a function

A small interpreter gives the observable results of a function: the stores to the memory of
the program, in order, and the returned value.  Values are integers.  An operand that is no
instruction stands for itself: a constant, or the address of a variable of the program.  An
`alloca` yields an address outside the memory of the program, the negative number
`-(id + 1)`; stores to such addresses are not observable. -/

/-- The state of an execution: the values of the instructions executed so far, the memory,
and the observable stores made so far (the latest first). -/
structure ExecState where
  regs : List (InstrId × Int)
  mem : List (Int × Int)
  stores : List (Int × Int)
  deriving DecidableEq, Repr

/-- The value of a register or memory cell in an association list. -/
def lookupInt {K : Type} [DecidableEq K] : List (K × Int) → K → Option Int
  | [], _ => none
  | (k1, v) :: rest, k => if k1 = k then some v else lookupInt rest k

/-- The value of an operand; `none` when it is the result of an instruction that has not
been executed. -/
def ExecState.eval (st : ExecState) : Value → Option Int
  | Value.inst x => lookupInt st.regs x
  | Value.other code => some (code : Int)

/-- The value of a binary arithmetic/bitwise operation; `none` for a division by zero and
for a shift by a negative amount. -/
def evalBinary (op : Opcode) (a b : Int) : Option Int :=
  match op with
  | Opcode.Add => some (a + b)
  | Opcode.Sub => some (a - b)
  | Opcode.Mul => some (a * b)
  | Opcode.UDiv => if b = 0 then none else some (a / b)
  | Opcode.SDiv => if b = 0 then none else some (Int.tdiv a b)
  | Opcode.URem => if b = 0 then none else some (a % b)
  | Opcode.SRem => if b = 0 then none else some (Int.tmod a b)
  | Opcode.Shl => if b < 0 then none else some (a * 2 ^ b.toNat)
  | Opcode.LShr => if b < 0 then none else some (a / 2 ^ b.toNat)
  | Opcode.AShr => if b < 0 then none else some (a / 2 ^ b.toNat)
  | Opcode.And => some (Int.land a b)
  | Opcode.Or => some (Int.lor a b)
  | Opcode.Xor => some (Int.xor a b)
  | _ => none

/-- The execution of one instruction that is no terminator; `none` when it reads a value or
a memory cell that has not been written. -/
def execInstr (st : ExecState) (i : Instruction) : Option ExecState :=
  if i.opcode.isBinaryArith then
    match i.operands with
    | [x, y] =>
      match st.eval x, st.eval y with
      | some a, some b =>
        match evalBinary i.opcode a b with
        | some v => some { st with regs := (i.id, v) :: st.regs }
        | none => none
      | _, _ => none
    | _ => none
  else if i.opcode = Opcode.Load then
    match i.operands with
    | [p] =>
      match st.eval p with
      | some addr =>
        match lookupInt st.mem addr with
        | some v => some { st with regs := (i.id, v) :: st.regs }
        | none => none
      | none => none
    | _ => none
  else if i.opcode = Opcode.Store then
    match i.operands with
    | [x, p] =>
      match st.eval x, st.eval p with
      | some v, some addr =>
        some { st with
          mem := (addr, v) :: st.mem,
          stores := if 0 ≤ addr then (addr, v) :: st.stores else st.stores }
      | _, _ => none
    | _ => none
  else if i.opcode = Opcode.Alloca then
    some { st with regs := (i.id, -((i.id : Int) + 1)) :: st.regs }
  else some st

/-- How the execution of a block ends: a return of a value, or a jump to a block. -/
inductive BlockExit where
  | ret (value : Option Int)
  | jump (target : BlockName)
  deriving DecidableEq, Repr

/-- The execution of the instructions of a block, up to and with its terminator: `ret` (1)
returns its operand, `br` (2) without operand jumps to the first successor, `br` with a
condition jumps to the first successor when the condition is not zero and to the second
otherwise.  `none` when the block has no such terminator or an instruction cannot be
executed. -/
def execBlock (succs : List BlockName) : List Instruction → ExecState →
    Option (BlockExit × ExecState)
  | [], _ => none
  | i :: rest, st =>
    if i.opcode = Opcode.Other 1 then
      match i.operands with
      | [] => some (BlockExit.ret none, st)
      | v :: _ =>
        match st.eval v with
        | some r => some (BlockExit.ret (some r), st)
        | none => none
    else if i.opcode = Opcode.Other 2 then
      match i.operands, succs with
      | [], t :: _ => some (BlockExit.jump t, st)
      | [c], t :: f :: _ =>
        match st.eval c with
        | some b => some (BlockExit.jump (if b ≠ 0 then t else f), st)
        | none => none
      | _, _ => none
    else
      match execInstr st i with
      | some st1 => execBlock succs rest st1
      | none => none

/-- The execution of a function from the block `current`, through at most `fuel` blocks:
the returned value and the final state; `none` when the execution has not returned within
`fuel` blocks or cannot go on. -/
def execFrom (F : Func) : Nat → BlockName → ExecState → Option (Option Int × ExecState)
  | 0, _, _ => none
  | fuel + 1, current, st =>
    match F.find? (fun BB => decide (BB.name = current)) with
    | none => none
    | some BB =>
      match execBlock BB.succs BB.instrs st with
      | none => none
      | some (BlockExit.ret v, st1) => some (v, st1)
      | some (BlockExit.jump t, st1) => execFrom F fuel t st1

/-- The observable results of a function started on the memory `mem`: the returned value
and the stores to the memory of the program, in the order they were made. -/
def observe (F : Func) (fuel : Nat) (mem : List (Int × Int)) :
    Option (Option Int × List (Int × Int)) :=
  match F.head? with
  | none => none
  | some entry =>
    match execFrom F fuel entry.name { regs := [], mem := mem, stores := [] } with
    | none => none
    | some (v, st) => some (v, st.stores.reverse)

/-! ## The common shape of the two fixpoint loops

Both `while (change)` loops keep a primary map (AVOUT, NEEDIN) and a secondary map (AVIN,
NEEDOUT).  For each block the secondary value `sec` is computed from the primary map, the
primary value `prim` from the secondary value, both are stored under the block's name, and
`change` is raised when the primary value differs from the stored one. -/

/-- The block step shared by the two loops. -/
def flowBlock (sec : StdMap BlockName OccSet → BasicBlock → OccSet)
    (prim : BasicBlock → OccSet → OccSet)
    (st : StdMap BlockName OccSet × StdMap BlockName OccSet × Bool) (BB : BasicBlock) :
    StdMap BlockName OccSet × StdMap BlockName OccSet × Bool :=
  (st.1.insert BB.name (prim BB (sec st.1 BB)), st.2.1.insert BB.name (sec st.1 BB),
    if st.1.get BB.name ≠ prim BB (sec st.1 BB) then true else st.2.2)

/-- The loop shared by the two analyses. -/
def flowLoop (sec : StdMap BlockName OccSet → BasicBlock → OccSet)
    (prim : BasicBlock → OccSet → OccSet) (F : Func) :
    Nat → StdMap BlockName OccSet → StdMap BlockName OccSet →
      Option (StdMap BlockName OccSet × StdMap BlockName OccSet)
  | 0, _, _ => none
  | fuel + 1, p, s =>
    let st := F.foldl (flowBlock sec prim) (p, s, false)
    if st.2.2 then flowLoop sec prim F fuel st.1 st.2.1 else some (st.1, st.2.1)


/-- The size of a primary map over the blocks of a function: the sum of the sizes of the
sets stored under the block names. -/
def flowMeasure (F : Func) (p : StdMap BlockName OccSet) : Nat :=
  (F.map (fun BB => (p.get BB.name).card)).sum

/-- The union of all the sets stored in a map. -/
def StdMap.unionAll {K : Type} (m : StdMap K OccSet) : OccSet :=
  m.entries.foldl (fun acc e => acc ∪ e.2) ∅

/-! ## The maps after a number of passes -/

/-- The maps of the shared loop after `n` passes of its body. -/
def flowAfter (sec : StdMap BlockName OccSet → BasicBlock → OccSet)
    (prim : BasicBlock → OccSet → OccSet) (F : Func) :
    Nat → StdMap BlockName OccSet → StdMap BlockName OccSet →
      StdMap BlockName OccSet × StdMap BlockName OccSet
  | 0, p, s => (p, s)
  | n + 1, p, s =>
    let st := F.foldl (flowBlock sec prim) (p, s, false)
    flowAfter sec prim F n st.1 st.2.1

/-- The maps `(avouts, avins)` after `n` passes of the loop body of `fillAvinAvouts`. -/
def avinAvoutAfter (candidates : OccSet) (gens kills : StdMap BlockName OccSet)
    (ingressEdges : List Edge) (F : Func) :
    Nat → StdMap BlockName OccSet → StdMap BlockName OccSet →
      StdMap BlockName OccSet × StdMap BlockName OccSet
  | 0, avouts, avins => (avouts, avins)
  | n + 1, avouts, avins =>
    let st := avinAvoutPass candidates gens kills ingressEdges avouts avins F
    avinAvoutAfter candidates gens kills ingressEdges F n st.1 st.2.1

/-- The maps `(needins, needouts)` after `n` passes of the loop body of
`compute_needin_needout`. -/
def needAfter (removables gens : StdMap BlockName OccSet) (F : Func) :
    Nat → StdMap BlockName OccSet → StdMap BlockName OccSet →
      StdMap BlockName OccSet × StdMap BlockName OccSet
  | 0, needins, needouts => (needins, needouts)
  | n + 1, needins, needouts =>
    let st := needPass removables gens needins needouts F
    needAfter removables gens F n st.1 st.2.1

/-! ## Reference definitions and sample inputs -/

/-- The availability equation as designed: the intersection, over every predecessor `p` of
the block, of CANDIDATE when `(p, b)` is an ingress edge and of `AVOUT(p)` otherwise; the
empty set for a block without predecessors. -/
def avinSpec (candidates : OccSet) (ingressEdges : List Edge)
    (avouts : StdMap BlockName OccSet) (BB : BasicBlock) : OccSet :=
  match BB.preds.map (fun p =>
      if (p, BB.name) ∈ ingressEdges then candidates else avouts.get p) with
  | [] => ∅
  | first :: others => others.foldl (fun acc s => acc ∩ s) first

/-- A diamond in the manner of `benchmarks/both_test1.c`: block 0 branches to blocks 1
and 2, which both jump to block 3.  Every block is hot.  Block 1 computes `b + c`
(occurrence 12), block 2 only stores to `e`, block 3 computes `b + c` again (occurrence 22).
Addresses: `a` is 100, `b` 101, `c` 102, `d` 103, `e` 104. -/
def diamond : Func :=
  [ { name := 0, preds := [], succs := [1, 2], count := 100,
      instrs := [⟨1, Opcode.Other 2, [Value.other 0]⟩] },
    { name := 1, preds := [0], succs := [3], count := 50,
      instrs := [⟨10, Opcode.Load, [Value.other 101]⟩, ⟨11, Opcode.Load, [Value.other 102]⟩,
        ⟨12, Opcode.Add, [Value.inst 10, Value.inst 11]⟩,
        ⟨13, Opcode.Store, [Value.inst 12, Value.other 100]⟩, ⟨14, Opcode.Other 2, []⟩] },
    { name := 2, preds := [0], succs := [3], count := 50,
      instrs := [⟨15, Opcode.Store, [Value.other 3, Value.other 104]⟩,
        ⟨16, Opcode.Other 2, []⟩] },
    { name := 3, preds := [1, 2], succs := [], count := 100,
      instrs := [⟨20, Opcode.Load, [Value.other 101]⟩, ⟨21, Opcode.Load, [Value.other 102]⟩,
        ⟨22, Opcode.Add, [Value.inst 20, Value.inst 21]⟩,
        ⟨23, Opcode.Store, [Value.inst 22, Value.other 103]⟩, ⟨24, Opcode.Other 1, []⟩] } ]

/-- The merge block of `diamond`. -/
def diamondMerge : BasicBlock :=
  { name := 3, preds := [1, 2], succs := [], count := 100,
    instrs := [⟨20, Opcode.Load, [Value.other 101]⟩, ⟨21, Opcode.Load, [Value.other 102]⟩,
      ⟨22, Opcode.Add, [Value.inst 20, Value.inst 21]⟩,
      ⟨23, Opcode.Store, [Value.inst 22, Value.other 103]⟩, ⟨24, Opcode.Other 1, []⟩] }

/-- The block holds a store whose destination is the address that the load `l` reads. -/
def storeToAddressOf (BB : BasicBlock) (l : Instruction) : Prop :=
  ∃ s ∈ BB.instrs, storesTo s (l.getOperand 0) = true

/-- The loads whose overwriting kills the occurrence `e`: a load that is an operand of `e`,
or a load that is an operand of a producer instruction, itself an operand of `e`, whose
opcode `producerOk` accepts. -/
def killingLoad (producerOk : Opcode → Bool) (F : Func) (e l : Instruction) : Prop :=
  l.opcode = Opcode.Load ∧
    ((∃ v ∈ e.operands, F.asInstr v = some l) ∨
      ∃ v ∈ e.operands, ∃ p, F.asInstr v = some p ∧ producerOk p.opcode = true ∧
        ∃ v1 ∈ p.operands, F.asInstr v1 = some l)

/-- The kill condition in the words of the design: the block holds a store whose
destination is the address of a load that kills `e`. -/
def killSpec (producerOk : Opcode → Bool) (F : Func) (BB : BasicBlock) (e : Instruction) :
    Prop :=
  ∃ l, killingLoad producerOk F e l ∧ storeToAddressOf BB l

/-- The exclusion from XUSE in the words of the design: some operand of `e` is a load of
the block whose address is the destination of a store located earlier in the block than
that load. -/
def xUseSpecKilled (BB : BasicBlock) (e : Instruction) : Bool :=
  (List.range BB.instrs.length).any (fun j =>
    match BB.instrs.get? j with
    | some l =>
      decide (l.opcode = Opcode.Load) && decide (Value.inst l.id ∈ e.operands) &&
        (BB.instrs.take j).any (fun s => storesTo s (l.getOperand 0))
    | none => false)

/-- The exclusion from GEN in the words of the design: a load feeding `e` is followed,
later in the same block, by a store to that load's address. -/
def genSpecKilled (BB : BasicBlock) (e : Instruction) : Bool :=
  (List.range BB.instrs.length).any (fun j =>
    match BB.instrs.get? j with
    | some l =>
      decide (l.opcode = Opcode.Load) && decide (Value.inst l.id ∈ e.operands) &&
        (BB.instrs.drop (j + 1)).any (fun s => storesTo s (l.getOperand 0))
    | none => false)

/-- A block for `x = 2; t = x; a = y + z;`: the sum (occurrence 6) reads `y` (address 101)
and `z` (address 102), neither of which the block stores to; `x` is address 100, `t` 105,
`a` 103. -/
def xuseDemoBlock : BasicBlock :=
  { name := 0, preds := [], succs := [], count := 1,
    instrs := [⟨1, Opcode.Store, [Value.other 2, Value.other 100]⟩,
      ⟨2, Opcode.Load, [Value.other 100]⟩,
      ⟨3, Opcode.Store, [Value.inst 2, Value.other 105]⟩,
      ⟨4, Opcode.Load, [Value.other 101]⟩, ⟨5, Opcode.Load, [Value.other 102]⟩,
      ⟨6, Opcode.Add, [Value.inst 4, Value.inst 5]⟩,
      ⟨7, Opcode.Store, [Value.inst 6, Value.other 103]⟩, ⟨8, Opcode.Other 1, []⟩] }

/-- A block that loads `x` (address 100), stores to `x`, and then adds 8 to the loaded
value (occurrence 3). -/
def genDemoBlock : BasicBlock :=
  { name := 0, preds := [], succs := [], count := 1,
    instrs := [⟨1, Opcode.Load, [Value.other 100]⟩,
      ⟨2, Opcode.Store, [Value.other 2, Value.other 100]⟩,
      ⟨3, Opcode.Add, [Value.inst 1, Value.other 8]⟩,
      ⟨4, Opcode.Store, [Value.inst 3, Value.other 103]⟩, ⟨5, Opcode.Other 1, []⟩] }

/-- A block that loads `x` (address 100), adds 8 to the loaded value (occurrence 2), and
then stores the sum back to `x`. -/
def genDemoBlock2 : BasicBlock :=
  { name := 0, preds := [], succs := [], count := 1,
    instrs := [⟨1, Opcode.Load, [Value.other 100]⟩,
      ⟨2, Opcode.Add, [Value.inst 1, Value.other 8]⟩,
      ⟨3, Opcode.Store, [Value.inst 2, Value.other 100]⟩, ⟨4, Opcode.Other 1, []⟩] }

/-- A block for `t = x; a = y + z; x = 2;`: the sum (occurrence 5) reads `y` (address 101)
and `z` (address 102); the block loads `x` (address 100) before the sum and stores to `x`
after it. -/
def genDemoBlock3 : BasicBlock :=
  { name := 0, preds := [], succs := [], count := 1,
    instrs := [⟨1, Opcode.Load, [Value.other 100]⟩,
      ⟨2, Opcode.Store, [Value.inst 1, Value.other 105]⟩,
      ⟨3, Opcode.Load, [Value.other 101]⟩, ⟨4, Opcode.Load, [Value.other 102]⟩,
      ⟨5, Opcode.Add, [Value.inst 3, Value.inst 4]⟩,
      ⟨6, Opcode.Store, [Value.inst 5, Value.other 103]⟩,
      ⟨7, Opcode.Store, [Value.other 2, Value.other 100]⟩, ⟨8, Opcode.Other 1, []⟩] }

/-- The first block of `killDemo`: it loads `x` (address 100, occurrence 1) and computes
`x ^ 8` (5), `(x ^ 8) + 8` (6), `x * 2` (7) and `x * 2 - 1` (8). -/
def killDemoEntry : BasicBlock :=
  { name := 0, preds := [], succs := [1], count := 1,
    instrs := [⟨1, Opcode.Load, [Value.other 100]⟩,
      ⟨5, Opcode.Xor, [Value.inst 1, Value.other 8]⟩,
      ⟨6, Opcode.Add, [Value.inst 5, Value.other 8]⟩,
      ⟨7, Opcode.Mul, [Value.inst 1, Value.other 2]⟩,
      ⟨8, Opcode.Sub, [Value.inst 7, Value.other 1]⟩, ⟨9, Opcode.Other 2, []⟩] }

/-- The second block of `killDemo`: it stores to `x` (address 100). -/
def killDemoStore : BasicBlock :=
  { name := 1, preds := [0], succs := [], count := 1,
    instrs := [⟨2, Opcode.Store, [Value.other 2, Value.other 100]⟩,
      ⟨3, Opcode.Other 1, []⟩] }

/-- A function of two blocks: the first computes from a loaded `x`, the second stores to
`x`. -/
def killDemo : Func := [killDemoEntry, killDemoStore]

/-- The largest execution count of the function's blocks. -/
def maxBlockCount (F : Func) : Nat := F.foldl (fun m BB => max m BB.count) 0

/-- The block classification in the words of the design: a block is hot when its count,
normalised by the function's maximum block count, exceeds 0.22 = 22/100. -/
def hotSpec (F : Func) (BB : BasicBlock) : Bool :=
  decide (22 * maxBlockCount F < 100 * BB.count)

/-- A loop that runs three billion times, in the manner of `benchmarks/ispre_test1.c`:
block 0 enters it, block 1 is the loop (it increments the counter at address 100), block 2
leaves it. -/
def longLoop : Func :=
  [ { name := 0, preds := [], succs := [1], count := 1,
      instrs := [⟨1, Opcode.Other 2, []⟩] },
    { name := 1, preds := [0, 1], succs := [1, 2], count := 3000000000,
      instrs := [⟨2, Opcode.Load, [Value.other 100]⟩,
        ⟨3, Opcode.Add, [Value.inst 2, Value.other 1]⟩,
        ⟨4, Opcode.Store, [Value.inst 3, Value.other 100]⟩, ⟨5, Opcode.Other 2, []⟩] },
    { name := 2, preds := [1], succs := [], count := 1,
      instrs := [⟨6, Opcode.Other 1, []⟩] } ]

/-- The loop block of `longLoop`. -/
def longLoopBody : BasicBlock :=
  { name := 1, preds := [0, 1], succs := [1, 2], count := 3000000000,
    instrs := [⟨2, Opcode.Load, [Value.other 100]⟩,
      ⟨3, Opcode.Add, [Value.inst 2, Value.other 1]⟩,
      ⟨4, Opcode.Store, [Value.inst 3, Value.other 100]⟩, ⟨5, Opcode.Other 2, []⟩] }

/-- The block of `boundaryProfile` whose count is 22. -/
def boundaryBlock : BasicBlock :=
  { name := 1, preds := [0], succs := [], count := 22, instrs := [⟨2, Opcode.Other 1, []⟩] }

/-- A profile on the boundary: block 1 has count 22 and the maximum is 100. -/
def boundaryProfile : Func :=
  [ { name := 0, preds := [], succs := [1, 2], count := 100,
      instrs := [⟨1, Opcode.Other 2, []⟩] },
    boundaryBlock,
    { name := 2, preds := [0], succs := [], count := 23,
      instrs := [⟨3, Opcode.Other 1, []⟩] } ]

/-! ## Sample functions for the pass -/

/-- A loop in the manner of `benchmarks/ispre_test1.c`.  Block 0 enters the loop; block 1,
the loop head, leaves the loop when the flag at address 200 is zero; block 2, the loop body,
adds 5 to the sum at address 100 (occurrence 12), copies the flag at 201 to the flag at 200
and clears the flag at 201; block 3 returns the sum.  The counts come from a run of 100
iterations.  The loop head lists its predecessor 0 before its predecessor 2. -/
def sumLoop : Func :=
  [ { name := 0, preds := [], succs := [1], count := 1,
      instrs := [⟨1, Opcode.Other 2, []⟩] },
    { name := 1, preds := [0, 2], succs := [2, 3], count := 101,
      instrs := [⟨5, Opcode.Load, [Value.other 200]⟩, ⟨6, Opcode.Other 2, [Value.inst 5]⟩] },
    { name := 2, preds := [1], succs := [1], count := 100,
      instrs := [⟨11, Opcode.Load, [Value.other 100]⟩,
        ⟨12, Opcode.Add, [Value.inst 11, Value.other 5]⟩,
        ⟨13, Opcode.Store, [Value.inst 12, Value.other 100]⟩,
        ⟨14, Opcode.Load, [Value.other 201]⟩,
        ⟨15, Opcode.Store, [Value.inst 14, Value.other 200]⟩,
        ⟨16, Opcode.Store, [Value.other 0, Value.other 201]⟩,
        ⟨17, Opcode.Other 2, []⟩] },
    { name := 3, preds := [1], succs := [], count := 1,
      instrs := [⟨20, Opcode.Load, [Value.other 100]⟩, ⟨21, Opcode.Other 1, [Value.inst 20]⟩] } ]

/-- The branch probabilities of `sumLoop`: the loop head goes to the body with probability
100/101 and leaves with probability 1/101; every other edge has probability 1. -/
def sumLoopBpi : BlockName → BlockName → BranchProbability :=
  fun u v => if u = 1 ∧ v = 2 then 2126221433 else if u = 1 ∧ v = 3 then 21262215 else 2 ^ 31

/-- A memory on which `sumLoop` makes two iterations: the sum is 0 and both flags are 1. -/
def sumLoopMem : List (Int × Int) := [(100, 0), (200, 1), (201, 1)]

/-- A diamond with a cold arm.  Block 0 branches on the flag at address 300 to block 1 (hot)
or block 2 (cold); both jump to block 3, which adds 1 to the value at address 100
(occurrence 31), stores the sum at 101 and returns it.  Block 3 lists its cold predecessor
2 before its hot predecessor 1. -/
def coldArm : Func :=
  [ { name := 0, preds := [], succs := [1, 2], count := 100,
      instrs := [⟨1, Opcode.Load, [Value.other 300]⟩, ⟨2, Opcode.Other 2, [Value.inst 1]⟩] },
    { name := 1, preds := [0], succs := [3], count := 90,
      instrs := [⟨10, Opcode.Store, [Value.other 7, Value.other 400]⟩,
        ⟨11, Opcode.Other 2, []⟩] },
    { name := 2, preds := [0], succs := [3], count := 10,
      instrs := [⟨20, Opcode.Other 2, []⟩] },
    { name := 3, preds := [2, 1], succs := [], count := 100,
      instrs := [⟨30, Opcode.Load, [Value.other 100]⟩,
        ⟨31, Opcode.Add, [Value.inst 30, Value.other 1]⟩,
        ⟨32, Opcode.Store, [Value.inst 31, Value.other 101]⟩,
        ⟨33, Opcode.Other 1, [Value.inst 31]⟩] } ]

/-- The branch probabilities of `coldArm`: block 0 goes to block 1 with probability 9/10
and to block 2 with probability 1/10; every other edge has probability 1. -/
def coldArmBpi : BlockName → BlockName → BranchProbability :=
  fun u v => if u = 0 ∧ v = 1 then 1932735283 else if u = 0 ∧ v = 2 then 214748365 else 2 ^ 31

/-- A diamond whose arm has count 125 while the maximum is 564: block 0 branches to block 1
(count 125) or block 2 (count 439), and both jump to block 3. -/
def narrowArm : Func :=
  [ { name := 0, preds := [], succs := [1, 2], count := 564,
      instrs := [⟨1, Opcode.Load, [Value.other 300]⟩, ⟨2, Opcode.Other 2, [Value.inst 1]⟩] },
    { name := 1, preds := [0], succs := [3], count := 125,
      instrs := [⟨10, Opcode.Other 2, []⟩] },
    { name := 2, preds := [0], succs := [3], count := 439,
      instrs := [⟨20, Opcode.Other 2, []⟩] },
    { name := 3, preds := [1, 2], succs := [], count := 564,
      instrs := [⟨30, Opcode.Other 1, []⟩] } ]

/-- The block of `narrowArm` whose count is 125. -/
def narrowArmBlock : BasicBlock :=
  { name := 1, preds := [0], succs := [3], count := 125,
    instrs := [⟨10, Opcode.Other 2, []⟩] }

/-- The branch probabilities of `narrowArm`: block 0 goes to block 1 with probability
125/564 and to block 2 with probability 439/564; every other edge has probability 1. -/
def narrowArmBpi : BlockName → BlockName → BranchProbability :=
  fun u v => if u = 0 ∧ v = 1 then 475949390 else if u = 0 ∧ v = 2 then 1671534258 else 2 ^ 31

/-- The edge classification in the words of the design: an edge is hot when the edge
probability applied to the count of its source block, normalised by the function's maximum
block count, exceeds 0.22 = 22/100. -/
def edgeHotSpec (F : Func) (bpi : BlockName → BlockName → BranchProbability)
    (BB : BasicBlock) (successor : BlockName) : Bool :=
  decide (22 * maxBlockCount F < 100 * BranchProbability.scale (bpi BB.name successor) BB.count)

/-- The edges that a sequence of blocks traverses. -/
def pathEdges : List BlockName → List Edge
  | a :: b :: rest => (a, b) :: pathEdges (b :: rest)
  | _ => []

/-- A sequence of blocks is a path of the CFG: every block of the sequence is followed by
one of its successors. -/
def isCfgPath (F : Func) (path : List BlockName) : Bool :=
  (pathEdges path).all (fun edge =>
    F.any (fun BB => decide (BB.name = edge.1) && decide (edge.2 ∈ BB.succs)))

/-- A path passes a store to the slot of `e`: it traverses an edge whose INSERT set
holds `e`. -/
def passesInsertOf (inserts : StdMap Edge OccSet) (e : InstrId) (path : List BlockName) :
    Bool :=
  (pathEdges path).any (fun edge => decide (e ∈ inserts.get edge))

/-- A block that computes `7 + 8` (occurrence 1) and returns. -/
def oneSum : Func :=
  [ { name := 0, preds := [], succs := [], count := 1,
      instrs := [⟨1, Opcode.Add, [Value.other 7, Value.other 8]⟩,
        ⟨2, Opcode.Other 1, [Value.inst 1]⟩] } ]

/-- The occurrences of a function: its binary arithmetic/bitwise instructions. -/
def Func.occurrences (F : Func) : OccSet :=
  ((F.allInstrs.filter (fun i => i.opcode.isBinaryArith)).map Instruction.id).toFinset

/-- The uniform branch probabilities: every edge has probability 1/2. -/
def evenBpi : BlockName → BlockName → BranchProbability := fun _ _ => 2 ^ 30

/-- A single block that computes `7 + 8` (occurrence 1) and branches back to itself. -/
def selfLoop : Func :=
  [ { name := 0, preds := [0], succs := [0], count := 1,
      instrs := [⟨1, Opcode.Add, [Value.other 7, Value.other 8]⟩,
        ⟨2, Opcode.Other 2, []⟩] } ]

/-- The function `coldArm` without its occurrence: block 3 loads, stores and returns the
cell at address 100. -/
def coldArmPlain : Func :=
  [ { name := 0, preds := [], succs := [1, 2], count := 100,
      instrs := [⟨1, Opcode.Load, [Value.other 300]⟩, ⟨2, Opcode.Other 2, [Value.inst 1]⟩] },
    { name := 1, preds := [0], succs := [3], count := 90,
      instrs := [⟨10, Opcode.Store, [Value.other 7, Value.other 400]⟩,
        ⟨11, Opcode.Other 2, []⟩] },
    { name := 2, preds := [0], succs := [3], count := 10,
      instrs := [⟨20, Opcode.Other 2, []⟩] },
    { name := 3, preds := [2, 1], succs := [], count := 100,
      instrs := [⟨30, Opcode.Load, [Value.other 100]⟩,
        ⟨32, Opcode.Store, [Value.inst 30, Value.other 101]⟩,
        ⟨33, Opcode.Other 1, [Value.inst 30]⟩] } ]

/-- The loop of `sumLoop` with a loop-invariant occurrence: the body stores the sum of the
cell at address 100 and 5 (occurrence 12) to address 102, and block 3 returns the cell at
102.  No store of the function writes to address 100. -/
def steadyLoop : Func :=
  [ { name := 0, preds := [], succs := [1], count := 1,
      instrs := [⟨1, Opcode.Other 2, []⟩] },
    { name := 1, preds := [0, 2], succs := [2, 3], count := 101,
      instrs := [⟨5, Opcode.Load, [Value.other 200]⟩, ⟨6, Opcode.Other 2, [Value.inst 5]⟩] },
    { name := 2, preds := [1], succs := [1], count := 100,
      instrs := [⟨11, Opcode.Load, [Value.other 100]⟩,
        ⟨12, Opcode.Add, [Value.inst 11, Value.other 5]⟩,
        ⟨13, Opcode.Store, [Value.inst 12, Value.other 102]⟩,
        ⟨14, Opcode.Load, [Value.other 201]⟩,
        ⟨15, Opcode.Store, [Value.inst 14, Value.other 200]⟩,
        ⟨16, Opcode.Store, [Value.other 0, Value.other 201]⟩,
        ⟨17, Opcode.Other 2, []⟩] },
    { name := 3, preds := [1], succs := [], count := 1,
      instrs := [⟨20, Opcode.Load, [Value.other 102]⟩, ⟨21, Opcode.Other 1, [Value.inst 20]⟩] } ]

/-! ## What code motion keeps -/

/-- A block and what a step of code motion makes of it: the name stays, a terminator stays
at the end, every instruction keeps its identity and every `alloca` stays as it is. -/
def BlockStep (B B' : BasicBlock) : Prop :=
  B'.name = B.name ∧ (B.getTerminator ≠ none → B'.getTerminator ≠ none) ∧
    (∀ x ∈ B.instrs, ∃ y ∈ B'.instrs, y.id = x.id) ∧
    ∀ a : InstrId, (⟨a, Opcode.Alloca, []⟩ : Instruction) ∈ B.instrs →
      (⟨a, Opcode.Alloca, []⟩ : Instruction) ∈ B'.instrs

/-- A function and what steps of code motion make of it: every block is rewritten in
place. -/
def FuncStep (F F' : Func) : Prop :=
  ∃ g : BasicBlock → BasicBlock, F' = F.map g ∧ ∀ B, BlockStep B (g B)

/-- The slots that the record holds for the occurrence `e`, in the order of creation. -/
def slotsOf (e : InstrId) (created : List Created) : List InstrId :=
  created.filterMap (fun c =>
    match c with
    | Created.slot occ alloc => if occ = e then some alloc else none
    | _ => none)

/-- The entry block holds an instruction with the identity `fp`. -/
def HeadHas (F : Func) (fp : InstrId) : Prop :=
  ∃ entry, F.head? = some entry ∧ ∃ y ∈ entry.instrs, y.id = fp

/-- The entry block holds the `alloca` with the identity `a`. -/
def HeadAlloca (F : Func) (a : InstrId) : Prop :=
  ∃ entry, F.head? = some entry ∧ (⟨a, Opcode.Alloca, []⟩ : Instruction) ∈ entry.instrs

/-- What holds of a state of `performRemoveAndInsert` all along: the record holds one slot
for every occurrence that `allocas` maps and none for the others, every recorded store and
load uses the slot that `allocas` holds for its occurrence, the slots are `alloca`s of the
entry block, older than the next fresh identifier, and no two occurrences share one. -/
structure SlotInv (st : MotionState) : Prop where
  slots : ∀ e, slotsOf e st.created = (st.allocas.find? e).toList
  stores : ∀ e edge a id, Created.store e edge a id ∈ st.created → st.allocas.find? e = some a
  loads : ∀ e a id, Created.load e a id ∈ st.created → st.allocas.find? e = some a
  placed : ∀ e a, st.allocas.find? e = some a → HeadAlloca st.F a
  fresh : ∀ e a, st.allocas.find? e = some a → a < st.next
  distinct : ∀ e e' a, st.allocas.find? e = some a → st.allocas.find? e' = some a → e = e'

/-- A later state keeps the slots and the record of an earlier one; `S` holds the
occurrences that were given a slot in between. -/
structure Extends (S : InstrId → Prop) (st st' : MotionState) : Prop where
  allocas : ∀ e a, st.allocas.find? e = some a → st'.allocas.find? e = some a
  created : ∀ c ∈ st.created, c ∈ st'.created
  only : ∀ e a, st'.allocas.find? e = some a → st.allocas.find? e = some a ∨ S e

/-- An occurrence has its slot, a store on the edge and a load in the state. -/
def Served (st : MotionState) (edge : Edge) (e : InstrId) : Prop :=
  ∃ alloc, st.allocas.find? e = some alloc ∧
    (∃ id, Created.store e edge alloc id ∈ st.created) ∧
    ∃ id, Created.load e alloc id ∈ st.created

/-- An INSERT map that lists occurrence 12 of `sumLoop` on two edges. -/
def twoEdgeInserts : StdMap Edge OccSet := ⟨[((0, 1), {12}), ((2, 1), {12})]⟩

/-! ## Further sample inputs -/

/-- The function of `benchmarks/pre_test1.c`.  Addresses: `x` is 100, `y` 101, `a` 102,
`b` 103, the condition 300.  Block 0 initialises `x` and `y` and branches to block 1 (`then`:
`y = 2`) or block 2 (`else`: `x = 2; a = x + y`); block 3 computes `b = x + y` (occurrence
32) and returns it.  The `then` branch is never taken (count 0).  Block 3 lists its
predecessor 1 before its predecessor 2. -/
def preTest1 : Func :=
  [ { name := 0, preds := [], succs := [1, 2], count := 100,
      instrs := [⟨1, Opcode.Store, [Value.other 0, Value.other 100]⟩,
        ⟨2, Opcode.Store, [Value.other 1, Value.other 101]⟩,
        ⟨3, Opcode.Load, [Value.other 300]⟩, ⟨4, Opcode.Other 2, [Value.inst 3]⟩] },
    { name := 1, preds := [0], succs := [3], count := 0,
      instrs := [⟨10, Opcode.Store, [Value.other 2, Value.other 101]⟩,
        ⟨11, Opcode.Other 2, []⟩] },
    { name := 2, preds := [0], succs := [3], count := 100,
      instrs := [⟨20, Opcode.Store, [Value.other 2, Value.other 100]⟩,
        ⟨21, Opcode.Load, [Value.other 100]⟩, ⟨22, Opcode.Load, [Value.other 101]⟩,
        ⟨23, Opcode.Add, [Value.inst 21, Value.inst 22]⟩,
        ⟨24, Opcode.Store, [Value.inst 23, Value.other 102]⟩, ⟨25, Opcode.Other 2, []⟩] },
    { name := 3, preds := [1, 2], succs := [], count := 100,
      instrs := [⟨30, Opcode.Load, [Value.other 100]⟩, ⟨31, Opcode.Load, [Value.other 101]⟩,
        ⟨32, Opcode.Add, [Value.inst 30, Value.inst 31]⟩,
        ⟨33, Opcode.Store, [Value.inst 32, Value.other 103]⟩,
        ⟨34, Opcode.Other 1, [Value.inst 32]⟩] } ]

/-- The branch probabilities of `preTest1`: block 0 always goes to block 2. -/
def preTest1Bpi : BlockName → BlockName → BranchProbability :=
  fun u v => if u = 0 ∧ v = 1 then 0 else 2 ^ 31

/-- The `else` block of `preTest1`. -/
def preTest1Else : BasicBlock :=
  { name := 2, preds := [0], succs := [3], count := 100,
    instrs := [⟨20, Opcode.Store, [Value.other 2, Value.other 100]⟩,
      ⟨21, Opcode.Load, [Value.other 100]⟩, ⟨22, Opcode.Load, [Value.other 101]⟩,
      ⟨23, Opcode.Add, [Value.inst 21, Value.inst 22]⟩,
      ⟨24, Opcode.Store, [Value.inst 23, Value.other 102]⟩, ⟨25, Opcode.Other 2, []⟩] }

/-- A block with two structurally identical occurrences: it loads `x` (address 100), adds 5
to the loaded value (occurrence 2), stores to `x`, loads `x` again, and adds 5 to the first
loaded value again (occurrence 5). -/
def twinBlock : BasicBlock :=
  { name := 0, preds := [], succs := [], count := 1,
    instrs := [⟨1, Opcode.Load, [Value.other 100]⟩,
      ⟨2, Opcode.Add, [Value.inst 1, Value.other 5]⟩,
      ⟨3, Opcode.Store, [Value.other 0, Value.other 100]⟩,
      ⟨4, Opcode.Load, [Value.other 100]⟩,
      ⟨5, Opcode.Add, [Value.inst 1, Value.other 5]⟩,
      ⟨6, Opcode.Other 1, [Value.inst 5]⟩] }

/-- The XUSE exclusion decided from the instructions before position `j` of the block: some
load among them is preceded by a store to its address. -/
def xUseKilledAt (BB : BasicBlock) (j : Nat) : Bool :=
  (List.range j).any (fun i =>
    match BB.instrs.get? i with
    | some l =>
      decide (l.opcode = Opcode.Load) &&
        (BB.instrs.take i).any (fun s => storesTo s (l.getOperand 0))
    | none => false)

/-- The GEN exclusion decided from position `j` of the block: some load before it has a
store to its address after it. -/
def genKilledAt (BB : BasicBlock) (j : Nat) : Bool :=
  (BB.instrs.take j).any (fun l =>
    decide (l.opcode = Opcode.Load) &&
      (BB.instrs.drop (j + 1)).any (fun s => storesTo s (l.getOperand 0)))

/-- The blocks of `diamond` in the reverse order. -/
def diamondBackwards : Func :=
  [ { name := 3, preds := [1, 2], succs := [], count := 100,
      instrs := [⟨20, Opcode.Load, [Value.other 101]⟩, ⟨21, Opcode.Load, [Value.other 102]⟩,
        ⟨22, Opcode.Add, [Value.inst 20, Value.inst 21]⟩,
        ⟨23, Opcode.Store, [Value.inst 22, Value.other 103]⟩, ⟨24, Opcode.Other 1, []⟩] },
    { name := 2, preds := [0], succs := [3], count := 50,
      instrs := [⟨15, Opcode.Store, [Value.other 3, Value.other 104]⟩,
        ⟨16, Opcode.Other 2, []⟩] },
    { name := 1, preds := [0], succs := [3], count := 50,
      instrs := [⟨10, Opcode.Load, [Value.other 101]⟩, ⟨11, Opcode.Load, [Value.other 102]⟩,
        ⟨12, Opcode.Add, [Value.inst 10, Value.inst 11]⟩,
        ⟨13, Opcode.Store, [Value.inst 12, Value.other 100]⟩, ⟨14, Opcode.Other 2, []⟩] },
    { name := 0, preds := [], succs := [1, 2], count := 100,
      instrs := [⟨1, Opcode.Other 2, [Value.other 0]⟩] } ]

/-- The CFG edges of a function in the order in which `calculateHotColdEdges` visits them:
block by block, every block's successors in their order. -/
def Func.edges (F : Func) : List Edge :=
  F.flatMap (fun BB => BB.succs.map (fun successor => (BB.name, successor)))

/-- The weight that `calculateHotColdEdges` gives to the edge from `u` to `v`: the value of
its local `edgeProb2`. -/
def edgeProb2 (bpi : BlockName → BlockName → BranchProbability)
    (freqs : StdMap BlockName Double) (maxCount : Int) (u v : BlockName) : Int :=
  toInt32 (BranchProbability.scale (bpi u v) ((freqs.getDouble u).mulInt maxCount).toUInt64)

/-- A two-block profile: a cold entry block that branches to a hot block. -/
def coldEntry : Func :=
  [ { name := 0, preds := [], succs := [1], count := 10,
      instrs := [⟨1, Opcode.Other 2, []⟩] },
    { name := 1, preds := [0], succs := [], count := 100,
      instrs := [⟨2, Opcode.Other 1, []⟩] } ]

/-! ## The rewriting steps of code motion -/

/-- An instruction after `old->replaceAllUsesWith(new)`. -/
def Instruction.replaceUses (old new : InstrId) (i : Instruction) : Instruction :=
  { i with operands := i.operands.map (Value.replaceUse old new) }

/-- One rewriting step of `performRemoveAndInsert` on the function and the next fresh
identifier; `base` is the first identifier that the function did not use at the start.  A
step inserts a new instruction, whose operands are operands that occur in the function or
results of new instructions, or it redirects the uses of an instruction of the original
function to a new instruction. -/
inductive MotionPrim (base : InstrId) : Func × InstrId → Func × InstrId → Prop
  | insert (F : Func) (n target : InstrId) (inst : Instruction) (hid : inst.id = n)
      (hbase : base ≤ n)
      (hops : ∀ v ∈ inst.operands, (∃ i ∈ F.allInstrs, v ∈ i.operands) ∨
        ∃ o, v = Value.inst o ∧ base ≤ o ∧ o ≤ n) :
      MotionPrim base (F, n) (F.insertBefore target inst, n + 1)
  | replace (F : Func) (n old new : InstrId) (hold : old < base) (hnew : base ≤ new)
      (hlt : new < n) : MotionPrim base (F, n) (F.replaceAllUsesWith old new, n)

/-- A property of the function and the next fresh identifier that every rewriting step
keeps. -/
def MotionStable (base : InstrId) (P : Func × InstrId → Prop) : Prop :=
  ∀ s s', MotionPrim base s s' → P s → P s'

/-- Well-formedness of the function under code motion, `F0` being the function at the start:
every identifier and every operand reference is older than the next fresh identifier, the
identifiers of a block are distinct, and an identifier of `F0` keeps its opcode. -/
structure FuncWf (F0 F : Func) (n : InstrId) : Prop where
  next_ge : F0.freshId ≤ n
  ids : ∀ i ∈ F.allInstrs, i.id < n
  uses : ∀ i ∈ F.allInstrs, ∀ o, Value.inst o ∈ i.operands → o < n
  nodup : ∀ B ∈ F, (B.instrs.map Instruction.id).Nodup
  kinds : ∀ i ∈ F.allInstrs, i.id < F0.freshId →
    ∃ i0 ∈ F0.allInstrs, i0.id = i.id ∧ i0.opcode = i.opcode

/-- An operand of the original function and what code motion made of it: the same operand,
or the result of a load that was created for the occurrence it named. -/
def Redirected (created : List Created) (a b : Value) : Prop :=
  b = a ∨ ∃ e alloc l, a = Value.inst e ∧ b = Value.inst l ∧ Created.load e alloc l ∈ created

/-- The function `F` is the function `F0` rewritten block by block: every block keeps its
name, and every instruction of `F0` is still in its block, with its identity, its opcode and
operands that are related to the old ones by `R`. -/
def OrigRel (R : Value → Value → Prop) (F0 F : Func) : Prop :=
  ∃ g : BasicBlock → BasicBlock, F = F0.map g ∧
    ∀ B, (g B).name = B.name ∧
      ∀ i ∈ B.instrs, ∃ j ∈ (g B).instrs, j.id = i.id ∧ j.opcode = i.opcode ∧
        List.Forall₂ R i.operands j.operands

/-- The load `l` from the slot `a` precedes the occurrence `e` in every block that holds
`e`. -/
def LoadBefore (e a l : InstrId) (F : Func) : Prop :=
  ∀ B ∈ F, (∃ x ∈ B.instrs, x.id = e) →
    ∃ x, x.id = e ∧ [(⟨l, Opcode.Load, [Value.inst a]⟩ : Instruction), x].Sublist B.instrs

/-- What holds of a state of `performRemoveAndInsert` all along, `F0` being the function at
the start: the function is well-formed; `allocas` maps identifiers of `F0` to new
instructions; a recorded load was created for an occurrence that `allocas` maps, from its
slot; no instruction uses an occurrence that `allocas` maps; every recorded load precedes its
occurrence; and the function is `F0` rewritten, operands redirected to recorded loads. -/
structure MotionWf (F0 : Func) (st : MotionState) : Prop where
  func : FuncWf F0 st.F st.next
  keys : ∀ e a, st.allocas.find? e = some a → e < F0.freshId ∧ F0.freshId ≤ a ∧ a < st.next
  loads : ∀ e a l, Created.load e a l ∈ st.created →
    st.allocas.find? e = some a ∧ F0.freshId ≤ l ∧ l < st.next
  noUse : ∀ e a, st.allocas.find? e = some a →
    ∀ i ∈ st.F.allInstrs, Value.inst e ∉ i.operands
  before : ∀ e a l, Created.load e a l ∈ st.created → LoadBefore e a l st.F
  orig : OrigRel (Redirected st.created) F0 st.F

/-- The clones that the operand loop of `performRemoveAndInsert` makes, in the words of the
design: one clone for every operand that is an instruction of `F`, in operand order, each
remapped by the clones made so far and itself.  Returns the clones, the next fresh identifier
and the map from an instruction to its latest clone. -/
def operandClones (F : Func) :
    List Value → InstrId → List (InstrId × InstrId) →
      List Instruction × InstrId × List (InstrId × InstrId)
  | [], n, vmap => ([], n, vmap)
  | U :: rest, n, vmap =>
    match F.asInstr U with
    | none => operandClones F rest n vmap
    | some Inst =>
      (cloneAndRemap Inst n ((Inst.id, n) :: vmap) ::
          (operandClones F rest (n + 1) ((Inst.id, n) :: vmap)).1,
        (operandClones F rest (n + 1) ((Inst.id, n) :: vmap)).2.1,
        (operandClones F rest (n + 1) ((Inst.id, n) :: vmap)).2.2)

/-- An operand that names an instruction by its identity. -/
def Value.isInst : Value → Bool
  | Value.inst _ => true
  | Value.other _ => false

/-- Every operand that names an instruction names an instruction of the function. -/
def Func.usesResolve (F : Func) : Prop :=
  ∀ i ∈ F.allInstrs, ∀ v ∈ i.operands, v.isInst = true → (F.asInstr v).isSome = true

/-! ## Lemmas on `StdMap` -/

namespace StdMap

variable {K V : Type} [DecidableEq K]

theorem findIn_insertIn [Ord K] (k : K) (v : V) (l : List (K × V)) (k2 : K) :
    findIn (insertIn k v l) k2 = if k = k2 then some v else findIn l k2 := by
  induction l with
  | nil => simp [insertIn, findIn]
  | cons hd tl ih =>
    obtain ⟨k1, v1⟩ := hd
    simp only [insertIn]
    by_cases h1 : k1 = k
    · subst h1
      simp only [if_true, findIn]
      by_cases h2 : k1 = k2 <;> simp [h2]
    · simp only [h1, if_false]
      by_cases h3 : compare k k1 = Ordering.lt
      · simp only [h3, if_true, findIn]
      · simp only [h3, if_false, findIn, ih]
        by_cases h2 : k1 = k2
        · subst h2
          simp [Ne.symm h1]
        · simp [h2]

theorem find?_insert [Ord K] (m : StdMap K V) (k : K) (v : V) (k2 : K) :
    (m.insert k v).find? k2 = if k = k2 then some v else m.find? k2 :=
  findIn_insertIn k v m.entries k2

theorem get_insert [Ord K] (m : StdMap K OccSet) (k : K) (v : OccSet) (k2 : K) :
    (m.insert k v).get k2 = if k = k2 then v else m.get k2 := by
  unfold get
  rw [find?_insert]
  by_cases h : k = k2 <;> simp [h]

theorem find?_empty (k : K) : (empty : StdMap K V).find? k = none := rfl

theorem get_empty (k : K) : (empty : StdMap K OccSet).get k = ∅ := rfl

theorem mem_keys_iff (m : StdMap K V) (k : K) : k ∈ m.keys ↔ m.find? k ≠ none := by
  obtain ⟨l⟩ := m
  simp only [keys, find?]
  induction l with
  | nil => simp [findIn]
  | cons hd tl ih =>
    obtain ⟨k1, v1⟩ := hd
    by_cases h : k1 = k
    · simp [findIn, h]
    · have h2 : ¬ k = k1 := fun e => h e.symm
      simp only [List.map_cons, List.mem_cons, findIn, h, if_false, h2, false_or]
      exact ih

theorem findIn_of_mem (l : List (K × V)) (hn : (l.map Prod.fst).Nodup) (k : K) (v : V)
    (hm : (k, v) ∈ l) : findIn l k = some v := by
  induction l with
  | nil => simp at hm
  | cons hd tl ih =>
    obtain ⟨k1, v1⟩ := hd
    simp only [List.map_cons, List.nodup_cons] at hn
    simp only [List.mem_cons, Prod.mk.injEq] at hm
    rcases hm with ⟨rfl, rfl⟩ | hm
    · simp [findIn]
    · have hk : k1 ≠ k := by
        rintro rfl
        exact hn.1 (List.mem_map.mpr ⟨(k1, v), hm, rfl⟩)
      simp only [findIn, hk, if_false]
      exact ih hn.2 hm

theorem mem_of_findIn (l : List (K × V)) (k : K) (v : V) (h : findIn l k = some v) :
    (k, v) ∈ l := by
  induction l with
  | nil => simp [findIn] at h
  | cons hd tl ih =>
    obtain ⟨k1, v1⟩ := hd
    by_cases hk : k1 = k
    · simp only [findIn, hk, if_true, Option.some.injEq] at h
      simp [hk, h]
    · simp only [findIn, hk, if_false] at h
      exact List.mem_cons_of_mem _ (ih h)

end StdMap

@[simp] theorem set_union_eq (a b dest : OccSet) : set_union a b dest = dest ∪ (a ∪ b) := rfl

@[simp] theorem set_intersection_eq (a b dest : OccSet) :
    set_intersection a b dest = dest ∪ (a ∩ b) := rfl

@[simp] theorem set_difference_eq (a b dest : OccSet) :
    set_difference a b dest = dest ∪ (a \ b) := rfl

/-! ## `compute_inserts`, `fillRemovables`, `fillCandidates` -/

theorem compute_inserts_find? (ingressEdges : List Edge) (needins avouts : StdMap BlockName OccSet)
    (inserts : StdMap Edge OccSet) (e : Edge) :
    (compute_inserts ingressEdges needins avouts inserts).find? e =
      if e ∈ ingressEdges then some (needins.get e.2 \ avouts.get e.1) else inserts.find? e := by
  unfold compute_inserts
  induction ingressEdges generalizing inserts with
  | nil => simp
  | cons hd tl ih =>
    rw [List.foldl_cons, ih]
    by_cases h1 : e ∈ tl
    · simp [h1]
    · by_cases h2 : hd = e
      · subst h2
        simp [h1, StdMap.find?_insert]
      · have h3 : ¬ e = hd := fun x => h2 x.symm
        simp [h1, h2, h3, StdMap.find?_insert]

theorem fillRemovables_find? (xUses avins : StdMap BlockName OccSet) (hotNodes : List BlockName)
    (removables : StdMap BlockName OccSet) (F : Func) (n : BlockName) :
    (fillRemovables xUses avins hotNodes removables F).find? n =
      if n ∈ hotNodes ∧ n ∈ F.names then some (avins.get n ∩ xUses.get n)
      else removables.find? n := by
  unfold fillRemovables Func.names
  induction F generalizing removables with
  | nil => simp
  | cons BB tl ih =>
    rw [List.foldl_cons, ih]
    by_cases h1 : n ∈ hotNodes ∧ n ∈ List.map BasicBlock.name tl
    · have h1b : n ∈ hotNodes ∧ n ∈ List.map BasicBlock.name (BB :: tl) :=
        ⟨h1.1, by simp only [List.map_cons, List.mem_cons]; exact Or.inr h1.2⟩
      rw [if_pos h1, if_pos h1b]
    · rw [if_neg h1]
      by_cases h2 : BB.name ∈ hotNodes
      · by_cases h3 : BB.name = n
        · subst h3
          have h4 : BB.name ∈ hotNodes ∧ BB.name ∈ List.map BasicBlock.name (BB :: tl) :=
            ⟨h2, by simp⟩
          rw [if_pos h4]
          simp [h2, StdMap.find?_insert]
        · have h4 : ¬ (n ∈ hotNodes ∧ n ∈ List.map BasicBlock.name (BB :: tl)) := by
            rintro ⟨ha, hb⟩
            simp only [List.map_cons, List.mem_cons] at hb
            rcases hb with hb | hb
            · exact h3 hb.symm
            · exact h1 ⟨ha, hb⟩
          rw [if_neg h4]
          simp [h2, h3, StdMap.find?_insert]
      · have h4 : ¬ (n ∈ hotNodes ∧ n ∈ List.map BasicBlock.name (BB :: tl)) := by
          rintro ⟨ha, hb⟩
          simp only [List.map_cons, List.mem_cons] at hb
          rcases hb with hb | hb
          · exact h2 (hb ▸ ha)
          · exact h1 ⟨ha, hb⟩
        rw [if_neg h4]
        simp [h2]

theorem fillCandidates_mem (hotNodes : List BlockName) (l : List (BlockName × OccSet))
    (candidates : OccSet) (e : InstrId) :
    e ∈ l.foldl
        (fun candidates xUseBB =>
          if xUseBB.1 ∈ hotNodes then set_union candidates xUseBB.2 candidates else candidates)
        candidates ↔
      e ∈ candidates ∨ ∃ p ∈ l, p.1 ∈ hotNodes ∧ e ∈ p.2 := by
  induction l generalizing candidates with
  | nil => simp
  | cons hd tl ih =>
    rw [List.foldl_cons, ih]
    by_cases h : hd.1 ∈ hotNodes
    · simp only [h, if_true, set_union_eq, Finset.mem_union, List.mem_cons, exists_eq_or_imp,
        true_and]
      tauto
    · simp only [h, if_false, List.mem_cons, exists_eq_or_imp, false_and, false_or]


/-! ## Membership in the maps built by `fillXUses`, `fillGens` and `fillKills` -/

theorem addOccurrence_get (m : StdMap BlockName OccSet) (name : BlockName) (id : InstrId)
    (k : BlockName) :
    (addOccurrence m name id).get k = if name = k then insert id (m.get name) else m.get k := by
  unfold addOccurrence
  cases hf : m.find? name with
  | none =>
    simp only [StdMap.get_insert]
    by_cases hk : name = k
    · subst hk
      simp [StdMap.get, hf]
    · simp [hk]
  | some s =>
    simp only [StdMap.get_insert]
    by_cases hk : name = k
    · subst hk
      simp [StdMap.get, hf]
    · simp [hk]

theorem mem_addOccurrence (m : StdMap BlockName OccSet) (name : BlockName) (id : InstrId)
    (k : BlockName) (x : InstrId) :
    x ∈ (addOccurrence m name id).get k ↔ x ∈ m.get k ∨ (name = k ∧ x = id) := by
  rw [addOccurrence_get]
  by_cases hk : name = k
  · subst hk
    simp only [if_true, Finset.mem_insert, true_and]
    tauto
  · simp [hk]

/-- Membership after a loop whose every step only adds elements described by `Q`. -/
theorem foldl_get_mem {α : Type} (step : StdMap BlockName OccSet → α → StdMap BlockName OccSet)
    (Q : α → BlockName → InstrId → Prop)
    (hstep : ∀ m a k x, x ∈ (step m a).get k ↔ x ∈ m.get k ∨ Q a k x)
    (l : List α) (m : StdMap BlockName OccSet) (k : BlockName) (x : InstrId) :
    x ∈ (l.foldl step m).get k ↔ x ∈ m.get k ∨ ∃ a ∈ l, Q a k x := by
  induction l generalizing m with
  | nil => simp
  | cons hd tl ih =>
    rw [List.foldl_cons, ih, hstep]
    simp only [List.mem_cons, exists_eq_or_imp]
    tauto

/-- Membership in the map that `fillXUses` returns. -/
theorem fillXUses_mem (F : Func) (m : StdMap BlockName OccSet) (k : BlockName) (x : InstrId) :
    x ∈ (fillXUses F m).get k ↔
      x ∈ m.get k ∨ ∃ BB ∈ F, ∃ instr ∈ BB.instrs,
        instr.opcode.isBinaryArith = true ∧ xUseKilled BB instr = false ∧
          BB.name = k ∧ x = instr.id := by
  unfold fillXUses
  apply foldl_get_mem _ (fun BB k x => ∃ instr ∈ BB.instrs,
        instr.opcode.isBinaryArith = true ∧ xUseKilled BB instr = false ∧
          BB.name = k ∧ x = instr.id)
  intro m BB k x
  apply foldl_get_mem _ (fun instr k x =>
        instr.opcode.isBinaryArith = true ∧ xUseKilled BB instr = false ∧
          BB.name = k ∧ x = instr.id)
  intro m instr k x
  by_cases h1 : instr.opcode.isBinaryArith = true
  · by_cases h2 : xUseKilled BB instr = false
    · simp [h1, h2, mem_addOccurrence]
    · simp [h1, h2]
  · simp [h1]

/-- Membership in the map that `fillGens` returns. -/
theorem fillGens_mem (F : Func) (m : StdMap BlockName OccSet) (k : BlockName) (x : InstrId) :
    x ∈ (fillGens F m).get k ↔
      x ∈ m.get k ∨ ∃ BB ∈ F, ∃ instr ∈ BB.instrs,
        instr.opcode.isBinaryArith = true ∧ genKilled BB instr = false ∧
          BB.name = k ∧ x = instr.id := by
  unfold fillGens
  apply foldl_get_mem _ (fun BB k x => ∃ instr ∈ BB.instrs,
        instr.opcode.isBinaryArith = true ∧ genKilled BB instr = false ∧
          BB.name = k ∧ x = instr.id)
  intro m BB k x
  apply foldl_get_mem _ (fun instr k x =>
        instr.opcode.isBinaryArith = true ∧ genKilled BB instr = false ∧
          BB.name = k ∧ x = instr.id)
  intro m instr k x
  by_cases h1 : instr.opcode.isBinaryArith = true
  · by_cases h2 : genKilled BB instr = false
    · simp [h1, h2, mem_addOccurrence]
    · simp [h1, h2]
  · simp [h1]

/-- Membership after the store scan of `fillKills`. -/
theorem killStores_mem (F : Func) (instr : Instruction) (a : Option Value)
    (m : StdMap BlockName OccSet) (k : BlockName) (x : InstrId) :
    x ∈ (killStores F instr a m).get k ↔
      x ∈ m.get k ∨ ∃ BB1 ∈ F,
        BB1.instrs.any (fun instr1 => storesTo instr1 a) = true ∧ BB1.name = k ∧
          x = instr.id := by
  unfold killStores
  refine foldl_get_mem _ (fun BB1 k x =>
        BB1.instrs.any (fun instr1 => storesTo instr1 a) = true ∧ BB1.name = k ∧ x = instr.id)
    ?_ F m k x
  intro m BB1 k x
  by_cases h1 : BB1.instrs.any (fun instr1 => storesTo instr1 a) = true
  · simp [h1, mem_addOccurrence]
  · simp [h1]

/-- Two blocks of a function with the same name are the same block, when names are
unique. -/
theorem block_eq_of_name (F : Func) (hn : F.names.Nodup) (A B : BasicBlock) (hA : A ∈ F)
    (hB : B ∈ F) (h : A.name = B.name) : A = B :=
  List.inj_on_of_nodup_map hn hA hB h

/-- Two instructions of a function with the same identity are the same instruction, when
identities are unique. -/
theorem instr_eq_of_id (F : Func) (hi : (F.allInstrs.map Instruction.id).Nodup)
    (a b : Instruction) (ha : a ∈ F.allInstrs) (hb : b ∈ F.allInstrs) (h : a.id = b.id) :
    a = b :=
  List.inj_on_of_nodup_map hi ha hb h

theorem mem_allInstrs (F : Func) (BB : BasicBlock) (hBB : BB ∈ F) (i : Instruction)
    (hi : i ∈ BB.instrs) : i ∈ F.allInstrs := by
  unfold Func.allInstrs
  rw [List.mem_flatMap]
  exact ⟨BB, hBB, hi⟩

/-- An identifier of an instruction of the function resolves to that instruction, when
identities are unique. -/
theorem getInstr_of_mem (F : Func) (hi : (F.allInstrs.map Instruction.id).Nodup)
    (a : Instruction) (ha : a ∈ F.allInstrs) : F.getInstr a.id = some a := by
  unfold Func.getInstr
  cases hf : F.allInstrs.find? (fun i => decide (i.id = a.id)) with
  | none =>
    rw [List.find?_eq_none] at hf
    have := hf a ha
    simp at this
  | some b =>
    have hb := List.mem_of_find?_eq_some hf
    have hid := List.find?_some hf
    simp only [decide_eq_true_eq] at hid
    rw [instr_eq_of_id F hi b a hb ha hid]

theorem getInstr_mem (F : Func) (id : InstrId) (a : Instruction) (h : F.getInstr id = some a) :
    a ∈ F.allInstrs ∧ a.id = id := by
  unfold Func.getInstr at h
  refine ⟨List.mem_of_find?_eq_some h, ?_⟩
  have := List.find?_some h
  simpa using this

/-- Membership after the inner operand step of `fillKills`. -/
theorem killOperand1_mem (F : Func) (instr : Instruction) (m : StdMap BlockName OccSet)
    (v1 : Value) (k : BlockName) (x : InstrId) :
    x ∈ (killOperand1 F instr m v1).get k ↔
      x ∈ m.get k ∨ ∃ l, F.asInstr v1 = some l ∧ l.opcode = Opcode.Load ∧
        ∃ BB1 ∈ F, BB1.instrs.any (fun instr1 => storesTo instr1 (l.getOperand 0)) = true ∧
          BB1.name = k ∧ x = instr.id := by
  unfold killOperand1
  cases hv : F.asInstr v1 with
  | none => simp
  | some l =>
    by_cases hl : l.opcode = Opcode.Load
    · simp only [hl, if_true, killStores_mem, Option.some.injEq, exists_eq_left', true_and]
    · simp [hl]

/-- Membership after the operand step of `fillKills`. -/
theorem killOperand_mem (F : Func) (instr : Instruction) (m : StdMap BlockName OccSet)
    (v : Value) (k : BlockName) (x : InstrId) :
    x ∈ (killOperand F instr m v).get k ↔
      x ∈ m.get k ∨ ∃ p, F.asInstr v = some p ∧
        ((p.opcode = Opcode.Load ∧
            ∃ BB1 ∈ F, BB1.instrs.any (fun instr1 => storesTo instr1 (p.getOperand 0)) = true ∧
              BB1.name = k ∧ x = instr.id) ∨
          (p.opcode.isMulAddSub = true ∧ ∃ v1 ∈ p.operands, ∃ l, F.asInstr v1 = some l ∧
            l.opcode = Opcode.Load ∧
            ∃ BB1 ∈ F, BB1.instrs.any (fun instr1 => storesTo instr1 (l.getOperand 0)) = true ∧
              BB1.name = k ∧ x = instr.id)) := by
  unfold killOperand
  cases hv : F.asInstr v with
  | none => simp
  | some p =>
    by_cases hl : p.opcode = Opcode.Load
    · have hnot : Opcode.Load.isMulAddSub = false := by decide
      simp only [hl, if_true, killStores_mem, Option.some.injEq, exists_eq_left', true_and,
        hnot, Bool.false_eq_true, false_and, or_false]
    · by_cases hp : p.opcode.isMulAddSub = true
      · simp only [hl, if_false, hp, if_true, Option.some.injEq, exists_eq_left', false_and,
          true_and, false_or]
        exact foldl_get_mem _ (fun v1 k x => ∃ l, F.asInstr v1 = some l ∧
            l.opcode = Opcode.Load ∧
            ∃ BB1 ∈ F, BB1.instrs.any (fun instr1 => storesTo instr1 (l.getOperand 0)) = true ∧
              BB1.name = k ∧ x = instr.id)
          (fun m v1 k x => killOperand1_mem F instr m v1 k x) p.operands m k x
      · simp [hl, hp]

/-- Membership in the map that `fillKills` returns. -/
theorem fillKills_mem (F : Func) (m : StdMap BlockName OccSet) (k : BlockName) (x : InstrId) :
    x ∈ (fillKills F m).get k ↔
      x ∈ m.get k ∨ ∃ BB ∈ F, ∃ instr ∈ BB.instrs, instr.opcode.isBinaryArith = true ∧
        ∃ v ∈ instr.operands, ∃ p, F.asInstr v = some p ∧
        ((p.opcode = Opcode.Load ∧
            ∃ BB1 ∈ F, BB1.instrs.any (fun instr1 => storesTo instr1 (p.getOperand 0)) = true ∧
              BB1.name = k ∧ x = instr.id) ∨
          (p.opcode.isMulAddSub = true ∧ ∃ v1 ∈ p.operands, ∃ l, F.asInstr v1 = some l ∧
            l.opcode = Opcode.Load ∧
            ∃ BB1 ∈ F, BB1.instrs.any (fun instr1 => storesTo instr1 (l.getOperand 0)) = true ∧
              BB1.name = k ∧ x = instr.id)) := by
  unfold fillKills
  refine foldl_get_mem _ (fun BB k x => ∃ instr ∈ BB.instrs,
      instr.opcode.isBinaryArith = true ∧
        ∃ v ∈ instr.operands, ∃ p, F.asInstr v = some p ∧
        ((p.opcode = Opcode.Load ∧
            ∃ BB1 ∈ F, BB1.instrs.any (fun instr1 => storesTo instr1 (p.getOperand 0)) = true ∧
              BB1.name = k ∧ x = instr.id) ∨
          (p.opcode.isMulAddSub = true ∧ ∃ v1 ∈ p.operands, ∃ l, F.asInstr v1 = some l ∧
            l.opcode = Opcode.Load ∧
            ∃ BB1 ∈ F, BB1.instrs.any (fun instr1 => storesTo instr1 (l.getOperand 0)) = true ∧
              BB1.name = k ∧ x = instr.id))) ?_ F m k x
  intro m BB k x
  refine foldl_get_mem _ (fun instr k x => instr.opcode.isBinaryArith = true ∧
        ∃ v ∈ instr.operands, ∃ p, F.asInstr v = some p ∧
        ((p.opcode = Opcode.Load ∧
            ∃ BB1 ∈ F, BB1.instrs.any (fun instr1 => storesTo instr1 (p.getOperand 0)) = true ∧
              BB1.name = k ∧ x = instr.id) ∨
          (p.opcode.isMulAddSub = true ∧ ∃ v1 ∈ p.operands, ∃ l, F.asInstr v1 = some l ∧
            l.opcode = Opcode.Load ∧
            ∃ BB1 ∈ F, BB1.instrs.any (fun instr1 => storesTo instr1 (l.getOperand 0)) = true ∧
              BB1.name = k ∧ x = instr.id))) ?_ BB.instrs m k x
  intro m instr k x
  by_cases h1 : instr.opcode.isBinaryArith = true
  · simp only [h1, if_true, true_and]
    exact foldl_get_mem _ (fun v k x => ∃ p, F.asInstr v = some p ∧
        ((p.opcode = Opcode.Load ∧
            ∃ BB1 ∈ F, BB1.instrs.any (fun instr1 => storesTo instr1 (p.getOperand 0)) = true ∧
              BB1.name = k ∧ x = instr.id) ∨
          (p.opcode.isMulAddSub = true ∧ ∃ v1 ∈ p.operands, ∃ l, F.asInstr v1 = some l ∧
            l.opcode = Opcode.Load ∧
            ∃ BB1 ∈ F, BB1.instrs.any (fun instr1 => storesTo instr1 (l.getOperand 0)) = true ∧
              BB1.name = k ∧ x = instr.id)))
      (fun m v k x => killOperand_mem F instr m v k x) instr.operands m k x
  · simp [h1]


/-! ## The local scans of `fillGens` -/

theorem isIdenticalTo_self (e : Instruction) : e.isIdenticalTo e = true := by
  simp [Instruction.isIdenticalTo]

/-- With no structurally identical instruction before `e`, the position search of `fillGens`
stops at `e` itself. -/
theorem splitAtIdentical_first (e : Instruction) (pre post : List Instruction)
    (hfirst : ∀ k ∈ pre, e.isIdenticalTo k = false) :
    splitAtIdentical e (pre ++ e :: post) = some (pre ++ [e], post) := by
  induction pre with
  | nil => simp [splitAtIdentical, isIdenticalTo_self]
  | cons hd tl ih =>
    have h1 : e.isIdenticalTo hd = false := hfirst hd (List.mem_cons_self _ _)
    have h2 := ih (fun k hk => hfirst k (List.mem_cons_of_mem _ hk))
    simp [splitAtIdentical, h1, h2]

/-- The load loop of `fillGens` raises the flag exactly when some load of `upto` has a store
to its address in `after`. -/
theorem genLoads_fold (upto after : List Instruction) (killed : Bool) :
    upto.foldl
        (fun isThisExprKilled kTemp1 =>
          if kTemp1.opcode = Opcode.Load then
            if after.any (fun kTemp => storesTo kTemp (kTemp1.getOperand 0)) then true
            else isThisExprKilled
          else isThisExprKilled)
        killed =
      (killed || upto.any (fun l => decide (l.opcode = Opcode.Load) &&
        after.any (fun s => storesTo s (l.getOperand 0)))) := by
  induction upto generalizing killed with
  | nil => simp
  | cons hd tl ih =>
    rw [List.foldl_cons, ih]
    by_cases h1 : hd.opcode = Opcode.Load
    · by_cases h2 : after.any (fun kTemp => storesTo kTemp (hd.getOperand 0)) = true
      · simp [h1, h2]
      · simp [h1, h2]
    · simp [h1]

/-- Repeating a scan that can only raise the flag, once per operand. -/
theorem operand_loop (ops : List Value) (hit : Bool) (killed : Bool) :
    ops.foldl (fun isThisExprKilled _currentOperand => (isThisExprKilled || hit)) killed =
      (killed || (!ops.isEmpty && hit)) := by
  induction ops generalizing killed with
  | nil => simp
  | cons hd tl ih =>
    rw [List.foldl_cons, ih]
    cases killed <;> cases hit <;> simp

/-- The flag of `fillGens` for an occurrence `e` with no structurally identical instruction
before it: raised exactly when `e` has an operand and some load located before `e` has a
store to its address located after `e`. -/
theorem genKilled_first (BB : BasicBlock) (pre post : List Instruction) (e : Instruction)
    (hsplit : BB.instrs = pre ++ e :: post) (hop : e.opcode.isBinaryArith = true)
    (hfirst : ∀ k ∈ pre, e.isIdenticalTo k = false) :
    genKilled BB e = (!e.operands.isEmpty && pre.any (fun l => decide (l.opcode = Opcode.Load) &&
      post.any (fun s => storesTo s (l.getOperand 0)))) := by
  have hne : e.opcode ≠ Opcode.Load := by
    intro h
    rw [h] at hop
    exact absurd hop (by decide)
  have hscan : ∀ killed, genScan e BB.instrs killed =
      (killed || pre.any (fun l => decide (l.opcode = Opcode.Load) &&
        post.any (fun s => storesTo s (l.getOperand 0)))) := by
    intro killed
    unfold genScan
    rw [hsplit, splitAtIdentical_first e pre post hfirst]
    simp only [genLoads_fold, List.any_append, List.any_cons, List.any_nil, hne, decide_False,
      Bool.false_and, Bool.or_false]
  unfold genKilled
  simp only [hscan]
  rw [operand_loop]
  simp

/-! ## Rounding to `double` -/

theorem bitLengthAux_zero (fuel : Nat) : bitLengthAux fuel 0 = 0 := by
  cases fuel <;> simp [bitLengthAux]

/-- The binary length of a positive number, with enough fuel. -/
theorem bitLengthAux_pos (fuel n : Nat) (h : n ≤ fuel) (hn : n ≠ 0) :
    ∃ b, bitLengthAux fuel n = b + 1 ∧ 2 ^ b ≤ n ∧ n < 2 ^ (b + 1) := by
  induction fuel generalizing n with
  | zero => omega
  | succ f ih =>
    simp only [bitLengthAux, hn, if_false]
    by_cases h2 : n / 2 = 0
    · refine ⟨0, ?_, ?_, ?_⟩
      · rw [h2, bitLengthAux_zero]
      · simp only [pow_zero]; omega
      · simp only [zero_add, pow_one]; omega
    · obtain ⟨b, hb, hlo, hhi⟩ := ih (n / 2) (by omega) h2
      refine ⟨b + 1, by rw [hb], ?_, ?_⟩
      · rw [pow_succ]; omega
      · rw [pow_succ]; omega

theorem bitLength_pos (n : Nat) (hn : n ≠ 0) :
    ∃ b, bitLength n = b + 1 ∧ 2 ^ b ≤ n ∧ n < 2 ^ (b + 1) :=
  bitLengthAux_pos n n (le_refl n) hn

/-- The binade of a positive quotient: with `p` and `q` the positive and the negative part
of the exponent, `d * 2 ^ p ≤ n * 2 ^ q < 2 * (d * 2 ^ p)`. -/
theorem binadeExp_spec (n d : Nat) (hn : n ≠ 0) (hd : d ≠ 0) :
    ∃ p q : Nat, binadeExp n d = (p : Int) - (q : Int) ∧ (p = 0 ∨ q = 0) ∧
      d * 2 ^ p ≤ n * 2 ^ q ∧ n * 2 ^ q < 2 * (d * 2 ^ p) := by
  obtain ⟨a, ha, halo, hahi⟩ := bitLength_pos n hn
  obtain ⟨b, hb, hblo, hbhi⟩ := bitLength_pos d hd
  unfold binadeExp
  simp only [ha, hb]
  rw [pow_succ] at hahi hbhi
  rcases Nat.lt_or_ge a b with hab | hab
  · -- the quotient is below one
    obtain ⟨k, rfl⟩ : ∃ k, b = a + (k + 1) := ⟨b - a - 1, by omega⟩
    have he0 : ((a + 1 : Nat) : Int) - ((a + (k + 1) + 1 : Nat) : Int) = -((k + 1 : Nat) : Int) := by
      push_cast; ring
    rw [he0]
    have ht1 : (-((k + 1 : Nat) : Int)).toNat = 0 := by
      apply Int.toNat_eq_zero.mpr; omega
    have ht2 : (-(-((k + 1 : Nat) : Int))).toNat = k + 1 := by
      rw [neg_neg]; exact Int.toNat_natCast _
    rw [ht1, ht2]
    have hpw : 2 ^ (a + (k + 1)) = 2 ^ a * 2 ^ (k + 1) := pow_add 2 a (k + 1)
    rw [hpw] at hblo hbhi
    have hP : 0 < 2 ^ (k + 1) := Nat.two_pow_pos _
    have h1 : 2 ^ a * 2 ^ (k + 1) ≤ n * 2 ^ (k + 1) := Nat.mul_le_mul_right _ halo
    have h2 : n * 2 ^ (k + 1) < 2 ^ a * 2 * 2 ^ (k + 1) :=
      Nat.mul_lt_mul_of_pos_right hahi hP
    by_cases htest : d * 2 ^ 0 ≤ n * 2 ^ (k + 1)
    · rw [if_pos htest]
      refine ⟨0, k + 1, by push_cast; ring, Or.inl rfl, htest, ?_⟩
      simp only [pow_zero, mul_one]
      nlinarith
    · rw [if_neg htest]
      refine ⟨0, k + 2, by push_cast; ring, Or.inl rfl, ?_, ?_⟩
      · simp only [pow_zero, mul_one] at htest ⊢
        have : n * 2 ^ (k + 2) = 2 * (n * 2 ^ (k + 1)) := by ring
        rw [this]
        nlinarith
      · simp only [pow_zero, mul_one] at htest ⊢
        have : n * 2 ^ (k + 2) = 2 * (n * 2 ^ (k + 1)) := by ring
        rw [this]
        omega
  · -- the quotient is at least one half
    obtain ⟨k, rfl⟩ : ∃ k, a = b + k := ⟨a - b, by omega⟩
    have he0 : ((b + k + 1 : Nat) : Int) - ((b + 1 : Nat) : Int) = ((k : Nat) : Int) := by
      push_cast; ring
    rw [he0]
    have ht1 : ((k : Nat) : Int).toNat = k := Int.toNat_natCast _
    have ht2 : (-((k : Nat) : Int)).toNat = 0 := by
      apply Int.toNat_eq_zero.mpr; omega
    rw [ht1, ht2]
    have hpw : 2 ^ (b + k) = 2 ^ b * 2 ^ k := pow_add 2 b k
    rw [hpw] at halo hahi
    have hP : 0 < 2 ^ k := Nat.two_pow_pos _
    have h1 : 2 ^ b * 2 ^ k ≤ d * 2 ^ k := Nat.mul_le_mul_right _ hblo
    have h2 : d * 2 ^ k < 2 ^ b * 2 * 2 ^ k := Nat.mul_lt_mul_of_pos_right hbhi hP
    by_cases htest : d * 2 ^ k ≤ n * 2 ^ 0
    · rw [if_pos htest]
      refine ⟨k, 0, by simp, Or.inr rfl, htest, ?_⟩
      simp only [pow_zero, mul_one]
      nlinarith
    · rw [if_neg htest]
      simp only [pow_zero, mul_one] at htest
      cases k with
      | zero =>
        simp only [pow_zero, mul_one, add_zero] at halo hahi h1 h2 htest
        refine ⟨0, 1, by simp, Or.inl rfl, ?_, ?_⟩
        · simp only [pow_zero, mul_one, pow_one]
          omega
        · simp only [pow_zero, mul_one, pow_one]
          omega
      | succ j =>
        refine ⟨j, 0, by push_cast; ring, Or.inr rfl, ?_, ?_⟩
        · simp only [pow_zero, mul_one]
          have e1 : 2 ^ b * 2 ^ (j + 1) = 2 ^ b * 2 * 2 ^ j := by rw [pow_succ]; ring
          rw [e1] at halo
          have hQ : 0 < 2 ^ j := Nat.two_pow_pos _
          have h3 : d * 2 ^ j < 2 ^ b * 2 * 2 ^ j := Nat.mul_lt_mul_of_pos_right hbhi hQ
          omega
        · simp only [pow_zero, mul_one]
          have e1 : d * 2 ^ (j + 1) = 2 * (d * 2 ^ j) := by rw [pow_succ]; ring
          rw [e1] at htest
          omega

theorem roundNearestEven_ge_div (n d : Nat) : n / d ≤ roundNearestEven n d := by
  unfold roundNearestEven
  simp only
  split_ifs <;> omega

theorem roundNearestEven_le_succ_div (n d : Nat) : roundNearestEven n d ≤ n / d + 1 := by
  unfold roundNearestEven
  simp only
  split_ifs <;> omega

/-- Rounding does not go below an integer that the quotient reaches. -/
theorem roundNearestEven_lower (n d K : Nat) (hd : 0 < d) (h : K * d ≤ n) :
    K ≤ roundNearestEven n d :=
  le_trans ((Nat.le_div_iff_mul_le hd).mpr h) (roundNearestEven_ge_div n d)

/-- Rounding stays at or below `K` when the quotient is below `K + 1/2`. -/
theorem roundNearestEven_below_half (n d K : Nat) (hd : 0 < d) (h : 2 * n < (2 * K + 1) * d) :
    roundNearestEven n d ≤ K := by
  have hq : n / d ≤ K := by
    by_contra hc
    have h1 : K + 1 ≤ n / d := by omega
    have h2 : (K + 1) * d ≤ n := (Nat.le_div_iff_mul_le hd).mp h1
    nlinarith
  rcases Nat.lt_or_ge (n / d) K with hlt | hge
  · have := roundNearestEven_le_succ_div n d
    omega
  · have hqK : n / d = K := le_antisymm hq hge
    have hdm := Nat.div_add_mod n d
    rw [hqK] at hdm
    have hr : 2 * (n % d) < d := by nlinarith
    unfold roundNearestEven
    simp only [hr, if_true, hqK, le_refl]

/-- Rounding does not exceed an integer that bounds the quotient. -/
theorem roundNearestEven_upper (n d K : Nat) (hd : 0 < d) (h : n ≤ K * d) :
    roundNearestEven n d ≤ K :=
  roundNearestEven_below_half n d K hd (by nlinarith)

/-- Rounding reaches `K + 1` when the quotient is at least `K + 1/2` and `K` is odd. -/
theorem roundNearestEven_above_half_odd (n d K : Nat) (hd : 0 < d) (hK : K % 2 = 1)
    (h : (2 * K + 1) * d ≤ 2 * n) : K + 1 ≤ roundNearestEven n d := by
  have hq : K ≤ n / d := (Nat.le_div_iff_mul_le hd).mpr (by nlinarith)
  rcases Nat.lt_or_ge K (n / d) with hlt | hge
  · have := roundNearestEven_ge_div n d
    omega
  · have hqK : n / d = K := le_antisymm hge hq
    have hdm := Nat.div_add_mod n d
    rw [hqK] at hdm
    have hr : d ≤ 2 * (n % d) := by nlinarith
    unfold roundNearestEven
    simp only [hqK]
    have h1 : ¬ 2 * (n % d) < d := by omega
    simp only [h1, if_false]
    split_ifs <;> omega

/-! ## The threshold test -/

theorem THRESHOLD_eq : THRESHOLD = Double.finite 7926335344172073 (-55) := by decide

/-- The significand and exponent of a rounded positive quotient. -/
theorem roundPos_spec (n d : Nat) (hn : n ≠ 0) (hd : d ≠ 0) :
    ∃ p q M : Nat, roundPos n d = (M, (p : Int) - (q : Int) - 52) ∧ (p = 0 ∨ q = 0) ∧
      d * 2 ^ p ≤ n * 2 ^ q ∧ n * 2 ^ q < 2 * (d * 2 ^ p) ∧
      M = roundNearestEven (n * 2 ^ q * 2 ^ 52) (d * 2 ^ p) ∧
      2 ^ 52 ≤ M ∧ M ≤ 2 ^ 53 := by
  obtain ⟨p, q, he, hpq, hlo, hhi⟩ := binadeExp_spec n d hn hd
  have hp : (binadeExp n d).toNat = p := by rw [he]; omega
  have hq : (-(binadeExp n d)).toNat = q := by rw [he]; omega
  have hpos : 0 < d * 2 ^ p := Nat.mul_pos (Nat.pos_of_ne_zero hd) (Nat.two_pow_pos _)
  refine ⟨p, q, roundNearestEven (n * 2 ^ q * 2 ^ 52) (d * 2 ^ p), ?_, hpq, hlo, hhi, rfl, ?_, ?_⟩
  · unfold roundPos
    rw [he] at hp hq
    simp only [he, hp, hq]
  · apply roundNearestEven_lower _ _ _ hpos
    calc 2 ^ 52 * (d * 2 ^ p) ≤ 2 ^ 52 * (n * 2 ^ q) := Nat.mul_le_mul_left _ hlo
      _ = n * 2 ^ q * 2 ^ 52 := by ring
  · apply roundNearestEven_upper _ _ _ hpos
    calc n * 2 ^ q * 2 ^ 52 ≤ 2 * (d * 2 ^ p) * 2 ^ 52 := Nat.mul_le_mul_right _ (le_of_lt hhi)
      _ = 2 ^ 53 * (d * 2 ^ p) := by ring

/-- The threshold test on a rounded positive quotient `n / d` with `d` below `2 ^ 31`: the
rounded quotient exceeds the rounded 0.22 exactly when `n / d` exceeds 22/100. -/
theorem THRESHOLD_lt_roundPos (n d : Nat) (hn : 0 < n) (hd : 0 < d) (hd2 : d < 2 ^ 31) :
    THRESHOLD.lt (Double.finite ((roundPos n d).1 : Int) (roundPos n d).2) = true ↔
      11 * d < 50 * n := by
  obtain ⟨p, q, M, hr, hpq, hlo, hhi, hM, hMlo, hMhi⟩ :=
    roundPos_spec n d (Nat.pos_iff_ne_zero.mp hn) (Nat.pos_iff_ne_zero.mp hd)
  rw [hr, THRESHOLD_eq]
  simp only [Double.lt, decide_eq_true_eq]
  have h252 : (2 : Nat) ^ 52 = 4503599627370496 := by norm_num
  have h253 : (2 : Nat) ^ 53 = 9007199254740992 := by norm_num
  rw [h252] at hMlo
  rw [h253] at hMhi
  have hpp : 1 ≤ 2 ^ p := Nat.one_le_two_pow
  have hqq : 1 ≤ 2 ^ q := Nat.one_le_two_pow
  rcases Nat.lt_or_ge q 3 with hq3 | hq3
  · -- the quotient is at least 1/4
    have hmin : min (-55 : Int) ((p : Int) - (q : Int) - 52) = -55 := min_eq_left (by omega)
    rw [hmin]
    obtain ⟨t, ht⟩ : ∃ t : Nat, ((p : Int) - (q : Int) - 52 - (-55)).toNat = t + 1 :=
      ⟨p + 2 - q, by omega⟩
    rw [ht]
    have h0 : ((-55 : Int) - (-55)).toNat = 0 := by decide
    rw [h0]
    have hright : 11 * d < 50 * n := by
      have hq4 : 2 ^ q ≤ 2 ^ 2 := Nat.pow_le_pow_right (by norm_num) (by omega)
      have h1 : n * 2 ^ q ≤ n * 2 ^ 2 := Nat.mul_le_mul_left _ hq4
      have h2 : d * 1 ≤ d * 2 ^ p := Nat.mul_le_mul_left _ hpp
      omega
    have hleft : (7926335344172073 : Int) * 2 ^ 0 < (M : Int) * 2 ^ (t + 1) := by
      have ht1 : (1 : Int) ≤ 2 ^ t := one_le_pow₀ (by norm_num)
      have hMi : (4503599627370496 : Int) ≤ (M : Int) := by exact_mod_cast hMlo
      rw [pow_succ]
      nlinarith
    exact ⟨fun _ => hright, fun _ => hleft⟩
  · rcases hpq with hp0 | hq0
    swap
    · omega
    subst hp0
    simp only [pow_zero, mul_one] at hlo hhi hM
    rcases Nat.eq_or_lt_of_le hq3 with hq3e | hq4
    · -- the quotient lies in [1/8, 1/4), the binade of 0.22
      subst hq3e
      have hmin : min (-55 : Int) (((0 : Nat) : Int) - ((3 : Nat) : Int) - 52) = -55 := by decide
      rw [hmin]
      have h0 : ((-55 : Int) - (-55)).toNat = 0 := by decide
      have h1 : (((0 : Nat) : Int) - ((3 : Nat) : Int) - 52 - (-55)).toNat = 0 := by decide
      rw [h0, h1]
      simp only [pow_zero, mul_one]
      have h23 : (2 : Nat) ^ 3 = 8 := by norm_num
      rw [h23, h252] at hM
      constructor
      · intro hlt
        by_contra hc
        have hle : M ≤ 7926335344172073 := by
          rw [hM]
          apply roundNearestEven_below_half _ _ _ hd
          omega
        have : (M : Int) ≤ 7926335344172073 := by exact_mod_cast hle
        omega
      · intro hlt
        have hge : 7926335344172073 + 1 ≤ M := by
          rw [hM]
          apply roundNearestEven_above_half_odd _ _ _ hd (by norm_num)
          norm_num at hd2
          omega
        have : ((7926335344172073 + 1 : Nat) : Int) ≤ (M : Int) := by exact_mod_cast hge
        push_cast at this
        omega
    · -- the quotient is below 1/8
      have hmin : min (-55 : Int) (((0 : Nat) : Int) - (q : Int) - 52) =
          ((0 : Nat) : Int) - (q : Int) - 52 := min_eq_right (by omega)
      rw [hmin]
      obtain ⟨t, ht⟩ : ∃ t : Nat,
          ((-55 : Int) - (((0 : Nat) : Int) - (q : Int) - 52)).toNat = t + 1 :=
        ⟨q - 4, by omega⟩
      rw [ht]
      have h0 : ((((0 : Nat) : Int) - (q : Int) - 52) -
          (((0 : Nat) : Int) - (q : Int) - 52)).toNat = 0 := by simp
      rw [h0]
      have hright : ¬ 11 * d < 50 * n := by
        have hq4b : 2 ^ 4 ≤ 2 ^ q := Nat.pow_le_pow_right (by norm_num) (by omega)
        have h1 : n * 2 ^ 4 ≤ n * 2 ^ q := Nat.mul_le_mul_left _ hq4b
        omega
      have hleft : ¬ (7926335344172073 : Int) * 2 ^ (t + 1) < (M : Int) * 2 ^ 0 := by
        have ht1 : (1 : Int) ≤ 2 ^ t := one_le_pow₀ (by norm_num)
        have hMi : (M : Int) ≤ 9007199254740992 := by exact_mod_cast hMhi
        rw [pow_succ]
        nlinarith
      exact ⟨fun h => absurd h hleft, fun h => absurd h hright⟩

/-- The threshold test of `calculateHotColdNodes`: for an `int` count `c` and a positive
`int` maximum `m`, the quotient computed in `double` exceeds `THRESHOLD` exactly when
`c / m` exceeds 22/100. -/
theorem THRESHOLD_lt_divInt (c m : Int) (hm : 0 < m) (hm2 : m < 2 ^ 31) :
    THRESHOLD.lt ((Double.ofInt c).divInt m) = true ↔ 11 * m < 50 * c := by
  have hm0 : m ≠ 0 := by omega
  simp only [Double.ofInt, Double.divInt, hm0, if_false, Int.toNat_zero, pow_zero, mul_one,
    neg_zero]
  unfold roundRatio
  by_cases hc0 : c = 0
  · subst hc0
    simp only [if_true, THRESHOLD_eq, Double.lt]
    have : ¬ 11 * m < 50 * 0 := by omega
    simp only [this, iff_false]
    decide
  · simp only [hc0, if_false]
    rcases lt_or_gt_of_ne hc0 with hneg | hpos
    · have hsign : ¬ ((c < 0) = (m < 0)) := by
        have h1 : (c < 0) = True := eq_true hneg
        have h2 : (m < 0) = False := eq_false (by omega)
        rw [h1, h2]
        simp
      simp only [hsign, if_false, THRESHOLD_eq, Double.lt, decide_eq_true_eq]
      have hright : ¬ 11 * m < 50 * c := by omega
      have hleft : ¬ (7926335344172073 : Int) *
          2 ^ ((-55 : Int) - min (-55) (roundPos c.natAbs m.natAbs).2).toNat <
            -((roundPos c.natAbs m.natAbs).1 : Int) *
              2 ^ ((roundPos c.natAbs m.natAbs).2 -
                min (-55) (roundPos c.natAbs m.natAbs).2).toNat := by
        have h1 : (0 : Int) < 2 ^ ((-55 : Int) -
            min (-55) (roundPos c.natAbs m.natAbs).2).toNat := pow_pos (by norm_num) _
        have h2 : (0 : Int) < 2 ^ ((roundPos c.natAbs m.natAbs).2 -
            min (-55) (roundPos c.natAbs m.natAbs).2).toNat := pow_pos (by norm_num) _
        have h3 : (0 : Int) ≤ ((roundPos c.natAbs m.natAbs).1 : Int) := Int.natCast_nonneg _
        nlinarith [mul_nonneg h3 (le_of_lt h2)]
      exact ⟨fun h => absurd h hleft, fun h => absurd h hright⟩
    · have hsign : ((c < 0) = (m < 0)) := by
        have h1 : (c < 0) = False := eq_false (by omega)
        have h2 : (m < 0) = False := eq_false (by omega)
        rw [h1, h2]
      simp only [hsign, if_true]
      have hd2 : m.natAbs < 2 ^ 31 := by
        have : (2 : Int) ^ 31 = 2147483648 := by norm_num
        have h2 : (2 : Nat) ^ 31 = 2147483648 := by norm_num
        omega
      rw [THRESHOLD_lt_roundPos c.natAbs m.natAbs (by omega) (by omega) hd2]
      omega

/-! ## The fixpoint loops -/

theorem avinAvoutBlock_eq (candidates : OccSet) (gens kills : StdMap BlockName OccSet)
    (ingressEdges : List Edge) :
    avinAvoutBlock candidates gens kills ingressEdges =
      flowBlock (newAvin candidates ingressEdges) (newAvout gens kills) := rfl

theorem needBlock_eq (removables gens : StdMap BlockName OccSet) :
    needBlock removables gens = flowBlock newNeedout (newNeedin removables gens) := rfl

theorem avinAvoutLoop_eq (candidates : OccSet) (gens kills : StdMap BlockName OccSet)
    (ingressEdges : List Edge) (F : Func) (fuel : Nat) (avouts avins : StdMap BlockName OccSet) :
    avinAvoutLoop candidates gens kills ingressEdges F fuel avouts avins =
      flowLoop (newAvin candidates ingressEdges) (newAvout gens kills) F fuel avouts avins := by
  induction fuel generalizing avouts avins with
  | zero => rfl
  | succ n ih =>
    simp only [avinAvoutLoop, flowLoop, avinAvoutPass, avinAvoutBlock_eq, ih]

theorem needLoop_eq (removables gens : StdMap BlockName OccSet) (F : Func) (fuel : Nat)
    (needins needouts : StdMap BlockName OccSet) :
    needLoop removables gens F fuel needins needouts =
      flowLoop newNeedout (newNeedin removables gens) F fuel needins needouts := by
  induction fuel generalizing needins needouts with
  | zero => rfl
  | succ n ih =>
    simp only [needLoop, flowLoop, needPass, needBlock_eq, ih]

section Flow

variable (sec : StdMap BlockName OccSet → BasicBlock → OccSet)
variable (prim : BasicBlock → OccSet → OccSet)

/-- A pass leaves the secondary entry of a name alone when no block has that name. -/
theorem flowFold_secondary_frame (F : Func)
    (st : StdMap BlockName OccSet × StdMap BlockName OccSet × Bool) (k : BlockName)
    (hk : k ∉ F.names) :
    (F.foldl (flowBlock sec prim) st).2.1.get k = st.2.1.get k := by
  induction F generalizing st with
  | nil => rfl
  | cons BB tl ih =>
    simp only [Func.names, List.map_cons, List.mem_cons, not_or] at hk
    rw [List.foldl_cons, ih _ hk.2]
    simp only [flowBlock, StdMap.get_insert]
    rw [if_neg (fun h => hk.1 h.symm)]

/-- A pass that ends with `change` unset has changed no primary entry, and every block's
primary entry already was the transfer of its secondary value. -/
theorem flowFold_stable (hsec : ∀ a b BB, (∀ k, a.get k = b.get k) → sec a BB = sec b BB)
    (F : Func) (st : StdMap BlockName OccSet × StdMap BlockName OccSet × Bool)
    (h : (F.foldl (flowBlock sec prim) st).2.2 = false) :
    st.2.2 = false ∧ (∀ k, (F.foldl (flowBlock sec prim) st).1.get k = st.1.get k) ∧
      ∀ BB ∈ F, prim BB (sec st.1 BB) = st.1.get BB.name := by
  induction F generalizing st with
  | nil => exact ⟨h, fun _ => rfl, by simp⟩
  | cons BB tl ih =>
    rw [List.foldl_cons] at h ⊢
    obtain ⟨h1, h2, h3⟩ := ih _ h
    have hch : st.1.get BB.name = prim BB (sec st.1 BB) ∧ st.2.2 = false := by
      simp only [flowBlock] at h1
      by_cases hne : st.1.get BB.name ≠ prim BB (sec st.1 BB)
      · simp [hne] at h1
      · simp only [hne, if_false] at h1
        exact ⟨not_not.mp hne, h1⟩
    have hget : ∀ k, (flowBlock sec prim st BB).1.get k = st.1.get k := by
      intro k
      simp only [flowBlock, StdMap.get_insert]
      by_cases hk : BB.name = k
      · rw [if_pos hk, ← hch.1, hk]
      · rw [if_neg hk]
    refine ⟨hch.2, fun k => (h2 k).trans (hget k), ?_⟩
    intro B hB
    rcases List.mem_cons.mp hB with rfl | hB
    · exact hch.1.symm
    · rw [← hsec _ _ B hget, h3 B hB, hget]

/-- After a pass that ends with `change` unset, every block's secondary entry is the
secondary value computed from the primary map. -/
theorem flowFold_secondary (hsec : ∀ a b BB, (∀ k, a.get k = b.get k) → sec a BB = sec b BB)
    (F : Func) (st : StdMap BlockName OccSet × StdMap BlockName OccSet × Bool)
    (h : (F.foldl (flowBlock sec prim) st).2.2 = false) (hn : F.names.Nodup) :
    ∀ BB ∈ F, (F.foldl (flowBlock sec prim) st).2.1.get BB.name = sec st.1 BB := by
  induction F generalizing st with
  | nil => simp
  | cons BB tl ih =>
    simp only [Func.names, List.map_cons, List.nodup_cons] at hn
    rw [List.foldl_cons] at h ⊢
    obtain ⟨h1, h2, h3⟩ := flowFold_stable sec prim hsec tl _ h
    have hch : st.1.get BB.name = prim BB (sec st.1 BB) := by
      simp only [flowBlock] at h1
      by_cases hne : st.1.get BB.name ≠ prim BB (sec st.1 BB)
      · simp [hne] at h1
      · exact not_not.mp hne
    have hget : ∀ k, (flowBlock sec prim st BB).1.get k = st.1.get k := by
      intro k
      simp only [flowBlock, StdMap.get_insert]
      by_cases hk : BB.name = k
      · rw [if_pos hk, ← hch, hk]
      · rw [if_neg hk]
    intro B hB
    rcases List.mem_cons.mp hB with rfl | hB
    · rw [flowFold_secondary_frame sec prim tl _ _ hn.1]
      simp [flowBlock, StdMap.get_insert]
    · rw [ih _ h hn.2 B hB]
      exact hsec _ _ B hget

/-- A result of the loop is the result of a pass that ended with `change` unset. -/
theorem flowLoop_some (F : Func) (fuel : Nat) (p s p1 s1 : StdMap BlockName OccSet)
    (h : flowLoop sec prim F fuel p s = some (p1, s1)) :
    ∃ p0 s0, F.foldl (flowBlock sec prim) (p0, s0, false) = (p1, s1, false) := by
  induction fuel generalizing p s with
  | zero => simp [flowLoop] at h
  | succ n ih =>
    simp only [flowLoop] at h
    by_cases hc : (F.foldl (flowBlock sec prim) (p, s, false)).2.2 = true
    · rw [if_pos hc] at h
      exact ih _ _ h
    · rw [if_neg hc] at h
      simp only [Option.some.injEq, Prod.mk.injEq] at h
      refine ⟨p, s, ?_⟩
      have hc2 : (F.foldl (flowBlock sec prim) (p, s, false)).2.2 = false := by
        simpa using hc
      exact Prod.ext h.1 (Prod.ext h.2 hc2)

/-- What the loop returns solves the equations of the analysis at every block. -/
theorem flowLoop_fixpoint (hsec : ∀ a b BB, (∀ k, a.get k = b.get k) → sec a BB = sec b BB)
    (F : Func) (hn : F.names.Nodup) (fuel : Nat) (p s p1 s1 : StdMap BlockName OccSet)
    (h : flowLoop sec prim F fuel p s = some (p1, s1)) :
    ∀ BB ∈ F, s1.get BB.name = sec p1 BB ∧ p1.get BB.name = prim BB (s1.get BB.name) := by
  obtain ⟨p0, s0, hp⟩ := flowLoop_some sec prim F fuel p s p1 s1 h
  have hch : (F.foldl (flowBlock sec prim) (p0, s0, false)).2.2 = false := by rw [hp]
  obtain ⟨-, h2, h3⟩ := flowFold_stable sec prim hsec F _ hch
  have h4 := flowFold_secondary sec prim hsec F _ hch hn
  rw [hp] at h2 h4
  simp only at h2 h3 h4
  intro BB hBB
  have hs : s1.get BB.name = sec p1 BB := by
    rw [h4 BB hBB]
    exact hsec _ _ BB (fun k => (h2 k).symm)
  refine ⟨hs, ?_⟩
  rw [h2, ← h3 BB hBB, h4 BB hBB]

end Flow

theorem newAvin_congr (candidates : OccSet) (ingressEdges : List Edge)
    (a b : StdMap BlockName OccSet) (BB : BasicBlock) (h : ∀ k, a.get k = b.get k) :
    newAvin candidates ingressEdges a BB = newAvin candidates ingressEdges b BB := by
  unfold newAvin
  simp only [h]

theorem newNeedout_congr (a b : StdMap BlockName OccSet) (BB : BasicBlock)
    (h : ∀ k, a.get k = b.get k) : newNeedout a BB = newNeedout b BB := by
  unfold newNeedout
  simp only [h]


theorem newNeedout_mem (needins : StdMap BlockName OccSet) (BB : BasicBlock) (x : InstrId) :
    x ∈ newNeedout needins BB ↔ ∃ s ∈ BB.succs, x ∈ needins.get s := by
  unfold newNeedout
  have key : ∀ (l : List BlockName) (init : OccSet),
      x ∈ l.foldl (fun (needout : OccSet) (successor : BlockName) =>
          set_union needout (needins.get successor) needout) init ↔
        x ∈ init ∨ ∃ s ∈ l, x ∈ needins.get s := by
    intro l
    induction l with
    | nil => simp
    | cons hd tl ih =>
      intro init
      rw [List.foldl_cons, ih]
      simp only [set_union_eq, Finset.mem_union, List.mem_cons, exists_eq_or_imp]
      tauto
  rw [key]
  simp

/-! ## `calculateHotColdNodes` -/

theorem toInt32_lt (n : Nat) : toInt32 n < 2 ^ 31 := by
  unfold toInt32
  have h : n % 4294967296 < 4294967296 := Nat.mod_lt _ (by norm_num)
  simp only [show (2 : Nat) ^ 32 = 4294967296 by norm_num,
    show (2 : Nat) ^ 31 = 2147483648 by norm_num,
    show (2 : Int) ^ 32 = 4294967296 by norm_num,
    show (2 : Int) ^ 31 = 2147483648 by norm_num]
  split_ifs with h1 <;> omega

theorem toInt32_of_lt (n : Nat) (h : n < 2 ^ 31) : toInt32 n = (n : Int) := by
  unfold toInt32
  have h2 : n % 2 ^ 32 = n := Nat.mod_eq_of_lt (by
    have : (2 : Nat) ^ 31 < 2 ^ 32 := by norm_num
    omega)
  rw [h2, if_pos h]

namespace StdMap

theorem mem_keys_insert {V : Type} (m : StdMap BlockName V) (k : BlockName) (v : V)
    (x : BlockName) : x ∈ (m.insert k v).keys ↔ x = k ∨ x ∈ m.keys := by
  rw [mem_keys_iff, mem_keys_iff, find?_insert]
  by_cases h : k = x
  · simp [h]
  · have h2 : ¬ x = k := fun e => h e.symm
    simp [h, h2]

/-- Assignment keeps the keys of a map of block names in increasing order. -/
theorem insertIn_sorted {V : Type} (k : BlockName) (v : V) (l : List (BlockName × V))
    (hs : (l.map Prod.fst).Pairwise (· < ·)) :
    ((insertIn k v l).map Prod.fst).Pairwise (· < ·) := by
  induction l with
  | nil => simp [insertIn]
  | cons hd tl ih =>
    obtain ⟨k1, v1⟩ := hd
    simp only [List.map_cons, List.pairwise_cons] at hs
    simp only [insertIn]
    by_cases h1 : k1 = k
    · subst h1
      simp only [if_true, List.map_cons, List.pairwise_cons]
      exact hs
    · simp only [h1, if_false]
      by_cases h2 : compare k k1 = Ordering.lt
      · simp only [h2, if_true, List.map_cons, List.pairwise_cons, List.mem_cons]
        have hlt : k < k1 := Nat.compare_eq_lt.mp h2
        refine ⟨?_, hs⟩
        rintro a (rfl | ha)
        · exact hlt
        · exact lt_trans hlt (hs.1 a ha)
      · simp only [h2, if_false, List.map_cons, List.pairwise_cons]
        have hgt : k1 < k := by
          have hnlt : ¬ k < k1 := fun h => h2 (Nat.compare_eq_lt.mpr h)
          exact Nat.lt_of_le_of_ne (Nat.le_of_not_lt hnlt) h1
        refine ⟨?_, ih hs.2⟩
        intro a ha
        have hmem : a ∈ (StdMap.insert ⟨tl⟩ k v).keys := ha
        rw [mem_keys_insert] at hmem
        rcases hmem with rfl | hmem
        · exact hgt
        · exact hs.1 a hmem

end StdMap

/-- The first loop of `calculateHotColdNodes`, from any starting maximum. -/
theorem recordFreqs_fold (F : Func) (hn : F.names.Nodup) (freqs : StdMap BlockName Double)
    (hs : freqs.keys.Pairwise (· < ·)) (mx : Int) :
    let st := F.foldl
      (fun (st : StdMap BlockName Double × Int) BB =>
        (st.1.insert BB.name (Double.ofInt (toInt32 BB.count)),
          if toInt32 BB.count > st.2 then toInt32 BB.count else st.2))
      (freqs, mx)
    st.1.keys.Pairwise (· < ·) ∧
      (∀ BB ∈ F, st.1.find? BB.name = some (Double.ofInt (toInt32 BB.count))) ∧
      (∀ k, k ∉ F.names → st.1.find? k = freqs.find? k) ∧
      mx ≤ st.2 ∧ (∀ BB ∈ F, toInt32 BB.count ≤ st.2) ∧
      (st.2 = mx ∨ ∃ BB ∈ F, st.2 = toInt32 BB.count) := by
  induction F generalizing freqs mx with
  | nil => simp [hs]
  | cons B tl ih =>
    simp only [Func.names, List.map_cons, List.nodup_cons] at hn
    have hs2 : (freqs.insert B.name (Double.ofInt (toInt32 B.count))).keys.Pairwise (· < ·) :=
      StdMap.insertIn_sorted _ _ _ hs
    have hmx : mx ≤ (if toInt32 B.count > mx then toInt32 B.count else mx) ∧
        toInt32 B.count ≤ (if toInt32 B.count > mx then toInt32 B.count else mx) ∧
        ((if toInt32 B.count > mx then toInt32 B.count else mx) = mx ∨
          (if toInt32 B.count > mx then toInt32 B.count else mx) = toInt32 B.count) := by
      split_ifs <;> omega
    have := ih hn.2 _ hs2 (if toInt32 B.count > mx then toInt32 B.count else mx)
    simp only [List.foldl_cons] at this ⊢
    generalize (if toInt32 B.count > mx then toInt32 B.count else mx) = mx1 at hmx this ⊢
    obtain ⟨h1, h2, h3, h4, h5, h6⟩ := this
    refine ⟨h1, ?_, ?_, ?_, ?_, ?_⟩
    · intro BB hBB
      rcases List.mem_cons.mp hBB with rfl | hBB
      · rw [h3 _ hn.1, StdMap.find?_insert, if_pos rfl]
      · exact h2 BB hBB
    · intro k hk
      simp only [Func.names, List.map_cons, List.mem_cons, not_or] at hk
      rw [h3 k hk.2, StdMap.find?_insert, if_neg (fun h => hk.1 h.symm)]
    · omega
    · intro BB hBB
      rcases List.mem_cons.mp hBB with rfl | hBB
      · omega
      · exact h5 BB hBB
    · rcases h6 with h6 | ⟨BB, hBB, h6⟩
      · rcases hmx.2.2 with h7 | h7
        · exact Or.inl (h6.trans h7)
        · exact Or.inr ⟨B, List.mem_cons_self _ _, h6.trans h7⟩
      · exact Or.inr ⟨BB, List.mem_cons_of_mem _ hBB, h6⟩

/-- The second loop of `calculateHotColdNodes` in closed form. -/
theorem classifyNodes_eq (maxCount : Int) (entries : List (BlockName × Double))
    (hotNodes coldNodes : List BlockName) :
    classifyNodes maxCount entries hotNodes coldNodes =
      (entries.map (fun i => (i.1, i.2.divInt maxCount)),
        hotNodes ++ (entries.filter (fun i => THRESHOLD.lt (i.2.divInt maxCount))).map Prod.fst,
        coldNodes ++
          (entries.filter (fun i => !THRESHOLD.lt (i.2.divInt maxCount))).map Prod.fst) := by
  unfold classifyNodes
  have key : ∀ (l acc : List (BlockName × Double)) (hot cold : List BlockName),
      l.foldl
        (fun (st : List (BlockName × Double) × List BlockName × List BlockName) i =>
          if THRESHOLD.lt (i.2.divInt maxCount) then
            (st.1 ++ [(i.1, i.2.divInt maxCount)], st.2.1 ++ [i.1], st.2.2)
          else (st.1 ++ [(i.1, i.2.divInt maxCount)], st.2.1, st.2.2 ++ [i.1]))
        (acc, hot, cold) =
      (acc ++ l.map (fun i => (i.1, i.2.divInt maxCount)),
        hot ++ (l.filter (fun i => THRESHOLD.lt (i.2.divInt maxCount))).map Prod.fst,
        cold ++ (l.filter (fun i => !THRESHOLD.lt (i.2.divInt maxCount))).map Prod.fst) := by
    intro l
    induction l with
    | nil => simp
    | cons hd tl ih =>
      intro acc hot cold
      rw [List.foldl_cons]
      by_cases hc : THRESHOLD.lt (hd.2.divInt maxCount) = true
      · simp only [hc, if_true, ih]
        simp [hc]
      · simp only [hc, if_false, ih]
        simp [hc]
  simpa using key entries [] hotNodes coldNodes

/-- Splitting the entries by a test splits the occurrences of every key. -/
theorem count_filter_split (l : List (BlockName × Double)) (t : BlockName × Double → Bool)
    (k : BlockName) :
    ((l.filter t).map Prod.fst ++ (l.filter (fun i => !t i)).map Prod.fst).count k =
      (l.map Prod.fst).count k := by
  induction l with
  | nil => simp
  | cons hd tl ih =>
    rw [List.count_append] at ih ⊢
    cases h : t hd with
    | true =>
      simp only [List.filter_cons, h, if_true, Bool.not_true, Bool.false_eq_true, if_false,
        List.map_cons, List.count_cons]
      omega
    | false =>
      simp only [List.filter_cons, h, Bool.false_eq_true, if_false, Bool.not_false, if_true,
        List.map_cons, List.count_cons]
      omega

/-- The classification that `calculateHotColdNodes` makes, in terms of the `int` counts it
reads: when the maximum `maxCount` it finds is positive, every block of the function is
listed exactly once in `hotNodes` and `coldNodes` together, and it is in `hotNodes` exactly
when its `int` count divided by `maxCount` exceeds 22/100. -/
theorem calculateHotColdNodes_int (F : Func) (hn : F.names.Nodup)
    (hmax : 0 < (calculateHotColdNodes F StdMap.empty [] []).2.2.2) (BB : BasicBlock)
    (hBB : BB ∈ F) :
    ((calculateHotColdNodes F StdMap.empty [] []).2.1 ++
        (calculateHotColdNodes F StdMap.empty [] []).2.2.1).count BB.name = 1 ∧
      (BB.name ∈ (calculateHotColdNodes F StdMap.empty [] []).2.1 ↔
        11 * (calculateHotColdNodes F StdMap.empty [] []).2.2.2 < 50 * toInt32 BB.count) ∧
      (∀ B ∈ F, toInt32 B.count ≤ (calculateHotColdNodes F StdMap.empty [] []).2.2.2) ∧
      (∃ B ∈ F, (calculateHotColdNodes F StdMap.empty [] []).2.2.2 = toInt32 B.count) := by
  have hrec := recordFreqs_fold F hn StdMap.empty (by simp [StdMap.keys, StdMap.empty]) (-1)
  simp only at hrec
  obtain ⟨h1, h2, -, -, h5, h6⟩ := hrec
  unfold calculateHotColdNodes at hmax ⊢
  simp only [classifyNodes_eq, List.nil_append] at hmax ⊢
  unfold recordFreqs at hmax ⊢
  set st := F.foldl
      (fun (st : StdMap BlockName Double × Int) BB =>
        (st.1.insert BB.name (Double.ofInt (toInt32 BB.count)),
          if toInt32 BB.count > st.2 then toInt32 BB.count else st.2))
      (StdMap.empty, -1) with hst
  have hex : ∃ B ∈ F, st.2 = toInt32 B.count := by
    rcases h6 with h6 | h6
    · omega
    · exact h6
  have hlt : st.2 < 2 ^ 31 := by
    obtain ⟨B, -, hB⟩ := hex
    rw [hB]
    exact toInt32_lt _
  have hnodup : st.1.keys.Nodup := h1.imp (fun h => Nat.ne_of_lt h)
  have hfind := h2 BB hBB
  have hmem : (BB.name, Double.ofInt (toInt32 BB.count)) ∈ st.1.entries :=
    StdMap.mem_of_findIn _ _ _ hfind
  refine ⟨?_, ?_, h5, hex⟩
  · rw [count_filter_split]
    exact List.count_eq_one_of_mem hnodup (List.mem_map.mpr ⟨_, hmem, rfl⟩)
  · rw [← THRESHOLD_lt_divInt (toInt32 BB.count) st.2 hmax hlt]
    simp only [List.mem_map, List.mem_filter, Prod.exists, exists_and_right, exists_eq_right]
    constructor
    · rintro ⟨x, hx, hx2⟩
      have hfx : st.1.find? BB.name = some x := StdMap.findIn_of_mem _ hnodup _ _ hx
      rw [hfind] at hfx
      simp only [Option.some.injEq] at hfx
      rw [hfx]
      exact hx2
    · intro h
      exact ⟨_, hmem, h⟩

/-- The maximum that `calculateHotColdNodes` finds bounds every block's `int` count, and is
-1 or the `int` count of a block. -/
theorem calculateHotColdNodes_maxCount (F : Func) (hn : F.names.Nodup) :
    (∀ B ∈ F, toInt32 B.count ≤ (calculateHotColdNodes F StdMap.empty [] []).2.2.2) ∧
      ((calculateHotColdNodes F StdMap.empty [] []).2.2.2 = -1 ∨
        ∃ B ∈ F, (calculateHotColdNodes F StdMap.empty [] []).2.2.2 = toInt32 B.count) := by
  have hrec := recordFreqs_fold F hn StdMap.empty (by simp [StdMap.keys, StdMap.empty]) (-1)
  simp only at hrec
  obtain ⟨-, -, -, -, h5, h6⟩ := hrec
  exact ⟨h5, h6⟩

/-- The largest block count bounds every block's count. -/
theorem le_maxBlockCount (F : Func) (B : BasicBlock) (hB : B ∈ F) :
    B.count ≤ maxBlockCount F := by
  unfold maxBlockCount
  have key : ∀ (l : List BasicBlock) (m : Nat),
      m ≤ l.foldl (fun m BB => max m BB.count) m ∧
        ∀ B ∈ l, B.count ≤ l.foldl (fun m BB => max m BB.count) m := by
    intro l
    induction l with
    | nil => simp
    | cons hd tl ih =>
      intro m
      rw [List.foldl_cons]
      obtain ⟨h1, h2⟩ := ih (max m hd.count)
      refine ⟨le_trans (le_max_left _ _) h1, ?_⟩
      intro B hB
      rcases List.mem_cons.mp hB with rfl | hB
      · exact le_trans (le_max_right _ _) h1
      · exact h2 B hB
  exact (key F 0).2 B hB

/-- The largest block count is zero or the count of a block. -/
theorem maxBlockCount_attained (F : Func) :
    maxBlockCount F = 0 ∨ ∃ B ∈ F, maxBlockCount F = B.count := by
  unfold maxBlockCount
  have key : ∀ (l : List BasicBlock) (m : Nat),
      l.foldl (fun m BB => max m BB.count) m = m ∨
        ∃ B ∈ l, l.foldl (fun m BB => max m BB.count) m = B.count := by
    intro l
    induction l with
    | nil => simp
    | cons hd tl ih =>
      intro m
      rw [List.foldl_cons]
      rcases ih (max m hd.count) with h | ⟨B, hB, h⟩
      · rcases le_total m hd.count with hle | hle
        · rw [max_eq_right hle] at h ⊢
          exact Or.inr ⟨hd, List.mem_cons_self _ _, h⟩
        · rw [max_eq_left hle] at h ⊢
          exact Or.inl h
      · exact Or.inr ⟨B, List.mem_cons_of_mem _ hB, h⟩
  exact key F 0

/-- The classification of `calculateHotColdNodes` for counts that fit an `int`: when every
block count is below `2 ^ 31` and the maximum block count is positive, every block is listed
exactly once in `hotNodes` and `coldNodes` together, and it is in `hotNodes` if and only if
its count divided by the maximum block count is strictly greater than 0.22. -/
theorem calculateHotColdNodes_threshold (F : Func) (hn : F.names.Nodup)
    (hr : ∀ B ∈ F, B.count < 2 ^ 31) (hpos : 0 < maxBlockCount F) (BB : BasicBlock)
    (hBB : BB ∈ F) :
    ((calculateHotColdNodes F StdMap.empty [] []).2.1 ++
        (calculateHotColdNodes F StdMap.empty [] []).2.2.1).count BB.name = 1 ∧
      (BB.name ∈ (calculateHotColdNodes F StdMap.empty [] []).2.1 ↔ hotSpec F BB = true) := by
  obtain ⟨hle, hatt⟩ := calculateHotColdNodes_maxCount F hn
  have hmc : (calculateHotColdNodes F StdMap.empty [] []).2.2.2 = (maxBlockCount F : Int) := by
    rcases maxBlockCount_attained F with h0 | ⟨Bm, hBm, hm⟩
    · omega
    · have h1 := hle Bm hBm
      rw [toInt32_of_lt _ (hr Bm hBm), ← hm] at h1
      rcases hatt with h | ⟨B, hB, h⟩
      · omega
      · rw [h, toInt32_of_lt _ (hr B hB)] at h1 ⊢
        have h2 := le_maxBlockCount F B hB
        omega
  have hmax : 0 < (calculateHotColdNodes F StdMap.empty [] []).2.2.2 := by
    rw [hmc]; exact_mod_cast hpos
  obtain ⟨h1, h2, -, -⟩ := calculateHotColdNodes_int F hn hmax BB hBB
  refine ⟨h1, ?_⟩
  rw [h2, hmc, toInt32_of_lt _ (hr BB hBB)]
  simp only [hotSpec, decide_eq_true_eq]
  constructor
  · intro h
    have h3 : 11 * maxBlockCount F < 50 * BB.count := by exact_mod_cast h
    omega
  · intro h
    have h3 : 11 * maxBlockCount F < 50 * BB.count := by omega
    exact_mod_cast h3

/-! ## Termination of the fixpoint loops -/

theorem StdMap.get_subset_unionAll (m : StdMap BlockName OccSet) (k : BlockName) :
    m.get k ⊆ m.unionAll := by
  unfold StdMap.get StdMap.unionAll StdMap.find?
  have key : ∀ (l : List (BlockName × OccSet)) (acc : OccSet),
      acc ⊆ l.foldl (fun acc e => acc ∪ e.2) acc ∧
        (StdMap.findIn l k).getD ∅ ⊆ l.foldl (fun acc e => acc ∪ e.2) acc := by
    intro l
    induction l with
    | nil => intro acc; simp [StdMap.findIn]
    | cons hd tl ih =>
      intro acc
      obtain ⟨k1, v1⟩ := hd
      obtain ⟨h1, h2⟩ := ih (acc ∪ v1)
      rw [List.foldl_cons]
      refine ⟨fun x hx => h1 (Finset.mem_union_left _ hx), ?_⟩
      by_cases hk : k1 = k
      · simp only [StdMap.findIn, hk, if_true, Option.getD_some]
        exact fun x hx => h1 (Finset.mem_union_right _ hx)
      · simp only [StdMap.findIn, hk, if_false]
        exact h2
  exact (key m.entries ∅).2

theorem flowMeasure_le (F : Func) (p q : StdMap BlockName OccSet)
    (h : ∀ k, p.get k ⊆ q.get k) : flowMeasure F p ≤ flowMeasure F q :=
  List.sum_le_sum (fun BB _ => Finset.card_le_card (h BB.name))

theorem flowMeasure_lt (F : Func) (p q : StdMap BlockName OccSet)
    (h : ∀ k, p.get k ⊆ q.get k) (BB : BasicBlock) (hBB : BB ∈ F)
    (hne : p.get BB.name ≠ q.get BB.name) : flowMeasure F p < flowMeasure F q :=
  List.sum_lt_sum _ _ (fun B _ => Finset.card_le_card (h B.name))
    ⟨BB, hBB, Finset.card_lt_card (Finset.ssubset_iff_subset_ne.mpr ⟨h BB.name, hne⟩)⟩

theorem flowMeasure_bound (F : Func) (p : StdMap BlockName OccSet) (U : OccSet)
    (h : ∀ k, p.get k ⊆ U) : flowMeasure F p ≤ F.length * U.card := by
  unfold flowMeasure
  have := List.sum_le_card_nsmul (F.map (fun BB => (p.get BB.name).card)) U.card
    (by
      intro x hx
      obtain ⟨BB, -, rfl⟩ := List.mem_map.mp hx
      exact Finset.card_le_card (h BB.name))
  simpa using this

section Termination

variable (sec : StdMap BlockName OccSet → BasicBlock → OccSet)
variable (prim : BasicBlock → OccSet → OccSet)

/-- One pass from a bounded map that every transfer can only enlarge: the map stays bounded
and enlargeable, no entry shrinks, and when `change` is raised the map has grown. -/
theorem flowFold_grows
    (hsec : ∀ a b BB, (∀ k, a.get k ⊆ b.get k) → sec a BB ⊆ sec b BB)
    (hprim : ∀ BB s t, s ⊆ t → prim BB s ⊆ prim BB t) (U : OccSet)
    (hU : ∀ a BB, (∀ k, a.get k ⊆ U) → prim BB (sec a BB) ⊆ U)
    (F : Func) (hn : F.names.Nodup) (l : List BasicBlock) (hl : ∀ BB ∈ l, BB ∈ F)
    (st : StdMap BlockName OccSet × StdMap BlockName OccSet × Bool)
    (hb : ∀ k, st.1.get k ⊆ U) (hpre : ∀ BB ∈ F, st.1.get BB.name ⊆ prim BB (sec st.1 BB)) :
    (∀ k, (l.foldl (flowBlock sec prim) st).1.get k ⊆ U) ∧
      (∀ BB ∈ F, (l.foldl (flowBlock sec prim) st).1.get BB.name ⊆
        prim BB (sec (l.foldl (flowBlock sec prim) st).1 BB)) ∧
      (∀ k, st.1.get k ⊆ (l.foldl (flowBlock sec prim) st).1.get k) ∧
      ((l.foldl (flowBlock sec prim) st).2.2 = true →
        st.2.2 = true ∨ flowMeasure F st.1 < flowMeasure F (l.foldl (flowBlock sec prim) st).1) := by
  induction l generalizing st with
  | nil => exact ⟨hb, hpre, fun _ => Finset.Subset.refl _, fun h => Or.inl h⟩
  | cons BB tl ih =>
    have hBB : BB ∈ F := hl BB (List.mem_cons_self _ _)
    have hstep : ∀ k, st.1.get k ⊆ (flowBlock sec prim st BB).1.get k := by
      intro k
      simp only [flowBlock, StdMap.get_insert]
      by_cases hk : BB.name = k
      · rw [if_pos hk, ← hk]
        exact hpre BB hBB
      · rw [if_neg hk]
    have hb1 : ∀ k, (flowBlock sec prim st BB).1.get k ⊆ U := by
      intro k
      simp only [flowBlock, StdMap.get_insert]
      by_cases hk : BB.name = k
      · rw [if_pos hk]
        exact hU _ _ hb
      · rw [if_neg hk]
        exact hb k
    have hpre1 : ∀ B ∈ F, (flowBlock sec prim st BB).1.get B.name ⊆
        prim B (sec (flowBlock sec prim st BB).1 B) := by
      intro B hB
      have hmono : prim B (sec st.1 B) ⊆ prim B (sec (flowBlock sec prim st BB).1 B) :=
        hprim _ _ _ (hsec _ _ _ hstep)
      by_cases hk : BB.name = B.name
      · have hBe : BB = B := block_eq_of_name F hn BB B hBB hB hk
        subst hBe
        have hval : (flowBlock sec prim st BB).1.get BB.name = prim BB (sec st.1 BB) := by
          simp [flowBlock, StdMap.get_insert]
        rw [hval]
        exact hmono
      · have hval : (flowBlock sec prim st BB).1.get B.name = st.1.get B.name := by
          simp [flowBlock, StdMap.get_insert, hk]
        rw [hval]
        exact (hpre B hB).trans hmono
    obtain ⟨h1, h2, h3, h4⟩ :=
      ih (fun B hB => hl B (List.mem_cons_of_mem _ hB)) (flowBlock sec prim st BB) hb1 hpre1
    rw [List.foldl_cons]
    refine ⟨h1, h2, fun k => (hstep k).trans (h3 k), ?_⟩
    intro hc
    rcases h4 hc with hch | hlt
    · by_cases hne : st.1.get BB.name ≠ prim BB (sec st.1 BB)
      · right
        have hval : (flowBlock sec prim st BB).1.get BB.name = prim BB (sec st.1 BB) := by
          simp [flowBlock, StdMap.get_insert]
        have hlt1 : flowMeasure F st.1 < flowMeasure F (flowBlock sec prim st BB).1 :=
          flowMeasure_lt F _ _ hstep BB hBB (by rw [hval]; exact hne)
        exact lt_of_lt_of_le hlt1 (flowMeasure_le F _ _ h3)
      · left
        simp only [flowBlock, hne, if_false] at hch
        exact hch
    · right
      exact lt_of_le_of_lt (flowMeasure_le F _ _ hstep) hlt

/-- The loop returns: from a bounded map that every transfer can only enlarge, it stops
within `n + 1` passes when the map can grow by at most `n` elements. -/
theorem flowLoop_terminates
    (hsec : ∀ a b BB, (∀ k, a.get k ⊆ b.get k) → sec a BB ⊆ sec b BB)
    (hprim : ∀ BB s t, s ⊆ t → prim BB s ⊆ prim BB t) (U : OccSet)
    (hU : ∀ a BB, (∀ k, a.get k ⊆ U) → prim BB (sec a BB) ⊆ U)
    (F : Func) (hn : F.names.Nodup) (n : Nat) (p s : StdMap BlockName OccSet)
    (hb : ∀ k, p.get k ⊆ U) (hpre : ∀ BB ∈ F, p.get BB.name ⊆ prim BB (sec p BB))
    (hroom : F.length * U.card ≤ flowMeasure F p + n) :
    ∃ fuel, fuel ≤ n + 1 ∧ ∃ r, flowLoop sec prim F fuel p s = some r := by
  induction n generalizing p s with
  | zero =>
    obtain ⟨h1, -, -, h4⟩ := flowFold_grows sec prim hsec hprim U hU F hn F (fun _ h => h)
      (p, s, false) hb hpre
    refine ⟨1, le_refl _, ?_⟩
    by_cases hc : (F.foldl (flowBlock sec prim) (p, s, false)).2.2 = true
    · rcases h4 hc with hf | hlt
      · simp at hf
      · have := flowMeasure_bound F _ U h1
        simp only at hlt
        omega
    · exact ⟨_, by simp only [flowLoop, hc]; rfl⟩
  | succ m ih =>
    obtain ⟨h1, h2, -, h4⟩ := flowFold_grows sec prim hsec hprim U hU F hn F (fun _ h => h)
      (p, s, false) hb hpre
    by_cases hc : (F.foldl (flowBlock sec prim) (p, s, false)).2.2 = true
    · rcases h4 hc with hf | hlt
      · simp at hf
      · simp only at hlt
        obtain ⟨fuel, hfuel, r, hr⟩ := ih (F.foldl (flowBlock sec prim) (p, s, false)).1
          (F.foldl (flowBlock sec prim) (p, s, false)).2.1 h1 h2 (by omega)
        refine ⟨fuel + 1, by omega, r, ?_⟩
        simp only [flowLoop, hc, if_true]
        exact hr
    · exact ⟨1, by omega, _, by simp only [flowLoop, hc]; rfl⟩

end Termination

/-- The initialisation loop of both analyses: the names of the function read as empty, the
other names are untouched. -/
theorem initEmpty_get (F : Func) (m : StdMap BlockName OccSet) (k : BlockName) :
    (F.foldl (fun m BB => m.insert BB.name ∅) m).get k =
      if k ∈ F.names then ∅ else m.get k := by
  induction F generalizing m with
  | nil => simp [Func.names]
  | cons BB tl ih =>
    rw [List.foldl_cons, ih]
    simp only [Func.names, List.map_cons, List.mem_cons]
    by_cases h1 : k ∈ List.map BasicBlock.name tl
    · simp [Func.names, h1]
    · by_cases h2 : k = BB.name
      · simp [Func.names, h1, h2, StdMap.get_insert]
      · have h3 : ¬ BB.name = k := fun e => h2 e.symm
        simp [Func.names, h1, h2, h3, StdMap.get_insert]

/-- The predecessor loop of `fillAvinAvouts` yields the contribution of the first
predecessor: CANDIDATE when the edge from it is an ingress edge, its AVOUT otherwise, and
the empty set for a block without predecessors. -/
theorem newAvin_eq_first (candidates : OccSet) (ingressEdges : List Edge)
    (avouts : StdMap BlockName OccSet) (BB : BasicBlock) :
    newAvin candidates ingressEdges avouts BB =
      match BB.preds with
      | [] => ∅
      | p :: _ => if (p, BB.name) ∈ ingressEdges then candidates else avouts.get p := by
  unfold newAvin
  have key : ∀ (l : List BlockName) (s : OccSet),
      (l.foldl
        (fun (st : OccSet × Bool) (predecessor : BlockName) =>
          if st.2 then
            (set_intersection st.1
              (if (predecessor, BB.name) ∈ ingressEdges then candidates
               else avouts.get predecessor) st.1, true)
          else
            (if (predecessor, BB.name) ∈ ingressEdges then candidates
             else avouts.get predecessor, true))
        (s, true)).1 = s := by
    intro l
    induction l with
    | nil => intro s; rfl
    | cons hd tl ih =>
      intro s
      rw [List.foldl_cons]
      simp only [if_true, set_intersection_eq]
      rw [Finset.union_eq_left.mpr Finset.inter_subset_left]
      exact ih s
  cases hp : BB.preds with
  | nil => rfl
  | cons p ps =>
    rw [List.foldl_cons]
    simp only [Bool.false_eq_true, if_false]
    exact key ps _

theorem newAvout_mem (gens kills : StdMap BlockName OccSet) (BB : BasicBlock) (s : OccSet)
    (x : InstrId) :
    x ∈ newAvout gens kills BB s ↔ (x ∈ s ∧ x ∉ kills.get BB.name) ∨ x ∈ gens.get BB.name := by
  simp only [newAvout, set_difference_eq, set_union_eq, Finset.mem_union, Finset.mem_sdiff,
    Finset.not_mem_empty, false_or]
  tauto

theorem newNeedin_mem (removables gens : StdMap BlockName OccSet) (BB : BasicBlock)
    (s : OccSet) (x : InstrId) :
    x ∈ newNeedin removables gens BB s ↔
      (x ∈ s ∧ x ∉ gens.get BB.name) ∨ x ∈ removables.get BB.name := by
  simp only [newNeedin, set_difference_eq, set_union_eq, Finset.mem_union, Finset.mem_sdiff,
    Finset.not_mem_empty, false_or]
  tauto

/-- The loop of `fillAvinAvouts` returns, within a number of passes bounded by the number of
blocks times the number of occurrences that can appear, plus one. -/
theorem fillAvinAvouts_returns (candidates : OccSet) (gens kills : StdMap BlockName OccSet)
    (ingressEdges : List Edge) (avouts0 avins0 : StdMap BlockName OccSet) (F : Func)
    (hn : F.names.Nodup) :
    ∃ fuel, fuel ≤ F.length * (candidates ∪ gens.unionAll ∪ avouts0.unionAll).card + 1 ∧
      ∃ r, fillAvinAvouts fuel candidates gens kills ingressEdges avouts0 avins0 F = some r := by
  unfold fillAvinAvouts
  simp only [avinAvoutLoop_eq]
  apply flowLoop_terminates _ _ ?_ ?_ (candidates ∪ gens.unionAll ∪ avouts0.unionAll) ?_ F hn
  · intro k
    rw [initEmpty_get]
    split_ifs
    · exact Finset.empty_subset _
    · exact (StdMap.get_subset_unionAll avouts0 k).trans Finset.subset_union_right
  · intro BB hBB
    have hmem : BB.name ∈ F.names := List.mem_map.mpr ⟨BB, hBB, rfl⟩
    rw [initEmpty_get, if_pos hmem]
    exact Finset.empty_subset _
  · omega
  · intro a b BB hab
    rw [newAvin_eq_first, newAvin_eq_first]
    cases BB.preds with
    | nil => exact Finset.Subset.refl _
    | cons p ps =>
      simp only
      split_ifs
      · exact Finset.Subset.refl _
      · exact hab p
  · intro BB s t hst x hx
    rw [newAvout_mem] at hx ⊢
    rcases hx with ⟨h1, h2⟩ | h
    · exact Or.inl ⟨hst h1, h2⟩
    · exact Or.inr h
  · intro a BB ha x hx
    rw [newAvout_mem, newAvin_eq_first] at hx
    rcases hx with ⟨h1, -⟩ | h
    · cases hp : BB.preds with
      | nil => rw [hp] at h1; simp at h1
      | cons p ps =>
        rw [hp] at h1
        simp only at h1
        split_ifs at h1
        · exact Finset.mem_union_left _ (Finset.mem_union_left _ h1)
        · exact ha p h1
    · exact Finset.mem_union_left _
        (Finset.mem_union_right _ (StdMap.get_subset_unionAll gens BB.name h))

/-- The loop of `compute_needin_needout` returns, within a number of passes bounded by the
number of blocks times the number of occurrences that can appear, plus one. -/
theorem compute_needin_needout_returns (removables gens needins0 needouts0 :
    StdMap BlockName OccSet) (F : Func) (hn : F.names.Nodup) :
    ∃ fuel, fuel ≤ F.length * (removables.unionAll ∪ needins0.unionAll).card + 1 ∧
      ∃ r, compute_needin_needout fuel removables gens needins0 needouts0 F = some r := by
  unfold compute_needin_needout
  simp only [needLoop_eq]
  apply flowLoop_terminates _ _ ?_ ?_ (removables.unionAll ∪ needins0.unionAll) ?_ F hn
  · intro k
    rw [initEmpty_get]
    split_ifs
    · exact Finset.empty_subset _
    · exact (StdMap.get_subset_unionAll needins0 k).trans Finset.subset_union_right
  · intro BB hBB
    have hmem : BB.name ∈ F.names := List.mem_map.mpr ⟨BB, hBB, rfl⟩
    rw [initEmpty_get, if_pos hmem]
    exact Finset.empty_subset _
  · omega
  · intro a b BB hab x hx
    rw [newNeedout_mem] at hx ⊢
    obtain ⟨s, hs, hx⟩ := hx
    exact ⟨s, hs, hab s hx⟩
  · intro BB s t hst x hx
    rw [newNeedin_mem] at hx ⊢
    rcases hx with ⟨h1, h2⟩ | h
    · exact Or.inl ⟨hst h1, h2⟩
    · exact Or.inr h
  · intro a BB ha x hx
    rw [newNeedin_mem, newNeedout_mem] at hx
    rcases hx with ⟨⟨s, -, h1⟩, -⟩ | h
    · exact ha s h1
    · exact Finset.mem_union_left _ (StdMap.get_subset_unionAll removables BB.name h)

/-! ## `calculateIngressEdges` -/

/-- The loop of `calculateIngressEdges` appends the cold edges that pass its test. -/
theorem calculateIngressEdges_eq_filter (coldEdges : List Edge)
    (hotNodes coldNodes : List BlockName) (ingressEdges : List Edge) :
    calculateIngressEdges coldEdges hotNodes coldNodes ingressEdges =
      ingressEdges ++
        coldEdges.filter (fun i => decide (i.1 ∈ coldNodes ∧ i.2 ∈ hotNodes)) := by
  unfold calculateIngressEdges
  induction coldEdges generalizing ingressEdges with
  | nil => simp
  | cons hd tl ih =>
    rw [List.foldl_cons, ih]
    by_cases h : hd.1 ∈ coldNodes ∧ hd.2 ∈ hotNodes
    · simp [h, List.filter_cons]
    · simp [h, List.filter_cons]

/-! ## The passes of the fixpoint loops -/

theorem avinAvoutAfter_eq (candidates : OccSet) (gens kills : StdMap BlockName OccSet)
    (ingressEdges : List Edge) (F : Func) (n : Nat) (avouts avins : StdMap BlockName OccSet) :
    avinAvoutAfter candidates gens kills ingressEdges F n avouts avins =
      flowAfter (newAvin candidates ingressEdges) (newAvout gens kills) F n avouts avins := by
  induction n generalizing avouts avins with
  | zero => rfl
  | succ n ih =>
    simp only [avinAvoutAfter, flowAfter, avinAvoutPass, avinAvoutBlock_eq, ih]

theorem needAfter_eq (removables gens : StdMap BlockName OccSet) (F : Func) (n : Nat)
    (needins needouts : StdMap BlockName OccSet) :
    needAfter removables gens F n needins needouts =
      flowAfter newNeedout (newNeedin removables gens) F n needins needouts := by
  induction n generalizing needins needouts with
  | zero => rfl
  | succ n ih =>
    simp only [needAfter, flowAfter, needPass, needBlock_eq, ih]

theorem avinAvoutPass_eq (candidates : OccSet) (gens kills : StdMap BlockName OccSet)
    (ingressEdges : List Edge) (F : Func) (avouts avins : StdMap BlockName OccSet) :
    avinAvoutPass candidates gens kills ingressEdges avouts avins F =
      F.foldl (flowBlock (newAvin candidates ingressEdges) (newAvout gens kills))
        (avouts, avins, false) := by
  simp only [avinAvoutPass, avinAvoutBlock_eq]

theorem needPass_eq (removables gens : StdMap BlockName OccSet) (F : Func)
    (needins needouts : StdMap BlockName OccSet) :
    needPass removables gens needins needouts F =
      F.foldl (flowBlock newNeedout (newNeedin removables gens)) (needins, needouts, false) := by
  simp only [needPass, needBlock_eq]

section Passes

variable (sec : StdMap BlockName OccSet → BasicBlock → OccSet)
variable (prim : BasicBlock → OccSet → OccSet)

/-- More fuel does not change what the loop returns. -/
theorem flowLoop_fuel_mono (F : Func) (fuel k : Nat) (p s : StdMap BlockName OccSet)
    (r : StdMap BlockName OccSet × StdMap BlockName OccSet)
    (h : flowLoop sec prim F fuel p s = some r) :
    flowLoop sec prim F (fuel + k) p s = some r := by
  induction fuel generalizing p s with
  | zero => simp [flowLoop] at h
  | succ n ih =>
    rw [Nat.succ_add]
    simp only [flowLoop] at h ⊢
    by_cases hc : (F.foldl (flowBlock sec prim) (p, s, false)).2.2 = true
    · rw [if_pos hc] at h ⊢
      exact ih _ _ h
    · rw [if_neg hc] at h ⊢
      exact h

/-- The state after one more pass. -/
theorem flowAfter_succ (F : Func) (n : Nat) (p s : StdMap BlockName OccSet) :
    flowAfter sec prim F (n + 1) p s =
      ((F.foldl (flowBlock sec prim)
          ((flowAfter sec prim F n p s).1, (flowAfter sec prim F n p s).2, false)).1,
        (F.foldl (flowBlock sec prim)
          ((flowAfter sec prim F n p s).1, (flowAfter sec prim F n p s).2, false)).2.1) := by
  induction n generalizing p s with
  | zero => rfl
  | succ n ih =>
    rw [flowAfter, ih]
    rfl

/-- The loop returns with `n + 1` passes when the map can grow by at most `n` elements. -/
theorem flowLoop_returns_within
    (hsec : ∀ a b BB, (∀ k, a.get k ⊆ b.get k) → sec a BB ⊆ sec b BB)
    (hprim : ∀ BB s t, s ⊆ t → prim BB s ⊆ prim BB t) (U : OccSet)
    (hU : ∀ a BB, (∀ k, a.get k ⊆ U) → prim BB (sec a BB) ⊆ U)
    (F : Func) (hn : F.names.Nodup) (n : Nat) (p s : StdMap BlockName OccSet)
    (hb : ∀ k, p.get k ⊆ U) (hpre : ∀ BB ∈ F, p.get BB.name ⊆ prim BB (sec p BB))
    (hroom : F.length * U.card ≤ flowMeasure F p + n) :
    ∃ r, flowLoop sec prim F (n + 1) p s = some r := by
  obtain ⟨fuel, hle, r, hr⟩ :=
    flowLoop_terminates sec prim hsec hprim U hU F hn n p s hb hpre hroom
  refine ⟨r, ?_⟩
  have := flowLoop_fuel_mono sec prim F fuel (n + 1 - fuel) p s r hr
  rwa [Nat.add_sub_cancel' hle] at this

/-- What the loop returns stays inside the universe. -/
theorem flowLoop_bounded
    (hsec : ∀ a b BB, (∀ k, a.get k ⊆ b.get k) → sec a BB ⊆ sec b BB)
    (hprim : ∀ BB s t, s ⊆ t → prim BB s ⊆ prim BB t) (U : OccSet)
    (hU : ∀ a BB, (∀ k, a.get k ⊆ U) → prim BB (sec a BB) ⊆ U)
    (F : Func) (hn : F.names.Nodup) (fuel : Nat) (p s p1 s1 : StdMap BlockName OccSet)
    (hb : ∀ k, p.get k ⊆ U) (hpre : ∀ BB ∈ F, p.get BB.name ⊆ prim BB (sec p BB))
    (h : flowLoop sec prim F fuel p s = some (p1, s1)) :
    ∀ k, p1.get k ⊆ U := by
  induction fuel generalizing p s with
  | zero => simp [flowLoop] at h
  | succ n ih =>
    obtain ⟨h1, h2, -, -⟩ := flowFold_grows sec prim hsec hprim U hU F hn F (fun _ h => h)
      (p, s, false) hb hpre
    simp only [flowLoop] at h
    by_cases hc : (F.foldl (flowBlock sec prim) (p, s, false)).2.2 = true
    · rw [if_pos hc] at h
      exact ih _ _ h1 h2 h
    · rw [if_neg hc] at h
      simp only [Option.some.injEq, Prod.mk.injEq] at h
      rw [← h.1]
      exact h1

/-- The maps after any number of passes stay inside the universe, and every transfer can
still only enlarge them. -/
theorem flowAfter_invariant
    (hsec : ∀ a b BB, (∀ k, a.get k ⊆ b.get k) → sec a BB ⊆ sec b BB)
    (hprim : ∀ BB s t, s ⊆ t → prim BB s ⊆ prim BB t) (U : OccSet)
    (hU : ∀ a BB, (∀ k, a.get k ⊆ U) → prim BB (sec a BB) ⊆ U)
    (F : Func) (hn : F.names.Nodup) (n : Nat) (p s : StdMap BlockName OccSet)
    (hb : ∀ k, p.get k ⊆ U) (hpre : ∀ BB ∈ F, p.get BB.name ⊆ prim BB (sec p BB)) :
    (∀ k, (flowAfter sec prim F n p s).1.get k ⊆ U) ∧
      ∀ BB ∈ F, (flowAfter sec prim F n p s).1.get BB.name ⊆
        prim BB (sec (flowAfter sec prim F n p s).1 BB) := by
  induction n generalizing p s with
  | zero => exact ⟨hb, hpre⟩
  | succ n ih =>
    obtain ⟨h1, h2, -, -⟩ := flowFold_grows sec prim hsec hprim U hU F hn F (fun _ h => h)
      (p, s, false) hb hpre
    exact ih _ _ h1 h2

/-- A pass that reports a change shrinks no set and strictly enlarges the set of some
block. -/
theorem flowPass_enlarges
    (hsec : ∀ a b BB, (∀ k, a.get k ⊆ b.get k) → sec a BB ⊆ sec b BB)
    (hprim : ∀ BB s t, s ⊆ t → prim BB s ⊆ prim BB t) (U : OccSet)
    (hU : ∀ a BB, (∀ k, a.get k ⊆ U) → prim BB (sec a BB) ⊆ U)
    (F : Func) (hn : F.names.Nodup) (p s : StdMap BlockName OccSet)
    (hb : ∀ k, p.get k ⊆ U) (hpre : ∀ BB ∈ F, p.get BB.name ⊆ prim BB (sec p BB))
    (hc : (F.foldl (flowBlock sec prim) (p, s, false)).2.2 = true) :
    (∀ k, p.get k ⊆ (F.foldl (flowBlock sec prim) (p, s, false)).1.get k) ∧
      ∃ BB ∈ F, p.get BB.name ⊂ (F.foldl (flowBlock sec prim) (p, s, false)).1.get BB.name := by
  obtain ⟨-, -, h3, h4⟩ := flowFold_grows sec prim hsec hprim U hU F hn F (fun _ h => h)
    (p, s, false) hb hpre
  refine ⟨h3, ?_⟩
  rcases h4 hc with hf | hlt
  · simp at hf
  · by_contra hno
    push_neg at hno
    have heq : flowMeasure F p =
        flowMeasure F (F.foldl (flowBlock sec prim) (p, s, false)).1 := by
      unfold flowMeasure
      congr 1
      apply List.map_congr_left
      intro BB hBB
      have h5 := hno BB hBB
      have h6 := h3 BB.name
      by_cases he : p.get BB.name = (F.foldl (flowBlock sec prim) (p, s, false)).1.get BB.name
      · simp only at he
        rw [he]
      · exact absurd (Finset.ssubset_iff_subset_ne.mpr ⟨h6, he⟩) h5
    simp only at hlt
    omega

end Passes

/-! ## The transfer functions are monotone and bounded -/

theorem newAvin_mono (candidates : OccSet) (ingressEdges : List Edge)
    (a b : StdMap BlockName OccSet) (BB : BasicBlock) (hab : ∀ k, a.get k ⊆ b.get k) :
    newAvin candidates ingressEdges a BB ⊆ newAvin candidates ingressEdges b BB := by
  rw [newAvin_eq_first, newAvin_eq_first]
  cases BB.preds with
  | nil => exact Finset.Subset.refl _
  | cons p ps =>
    simp only
    split_ifs
    · exact Finset.Subset.refl _
    · exact hab p

theorem newAvout_mono (gens kills : StdMap BlockName OccSet) (BB : BasicBlock) (s t : OccSet)
    (hst : s ⊆ t) : newAvout gens kills BB s ⊆ newAvout gens kills BB t := by
  intro x hx
  rw [newAvout_mem] at hx ⊢
  rcases hx with ⟨h1, h2⟩ | h
  · exact Or.inl ⟨hst h1, h2⟩
  · exact Or.inr h

theorem newAvout_bound (candidates : OccSet) (gens kills : StdMap BlockName OccSet)
    (ingressEdges : List Edge) (U : OccSet) (hc : candidates ⊆ U) (hg : ∀ k, gens.get k ⊆ U)
    (a : StdMap BlockName OccSet) (BB : BasicBlock) (ha : ∀ k, a.get k ⊆ U) :
    newAvout gens kills BB (newAvin candidates ingressEdges a BB) ⊆ U := by
  intro x hx
  rw [newAvout_mem, newAvin_eq_first] at hx
  rcases hx with ⟨h1, -⟩ | h
  · cases hp : BB.preds with
    | nil => rw [hp] at h1; simp at h1
    | cons p ps =>
      rw [hp] at h1
      simp only at h1
      split_ifs at h1
      · exact hc h1
      · exact ha p h1
  · exact hg BB.name h

theorem newNeedout_mono (a b : StdMap BlockName OccSet) (BB : BasicBlock)
    (hab : ∀ k, a.get k ⊆ b.get k) : newNeedout a BB ⊆ newNeedout b BB := by
  intro x hx
  rw [newNeedout_mem] at hx ⊢
  obtain ⟨s, hs, hx⟩ := hx
  exact ⟨s, hs, hab s hx⟩

theorem newNeedin_mono (removables gens : StdMap BlockName OccSet) (BB : BasicBlock)
    (s t : OccSet) (hst : s ⊆ t) :
    newNeedin removables gens BB s ⊆ newNeedin removables gens BB t := by
  intro x hx
  rw [newNeedin_mem] at hx ⊢
  rcases hx with ⟨h1, h2⟩ | h
  · exact Or.inl ⟨hst h1, h2⟩
  · exact Or.inr h

theorem newNeedin_bound (removables gens : StdMap BlockName OccSet) (U : OccSet)
    (hr : ∀ k, removables.get k ⊆ U) (a : StdMap BlockName OccSet) (BB : BasicBlock)
    (ha : ∀ k, a.get k ⊆ U) : newNeedin removables gens BB (newNeedout a BB) ⊆ U := by
  intro x hx
  rw [newNeedin_mem, newNeedout_mem] at hx
  rcases hx with ⟨⟨s, -, h1⟩, -⟩ | h
  · exact ha s h1
  · exact hr BB.name h

/-- The map that the initialisation loop makes of the empty map reads as empty. -/
theorem initEmpty_empty_get (F : Func) (k : BlockName) :
    (F.foldl (fun m BB => m.insert BB.name ∅) (StdMap.empty : StdMap BlockName OccSet)).get k =
      ∅ := by
  rw [initEmpty_get]
  split_ifs
  · rfl
  · exact StdMap.get_empty k

/-- From empty maps, the loop of `fillAvinAvouts` returns within blocks times `|U|` plus one
passes, for every set `U` that holds CANDIDATE and every GEN set. -/
theorem fillAvinAvouts_returns_within (candidates : OccSet)
    (gens kills : StdMap BlockName OccSet) (ingressEdges : List Edge)
    (avins0 : StdMap BlockName OccSet) (F : Func) (hn : F.names.Nodup) (U : OccSet)
    (hc : candidates ⊆ U) (hg : ∀ k, gens.get k ⊆ U) :
    ∃ r, fillAvinAvouts (F.length * U.card + 1) candidates gens kills ingressEdges
      StdMap.empty avins0 F = some r := by
  unfold fillAvinAvouts
  simp only [avinAvoutLoop_eq]
  apply flowLoop_returns_within _ _ (newAvin_mono candidates ingressEdges)
    (newAvout_mono gens kills) U (newAvout_bound candidates gens kills ingressEdges U hc hg)
    F hn
  · intro k
    rw [initEmpty_empty_get]
    exact Finset.empty_subset _
  · intro BB _
    rw [initEmpty_empty_get]
    exact Finset.empty_subset _
  · omega

/-- From empty maps, the loop of `compute_needin_needout` returns within blocks times `|U|`
plus one passes, for every set `U` that holds every REMOVABLE set. -/
theorem compute_needin_needout_returns_within (removables gens needouts0 :
    StdMap BlockName OccSet) (F : Func) (hn : F.names.Nodup) (U : OccSet)
    (hr : ∀ k, removables.get k ⊆ U) :
    ∃ r, compute_needin_needout (F.length * U.card + 1) removables gens StdMap.empty needouts0
      F = some r := by
  unfold compute_needin_needout
  simp only [needLoop_eq]
  apply flowLoop_returns_within _ _ newNeedout_mono (newNeedin_mono removables gens) U
    (newNeedin_bound removables gens U hr) F hn
  · intro k
    rw [initEmpty_empty_get]
    exact Finset.empty_subset _
  · intro BB _
    rw [initEmpty_empty_get]
    exact Finset.empty_subset _
  · omega

/-- The NEEDIN sets that `compute_needin_needout` returns from empty maps stay inside every
set `U` that holds every REMOVABLE set. -/
theorem compute_needin_needout_bounded (fuel : Nat) (removables gens needouts0 needins
    needouts : StdMap BlockName OccSet) (F : Func) (hn : F.names.Nodup) (U : OccSet)
    (hr : ∀ k, removables.get k ⊆ U)
    (h : compute_needin_needout fuel removables gens StdMap.empty needouts0 F =
      some (needins, needouts)) :
    ∀ k, needins.get k ⊆ U := by
  unfold compute_needin_needout at h
  simp only [needLoop_eq] at h
  refine flowLoop_bounded _ _ newNeedout_mono (newNeedin_mono removables gens) U
    (newNeedin_bound removables gens U hr) F hn fuel _ _ needins needouts ?_ ?_ h
  · intro k
    rw [initEmpty_empty_get]
    exact Finset.empty_subset _
  · intro BB _
    rw [initEmpty_empty_get]
    exact Finset.empty_subset _

/-! ## The sets of the pass hold occurrences of the function -/

theorem mem_occurrences (F : Func) (x : InstrId) :
    x ∈ F.occurrences ↔
      ∃ BB ∈ F, ∃ instr ∈ BB.instrs, instr.opcode.isBinaryArith = true ∧ x = instr.id := by
  unfold Func.occurrences Func.allInstrs
  simp only [List.mem_toFinset, List.mem_map, List.mem_filter, List.mem_flatMap]
  constructor
  · rintro ⟨i, ⟨⟨BB, hBB, hi⟩, hop⟩, rfl⟩
    exact ⟨BB, hBB, i, hi, hop, rfl⟩
  · rintro ⟨BB, hBB, i, hi, hop, rfl⟩
    exact ⟨i, ⟨⟨BB, hBB, hi⟩, hop⟩, rfl⟩

theorem fillXUses_subset_occurrences (F : Func) (k : BlockName) :
    (fillXUses F StdMap.empty).get k ⊆ F.occurrences := by
  intro x hx
  rw [fillXUses_mem] at hx
  rcases hx with h | ⟨BB, hBB, i, hi, hop, -, -, rfl⟩
  · rw [StdMap.get_empty] at h
    simp at h
  · exact (mem_occurrences F _).mpr ⟨BB, hBB, i, hi, hop, rfl⟩

theorem fillGens_subset_occurrences (F : Func) (k : BlockName) :
    (fillGens F StdMap.empty).get k ⊆ F.occurrences := by
  intro x hx
  rw [fillGens_mem] at hx
  rcases hx with h | ⟨BB, hBB, i, hi, hop, -, -, rfl⟩
  · rw [StdMap.get_empty] at h
    simp at h
  · exact (mem_occurrences F _).mpr ⟨BB, hBB, i, hi, hop, rfl⟩

/-- An entry of a map after an insertion is the inserted one or an entry of before. -/
theorem StdMap.mem_insertIn {K V : Type} [DecidableEq K] [Ord K] (k : K) (v : V)
    (l : List (K × V)) (p : K × V) (h : p ∈ StdMap.insertIn k v l) : p = (k, v) ∨ p ∈ l := by
  induction l with
  | nil =>
    simp only [StdMap.insertIn, List.mem_singleton] at h
    exact Or.inl h
  | cons hd tl ih =>
    obtain ⟨k1, v1⟩ := hd
    simp only [StdMap.insertIn] at h
    by_cases h1 : k1 = k
    · rw [if_pos h1] at h
      rcases List.mem_cons.mp h with h | h
      · exact Or.inl h
      · exact Or.inr (List.mem_cons_of_mem _ h)
    · rw [if_neg h1] at h
      by_cases h3 : compare k k1 = Ordering.lt
      · rw [if_pos h3] at h
        rcases List.mem_cons.mp h with h | h
        · exact Or.inl h
        · exact Or.inr h
      · rw [if_neg h3] at h
        rcases List.mem_cons.mp h with h | h
        · exact Or.inr (h ▸ List.mem_cons_self _ _)
        · rcases ih h with h | h
          · exact Or.inl h
          · exact Or.inr (List.mem_cons_of_mem _ h)

/-- Adding an occurrence of `U` keeps the stored sets inside `U`. -/
theorem addOccurrence_entries_bound (m : StdMap BlockName OccSet) (name : BlockName)
    (id : InstrId) (U : OccSet) (hm : ∀ p ∈ m.entries, p.2 ⊆ U) (hid : id ∈ U) :
    ∀ p ∈ (addOccurrence m name id).entries, p.2 ⊆ U := by
  intro p hp
  unfold addOccurrence at hp
  cases hf : m.find? name with
  | none =>
    rw [hf] at hp
    rcases StdMap.mem_insertIn _ _ _ _ hp with h | h
    · rw [h]
      exact Finset.singleton_subset_iff.mpr hid
    · exact hm p h
  | some s =>
    rw [hf] at hp
    rcases StdMap.mem_insertIn _ _ _ _ hp with h | h
    · rw [h]
      have hs := hm _ (StdMap.mem_of_findIn m.entries name s hf)
      exact Finset.insert_subset hid hs
    · exact hm p h

theorem fillXUses_entries_bound (F : Func) (p : BlockName × OccSet)
    (hp : p ∈ (fillXUses F StdMap.empty).entries) : p.2 ⊆ F.occurrences := by
  have inner : ∀ (BB : BasicBlock), BB ∈ F → ∀ (l : List Instruction),
      (∀ i ∈ l, i ∈ BB.instrs) → ∀ (m : StdMap BlockName OccSet),
      (∀ p ∈ m.entries, p.2 ⊆ F.occurrences) →
      ∀ p ∈ (l.foldl
        (fun xUses instr =>
          if instr.opcode.isBinaryArith then
            if xUseKilled BB instr = false then addOccurrence xUses BB.name instr.id
            else xUses
          else xUses) m).entries, p.2 ⊆ F.occurrences := by
    intro BB hBB l
    induction l with
    | nil => intro _ m hm; exact hm
    | cons hd tl ih =>
      intro hl m hm
      rw [List.foldl_cons]
      apply ih (fun i hi => hl i (List.mem_cons_of_mem _ hi))
      by_cases hop : hd.opcode.isBinaryArith = true
      · rw [if_pos hop]
        by_cases hk : xUseKilled BB hd = false
        · rw [if_pos hk]
          exact addOccurrence_entries_bound m BB.name hd.id _ hm
            ((mem_occurrences F _).mpr ⟨BB, hBB, hd, hl hd (List.mem_cons_self _ _), hop, rfl⟩)
        · rw [if_neg hk]
          exact hm
      · rw [if_neg hop]
        exact hm
  have outer : ∀ (l : List BasicBlock), (∀ BB ∈ l, BB ∈ F) →
      ∀ (m : StdMap BlockName OccSet), (∀ p ∈ m.entries, p.2 ⊆ F.occurrences) →
      ∀ p ∈ (fillXUses l m).entries, p.2 ⊆ F.occurrences := by
    intro l
    induction l with
    | nil => intro _ m hm; exact hm
    | cons hd tl ih =>
      intro hl m hm
      unfold fillXUses
      rw [List.foldl_cons]
      exact ih (fun BB hBB => hl BB (List.mem_cons_of_mem _ hBB)) _
        (inner hd (hl hd (List.mem_cons_self _ _)) hd.instrs (fun _ h => h) m hm)
  exact outer F (fun _ h => h) StdMap.empty (by intro p hp; simp [StdMap.empty] at hp) p hp

theorem fillCandidates_subset_occurrences (hotNodes : List BlockName) (F : Func) :
    fillCandidates hotNodes (fillXUses F StdMap.empty) ∅ ⊆ F.occurrences := by
  intro e he
  unfold fillCandidates at he
  rw [fillCandidates_mem] at he
  rcases he with h | ⟨p, hp, -, hep⟩
  · simp at h
  · exact fillXUses_entries_bound F p hp hep

theorem fillRemovables_get_subset (xUses avins : StdMap BlockName OccSet)
    (hotNodes : List BlockName) (F : Func) (k : BlockName) :
    (fillRemovables xUses avins hotNodes StdMap.empty F).get k ⊆ xUses.get k := by
  unfold StdMap.get
  rw [fillRemovables_find?]
  split_ifs
  · exact Finset.inter_subset_right
  · rw [StdMap.find?_empty]
    exact Finset.empty_subset _

/-- An entry of the map that `compute_inserts` returns was in the map before or belongs to an
ingress edge, with the set NEEDIN(v) - AVOUT(u). -/
theorem compute_inserts_entries (ingressEdges : List Edge)
    (needins avouts : StdMap BlockName OccSet) (inserts : StdMap Edge OccSet)
    (p : Edge × OccSet)
    (hp : p ∈ (compute_inserts ingressEdges needins avouts inserts).entries) :
    p ∈ inserts.entries ∨
      (p.1 ∈ ingressEdges ∧ p.2 = needins.get p.1.2 \ avouts.get p.1.1) := by
  unfold compute_inserts at hp
  induction ingressEdges generalizing inserts with
  | nil => exact Or.inl hp
  | cons hd tl ih =>
    rw [List.foldl_cons] at hp
    rcases ih _ hp with h | ⟨h1, h2⟩
    · rcases StdMap.mem_insertIn _ _ _ _ h with h | h
      · right
        rw [h]
        refine ⟨List.mem_cons_self _ _, ?_⟩
        simp only [set_difference_eq, Finset.empty_union]
      · exact Or.inl h
    · exact Or.inr ⟨List.mem_cons_of_mem _ h1, h2⟩

/-- An edge that `calculateHotColdEdges` has in one of its lists was there before or is an
edge of the function. -/
theorem calculateHotColdEdges_mem (F : Func) (bpi : BlockName → BlockName → BranchProbability)
    (freqs : StdMap BlockName Double) (hotEdges coldEdges : List Edge) (maxCount : Int)
    (e : Edge)
    (he : e ∈ (calculateHotColdEdges F bpi freqs hotEdges coldEdges maxCount).1 ∨
      e ∈ (calculateHotColdEdges F bpi freqs hotEdges coldEdges maxCount).2) :
    (e ∈ hotEdges ∨ e ∈ coldEdges) ∨ ∃ BB ∈ F, e.1 = BB.name ∧ e.2 ∈ BB.succs := by
  unfold calculateHotColdEdges at he
  have inner : ∀ (BB : BasicBlock) (l : List BlockName) (st : List Edge × List Edge),
      (e ∈ (l.foldl
        (fun (st : List Edge × List Edge) successor =>
          if THRESHOLD.lt ((Double.ofInt (toInt32 (BranchProbability.scale
              (bpi BB.name successor)
              ((freqs.getDouble BB.name).mulInt maxCount).toUInt64))).divInt maxCount) then
            (st.1 ++ [(BB.name, successor)], st.2)
          else (st.1, st.2 ++ [(BB.name, successor)])) st).1 ∨
       e ∈ (l.foldl
        (fun (st : List Edge × List Edge) successor =>
          if THRESHOLD.lt ((Double.ofInt (toInt32 (BranchProbability.scale
              (bpi BB.name successor)
              ((freqs.getDouble BB.name).mulInt maxCount).toUInt64))).divInt maxCount) then
            (st.1 ++ [(BB.name, successor)], st.2)
          else (st.1, st.2 ++ [(BB.name, successor)])) st).2) →
      (e ∈ st.1 ∨ e ∈ st.2) ∨ (e.1 = BB.name ∧ e.2 ∈ l) := by
    intro BB l
    induction l with
    | nil => intro st h; exact Or.inl h
    | cons hd tl ih =>
      intro st h
      rw [List.foldl_cons] at h
      rcases ih _ h with h | ⟨h1, h2⟩
      · split_ifs at h
        · simp only [List.mem_append, List.mem_singleton] at h
          rcases h with (h | h) | h
          · exact Or.inl (Or.inl h)
          · exact Or.inr ⟨by rw [h], by rw [h]; exact List.mem_cons_self _ _⟩
          · exact Or.inl (Or.inr h)
        · simp only [List.mem_append, List.mem_singleton] at h
          rcases h with h | h | h
          · exact Or.inl (Or.inl h)
          · exact Or.inl (Or.inr h)
          · exact Or.inr ⟨by rw [h], by rw [h]; exact List.mem_cons_self _ _⟩
      · exact Or.inr ⟨h1, List.mem_cons_of_mem _ h2⟩
  induction F generalizing hotEdges coldEdges with
  | nil => exact Or.inl he
  | cons BB tl ih =>
    rw [List.foldl_cons] at he
    rcases ih _ _ he with h | ⟨B, hB, h1, h2⟩
    · rcases inner BB BB.succs (hotEdges, coldEdges) h with h | ⟨h1, h2⟩
      · exact Or.inl h
      · exact Or.inr ⟨BB, List.mem_cons_self _ _, h1, h2⟩
    · exact Or.inr ⟨B, List.mem_cons_of_mem _ hB, h1, h2⟩

/-! ## The analyses of `runOnFunction` -/

/-- What `runAnalyses` returns is made of the results of the two loops. -/
theorem runAnalyses_some (fuel : Nat) (bpi : BlockName → BlockName → BranchProbability)
    (F : Func) (a : Analysis) (h : runAnalyses fuel bpi F = some a) :
    ∃ avouts avins needins needouts,
      fillAvinAvouts fuel
          (fillCandidates (calculateHotColdNodes F StdMap.empty [] []).2.1
            (fillXUses F StdMap.empty) ∅)
          (fillGens F StdMap.empty) (fillKills F StdMap.empty) a.ingressEdges
          StdMap.empty StdMap.empty F = some (avouts, avins) ∧
        compute_needin_needout fuel
          (fillRemovables (fillXUses F StdMap.empty) avins
            (calculateHotColdNodes F StdMap.empty [] []).2.1 StdMap.empty F)
          (fillGens F StdMap.empty) StdMap.empty StdMap.empty F = some (needins, needouts) ∧
        a.ingressEdges =
          calculateIngressEdges
            (calculateHotColdEdges F bpi (calculateHotColdNodes F StdMap.empty [] []).1 [] []
              (calculateHotColdNodes F StdMap.empty [] []).2.2.2).2
            (calculateHotColdNodes F StdMap.empty [] []).2.1
            (calculateHotColdNodes F StdMap.empty [] []).2.2.1 [] ∧
        a.inserts = compute_inserts a.ingressEdges needins avouts StdMap.empty := by
  unfold runAnalyses at h
  simp only at h
  split at h
  · exact absurd h (by simp)
  · rename_i avouts avins h1
    split at h
    · exact absurd h (by simp)
    · rename_i needins needouts h2
      simp only [Option.some.injEq] at h
      subst h
      exact ⟨avouts, avins, needins, needouts, h1, h2, rfl, rfl⟩

/-- The analyses return when each loop may make blocks times occurrences plus one passes. -/
theorem runAnalyses_returns (bpi : BlockName → BlockName → BranchProbability) (F : Func)
    (hn : F.names.Nodup) :
    ∃ a, runAnalyses (F.length * F.occurrences.card + 1) bpi F = some a := by
  unfold runAnalyses
  simp only
  obtain ⟨⟨avouts, avins⟩, h1⟩ := fillAvinAvouts_returns_within
    (fillCandidates (calculateHotColdNodes F StdMap.empty [] []).2.1
      (fillXUses F StdMap.empty) ∅)
    (fillGens F StdMap.empty) (fillKills F StdMap.empty)
    (calculateIngressEdges
      (calculateHotColdEdges F bpi (calculateHotColdNodes F StdMap.empty [] []).1 [] []
        (calculateHotColdNodes F StdMap.empty [] []).2.2.2).2
      (calculateHotColdNodes F StdMap.empty [] []).2.1
      (calculateHotColdNodes F StdMap.empty [] []).2.2.1 [])
    StdMap.empty F hn F.occurrences (fillCandidates_subset_occurrences _ F)
    (fillGens_subset_occurrences F)
  rw [h1]
  simp only
  obtain ⟨⟨needins, needouts⟩, h2⟩ := compute_needin_needout_returns_within
    (fillRemovables (fillXUses F StdMap.empty) avins
      (calculateHotColdNodes F StdMap.empty [] []).2.1 StdMap.empty F)
    (fillGens F StdMap.empty) StdMap.empty F hn F.occurrences
    (fun k => (fillRemovables_get_subset _ _ _ F k).trans (fillXUses_subset_occurrences F k))
  rw [h2]
  exact ⟨_, rfl⟩

/-- Every entry of the INSERT map that the analyses return belongs to an ingress edge that
leaves a block of the function, and holds occurrences of the function. -/
theorem runAnalyses_inserts_wf (fuel : Nat) (bpi : BlockName → BlockName → BranchProbability)
    (F : Func) (hn : F.names.Nodup) (a : Analysis) (h : runAnalyses fuel bpi F = some a)
    (p : Edge × OccSet) (hp : p ∈ a.inserts.entries) :
    p.1 ∈ a.ingressEdges ∧ p.1.1 ∈ F.names ∧ p.2 ⊆ F.occurrences := by
  obtain ⟨avouts, avins, needins, needouts, -, h2, h3, h4⟩ := runAnalyses_some fuel bpi F a h
  rw [h4] at hp
  rcases compute_inserts_entries _ _ _ _ p hp with hp | ⟨hp1, hp2⟩
  · simp [StdMap.empty] at hp
  · refine ⟨hp1, ?_, ?_⟩
    · rw [h3, calculateIngressEdges_eq_filter] at hp1
      simp only [List.nil_append, List.mem_filter] at hp1
      rcases calculateHotColdEdges_mem F bpi _ [] [] _ p.1 (Or.inr hp1.1) with hc | hc
      · simp at hc
      · obtain ⟨BB, hBB, hname, -⟩ := hc
        rw [hname]
        exact List.mem_map.mpr ⟨BB, hBB, rfl⟩
    · rw [hp2]
      exact Finset.sdiff_subset.trans
        (compute_needin_needout_bounded fuel _ _ _ needins needouts F hn F.occurrences
          (fun k => (fillRemovables_get_subset _ _ _ F k).trans
            (fillXUses_subset_occurrences F k)) h2 p.1.2)

/-- Without ingress edges the INSERT map is empty. -/
theorem runAnalyses_no_ingress (fuel : Nat) (bpi : BlockName → BlockName → BranchProbability)
    (F : Func) (a : Analysis) (h : runAnalyses fuel bpi F = some a)
    (hi : a.ingressEdges = []) : a.inserts = StdMap.empty := by
  obtain ⟨avouts, avins, needins, needouts, -, -, -, h4⟩ := runAnalyses_some fuel bpi F a h
  rw [h4, hi]
  rfl

/-! ## Code motion rewrites blocks in place -/

theorem insertBeforeIn_getLast? (target : InstrId) (inst : Instruction)
    (l : List Instruction) : (insertBeforeIn target inst l).getLast? = l.getLast? := by
  induction l with
  | nil => rfl
  | cons hd tl ih =>
    simp only [insertBeforeIn]
    by_cases h : hd.id = target
    · rw [if_pos h, List.getLast?_cons_cons]
    · rw [if_neg h, List.getLast?_cons, List.getLast?_cons, ih]

theorem mem_insertBeforeIn (target : InstrId) (inst : Instruction) (l : List Instruction)
    (x : Instruction) (hx : x ∈ l) : x ∈ insertBeforeIn target inst l := by
  induction l with
  | nil => exact hx
  | cons hd tl ih =>
    simp only [insertBeforeIn]
    by_cases h : hd.id = target
    · rw [if_pos h]
      exact List.mem_cons_of_mem _ hx
    · rw [if_neg h]
      rcases List.mem_cons.mp hx with h1 | h1
      · rw [h1]
        exact List.mem_cons_self _ _
      · exact List.mem_cons_of_mem _ (ih h1)

/-- The instruction is inserted when the target is in the list. -/
theorem insertBeforeIn_inserted (target : InstrId) (inst : Instruction)
    (l : List Instruction) (h : ∃ y ∈ l, y.id = target) :
    inst ∈ insertBeforeIn target inst l := by
  induction l with
  | nil =>
    obtain ⟨y, hy, -⟩ := h
    simp at hy
  | cons hd tl ih =>
    simp only [insertBeforeIn]
    by_cases h1 : hd.id = target
    · rw [if_pos h1]
      exact List.mem_cons_self _ _
    · rw [if_neg h1]
      obtain ⟨y, hy, hid⟩ := h
      rcases List.mem_cons.mp hy with h2 | h2
      · rw [h2] at hid
        exact absurd hid h1
      · exact List.mem_cons_of_mem _ (ih ⟨y, h2, hid⟩)

theorem BlockStep.same (B : BasicBlock) : BlockStep B B :=
  ⟨rfl, fun h => h, fun x hx => ⟨x, hx, rfl⟩, fun _ h => h⟩

theorem BlockStep.thenBlock {A B C : BasicBlock} (h1 : BlockStep A B) (h2 : BlockStep B C) :
    BlockStep A C := by
  refine ⟨h2.1.trans h1.1, fun h => h2.2.1 (h1.2.1 h), ?_, fun a h => h2.2.2.2 a (h1.2.2.2 a h)⟩
  intro x hx
  obtain ⟨y, hy, hxy⟩ := h1.2.2.1 x hx
  obtain ⟨z, hz, hyz⟩ := h2.2.2.1 y hy
  exact ⟨z, hz, hyz.trans hxy⟩

theorem BlockStep_insertBefore (target : InstrId) (inst : Instruction) (B : BasicBlock) :
    BlockStep B { B with instrs := insertBeforeIn target inst B.instrs } := by
  refine ⟨rfl, ?_, ?_, ?_⟩
  · intro h
    simp only [BasicBlock.getTerminator, insertBeforeIn_getLast?] at h ⊢
    exact h
  · intro x hx
    exact ⟨x, mem_insertBeforeIn target inst B.instrs x hx, rfl⟩
  · intro a ha
    exact mem_insertBeforeIn target inst B.instrs _ ha

theorem BlockStep_replaceAllUsesWith (old new : InstrId) (B : BasicBlock) :
    BlockStep B { B with instrs := B.instrs.map (fun i =>
      { i with operands := i.operands.map (Value.replaceUse old new) }) } := by
  refine ⟨rfl, ?_, ?_, ?_⟩
  · intro h
    simp only [BasicBlock.getTerminator, List.getLast?_map] at h ⊢
    cases hl : B.instrs.getLast? with
    | none => rw [hl] at h; exact absurd rfl h
    | some t =>
      rw [hl] at h
      simp only [Option.map_some'] at h ⊢
      by_cases ht : t.opcode.isTerminator = true
      · simp [ht]
      · simp [ht] at h
  · intro x hx
    exact ⟨_, List.mem_map.mpr ⟨x, hx, rfl⟩, rfl⟩
  · intro a ha
    exact List.mem_map.mpr ⟨_, ha, rfl⟩

theorem FuncStep.unchanged (F : Func) : FuncStep F F :=
  ⟨id, (List.map_id F).symm, BlockStep.same⟩

theorem FuncStep.andThen {F G H : Func} (h1 : FuncStep F G) (h2 : FuncStep G H) :
    FuncStep F H := by
  obtain ⟨g1, rfl, hg1⟩ := h1
  obtain ⟨g2, rfl, hg2⟩ := h2
  exact ⟨g2 ∘ g1, by rw [List.map_map], fun B => (hg1 B).thenBlock (hg2 (g1 B))⟩

theorem FuncStep_insertBefore (F : Func) (target : InstrId) (inst : Instruction) :
    FuncStep F (F.insertBefore target inst) :=
  ⟨_, rfl, BlockStep_insertBefore target inst⟩

theorem FuncStep_replaceAllUsesWith (F : Func) (old new : InstrId) :
    FuncStep F (F.replaceAllUsesWith old new) :=
  ⟨_, rfl, BlockStep_replaceAllUsesWith old new⟩

theorem FuncStep.names {F G : Func} (h : FuncStep F G) : G.names = F.names := by
  obtain ⟨g, rfl, hg⟩ := h
  unfold Func.names
  rw [List.map_map]
  exact List.map_congr_left (fun B _ => (hg B).1)

theorem FuncStep.terminators {F G : Func} (h : FuncStep F G)
    (ht : ∀ B ∈ F, B.getTerminator ≠ none) : ∀ B ∈ G, B.getTerminator ≠ none := by
  obtain ⟨g, rfl, hg⟩ := h
  intro B hB
  obtain ⟨A, hA, rfl⟩ := List.mem_map.mp hB
  exact (hg A).2.1 (ht A hA)

theorem FuncStep.ids {F G : Func} (h : FuncStep F G) (e : InstrId)
    (he : ∃ x ∈ F.allInstrs, x.id = e) : ∃ y ∈ G.allInstrs, y.id = e := by
  obtain ⟨g, rfl, hg⟩ := h
  obtain ⟨x, hx, rfl⟩ := he
  unfold Func.allInstrs at hx ⊢
  obtain ⟨B, hB, hxB⟩ := List.mem_flatMap.mp hx
  obtain ⟨y, hy, hid⟩ := (hg B).2.2.1 x hxB
  exact ⟨y, List.mem_flatMap.mpr ⟨g B, List.mem_map.mpr ⟨B, hB, rfl⟩, hy⟩, hid⟩

/-- The entry block of the rewritten function is the rewritten entry block. -/
theorem FuncStep.head {F G : Func} (h : FuncStep F G) (B : BasicBlock)
    (hB : F.head? = some B) : ∃ B', G.head? = some B' ∧ BlockStep B B' := by
  obtain ⟨g, rfl, hg⟩ := h
  refine ⟨g B, ?_, hg B⟩
  cases F with
  | nil => simp at hB
  | cons hd tl =>
    simp only [List.head?_cons, Option.some.injEq] at hB
    rw [hB]
    rfl

theorem cloneOperands_step (insertBefore : InstrId) (operands : List Value)
    (st : Func × InstrId × List (InstrId × InstrId)) :
    FuncStep st.1 (cloneOperands insertBefore operands st).1 := by
  unfold cloneOperands
  induction operands generalizing st with
  | nil => exact FuncStep.unchanged _
  | cons U rest ih =>
    rw [List.foldl_cons]
    refine FuncStep.andThen ?_ (ih _)
    cases st.1.asInstr U with
    | none => exact FuncStep.unchanged _
    | some Inst => exact FuncStep_insertBefore _ _ _

theorem obtainSlot_step (firstPossInsert : Option InstrId) (st st1 : MotionState)
    (e alloc : InstrId) (h : obtainSlot firstPossInsert st e = some (alloc, st1)) :
    FuncStep st.F st1.F := by
  unfold obtainSlot at h
  cases hf : st.allocas.find? e with
  | some a =>
    rw [hf] at h
    simp only [Option.some.injEq, Prod.mk.injEq] at h
    rw [← h.2]
    exact FuncStep.unchanged _
  | none =>
    rw [hf] at h
    cases firstPossInsert with
    | none => simp at h
    | some fp =>
      simp only [Option.some.injEq, Prod.mk.injEq] at h
      rw [← h.2]
      exact FuncStep_insertBefore _ _ _

/-- What `motionOccurrence` returns, step by step. -/
theorem motionOccurrence_some (edge : Edge) (firstPossInsert insertBefore : Option InstrId)
    (st st' : MotionState) (e : InstrId)
    (h : motionOccurrence edge firstPossInsert insertBefore st e = some st') :
    ∃ alloc st1 i ib, obtainSlot firstPossInsert st e = some (alloc, st1) ∧
      st1.F.getInstr e = some i ∧ insertBefore = some ib ∧
      st' =
        { F := (((((cloneOperands ib i.operands (st1.F, st1.next, [])).1.insertBefore ib
              (cloneAndRemap i (cloneOperands ib i.operands (st1.F, st1.next, [])).2.1
                ((e, (cloneOperands ib i.operands (st1.F, st1.next, [])).2.1) ::
                  (cloneOperands ib i.operands (st1.F, st1.next, [])).2.2))).insertBefore ib
              ⟨(cloneOperands ib i.operands (st1.F, st1.next, [])).2.1 + 1, Opcode.Store,
                [Value.inst (cloneOperands ib i.operands (st1.F, st1.next, [])).2.1,
                  Value.inst alloc]⟩).insertBefore e
              ⟨(cloneOperands ib i.operands (st1.F, st1.next, [])).2.1 + 2, Opcode.Load,
                [Value.inst alloc]⟩).replaceAllUsesWith e
              ((cloneOperands ib i.operands (st1.F, st1.next, [])).2.1 + 2)),
          allocas := st1.allocas,
          next := (cloneOperands ib i.operands (st1.F, st1.next, [])).2.1 + 3,
          created := st1.created ++
            [Created.store e edge alloc
                ((cloneOperands ib i.operands (st1.F, st1.next, [])).2.1 + 1),
              Created.load e alloc
                ((cloneOperands ib i.operands (st1.F, st1.next, [])).2.1 + 2)] } := by
  unfold motionOccurrence at h
  cases ho : obtainSlot firstPossInsert st e with
  | none => simp [ho] at h
  | some r =>
    obtain ⟨alloc, st1⟩ := r
    simp only [ho] at h
    cases hg : st1.F.getInstr e with
    | none => simp [hg] at h
    | some i =>
      cases insertBefore with
      | none => simp [hg] at h
      | some ib =>
        simp only [hg, Option.some.injEq] at h
        exact ⟨alloc, st1, i, ib, rfl, hg, rfl, h.symm⟩

theorem motionOccurrence_step (edge : Edge) (firstPossInsert insertBefore : Option InstrId)
    (st st' : MotionState) (e : InstrId)
    (h : motionOccurrence edge firstPossInsert insertBefore st e = some st') :
    FuncStep st.F st'.F := by
  obtain ⟨alloc, st1, i, ib, ho, -, -, rfl⟩ :=
    motionOccurrence_some edge firstPossInsert insertBefore st st' e h
  refine (obtainSlot_step firstPossInsert st st1 e alloc ho).andThen ?_
  refine (cloneOperands_step ib i.operands (st1.F, st1.next, [])).andThen ?_
  have key : ∀ (G : Func) (t1 t2 t3 : InstrId) (i1 i2 i3 : Instruction) (o n : InstrId),
      FuncStep G
        ((((G.insertBefore t1 i1).insertBefore t2 i2).insertBefore t3 i3).replaceAllUsesWith
          o n) :=
    fun G t1 t2 t3 i1 i2 i3 o n =>
      ((FuncStep_insertBefore G t1 i1).andThen (FuncStep_insertBefore _ t2 i2)).andThen
        ((FuncStep_insertBefore _ t3 i3).andThen (FuncStep_replaceAllUsesWith _ o n))
  exact key _ _ _ _ _ _ _ _ _

theorem motionOccurrences_step (edge : Edge) (firstPossInsert insertBefore : Option InstrId)
    (l : List InstrId) (st st' : MotionState)
    (h : motionOccurrences edge firstPossInsert insertBefore l st = some st') :
    FuncStep st.F st'.F := by
  induction l generalizing st with
  | nil =>
    simp only [motionOccurrences, Option.some.injEq] at h
    rw [h]
    exact FuncStep.unchanged _
  | cons e rest ih =>
    simp only [motionOccurrences] at h
    cases hm : motionOccurrence edge firstPossInsert insertBefore st e with
    | none => rw [hm] at h; simp at h
    | some st1 =>
      rw [hm] at h
      exact (motionOccurrence_step edge firstPossInsert insertBefore st st1 e hm).andThen
        (ih st1 h)

theorem motionPair_step (st st' : MotionState) (pair : Edge × OccSet)
    (h : motionPair st pair = some st') : FuncStep st.F st'.F := by
  unfold motionPair at h
  cases hh : st.F.head? with
  | none => rw [hh] at h; simp at h
  | some entry =>
    rw [hh] at h
    cases hb : st.F.findBlock pair.1.1 with
    | none => rw [hb] at h; simp at h
    | some toInsert =>
      rw [hb] at h
      exact motionOccurrences_step _ _ _ _ st st' h

theorem motionPairs_step (l : List (Edge × OccSet)) (st st' : MotionState)
    (h : motionPairs l st = some st') : FuncStep st.F st'.F := by
  induction l generalizing st with
  | nil =>
    simp only [motionPairs, Option.some.injEq] at h
    rw [h]
    exact FuncStep.unchanged _
  | cons p rest ih =>
    simp only [motionPairs] at h
    cases hm : motionPair st p with
    | none => rw [hm] at h; simp at h
    | some st1 =>
      rw [hm] at h
      exact (motionPair_step st st1 p hm).andThen (ih st1 h)

/-! ## Code motion returns on a well-formed function -/

theorem mem_valuesInOrder (values : OccSet) (x : InstrId) :
    x ∈ valuesInOrder values ↔ x ∈ values := by
  unfold valuesInOrder
  simp only [List.mem_filter, List.mem_range, decide_eq_true_eq, and_iff_right_iff_imp]
  intro hx
  have h : id x ≤ values.sup id := Finset.le_sup hx
  exact Nat.lt_succ_of_le h

theorem findBlock_of_mem_names (F : Func) (name : BlockName) (h : name ∈ F.names) :
    ∃ B ∈ F, F.findBlock name = some B := by
  unfold Func.findBlock
  have key : ∀ (l : List BasicBlock) (acc : Option BasicBlock),
      (l.foldl (fun toInsert BB => if BB.name = name then some BB else toInsert) acc = acc ∧
          name ∉ l.map BasicBlock.name) ∨
        ∃ B ∈ l,
          l.foldl (fun toInsert BB => if BB.name = name then some BB else toInsert) acc =
            some B := by
    intro l
    induction l with
    | nil => intro acc; exact Or.inl ⟨rfl, by simp⟩
    | cons hd tl ih =>
      intro acc
      rw [List.foldl_cons]
      rcases ih (if hd.name = name then some hd else acc) with ⟨h1, h2⟩ | ⟨B, hB, h1⟩
      · by_cases hname : hd.name = name
        · right
          rw [if_pos hname] at h1
          rw [if_pos hname]
          exact ⟨hd, List.mem_cons_self _ _, h1⟩
        · left
          rw [if_neg hname] at h1
          rw [if_neg hname]
          refine ⟨h1, ?_⟩
          simp only [List.map_cons, List.mem_cons, not_or]
          exact ⟨fun e => hname e.symm, h2⟩
      · exact Or.inr ⟨B, List.mem_cons_of_mem _ hB, h1⟩
  rcases key F none with ⟨-, h2⟩ | h2
  · exact absurd h h2
  · exact h2

theorem getInstr_some_of_id (F : Func) (e : InstrId) (h : ∃ x ∈ F.allInstrs, x.id = e) :
    ∃ i, F.getInstr e = some i := by
  unfold Func.getInstr
  cases hf : F.allInstrs.find? (fun i => decide (i.id = e)) with
  | some i => exact ⟨i, rfl⟩
  | none =>
    rw [List.find?_eq_none] at hf
    obtain ⟨x, hx, hid⟩ := h
    have := hf x hx
    simp [hid] at this

theorem isTerminator_ne_PHI (op : Opcode) (h : op.isTerminator = true) : op ≠ Opcode.PHI := by
  intro hop
  rw [hop] at h
  revert h
  decide

/-- A block that ends with a terminator has a first instruction that is no PHI node. -/
theorem getFirstNonPHI_some (B : BasicBlock) (h : B.getTerminator ≠ none) :
    ∃ i ∈ B.instrs, B.getFirstNonPHI = some i := by
  unfold BasicBlock.getFirstNonPHI
  cases hf : B.instrs.find? (fun i => decide (i.opcode ≠ Opcode.PHI)) with
  | some i => exact ⟨i, List.mem_of_find?_eq_some hf, rfl⟩
  | none =>
    exfalso
    rw [List.find?_eq_none] at hf
    unfold BasicBlock.getTerminator at h
    cases hl : B.instrs.getLast? with
    | none => rw [hl] at h; exact h rfl
    | some t =>
      rw [hl] at h
      by_cases ht : t.opcode.isTerminator = true
      · have := hf t (List.mem_of_getLast?_eq_some hl)
        simp only [decide_eq_true_eq, not_not] at this
        exact isTerminator_ne_PHI _ ht this
      · simp [ht] at h

theorem obtainSlot_total (fp : InstrId) (st : MotionState) (e : InstrId) :
    ∃ alloc st1, obtainSlot (some fp) st e = some (alloc, st1) := by
  unfold obtainSlot
  cases st.allocas.find? e with
  | some a => exact ⟨_, _, rfl⟩
  | none => exact ⟨_, _, rfl⟩

theorem motionOccurrence_total (edge : Edge) (fp ib : InstrId) (st : MotionState) (e : InstrId)
    (he : ∃ x ∈ st.F.allInstrs, x.id = e) :
    ∃ st', motionOccurrence edge (some fp) (some ib) st e = some st' := by
  obtain ⟨alloc, st1, ho⟩ := obtainSlot_total fp st e
  obtain ⟨i, hi⟩ := getInstr_some_of_id st1.F e
    ((obtainSlot_step (some fp) st st1 e alloc ho).ids e he)
  unfold motionOccurrence
  simp only [ho, hi]
  exact ⟨_, rfl⟩

theorem motionOccurrences_total (edge : Edge) (fp ib : InstrId) (l : List InstrId)
    (st : MotionState) (hl : ∀ e ∈ l, ∃ x ∈ st.F.allInstrs, x.id = e) :
    ∃ st', motionOccurrences edge (some fp) (some ib) l st = some st' := by
  induction l generalizing st with
  | nil => exact ⟨st, rfl⟩
  | cons e rest ih =>
    obtain ⟨st1, h1⟩ := motionOccurrence_total edge fp ib st e (hl e (List.mem_cons_self _ _))
    have hstep := motionOccurrence_step edge (some fp) (some ib) st st1 e h1
    obtain ⟨st', h2⟩ := ih st1
      (fun x hx => hstep.ids x (hl x (List.mem_cons_of_mem _ hx)))
    refine ⟨st', ?_⟩
    simp only [motionOccurrences, h1]
    exact h2

theorem motionPair_total (st : MotionState) (pair : Edge × OccSet)
    (hname : pair.1.1 ∈ st.F.names) (ht : ∀ B ∈ st.F, B.getTerminator ≠ none)
    (hv : ∀ e ∈ pair.2, ∃ x ∈ st.F.allInstrs, x.id = e) :
    ∃ st', motionPair st pair = some st' := by
  obtain ⟨toInsert, hmem, hfind⟩ := findBlock_of_mem_names st.F pair.1.1 hname
  cases hh : st.F.head? with
  | none =>
    rw [List.head?_eq_none_iff] at hh
    rw [hh] at hmem
    simp at hmem
  | some entry =>
    have hentry : entry ∈ st.F := List.mem_of_mem_head? hh
    obtain ⟨i, -, hi⟩ := getFirstNonPHI_some entry (ht entry hentry)
    cases hterm : toInsert.getTerminator with
    | none => exact absurd hterm (ht toInsert hmem)
    | some t =>
      obtain ⟨st', h⟩ := motionOccurrences_total pair.1 i.id t.id (valuesInOrder pair.2) st
        (fun e he => hv e ((mem_valuesInOrder pair.2 e).mp he))
      refine ⟨st', ?_⟩
      unfold motionPair
      simp only [hh, hfind, hi, hterm, Option.map_some']
      exact h

theorem motionPairs_total (l : List (Edge × OccSet)) (st : MotionState)
    (hname : ∀ p ∈ l, p.1.1 ∈ st.F.names) (ht : ∀ B ∈ st.F, B.getTerminator ≠ none)
    (hv : ∀ p ∈ l, ∀ e ∈ p.2, ∃ x ∈ st.F.allInstrs, x.id = e) :
    ∃ st', motionPairs l st = some st' := by
  induction l generalizing st with
  | nil => exact ⟨st, rfl⟩
  | cons p rest ih =>
    obtain ⟨st1, h1⟩ := motionPair_total st p (hname p (List.mem_cons_self _ _)) ht
      (hv p (List.mem_cons_self _ _))
    have hstep := motionPair_step st st1 p h1
    obtain ⟨st', h2⟩ := ih st1
      (fun q hq => by rw [hstep.names]; exact hname q (List.mem_cons_of_mem _ hq))
      (hstep.terminators ht)
      (fun q hq e he => hstep.ids e (hv q (List.mem_cons_of_mem _ hq) e he))
    refine ⟨st', ?_⟩
    simp only [motionPairs, h1]
    exact h2

/-- The pass returns on every function whose blocks have distinct names and end with a
terminator, when each loop may make blocks times occurrences plus one passes. -/
theorem runOnFunction_returns (bpi : BlockName → BlockName → BranchProbability) (F : Func)
    (hn : F.names.Nodup) (ht : ∀ B ∈ F, B.getTerminator ≠ none) :
    ∃ F', runOnFunction (F.length * F.occurrences.card + 1) bpi F = some (F', true) := by
  obtain ⟨a, ha⟩ := runAnalyses_returns bpi F hn
  obtain ⟨st', hst⟩ := motionPairs_total a.inserts.entries (MotionState.initial F)
    (fun p hp => (runAnalyses_inserts_wf _ bpi F hn a ha p hp).2.1) ht
    (fun p hp e he => by
      have hocc := (runAnalyses_inserts_wf _ bpi F hn a ha p hp).2.2 he
      obtain ⟨BB, hBB, i, hi, -, rfl⟩ := (mem_occurrences F e).mp hocc
      exact ⟨i, mem_allInstrs F BB hBB i hi, rfl⟩)
  refine ⟨st'.F, ?_⟩
  unfold runOnFunction performRemoveAndInsert
  simp only [ha, hst]

/-- The value that the pass returns is `true`. -/
theorem runOnFunction_flag (fuel : Nat) (bpi : BlockName → BlockName → BranchProbability)
    (F F' : Func) (r : Bool) (h : runOnFunction fuel bpi F = some (F', r)) : r = true := by
  unfold runOnFunction at h
  cases ha : runAnalyses fuel bpi F with
  | none => simp [ha] at h
  | some a =>
    simp only [ha] at h
    cases hp : performRemoveAndInsert a.inserts (MotionState.initial F) with
    | none => simp [hp] at h
    | some st =>
      simp only [hp, Option.some.injEq, Prod.mk.injEq] at h
      exact h.2.symm

theorem valuesInOrder_empty : valuesInOrder ∅ = [] := by decide

/-- An entry of `inserts` with an empty set leaves the state as it is. -/
theorem motionPair_empty (st : MotionState) (pair : Edge × OccSet)
    (hname : pair.1.1 ∈ st.F.names) (he : pair.2 = ∅) : motionPair st pair = some st := by
  obtain ⟨toInsert, hmem, hfind⟩ := findBlock_of_mem_names st.F pair.1.1 hname
  cases hh : st.F.head? with
  | none =>
    rw [List.head?_eq_none_iff] at hh
    rw [hh] at hmem
    simp at hmem
  | some entry =>
    unfold motionPair
    simp only [hh, hfind, he, valuesInOrder_empty, motionOccurrences]

theorem motionPairs_empty (l : List (Edge × OccSet)) (st : MotionState)
    (hname : ∀ p ∈ l, p.1.1 ∈ st.F.names) (he : ∀ p ∈ l, p.2 = ∅) :
    motionPairs l st = some st := by
  induction l with
  | nil => rfl
  | cons p rest ih =>
    simp only [motionPairs,
      motionPair_empty st p (hname p (List.mem_cons_self _ _)) (he p (List.mem_cons_self _ _))]
    exact ih (fun q hq => hname q (List.mem_cons_of_mem _ hq))
      (fun q hq => he q (List.mem_cons_of_mem _ hq))

/-- When every INSERT set is empty the pass leaves the function as it is. -/
theorem runOnFunction_nothing_to_insert (fuel : Nat)
    (bpi : BlockName → BlockName → BranchProbability) (F : Func) (hn : F.names.Nodup)
    (a : Analysis) (ha : runAnalyses fuel bpi F = some a)
    (he : ∀ p ∈ a.inserts.entries, p.2 = ∅) :
    performRemoveAndInsert a.inserts (MotionState.initial F) = some (MotionState.initial F) ∧
      runOnFunction fuel bpi F = some (F, true) := by
  have h1 : performRemoveAndInsert a.inserts (MotionState.initial F) =
      some (MotionState.initial F) :=
    motionPairs_empty a.inserts.entries (MotionState.initial F)
      (fun p hp => (runAnalyses_inserts_wf fuel bpi F hn a ha p hp).2.1) he
  refine ⟨h1, ?_⟩
  unfold runOnFunction
  simp only [ha, h1]
  rfl

/-! ## One slot for every occurrence -/

theorem slotsOf_append (e : InstrId) (l1 l2 : List Created) :
    slotsOf e (l1 ++ l2) = slotsOf e l1 ++ slotsOf e l2 := by
  unfold slotsOf
  exact List.filterMap_append _ _ _

theorem mem_slotsOf (e a : InstrId) (l : List Created) :
    a ∈ slotsOf e l ↔ Created.slot e a ∈ l := by
  unfold slotsOf
  rw [List.mem_filterMap]
  constructor
  · rintro ⟨c, hc, h⟩
    cases c with
    | slot occ alloc =>
      simp only at h
      by_cases ho : occ = e
      · rw [if_pos ho] at h
        simp only [Option.some.injEq] at h
        rw [← ho, ← h]
        exact hc
      · rw [if_neg ho] at h
        simp at h
    | store occ edge alloc id => simp at h
    | load occ alloc id => simp at h
  · intro h
    exact ⟨_, h, by simp⟩

theorem HeadHas.after {F G : Func} (h : FuncStep F G) (fp : InstrId) (hfp : HeadHas F fp) :
    HeadHas G fp := by
  obtain ⟨entry, he, y, hy, hid⟩ := hfp
  obtain ⟨entry', he', hstep⟩ := h.head entry he
  obtain ⟨z, hz, hzy⟩ := hstep.2.2.1 y hy
  exact ⟨entry', he', z, hz, hzy.trans hid⟩

theorem HeadAlloca.stays {F G : Func} (h : FuncStep F G) (a : InstrId) (ha : HeadAlloca F a) :
    HeadAlloca G a := by
  obtain ⟨entry, he, hmem⟩ := ha
  obtain ⟨entry', he', hstep⟩ := h.head entry he
  exact ⟨entry', he', hstep.2.2.2 a hmem⟩

/-- An `alloca` inserted before an instruction of the entry block is in the entry block. -/
theorem HeadAlloca_insertBefore (F : Func) (fp a : InstrId) (hfp : HeadHas F fp) :
    HeadAlloca (F.insertBefore fp ⟨a, Opcode.Alloca, []⟩) a := by
  obtain ⟨entry, he, hy⟩ := hfp
  cases F with
  | nil => simp at he
  | cons hd tl =>
    simp only [List.head?_cons, Option.some.injEq] at he
    subst he
    exact ⟨_, rfl, insertBeforeIn_inserted fp _ hd.instrs hy⟩

theorem cloneOperands_next_le (insertBefore : InstrId) (operands : List Value)
    (st : Func × InstrId × List (InstrId × InstrId)) :
    st.2.1 ≤ (cloneOperands insertBefore operands st).2.1 := by
  unfold cloneOperands
  induction operands generalizing st with
  | nil => exact le_refl _
  | cons U rest ih =>
    rw [List.foldl_cons]
    refine le_trans ?_ (ih _)
    cases st.1.asInstr U with
    | none => exact le_refl _
    | some Inst => exact Nat.le_succ _

theorem Extends.self (S : InstrId → Prop) (st : MotionState) : Extends S st st :=
  ⟨fun _ _ h => h, fun _ h => h, fun _ _ h => Or.inl h⟩

theorem Extends.chain {S : InstrId → Prop} {a b c : MotionState} (h1 : Extends S a b)
    (h2 : Extends S b c) : Extends S a c :=
  ⟨fun e x h => h2.allocas e x (h1.allocas e x h), fun x h => h2.created x (h1.created x h),
    fun e x h => by
      rcases h2.only e x h with h | h
      · exact h1.only e x h
      · exact Or.inr h⟩

theorem Extends.weaken {S T : InstrId → Prop} {a b : MotionState} (h : Extends S a b)
    (hST : ∀ e, S e → T e) : Extends T a b :=
  ⟨h.allocas, h.created, fun e x hx => (h.only e x hx).imp id (hST e)⟩

theorem Served.later {S : InstrId → Prop} {a b : MotionState} (h : Extends S a b) (edge : Edge)
    (e : InstrId) (hs : Served a edge e) : Served b edge e := by
  obtain ⟨alloc, h1, ⟨id1, h2⟩, ⟨id2, h3⟩⟩ := hs
  exact ⟨alloc, h.allocas e alloc h1, ⟨id1, h.created _ h2⟩, ⟨id2, h.created _ h3⟩⟩

/-- Obtaining the slot of `e` keeps the invariant and leaves `e` with the returned slot. -/
theorem obtainSlot_inv (firstPossInsert : Option InstrId) (st st1 : MotionState)
    (e alloc : InstrId) (h : obtainSlot firstPossInsert st e = some (alloc, st1))
    (hinv : SlotInv st) (hfp : ∀ fp, firstPossInsert = some fp → HeadHas st.F fp) :
    SlotInv st1 ∧ Extends (fun x => x = e) st st1 ∧ st1.allocas.find? e = some alloc ∧
      st.next ≤ st1.next := by
  unfold obtainSlot at h
  cases hf : st.allocas.find? e with
  | some a =>
    simp only [hf, Option.some.injEq, Prod.mk.injEq] at h
    obtain ⟨h1, h2⟩ := h
    subst h1 h2
    exact ⟨hinv, Extends.self _ _, hf, le_refl _⟩
  | none =>
    cases firstPossInsert with
    | none => simp [hf] at h
    | some fp =>
      simp only [hf, Option.some.injEq, Prod.mk.injEq] at h
      obtain ⟨h1, h2⟩ := h
      subst h1 h2
      have hfind : ∀ e', (st.allocas.insert e st.next).find? e' =
          if e = e' then some st.next else st.allocas.find? e' :=
        fun e' => StdMap.find?_insert st.allocas e st.next e'
      have hstep : FuncStep st.F (st.F.insertBefore fp ⟨st.next, Opcode.Alloca, []⟩) :=
        FuncStep_insertBefore _ _ _
      refine ⟨⟨?_, ?_, ?_, ?_, ?_, ?_⟩, ⟨?_, ?_, ?_⟩, ?_, ?_⟩
      · intro e'
        simp only [slotsOf_append, hfind, hinv.slots e']
        by_cases he : e = e'
        · subst he
          simp [slotsOf, hf]
        · simp [slotsOf, he]
      · intro e' edge a id hmem
        simp only [List.mem_append, List.mem_singleton] at hmem
        rcases hmem with hmem | hmem
        · have := hinv.stores e' edge a id hmem
          simp only [hfind]
          by_cases he : e = e'
          · subst he
            rw [hf] at this
            simp at this
          · rw [if_neg he]
            exact this
        · simp at hmem
      · intro e' a id hmem
        simp only [List.mem_append, List.mem_singleton] at hmem
        rcases hmem with hmem | hmem
        · have := hinv.loads e' a id hmem
          simp only [hfind]
          by_cases he : e = e'
          · subst he
            rw [hf] at this
            simp at this
          · rw [if_neg he]
            exact this
        · simp at hmem
      · intro e' a hmem
        simp only [hfind] at hmem
        by_cases he : e = e'
        · rw [if_pos he] at hmem
          simp only [Option.some.injEq] at hmem
          rw [← hmem]
          exact HeadAlloca_insertBefore st.F fp st.next (hfp fp rfl)
        · rw [if_neg he] at hmem
          exact (hinv.placed e' a hmem).stays hstep
      · intro e' a hmem
        simp only [hfind] at hmem
        by_cases he : e = e'
        · rw [if_pos he] at hmem
          simp only [Option.some.injEq] at hmem
          rw [← hmem]
          exact Nat.lt_succ_self _
        · rw [if_neg he] at hmem
          exact Nat.lt_succ_of_lt (hinv.fresh e' a hmem)
      · intro e1 e2 a h1 h2
        simp only [hfind] at h1 h2
        by_cases he1 : e = e1
        · by_cases he2 : e = e2
          · exact he1.symm.trans he2
          · rw [if_pos he1] at h1
            rw [if_neg he2] at h2
            simp only [Option.some.injEq] at h1
            have := hinv.fresh e2 a h2
            rw [← h1] at this
            exact absurd this (Nat.lt_irrefl _)
        · by_cases he2 : e = e2
          · rw [if_neg he1] at h1
            rw [if_pos he2] at h2
            simp only [Option.some.injEq] at h2
            have := hinv.fresh e1 a h1
            rw [← h2] at this
            exact absurd this (Nat.lt_irrefl _)
          · rw [if_neg he1] at h1
            rw [if_neg he2] at h2
            exact hinv.distinct e1 e2 a h1 h2
      · intro e' a hmem
        simp only [hfind]
        by_cases he : e = e'
        · subst he
          rw [hf] at hmem
          simp at hmem
        · rw [if_neg he]
          exact hmem
      · intro c hc
        exact List.mem_append_left _ hc
      · intro e' a hmem
        simp only [hfind] at hmem
        by_cases he : e = e'
        · exact Or.inr he.symm
        · rw [if_neg he] at hmem
          exact Or.inl hmem
      · simp only [hfind, if_true]
      · exact Nat.le_succ _

theorem FuncStep_motionTail (G : Func) (t1 t2 t3 : InstrId) (i1 i2 i3 : Instruction)
    (o n : InstrId) :
    FuncStep G
      ((((G.insertBefore t1 i1).insertBefore t2 i2).insertBefore t3 i3).replaceAllUsesWith
        o n) :=
  ((FuncStep_insertBefore G t1 i1).andThen (FuncStep_insertBefore _ t2 i2)).andThen
    ((FuncStep_insertBefore _ t3 i3).andThen (FuncStep_replaceAllUsesWith _ o n))

/-- The body of the inner loop keeps the invariant and serves its occurrence. -/
theorem motionOccurrence_inv (edge : Edge) (firstPossInsert insertBefore : Option InstrId)
    (st st' : MotionState) (e : InstrId)
    (h : motionOccurrence edge firstPossInsert insertBefore st e = some st')
    (hinv : SlotInv st) (hfp : ∀ fp, firstPossInsert = some fp → HeadHas st.F fp) :
    SlotInv st' ∧ Extends (fun x => x = e) st st' ∧ Served st' edge e := by
  obtain ⟨alloc, st1, i, ib, ho, -, -, rfl⟩ :=
    motionOccurrence_some edge firstPossInsert insertBefore st st' e h
  obtain ⟨hinv1, hext, hfind, -⟩ := obtainSlot_inv firstPossInsert st st1 e alloc ho hinv hfp
  have hle := cloneOperands_next_le ib i.operands (st1.F, st1.next, [])
  refine ⟨⟨?_, ?_, ?_, ?_, ?_, ?_⟩, ⟨?_, ?_, ?_⟩, ?_⟩
  · intro e'
    simp only [slotsOf_append, hinv1.slots e']
    simp [slotsOf]
  · intro e' edge' a id hmem
    simp only [List.mem_append, List.mem_cons, List.mem_singleton, List.not_mem_nil,
      or_false] at hmem
    rcases hmem with hmem | hmem | hmem
    · exact hinv1.stores e' edge' a id hmem
    · simp only [Created.store.injEq] at hmem
      obtain ⟨h1, -, h3, -⟩ := hmem
      rw [h1, h3]
      exact hfind
    · simp at hmem
  · intro e' a id hmem
    simp only [List.mem_append, List.mem_cons, List.mem_singleton, List.not_mem_nil,
      or_false] at hmem
    rcases hmem with hmem | hmem | hmem
    · exact hinv1.loads e' a id hmem
    · simp at hmem
    · simp only [Created.load.injEq] at hmem
      obtain ⟨h1, h3, -⟩ := hmem
      rw [h1, h3]
      exact hfind
  · intro e' a hmem
    exact (hinv1.placed e' a hmem).stays
      ((cloneOperands_step ib i.operands (st1.F, st1.next, [])).andThen
        (FuncStep_motionTail _ _ _ _ _ _ _ _ _))
  · intro e' a hmem
    have h1 : a < st1.next := hinv1.fresh e' a hmem
    have h2 : st1.next ≤ (cloneOperands ib i.operands (st1.F, st1.next, [])).2.1 := hle
    exact Nat.lt_of_lt_of_le h1 (Nat.le_trans h2 (Nat.le_add_right _ 3))
  · intro e1 e2 a h1 h2
    exact hinv1.distinct e1 e2 a h1 h2
  · intro e' a hmem
    exact hext.allocas e' a hmem
  · intro c hc
    exact List.mem_append_left _ (hext.created c hc)
  · intro e' a hmem
    exact hext.only e' a hmem
  · exact ⟨alloc, hfind, ⟨_, List.mem_append_right _ (List.mem_cons_self _ _)⟩,
      ⟨_, List.mem_append_right _ (List.mem_cons_of_mem _ (List.mem_cons_self _ _))⟩⟩

theorem motionOccurrences_inv (edge : Edge) (firstPossInsert insertBefore : Option InstrId)
    (l : List InstrId) (st st' : MotionState)
    (h : motionOccurrences edge firstPossInsert insertBefore l st = some st')
    (hinv : SlotInv st) (hfp : ∀ fp, firstPossInsert = some fp → HeadHas st.F fp) :
    SlotInv st' ∧ Extends (fun x => x ∈ l) st st' ∧ ∀ e ∈ l, Served st' edge e := by
  induction l generalizing st with
  | nil =>
    simp only [motionOccurrences, Option.some.injEq] at h
    subst h
    exact ⟨hinv, Extends.self _ _, fun e he => absurd he (List.not_mem_nil e)⟩
  | cons e rest ih =>
    simp only [motionOccurrences] at h
    cases hm : motionOccurrence edge firstPossInsert insertBefore st e with
    | none => simp [hm] at h
    | some st1 =>
      simp only [hm] at h
      obtain ⟨hinv1, hext1, hserved1⟩ :=
        motionOccurrence_inv edge firstPossInsert insertBefore st st1 e hm hinv hfp
      have hstep := motionOccurrence_step edge firstPossInsert insertBefore st st1 e hm
      obtain ⟨hinv2, hext2, hserved2⟩ := ih st1 h hinv1
        (fun fp hfpe => (hfp fp hfpe).after hstep)
      refine ⟨hinv2, ?_, ?_⟩
      · exact (hext1.weaken (fun x hx => by rw [hx]; exact List.mem_cons_self _ _)).chain
          (hext2.weaken (fun x hx => List.mem_cons_of_mem _ hx))
      · intro x hx
        rcases List.mem_cons.mp hx with hx | hx
        · rw [hx]
          exact Served.later hext2 edge e hserved1
        · exact hserved2 x hx

theorem motionPair_inv (st st' : MotionState) (pair : Edge × OccSet)
    (h : motionPair st pair = some st') (hinv : SlotInv st) :
    SlotInv st' ∧ Extends (fun x => x ∈ pair.2) st st' ∧ ∀ e ∈ pair.2, Served st' pair.1 e := by
  unfold motionPair at h
  cases hh : st.F.head? with
  | none => simp [hh] at h
  | some entry =>
    simp only [hh] at h
    cases hb : st.F.findBlock pair.1.1 with
    | none => simp [hb] at h
    | some toInsert =>
      simp only [hb] at h
      obtain ⟨h1, h2, h3⟩ := motionOccurrences_inv _ _ _ _ st st' h hinv
        (by
          intro fp hfp
          rw [Option.map_eq_some'] at hfp
          obtain ⟨i, hi, hid⟩ := hfp
          unfold BasicBlock.getFirstNonPHI at hi
          exact ⟨entry, hh, i, List.mem_of_find?_eq_some hi, hid⟩)
      exact ⟨h1, h2.weaken (fun x hx => (mem_valuesInOrder pair.2 x).mp hx),
        fun e he => h3 e ((mem_valuesInOrder pair.2 e).mpr he)⟩

theorem motionPairs_inv (l : List (Edge × OccSet)) (st st' : MotionState)
    (h : motionPairs l st = some st') (hinv : SlotInv st) :
    SlotInv st' ∧ Extends (fun x => ∃ p ∈ l, x ∈ p.2) st st' ∧
      ∀ p ∈ l, ∀ e ∈ p.2, Served st' p.1 e := by
  induction l generalizing st with
  | nil =>
    simp only [motionPairs, Option.some.injEq] at h
    subst h
    exact ⟨hinv, Extends.self _ _, fun p hp => absurd hp (List.not_mem_nil p)⟩
  | cons p rest ih =>
    simp only [motionPairs] at h
    cases hm : motionPair st p with
    | none => simp [hm] at h
    | some st1 =>
      simp only [hm] at h
      obtain ⟨hinv1, hext1, hserved1⟩ := motionPair_inv st st1 p hm hinv
      obtain ⟨hinv2, hext2, hserved2⟩ := ih st1 h hinv1
      refine ⟨hinv2, ?_, ?_⟩
      · exact (hext1.weaken (fun x hx => ⟨p, List.mem_cons_self _ _, hx⟩)).chain
          (hext2.weaken (fun x hx => by
            obtain ⟨q, hq, hxq⟩ := hx
            exact ⟨q, List.mem_cons_of_mem _ hq, hxq⟩))
      · intro q hq e he
        rcases List.mem_cons.mp hq with hq | hq
        · rw [hq]
          exact Served.later hext2 p.1 e (hserved1 e (by rw [← hq]; exact he))
        · exact hserved2 q hq e he

theorem SlotInv_initial (F : Func) : SlotInv (MotionState.initial F) :=
  ⟨fun _ => rfl, fun _ _ _ _ h => absurd h (List.not_mem_nil _),
    fun _ _ _ h => absurd h (List.not_mem_nil _),
    fun e a h => by simp [MotionState.initial, StdMap.find?_empty] at h,
    fun e a h => by simp [MotionState.initial, StdMap.find?_empty] at h,
    fun e e' a h => by simp [MotionState.initial, StdMap.find?_empty] at h⟩

/-! ## What the analyses return, field by field -/

/-- The analysis record that `runAnalyses` returns. -/
theorem runAnalyses_eq (fuel : Nat) (bpi : BlockName → BlockName → BranchProbability)
    (F : Func) (a : Analysis) (h : runAnalyses fuel bpi F = some a) :
    ∃ avouts avins needins needouts,
      fillAvinAvouts fuel
          (fillCandidates (calculateHotColdNodes F StdMap.empty [] []).2.1
            (fillXUses F StdMap.empty) ∅)
          (fillGens F StdMap.empty) (fillKills F StdMap.empty) a.ingressEdges
          StdMap.empty StdMap.empty F = some (avouts, avins) ∧
        compute_needin_needout fuel
          (fillRemovables (fillXUses F StdMap.empty) avins
            (calculateHotColdNodes F StdMap.empty [] []).2.1 StdMap.empty F)
          (fillGens F StdMap.empty) StdMap.empty StdMap.empty F = some (needins, needouts) ∧
        a.hotNodes = (calculateHotColdNodes F StdMap.empty [] []).2.1 ∧
        a.coldNodes = (calculateHotColdNodes F StdMap.empty [] []).2.2.1 ∧
        a.hotEdges =
          (calculateHotColdEdges F bpi (calculateHotColdNodes F StdMap.empty [] []).1 [] []
            (calculateHotColdNodes F StdMap.empty [] []).2.2.2).1 ∧
        a.coldEdges =
          (calculateHotColdEdges F bpi (calculateHotColdNodes F StdMap.empty [] []).1 [] []
            (calculateHotColdNodes F StdMap.empty [] []).2.2.2).2 ∧
        a.ingressEdges = calculateIngressEdges a.coldEdges a.hotNodes a.coldNodes [] ∧
        a.xUses = fillXUses F StdMap.empty ∧ a.gens = fillGens F StdMap.empty ∧
        a.kills = fillKills F StdMap.empty ∧
        a.candidates = fillCandidates a.hotNodes a.xUses ∅ ∧
        a.avins = avins ∧ a.avouts = avouts ∧
        a.removables = fillRemovables a.xUses avins a.hotNodes StdMap.empty F ∧
        a.needins = needins ∧ a.needouts = needouts ∧
        a.inserts = compute_inserts a.ingressEdges needins avouts StdMap.empty := by
  unfold runAnalyses at h
  simp only at h
  split at h
  · exact absurd h (by simp)
  · rename_i avouts avins h1
    split at h
    · exact absurd h (by simp)
    · rename_i needins needouts h2
      simp only [Option.some.injEq] at h
      subst h
      exact ⟨avouts, avins, needins, needouts, h1, h2, rfl, rfl, rfl, rfl, rfl, rfl, rfl, rfl,
        rfl, rfl, rfl, rfl, rfl, rfl, rfl⟩

theorem StdMap.mem_unionAll {K : Type} (m : StdMap K OccSet) (x : InstrId) :
    x ∈ m.unionAll ↔ ∃ p ∈ m.entries, x ∈ p.2 := by
  unfold StdMap.unionAll
  have key : ∀ (l : List (K × OccSet)) (acc : OccSet),
      x ∈ l.foldl (fun acc e => acc ∪ e.2) acc ↔ x ∈ acc ∨ ∃ p ∈ l, x ∈ p.2 := by
    intro l
    induction l with
    | nil => intro acc; simp
    | cons hd tl ih =>
      intro acc
      rw [List.foldl_cons, ih]
      simp only [Finset.mem_union, List.mem_cons, exists_eq_or_imp]
      tauto
  rw [key]
  simp

/-- An entry of the map that `fillRemovables` returns from the empty map belongs to a hot
block of the function and holds AVIN ∩ XUSE of that block. -/
theorem fillRemovables_entries (xUses avins : StdMap BlockName OccSet)
    (hotNodes : List BlockName) (F : Func) (p : BlockName × OccSet)
    (hp : p ∈ (fillRemovables xUses avins hotNodes StdMap.empty F).entries) :
    p.1 ∈ hotNodes ∧ p.1 ∈ F.names ∧ p.2 = avins.get p.1 ∩ xUses.get p.1 := by
  unfold fillRemovables at hp
  have key : ∀ (l : List BasicBlock) (m : StdMap BlockName OccSet),
      p ∈ (l.foldl
        (fun removables BB =>
          if BB.name ∈ hotNodes then
            removables.insert BB.name (set_intersection (avins.get BB.name) (xUses.get BB.name) ∅)
          else removables) m).entries →
      p ∈ m.entries ∨
        (p.1 ∈ hotNodes ∧ p.1 ∈ l.map BasicBlock.name ∧ p.2 = avins.get p.1 ∩ xUses.get p.1) := by
    intro l
    induction l with
    | nil => intro m h; exact Or.inl h
    | cons hd tl ih =>
      intro m h
      rw [List.foldl_cons] at h
      rcases ih _ h with h | ⟨h1, h2, h3⟩
      · by_cases hh : hd.name ∈ hotNodes
        · rw [if_pos hh] at h
          rcases StdMap.mem_insertIn _ _ _ _ h with h | h
          · right
            rw [h]
            refine ⟨hh, by simp, ?_⟩
            simp only [set_intersection_eq, Finset.empty_union]
          · exact Or.inl h
        · rw [if_neg hh] at h
          exact Or.inl h
      · exact Or.inr ⟨h1, by simp only [List.map_cons, List.mem_cons]; exact Or.inr h2, h3⟩
  rcases key F StdMap.empty hp with h | h
  · simp [StdMap.empty] at h
  · exact h

/-- Every occurrence of a NEEDIN set that `compute_needin_needout` returns from empty maps is
in the REMOVABLE set of some entry of the REMOVABLE map. -/
theorem compute_needin_needout_from_removables (fuel : Nat)
    (removables gens needouts0 needins needouts : StdMap BlockName OccSet) (F : Func)
    (hn : F.names.Nodup)
    (h : compute_needin_needout fuel removables gens StdMap.empty needouts0 F =
      some (needins, needouts)) (k : BlockName) (x : InstrId) (hx : x ∈ needins.get k) :
    ∃ p ∈ removables.entries, x ∈ p.2 :=
  (StdMap.mem_unionAll removables x).mp
    (compute_needin_needout_bounded fuel removables gens needouts0 needins needouts F hn
      removables.unionAll (fun k => StdMap.get_subset_unionAll removables k) h k hx)

/-- The entries a map reads under a key: the set read is stored under that key, when the
set is not empty. -/
theorem StdMap.entry_of_mem_get (m : StdMap BlockName OccSet) (k : BlockName) (x : InstrId)
    (hx : x ∈ m.get k) : ∃ s, (k, s) ∈ m.entries ∧ x ∈ s := by
  unfold StdMap.get at hx
  cases hf : m.find? k with
  | none => simp [hf] at hx
  | some s =>
    simp only [hf, Option.getD_some] at hx
    exact ⟨s, StdMap.mem_of_findIn m.entries k s hf, hx⟩

/-- Two blocks of a function that hold an instruction with the same identity are the same
block, when block names and instruction identities are unique. -/
theorem block_eq_of_instr (F : Func) (hi : (F.allInstrs.map Instruction.id).Nodup)
    (A B : BasicBlock) (hA : A ∈ F) (hB : B ∈ F) (a b : Instruction) (ha : a ∈ A.instrs)
    (hb : b ∈ B.instrs) (hid : a.id = b.id) : A = B := by
  have hab : a = b := instr_eq_of_id F hi a b (mem_allInstrs F A hA a ha)
    (mem_allInstrs F B hB b hb) hid
  subst hab
  by_contra hne
  have hnd : F.allInstrs.Nodup := List.Nodup.of_map _ hi
  unfold Func.allInstrs at hnd
  rw [List.nodup_flatMap] at hnd
  have hsymm : Symmetric (Function.onFun List.Disjoint BasicBlock.instrs) :=
    fun x y hxy => List.Disjoint.symm hxy
  exact (hnd.2.forall hsymm hA hB hne) ha hb

/-! ## The local scan of `fillXUses` -/

/-- The scan of `fillXUses` for an occurrence with no structurally identical instruction
before it: the flag is raised exactly when it was raised before or some load located before
the occurrence is preceded by a store to its address. -/
theorem xUseScan_first (e : Instruction) (pre post : List Instruction)
    (hfirst : ∀ k ∈ pre, e.isIdenticalTo k = false) (before : List Instruction)
    (killed : Bool) :
    xUseScan e before (pre ++ e :: post) killed = true ↔
      killed = true ∨ ∃ a l b, pre = a ++ l :: b ∧ l.opcode = Opcode.Load ∧
        ∃ s ∈ before ++ a, storesTo s (l.getOperand 0) = true := by
  induction pre generalizing before killed with
  | nil =>
    simp only [List.nil_append, xUseScan, isIdenticalTo_self, if_true]
    constructor
    · exact fun h => Or.inl h
    · rintro (h | ⟨a, l, b, hab, -⟩)
      · exact h
      · cases a <;> simp at hab
  | cons hd tl ih =>
    have h1 : e.isIdenticalTo hd = false := hfirst hd (List.mem_cons_self _ _)
    have ih2 := ih (fun k hk => hfirst k (List.mem_cons_of_mem _ hk))
    simp only [List.cons_append, xUseScan, h1, Bool.false_eq_true, if_false, List.append_eq]
    by_cases hl : hd.opcode = Opcode.Load
    · rw [if_pos hl, ih2]
      constructor
      · rintro (h | ⟨a, l, b, hab, hload, s, hs, hst⟩)
        · by_cases hany : before.any (fun kTemp => storesTo kTemp (hd.getOperand 0)) = true
          · right
            obtain ⟨s, hs, hst⟩ := List.any_eq_true.mp hany
            exact ⟨[], hd, tl, rfl, hl, s, by simpa using hs, hst⟩
          · rw [if_neg hany] at h
            exact Or.inl h
        · right
          refine ⟨hd :: a, l, b, by rw [hab]; rfl, hload, s, ?_, hst⟩
          simp only [List.mem_append, List.mem_cons, List.mem_singleton, List.not_mem_nil,
            or_false] at hs ⊢
          tauto
      · rintro (h | ⟨a, l, b, hab, hload, s, hs, hst⟩)
        · left
          rw [h]
          simp
        · cases a with
          | nil =>
            simp only [List.nil_append, List.cons.injEq] at hab
            obtain ⟨hab1, -⟩ := hab
            left
            have hany : before.any (fun kTemp => storesTo kTemp (hd.getOperand 0)) = true := by
              rw [List.any_eq_true]
              rw [List.append_nil] at hs
              exact ⟨s, hs, by rw [hab1]; exact hst⟩
            rw [if_pos hany]
          | cons a0 a' =>
            simp only [List.cons_append, List.cons.injEq] at hab
            obtain ⟨hab1, hab2⟩ := hab
            right
            refine ⟨a', l, b, hab2, hload, s, ?_, hst⟩
            simp only [List.mem_append, List.mem_cons, List.mem_singleton, List.not_mem_nil,
              or_false] at hs ⊢
            rw [hab1]
            tauto
    · rw [if_neg hl, ih2]
      constructor
      · rintro (h | ⟨a, l, b, hab, hload, s, hs, hst⟩)
        · exact Or.inl h
        · right
          refine ⟨hd :: a, l, b, by rw [hab]; rfl, hload, s, ?_, hst⟩
          simp only [List.mem_append, List.mem_cons, List.mem_singleton, List.not_mem_nil,
            or_false] at hs ⊢
          tauto
      · rintro (h | ⟨a, l, b, hab, hload, s, hs, hst⟩)
        · exact Or.inl h
        · cases a with
          | nil =>
            simp only [List.nil_append, List.cons.injEq] at hab
            obtain ⟨hab1, -⟩ := hab
            rw [hab1] at hl
            exact absurd hload hl
          | cons a0 a' =>
            simp only [List.cons_append, List.cons.injEq] at hab
            obtain ⟨hab1, hab2⟩ := hab
            right
            refine ⟨a', l, b, hab2, hload, s, ?_, hst⟩
            simp only [List.mem_append, List.mem_cons, List.mem_singleton, List.not_mem_nil,
              or_false] at hs ⊢
            rw [hab1]
            tauto

/-- The flag of `fillXUses` for an occurrence with an operand and no structurally identical
instruction before it. -/
theorem xUseKilled_first (BB : BasicBlock) (pre post : List Instruction) (e : Instruction)
    (hsplit : BB.instrs = pre ++ e :: post) (hops : e.operands ≠ [])
    (hfirst : ∀ k ∈ pre, e.isIdenticalTo k = false) :
    xUseKilled BB e = true ↔
      ∃ a l b, pre = a ++ l :: b ∧ l.opcode = Opcode.Load ∧
        ∃ s ∈ a, storesTo s (l.getOperand 0) = true := by
  obtain ⟨hit, hhit⟩ : ∃ hit, hit = xUseScan e [] BB.instrs false := ⟨_, rfl⟩
  have hscan : ∀ killed, xUseScan e [] BB.instrs killed = (killed || hit) := by
    intro killed
    have h1 := xUseScan_first e pre post hfirst [] killed
    rw [← hsplit] at h1
    cases killed with
    | true =>
      rw [Bool.true_or]
      exact h1.mpr (Or.inl rfl)
    | false => rw [Bool.false_or, hhit]
  have hfun : (fun (k : Bool) (_ : Value) => xUseScan e [] BB.instrs k) =
      fun k _ => (k || hit) := by
    funext k _
    exact hscan k
  unfold xUseKilled
  rw [hfun, operand_loop]
  have hne : e.operands.isEmpty = false := by
    cases hop : e.operands with
    | nil => exact absurd hop hops
    | cons _ _ => rfl
  rw [hne, hhit, hsplit]
  simp only [Bool.false_or, Bool.not_false, Bool.true_and]
  rw [xUseScan_first e pre post hfirst]
  constructor
  · rintro (h | h)
    · exact absurd h (by decide)
    · simpa using h
  · intro h
    right
    simpa using h

/-! ## The fixpoint does not depend on the order of the blocks -/

theorem initEmpty_find? (F : Func) (m : StdMap BlockName OccSet) (k : BlockName) :
    (F.foldl (fun m BB => m.insert BB.name ∅) m).find? k =
      if k ∈ F.names then some ∅ else m.find? k := by
  induction F generalizing m with
  | nil => simp [Func.names]
  | cons BB tl ih =>
    rw [List.foldl_cons, ih]
    simp only [Func.names, List.map_cons, List.mem_cons]
    by_cases h1 : k ∈ List.map BasicBlock.name tl
    · simp [Func.names, h1]
    · by_cases h2 : k = BB.name
      · simp [Func.names, h1, h2, StdMap.find?_insert]
      · have h3 : ¬ BB.name = k := fun e => h2 e.symm
        simp [Func.names, h1, h2, h3, StdMap.find?_insert]

theorem StdMap.get_congr (a b : StdMap BlockName OccSet) (k : BlockName)
    (h : a.find? k = b.find? k) : a.get k = b.get k := by
  unfold StdMap.get
  rw [h]

section Order

variable (sec : StdMap BlockName OccSet → BasicBlock → OccSet)
variable (prim : BasicBlock → OccSet → OccSet)

/-- What a pass stores under each name. -/
theorem flowFold_find? (l : List BasicBlock)
    (st : StdMap BlockName OccSet × StdMap BlockName OccSet × Bool) (k : BlockName) :
    (k ∉ l.map BasicBlock.name →
      (l.foldl (flowBlock sec prim) st).1.find? k = st.1.find? k ∧
        (l.foldl (flowBlock sec prim) st).2.1.find? k = st.2.1.find? k) ∧
    (k ∈ l.map BasicBlock.name →
      (l.foldl (flowBlock sec prim) st).1.find? k ≠ none ∧
        (l.foldl (flowBlock sec prim) st).2.1.find? k ≠ none) := by
  induction l generalizing st with
  | nil => exact ⟨fun _ => ⟨rfl, rfl⟩, fun h => absurd h (by simp)⟩
  | cons BB tl ih =>
    rw [List.foldl_cons]
    obtain ⟨ih1, ih2⟩ := ih (flowBlock sec prim st BB)
    constructor
    · intro hk
      simp only [List.map_cons, List.mem_cons, not_or] at hk
      obtain ⟨h1, h2⟩ := ih1 hk.2
      rw [h1, h2]
      simp only [flowBlock, StdMap.find?_insert]
      rw [if_neg (fun h => hk.1 h.symm), if_neg (fun h => hk.1 h.symm)]
      exact ⟨rfl, rfl⟩
    · intro hk
      by_cases hk2 : k ∈ tl.map BasicBlock.name
      · exact ih2 hk2
      · obtain ⟨h1, h2⟩ := ih1 hk2
        rw [h1, h2]
        simp only [List.map_cons, List.mem_cons] at hk
        have hkeq : BB.name = k := by
          rcases hk with h | h
          · exact h.symm
          · exact absurd h hk2
        simp only [flowBlock, StdMap.find?_insert, if_pos hkeq]
        exact ⟨by simp, by simp⟩

/-- What the loop returns under each name: an entry for every block name, and the entries
it was given for the other names. -/
theorem flowLoop_find? (F : Func) (fuel : Nat) (p s p1 s1 : StdMap BlockName OccSet)
    (h : flowLoop sec prim F fuel p s = some (p1, s1)) (k : BlockName) :
    (k ∉ F.names → p1.find? k = p.find? k ∧ s1.find? k = s.find? k) ∧
      (k ∈ F.names → p1.find? k = some (p1.get k) ∧ s1.find? k = some (s1.get k)) := by
  induction fuel generalizing p s with
  | zero => simp [flowLoop] at h
  | succ n ih =>
    simp only [flowLoop] at h
    obtain ⟨f1, f2⟩ := flowFold_find? sec prim F (p, s, false) k
    by_cases hc : (F.foldl (flowBlock sec prim) (p, s, false)).2.2 = true
    · rw [if_pos hc] at h
      obtain ⟨g1, g2⟩ := ih _ _ h
      refine ⟨fun hk => ?_, g2⟩
      obtain ⟨a1, a2⟩ := g1 hk
      obtain ⟨b1, b2⟩ := f1 hk
      exact ⟨a1.trans b1, a2.trans b2⟩
    · rw [if_neg hc] at h
      simp only [Option.some.injEq, Prod.mk.injEq] at h
      obtain ⟨h1, h2⟩ := h
      subst h1 h2
      refine ⟨f1, fun hk => ?_⟩
      obtain ⟨c1, c2⟩ := f2 hk
      unfold StdMap.get
      constructor
      · cases hf : (F.foldl (flowBlock sec prim) (p, s, false)).1.find? k with
        | none => exact absurd hf c1
        | some v => rfl
      · cases hf : (F.foldl (flowBlock sec prim) (p, s, false)).2.1.find? k with
        | none => exact absurd hf c2
        | some v => rfl

/-- A pass stays below every map that the transfer functions do not enlarge. -/
theorem flowFold_below (hsec : ∀ a b BB, (∀ k, a.get k ⊆ b.get k) → sec a BB ⊆ sec b BB)
    (hprim : ∀ BB s t, s ⊆ t → prim BB s ⊆ prim BB t) (q : StdMap BlockName OccSet)
    (l : List BasicBlock) (hq : ∀ BB ∈ l, prim BB (sec q BB) ⊆ q.get BB.name)
    (st : StdMap BlockName OccSet × StdMap BlockName OccSet × Bool)
    (hst : ∀ k, st.1.get k ⊆ q.get k) :
    ∀ k, (l.foldl (flowBlock sec prim) st).1.get k ⊆ q.get k := by
  induction l generalizing st with
  | nil => exact hst
  | cons BB tl ih =>
    rw [List.foldl_cons]
    apply ih (fun B hB => hq B (List.mem_cons_of_mem _ hB))
    intro k
    simp only [flowBlock, StdMap.get_insert]
    by_cases hk : BB.name = k
    · rw [if_pos hk, ← hk]
      exact (hprim BB _ _ (hsec _ _ BB hst)).trans (hq BB (List.mem_cons_self _ _))
    · rw [if_neg hk]
      exact hst k

/-- The loop returns a map below every map that the transfer functions do not enlarge and
that is above the initial map. -/
theorem flowLoop_below (hsec : ∀ a b BB, (∀ k, a.get k ⊆ b.get k) → sec a BB ⊆ sec b BB)
    (hprim : ∀ BB s t, s ⊆ t → prim BB s ⊆ prim BB t) (q : StdMap BlockName OccSet)
    (F : Func) (hq : ∀ BB ∈ F, prim BB (sec q BB) ⊆ q.get BB.name) (fuel : Nat)
    (p s p1 s1 : StdMap BlockName OccSet) (hp : ∀ k, p.get k ⊆ q.get k)
    (h : flowLoop sec prim F fuel p s = some (p1, s1)) :
    ∀ k, p1.get k ⊆ q.get k := by
  induction fuel generalizing p s with
  | zero => simp [flowLoop] at h
  | succ n ih =>
    simp only [flowLoop] at h
    have hb := flowFold_below sec prim hsec hprim q F hq (p, s, false) hp
    by_cases hc : (F.foldl (flowBlock sec prim) (p, s, false)).2.2 = true
    · rw [if_pos hc] at h
      exact ih _ _ hb h
    · rw [if_neg hc] at h
      simp only [Option.some.injEq, Prod.mk.injEq] at h
      rw [← h.1]
      exact hb

/-- Two runs of the loop over the same blocks in two orders, from initial maps that agree
and are empty on the block names, return maps that agree. -/
theorem flowLoop_order (hsec : ∀ a b BB, (∀ k, a.get k ⊆ b.get k) → sec a BB ⊆ sec b BB)
    (hprim : ∀ BB s t, s ⊆ t → prim BB s ⊆ prim BB t) (F1 F2 : Func) (hperm : F1.Perm F2)
    (hn : F1.names.Nodup) (fuel1 fuel2 : Nat) (p s p' s' p1 s1 p2 s2 : StdMap BlockName OccSet)
    (hpp : ∀ k, p.find? k = p'.find? k) (hss : ∀ k, s.find? k = s'.find? k)
    (hinit : ∀ k ∈ F1.names, p.get k = ∅)
    (h1 : flowLoop sec prim F1 fuel1 p s = some (p1, s1))
    (h2 : flowLoop sec prim F2 fuel2 p' s' = some (p2, s2)) :
    ∀ k, p1.find? k = p2.find? k ∧ s1.find? k = s2.find? k := by
  have hsecc : ∀ a b BB, (∀ k, a.get k = b.get k) → sec a BB = sec b BB := fun a b BB hab =>
    Finset.Subset.antisymm (hsec a b BB (fun k => by rw [hab k]))
      (hsec b a BB (fun k => by rw [hab k]))
  have hnames : ∀ k, k ∈ F1.names ↔ k ∈ F2.names := fun k =>
    (hperm.map BasicBlock.name).mem_iff
  have hn2 : F2.names.Nodup := (hperm.map BasicBlock.name).nodup_iff.mp hn
  have hfix1 := flowLoop_fixpoint sec prim hsecc F1 hn fuel1 p s p1 s1 h1
  have hfix2 := flowLoop_fixpoint sec prim hsecc F2 hn2 fuel2 p' s' p2 s2 h2
  have hf1 := flowLoop_find? sec prim F1 fuel1 p s p1 s1 h1
  have hf2 := flowLoop_find? sec prim F2 fuel2 p' s' p2 s2 h2
  have hpre1 : ∀ BB ∈ F1, prim BB (sec p1 BB) ⊆ p1.get BB.name := by
    intro BB hBB
    obtain ⟨a, b⟩ := hfix1 BB hBB
    rw [b, a]
  have hpre2 : ∀ BB ∈ F2, prim BB (sec p2 BB) ⊆ p2.get BB.name := by
    intro BB hBB
    obtain ⟨a, b⟩ := hfix2 BB hBB
    rw [b, a]
  have hle12 : ∀ k, p1.get k ⊆ p2.get k := by
    apply flowLoop_below sec prim hsec hprim p2 F1
      (fun BB hBB => hpre2 BB (hperm.mem_iff.mp hBB)) fuel1 p s p1 s1 _ h1
    intro k
    by_cases hk : k ∈ F1.names
    · rw [hinit k hk]
      exact Finset.empty_subset _
    · have := ((hf2 k).1 (fun h => hk ((hnames k).mpr h))).1
      rw [StdMap.get_congr p2 p' k this, StdMap.get_congr p p' k (hpp k)]
  have hle21 : ∀ k, p2.get k ⊆ p1.get k := by
    apply flowLoop_below sec prim hsec hprim p1 F2
      (fun BB hBB => hpre1 BB (hperm.mem_iff.mpr hBB)) fuel2 p' s' p2 s2 _ h2
    intro k
    by_cases hk : k ∈ F1.names
    · rw [← StdMap.get_congr p p' k (hpp k), hinit k hk]
      exact Finset.empty_subset _
    · have := ((hf1 k).1 hk).1
      rw [StdMap.get_congr p1 p k this, StdMap.get_congr p p' k (hpp k)]
  have hget : ∀ k, p1.get k = p2.get k := fun k =>
    Finset.Subset.antisymm (hle12 k) (hle21 k)
  intro k
  by_cases hk : k ∈ F1.names
  · have hk2 := (hnames k).mp hk
    obtain ⟨a1, a2⟩ := (hf1 k).2 hk
    obtain ⟨b1, b2⟩ := (hf2 k).2 hk2
    refine ⟨by rw [a1, b1, hget k], ?_⟩
    rw [a2, b2]
    obtain ⟨BB, hBB, hname⟩ := List.mem_map.mp hk
    rw [← hname, (hfix1 BB hBB).1, (hfix2 BB (hperm.mem_iff.mp hBB)).1]
    rw [hsecc p1 p2 BB hget]
  · have hk2 : k ∉ F2.names := fun h => hk ((hnames k).mpr h)
    obtain ⟨a1, a2⟩ := (hf1 k).1 hk
    obtain ⟨b1, b2⟩ := (hf2 k).1 hk2
    exact ⟨by rw [a1, b1, hpp k], by rw [a2, b2, hss k]⟩

end Order

/-! ## The round trip of a count through its normalised `double` -/

/-- Rounding is within one half of the quotient, from above. -/
theorem roundNearestEven_half_upper (n d : Nat) (hd : 0 < d) :
    2 * (roundNearestEven n d * d) ≤ 2 * n + d := by
  unfold roundNearestEven
  simp only
  have h1 := Nat.div_add_mod n d
  have h2 := Nat.mod_lt n hd
  have h3 : d * (n / d) = n / d * d := Nat.mul_comm _ _
  split_ifs
  · omega
  · have : (n / d + 1) * d = n / d * d + d := by ring
    omega
  · omega
  · have : (n / d + 1) * d = n / d * d + d := by ring
    omega

/-- Rounding is within one half of the quotient, from below. -/
theorem roundNearestEven_half_lower (n d : Nat) (hd : 0 < d) :
    2 * n ≤ 2 * (roundNearestEven n d * d) + d := by
  unfold roundNearestEven
  simp only
  have h1 := Nat.div_add_mod n d
  have h2 := Nat.mod_lt n hd
  have h3 : d * (n / d) = n / d * d := Nat.mul_comm _ _
  split_ifs
  · omega
  · have : (n / d + 1) * d = n / d * d + d := by ring
    omega
  · omega
  · have : (n / d + 1) * d = n / d * d + d := by ring
    omega

/-- The arithmetic of the round trip: `M` is the significand of `c / m` and `M2` that of
`(c / m) * m`; truncated, the latter does not exceed `c`. -/
theorem roundTrip_core (c m p q M s p2 M2 : Nat) (hc2 : c < 2 ^ 31) (hm : 0 < m)
    (hlo : m * 2 ^ p ≤ c * 2 ^ q)
    (hM : M = roundNearestEven (c * 2 ^ q * 2 ^ 52) (m * 2 ^ p)) (hs : s + p = q + 52)
    (hlo2 : 2 ^ s * 2 ^ p2 ≤ M * m) (hhi2 : M * m < 2 * (2 ^ s * 2 ^ p2))
    (hM2 : M2 = roundNearestEven (M * m * 2 ^ 52) (2 ^ s * 2 ^ p2)) :
    p2 ≤ 31 ∧ M2 / 2 ^ (52 - p2) ≤ c := by
  obtain ⟨P, hP⟩ : ∃ P, P = 2 ^ p := ⟨_, rfl⟩
  obtain ⟨Q, hQ⟩ : ∃ Q, Q = 2 ^ q := ⟨_, rfl⟩
  obtain ⟨S, hS⟩ : ∃ S, S = 2 ^ s := ⟨_, rfl⟩
  obtain ⟨P2, hP2⟩ : ∃ P2, P2 = 2 ^ p2 := ⟨_, rfl⟩
  have hPpos : 0 < P := hP ▸ Nat.two_pow_pos p
  have hQpos : 0 < Q := hQ ▸ Nat.two_pow_pos q
  have hSpos : 0 < S := hS ▸ Nat.two_pow_pos s
  have hP2pos : 0 < P2 := hP2 ▸ Nat.two_pow_pos p2
  have hSP : S * P = Q * 2 ^ 52 := by
    rw [hS, hP, hQ, ← pow_add, ← pow_add, hs]
  rw [← hP, ← hQ] at hlo hM
  rw [← hS, ← hP2] at hlo2 hhi2 hM2
  have hApos : 0 < m * P := Nat.mul_pos hm hPpos
  have F1 := roundNearestEven_half_upper (c * Q * 2 ^ 52) (m * P) hApos
  have F2 := roundNearestEven_half_lower (c * Q * 2 ^ 52) (m * P) hApos
  rw [← hM] at F1 F2
  have h252 : (2 : Nat) ^ 52 = 4503599627370496 := by norm_num
  have h231 : (2 : Nat) ^ 31 = 2147483648 := by norm_num
  rw [h252] at F1 F2 hSP
  rw [h231] at hc2
  -- the products that occur, as atoms
  have G1 : 4503599627370496 * (Q * P2) ≤ M * (m * P) := by
    calc 4503599627370496 * (Q * P2) = S * P * P2 := by rw [hSP]; ring
      _ = S * P2 * P := by ring
      _ ≤ M * m * P := Nat.mul_le_mul_right _ hlo2
      _ = M * (m * P) := by ring
  have G2 : M * (m * P) < 9007199254740992 * (Q * P2) := by
    calc M * (m * P) = M * m * P := by ring
      _ < 2 * (S * P2) * P := Nat.mul_lt_mul_of_pos_right hhi2 hPpos
      _ = 2 * (S * P * P2) := by ring
      _ = 9007199254740992 * (Q * P2) := by rw [hSP]; ring
  have hcQ : c * Q ≤ 2147483648 * Q := Nat.mul_le_mul_right _ (le_of_lt hc2)
  have hF1 : 2 * (M * (m * P)) ≤ 2 * (4503599627370496 * (c * Q)) + m * P := by
    have : c * Q * 4503599627370496 = 4503599627370496 * (c * Q) := by ring
    rw [this] at F1
    exact F1
  have hF2 : 2 * (4503599627370496 * (c * Q)) ≤ 2 * (M * (m * P)) + m * P := by
    have : c * Q * 4503599627370496 = 4503599627370496 * (c * Q) := by ring
    rw [this] at F2
    exact F2
  -- the binade of the product is that of `c`, or the one below
  have hP2c : P2 ≤ c := by
    by_contra hcon
    have h1 : c + 1 ≤ P2 := by omega
    have h2 : (c + 1) * Q ≤ P2 * Q := Nat.mul_le_mul_right _ h1
    have h3 : c * Q + Q ≤ Q * P2 := by
      calc c * Q + Q = (c + 1) * Q := by ring
        _ ≤ P2 * Q := h2
        _ = Q * P2 := by ring
    generalize Q * P2 = T at *
    generalize M * (m * P) = MA at *
    generalize c * Q = cQ at *
    generalize m * P = A at *
    omega
  have hcP2 : c ≤ 2 * P2 := by
    by_contra hcon
    have h1 : 2 * P2 + 1 ≤ c := by omega
    have h2 : (2 * P2 + 1) * Q ≤ c * Q := Nat.mul_le_mul_right _ h1
    have h3 : 2 * (Q * P2) + Q ≤ c * Q := by
      calc 2 * (Q * P2) + Q = (2 * P2 + 1) * Q := by ring
        _ ≤ c * Q := h2
    have h4 : Q * P2 ≤ 2147483648 * Q := by
      calc Q * P2 = P2 * Q := by ring
        _ ≤ 2147483648 * Q := Nat.mul_le_mul_right _ (by omega)
    generalize Q * P2 = T at *
    generalize M * (m * P) = MA at *
    generalize c * Q = cQ at *
    generalize m * P = A at *
    omega
  have hp2 : p2 ≤ 31 := by
    by_contra hcon
    have h1 : 2 ^ 32 ≤ 2 ^ p2 := Nat.pow_le_pow_right (by norm_num) (by omega)
    rw [← hP2] at h1
    norm_num at h1
    omega
  refine ⟨hp2, ?_⟩
  obtain ⟨X, hX⟩ : ∃ X, X = 2 ^ (52 - p2) := ⟨_, rfl⟩
  have hXP2 : X * P2 = 4503599627370496 := by
    rw [hX, hP2, ← pow_add, ← h252]
    congr 1
    omega
  have hX2 : 2 ≤ X := by
    rw [hX]
    calc 2 = 2 ^ 1 := by norm_num
      _ ≤ 2 ^ (52 - p2) := Nat.pow_le_pow_right (by norm_num) (by omega)
  rw [← hX]
  have hcQT : c * Q ≤ 2 * (Q * P2) := by
    calc c * Q ≤ 2 * P2 * Q := Nat.mul_le_mul_right _ hcP2
      _ = 2 * (Q * P2) := by ring
  have hMA : M * (m * P) ≤ 4503599627370496 * (c * Q) + Q * P2 := by
    generalize Q * P2 = T at *
    generalize M * (m * P) = MA at *
    generalize c * Q = cQ at *
    generalize m * P = A at *
    omega
  have hK : M2 ≤ c * X + 1 := by
    rw [hM2]
    apply roundNearestEven_upper _ _ _ (Nat.mul_pos hSpos hP2pos)
    apply Nat.le_of_mul_le_mul_right _ hPpos
    calc M * m * 2 ^ 52 * P = 4503599627370496 * (M * (m * P)) := by rw [h252]; ring
      _ ≤ 4503599627370496 * (4503599627370496 * (c * Q) + Q * P2) :=
        Nat.mul_le_mul_left _ hMA
      _ = (c * (X * P2) + P2) * (Q * 4503599627370496) := by rw [hXP2]; ring
      _ = (c * X + 1) * (S * P * P2) := by rw [hSP]; ring
      _ = (c * X + 1) * (S * P2) * P := by ring
  have hlt : M2 < (c + 1) * X := by
    have : (c + 1) * X = c * X + X := by ring
    omega
  have := (Nat.div_lt_iff_lt_mul (by omega : 0 < X)).mpr hlt
  omega
/-- The count that `calculateHotColdEdges` recovers from a normalised count: for a count `c`
that is not negative, `(uint64_t)((c / m) * m)` computed in `double` does not exceed `c`. -/
theorem roundTrip_le (c m : Int) (hc : 0 ≤ c) (hc2 : c < 2 ^ 31) (hm : 0 < m) :
    ((((Double.ofInt c).divInt m).mulInt m).toUInt64 : Int) ≤ c := by
  have hm0 : m ≠ 0 := by omega
  simp only [Double.ofInt, Double.divInt, hm0, if_false, Int.toNat_zero, pow_zero, mul_one,
    neg_zero]
  unfold roundRatio
  by_cases hc0 : c = 0
  · subst hc0
    simp [Double.mulInt, roundRatio, Double.toUInt64]
  · simp only [hc0, if_false]
    have hsign : ((c < 0) = (m < 0)) := by
      have h1 : (c < 0) = False := eq_false (by omega)
      have h2 : (m < 0) = False := eq_false (by omega)
      rw [h1, h2]
    simp only [hsign, if_true]
    obtain ⟨cn, rfl⟩ : ∃ cn : Nat, c = (cn : Int) := ⟨c.toNat, by omega⟩
    obtain ⟨mn, rfl⟩ : ∃ mn : Nat, m = (mn : Int) := ⟨m.toNat, by omega⟩
    simp only [Int.natAbs_ofNat]
    have hcn : cn ≠ 0 := by omega
    have hmn : mn ≠ 0 := by omega
    have hcn2 : cn < 2 ^ 31 := by exact_mod_cast hc2
    obtain ⟨p, q, M, hr, hpq, hlo, hhi, hM, hMlo, hMhi⟩ := roundPos_spec cn mn hcn hmn
    rw [hr]
    simp only
    have hp30 : p ≤ 30 := by
      rcases hpq with h | h
      · omega
      · subst h
        simp only [pow_zero, mul_one] at hlo
        by_contra hcon
        have h1 : 2 ^ 31 ≤ 2 ^ p := Nat.pow_le_pow_right (by norm_num) (by omega)
        have h2 : mn * 2 ^ 31 ≤ mn * 2 ^ p := Nat.mul_le_mul_left _ h1
        have h3 : 1 * 2 ^ 31 ≤ mn * 2 ^ 31 := Nat.mul_le_mul_right _ (by omega)
        omega
    obtain ⟨s, hs⟩ : ∃ s : Nat, s + p = q + 52 := ⟨q + 52 - p, by omega⟩
    have he1 : ((p : Int) - (q : Int) - 52).toNat = 0 := by omega
    have he2 : (-((p : Int) - (q : Int) - 52)).toNat = s := by omega
    simp only [Double.mulInt, he1, he2, pow_zero, mul_one]
    have hMpos : 0 < M := by
      have : 0 < 2 ^ 52 := Nat.two_pow_pos 52
      omega
    have hMm : M * mn ≠ 0 := Nat.mul_ne_zero (by omega) hmn
    have hMmi : ((M : Int) * (mn : Int)) ≠ 0 := by exact_mod_cast hMm
    unfold roundRatio
    simp only [hMmi, if_false]
    have hs1 : ((M : Int) * (mn : Int) < 0) = False := eq_false (not_lt.mpr (by positivity))
    have hs2 : ((2 : Int) ^ s < 0) = False := eq_false (not_lt.mpr (by positivity))
    have hsign2 : (((M : Int) * (mn : Int) < 0) = ((2 : Int) ^ s < 0)) := by rw [hs1, hs2]
    simp only [hsign2, if_true]
    have hn1 : ((M : Int) * (mn : Int)).natAbs = M * mn := by
      rw [← Int.natCast_mul, Int.natAbs_ofNat]
    have hn2 : ((2 : Int) ^ s).natAbs = 2 ^ s := by
      rw [Int.natAbs_pow]; rfl
    rw [hn1, hn2]
    obtain ⟨p2, q2, M2, hr2, hpq2, hlo2, hhi2, hM2, hM2lo, hM2hi⟩ :=
      roundPos_spec (M * mn) (2 ^ s) hMm (Nat.pos_iff_ne_zero.mp (Nat.two_pow_pos s))
    rw [hr2]
    simp only [Double.toUInt64]
    have hnn : ¬ ((M2 : Int) < 0) := by omega
    simp only [hnn, if_false, Int.toNat_ofNat]
    rcases Nat.eq_zero_or_pos q2 with hq2 | hq2
    · subst hq2
      simp only [pow_zero, mul_one] at hlo2 hhi2 hM2
      obtain ⟨hp2, hle⟩ := roundTrip_core cn mn p q M s p2 M2 hcn2 (by omega) hlo hM hs
        hlo2 hhi2 hM2
      have he3 : ((p2 : Int) - ((0 : Nat) : Int) - 52).toNat = 0 := by omega
      have he4 : (-((p2 : Int) - ((0 : Nat) : Int) - 52)).toNat = 52 - p2 := by omega
      rw [he3, he4]
      simp only [pow_zero, mul_one]
      exact_mod_cast hle
    · have hp2 : p2 = 0 := by omega
      subst hp2
      have he3 : (((0 : Nat) : Int) - (q2 : Int) - 52).toNat = 0 := by omega
      have he4 : (-(((0 : Nat) : Int) - (q2 : Int) - 52)).toNat = q2 + 52 := by omega
      rw [he3, he4]
      simp only [pow_zero, mul_one]
      have h1 : 2 ^ 53 ≤ 2 ^ (q2 + 52) := Nat.pow_le_pow_right (by norm_num) (by omega)
      have h2 : M2 / 2 ^ (q2 + 52) ≤ 1 := by
        have hpos : 0 < 2 ^ (q2 + 52) := Nat.two_pow_pos _
        have : M2 < 2 * 2 ^ (q2 + 52) := by omega
        have := (Nat.div_lt_iff_lt_mul hpos).mpr this
        omega
      have : ((M2 / 2 ^ (q2 + 52) : Nat) : Int) ≤ 1 := by exact_mod_cast h2
      omega

/-- A negative normalised count is recovered as 0. -/
theorem roundTrip_neg (c m : Int) (hc : c < 0) (hm : 0 < m) :
    (((Double.ofInt c).divInt m).mulInt m).toUInt64 = 0 := by
  have hm0 : m ≠ 0 := by omega
  have hc0 : c ≠ 0 := by omega
  simp only [Double.ofInt, Double.divInt, hm0, if_false, Int.toNat_zero, pow_zero, mul_one,
    neg_zero]
  unfold roundRatio
  simp only [hc0, if_false]
  have hsign : ¬ ((c < 0) = (m < 0)) := by
    have h1 : (c < 0) = True := eq_true hc
    have h2 : (m < 0) = False := eq_false (by omega)
    rw [h1, h2]
    simp
  simp only [hsign, if_false]
  obtain ⟨p, q, M, hr, hpq, hlo, hhi, hM, hMlo, hMhi⟩ :=
    roundPos_spec c.natAbs m.natAbs (by omega) (by omega)
  rw [hr]
  simp only [Double.mulInt]
  have hMpos : 0 < M := by
    have : 0 < 2 ^ 52 := Nat.two_pow_pos 52
    omega
  have hneg : -(M : Int) * m * 2 ^ ((p : Int) - (q : Int) - 52).toNat < 0 := by
    have h1 : (0 : Int) < 2 ^ ((p : Int) - (q : Int) - 52).toNat := by positivity
    have h2 : (0 : Int) < (M : Int) := by exact_mod_cast hMpos
    have h3 : (0 : Int) < (M : Int) * m := mul_pos h2 hm
    nlinarith [mul_pos h3 h1]
  unfold roundRatio
  simp only [ne_of_lt hneg, if_false]
  have hs1 : (-(M : Int) * m * 2 ^ ((p : Int) - (q : Int) - 52).toNat < 0) = True := eq_true hneg
  have hs2 : ((2 : Int) ^ (-((p : Int) - (q : Int) - 52)).toNat < 0) = False :=
    eq_false (not_lt.mpr (by positivity))
  have hsign2 : ¬ ((-(M : Int) * m * 2 ^ ((p : Int) - (q : Int) - 52).toNat < 0) =
      ((2 : Int) ^ (-((p : Int) - (q : Int) - 52)).toNat < 0)) := by
    rw [hs1, hs2]
    simp
  simp only [hsign2, if_false, Double.toUInt64]
  obtain ⟨p2, q2, M2, hr2, hpq2, hlo2, hhi2, hM2, hM2lo, hM2hi⟩ :=
    roundPos_spec (-(M : Int) * m * 2 ^ ((p : Int) - (q : Int) - 52).toNat).natAbs
      ((2 : Int) ^ (-((p : Int) - (q : Int) - 52)).toNat).natAbs
      (by simpa using ne_of_lt hneg) (by simp)
  rw [hr2]
  have hM2pos : 0 < M2 := by
    have : 0 < 2 ^ 52 := Nat.two_pow_pos 52
    omega
  have : -(M2 : Int) < 0 := by omega
  simp only [this, if_true]
/-! ## Edges out of a cold block -/

/-- The function `calculateHotColdEdges` in closed form: the edges are split by the
threshold test on their weight. -/
theorem calculateHotColdEdges_eq (F : Func) (bpi : BlockName → BlockName → BranchProbability)
    (freqs : StdMap BlockName Double) (hotEdges coldEdges : List Edge) (maxCount : Int) :
    calculateHotColdEdges F bpi freqs hotEdges coldEdges maxCount =
      (hotEdges ++ F.edges.filter (fun e =>
          THRESHOLD.lt ((Double.ofInt (edgeProb2 bpi freqs maxCount e.1 e.2)).divInt maxCount)),
        coldEdges ++ F.edges.filter (fun e =>
          !THRESHOLD.lt
            ((Double.ofInt (edgeProb2 bpi freqs maxCount e.1 e.2)).divInt maxCount))) := by
  unfold calculateHotColdEdges
  have inner : ∀ (BB : BasicBlock) (l : List BlockName) (st : List Edge × List Edge),
      l.foldl
        (fun (st : List Edge × List Edge) successor =>
          if THRESHOLD.lt ((Double.ofInt (toInt32 (BranchProbability.scale
              (bpi BB.name successor)
              ((freqs.getDouble BB.name).mulInt maxCount).toUInt64))).divInt maxCount) then
            (st.1 ++ [(BB.name, successor)], st.2)
          else (st.1, st.2 ++ [(BB.name, successor)])) st =
      (st.1 ++ (l.map (fun successor => (BB.name, successor))).filter (fun e =>
          THRESHOLD.lt ((Double.ofInt (edgeProb2 bpi freqs maxCount e.1 e.2)).divInt maxCount)),
        st.2 ++ (l.map (fun successor => (BB.name, successor))).filter (fun e =>
          !THRESHOLD.lt
            ((Double.ofInt (edgeProb2 bpi freqs maxCount e.1 e.2)).divInt maxCount))) := by
    intro BB l
    induction l with
    | nil => intro st; simp
    | cons hd tl ih =>
      intro st
      rw [List.foldl_cons, ih]
      by_cases hc : THRESHOLD.lt ((Double.ofInt (toInt32 (BranchProbability.scale
          (bpi BB.name hd)
          ((freqs.getDouble BB.name).mulInt maxCount).toUInt64))).divInt maxCount) = true
      · simp [hc, edgeProb2]
      · simp [hc, edgeProb2]
  have outer : ∀ (G : Func) (st : List Edge × List Edge),
      G.foldl
        (fun (st : List Edge × List Edge) BB =>
          BB.succs.foldl
            (fun (st : List Edge × List Edge) successor =>
              if THRESHOLD.lt ((Double.ofInt (toInt32 (BranchProbability.scale
                  (bpi BB.name successor)
                  ((freqs.getDouble BB.name).mulInt maxCount).toUInt64))).divInt maxCount) then
                (st.1 ++ [(BB.name, successor)], st.2)
              else (st.1, st.2 ++ [(BB.name, successor)])) st) st =
      (st.1 ++ G.edges.filter (fun e =>
          THRESHOLD.lt ((Double.ofInt (edgeProb2 bpi freqs maxCount e.1 e.2)).divInt maxCount)),
        st.2 ++ G.edges.filter (fun e =>
          !THRESHOLD.lt
            ((Double.ofInt (edgeProb2 bpi freqs maxCount e.1 e.2)).divInt maxCount))) := by
    intro G
    induction G with
    | nil => intro st; simp [Func.edges]
    | cons B tl ih =>
      intro st
      rw [List.foldl_cons, inner, ih]
      simp [Func.edges, List.filter_append, List.append_assoc]
  exact outer F (hotEdges, coldEdges)

/-- An edge of the CFG leaves a block of the function for one of its successors. -/
theorem Func.mem_edges (F : Func) (e : Edge) :
    e ∈ F.edges ↔ ∃ BB ∈ F, e.1 = BB.name ∧ e.2 ∈ BB.succs := by
  unfold Func.edges
  simp only [List.mem_flatMap, List.mem_map]
  constructor
  · rintro ⟨BB, hBB, s, hs, rfl⟩
    exact ⟨BB, hBB, rfl, hs⟩
  · rintro ⟨BB, hBB, h1, h2⟩
    exact ⟨BB, hBB, e.2, h2, by rw [← h1]⟩

/-- Reading a map after its values were rewritten in place. -/
theorem StdMap.findIn_map_values {V W : Type} (f : V → W) (l : List (BlockName × V))
    (k : BlockName) :
    StdMap.findIn (l.map (fun i => (i.1, f i.2))) k = (StdMap.findIn l k).map f := by
  induction l with
  | nil => rfl
  | cons hd tl ih =>
    obtain ⟨k1, v⟩ := hd
    simp only [List.map_cons, StdMap.findIn]
    split_ifs
    · rfl
    · exact ih

/-- The normalised counts that `calculateHotColdNodes` leaves in `freqs`. -/
theorem calculateHotColdNodes_freqs (F : Func) (hn : F.names.Nodup) (BB : BasicBlock)
    (hBB : BB ∈ F) :
    (calculateHotColdNodes F StdMap.empty [] []).1.getDouble BB.name =
      (Double.ofInt (toInt32 BB.count)).divInt
        (calculateHotColdNodes F StdMap.empty [] []).2.2.2 := by
  have hrec := recordFreqs_fold F hn StdMap.empty (by simp [StdMap.keys, StdMap.empty]) (-1)
  simp only at hrec
  obtain ⟨-, h2, -, -, -, -⟩ := hrec
  have hfind := h2 BB hBB
  unfold calculateHotColdNodes
  simp only [classifyNodes_eq, StdMap.getDouble, StdMap.find?]
  unfold recordFreqs
  simp only [StdMap.find?] at hfind
  simp only []
  have key := fun (M : Int) (l : List (BlockName × Double)) =>
    StdMap.findIn_map_values (fun d : Double => d.divInt M) l BB.name
  simp only [] at key
  rw [key, hfind]
  rfl

/-- The weight of an edge against the count of its source: with a positive maximum and
probabilities that do not exceed 1, the weight is not negative, and it does not exceed a
source count that is not negative. -/
theorem edgeProb2_le (F : Func) (bpi : BlockName → BlockName → BranchProbability)
    (hn : F.names.Nodup) (hmax : 0 < (calculateHotColdNodes F StdMap.empty [] []).2.2.2)
    (hprob : ∀ u v, bpi u v ≤ 2 ^ 31) (BB : BasicBlock) (hBB : BB ∈ F) (v : BlockName) :
    0 ≤ edgeProb2 bpi (calculateHotColdNodes F StdMap.empty [] []).1
        (calculateHotColdNodes F StdMap.empty [] []).2.2.2 BB.name v ∧
      (0 ≤ toInt32 BB.count →
        edgeProb2 bpi (calculateHotColdNodes F StdMap.empty [] []).1
          (calculateHotColdNodes F StdMap.empty [] []).2.2.2 BB.name v ≤ toInt32 BB.count) ∧
      (toInt32 BB.count ≤ 0 →
        edgeProb2 bpi (calculateHotColdNodes F StdMap.empty [] []).1
          (calculateHotColdNodes F StdMap.empty [] []).2.2.2 BB.name v = 0) := by
  unfold edgeProb2
  rw [calculateHotColdNodes_freqs F hn BB hBB]
  generalize (calculateHotColdNodes F StdMap.empty [] []).2.2.2 = m at hmax ⊢
  have hc2 := toInt32_lt BB.count
  generalize toInt32 BB.count = c at hc2 ⊢
  have h231 : (2 : Nat) ^ 31 = 2147483648 := by norm_num
  have h231i : (2 : Int) ^ 31 = 2147483648 := by norm_num
  have hscale : ∀ val : Nat, val < 2 ^ 31 →
      BranchProbability.scale (bpi BB.name v) val ≤ val := by
    intro val _
    unfold BranchProbability.scale
    apply le_trans (min_le_left _ _)
    apply Nat.div_le_of_le_mul
    rw [Nat.mul_comm (2 ^ 31)]
    exact Nat.mul_le_mul_left _ (hprob _ _)
  rcases lt_or_ge c 0 with hneg | hpos
  · rw [roundTrip_neg c m hneg hmax]
    have h0 : BranchProbability.scale (bpi BB.name v) 0 = 0 := by
      simp [BranchProbability.scale]
    rw [h0]
    have : toInt32 0 = 0 := by decide
    rw [this]
    exact ⟨le_refl _, fun h => by omega, fun _ => rfl⟩
  · have hle := roundTrip_le c m hpos hc2 hmax
    generalize (((Double.ofInt c).divInt m).mulInt m).toUInt64 = val at hle
    have hval : val < 2 ^ 31 := by
      have : (val : Int) < 2 ^ 31 := lt_of_le_of_lt hle hc2
      exact_mod_cast this
    have hs := hscale val hval
    have hs2 : BranchProbability.scale (bpi BB.name v) val < 2 ^ 31 := lt_of_le_of_lt hs hval
    rw [toInt32_of_lt _ hs2]
    have hsi : ((BranchProbability.scale (bpi BB.name v) val : Nat) : Int) ≤ (val : Int) := by
      exact_mod_cast hs
    refine ⟨Int.natCast_nonneg _, fun _ => le_trans hsi hle, fun h => ?_⟩
    have : ((BranchProbability.scale (bpi BB.name v) val : Nat) : Int) ≤ 0 := by omega
    have := Int.natCast_nonneg (BranchProbability.scale (bpi BB.name v) val)
    omega

/-! ## Insertion before an instruction, on the instruction list -/

/-- Without the target in the list nothing is inserted. -/
theorem insertBeforeIn_absent (target : InstrId) (inst : Instruction) (l : List Instruction)
    (h : ∀ i ∈ l, i.id ≠ target) : insertBeforeIn target inst l = l := by
  induction l with
  | nil => rfl
  | cons hd tl ih =>
    simp only [insertBeforeIn]
    rw [if_neg (h hd (List.mem_cons_self _ _)),
      ih (fun i hi => h i (List.mem_cons_of_mem _ hi))]

/-- A tail that does not hold the target is left alone. -/
theorem insertBeforeIn_append_right (target : InstrId) (inst : Instruction)
    (l r : List Instruction) (h : ∀ i ∈ r, i.id ≠ target) :
    insertBeforeIn target inst (l ++ r) = insertBeforeIn target inst l ++ r := by
  induction l with
  | nil => simp only [List.nil_append, insertBeforeIn_absent target inst r h, insertBeforeIn]
  | cons hd tl ih =>
    simp only [List.cons_append, insertBeforeIn, List.append_eq]
    by_cases hc : hd.id = target
    · simp only [if_pos hc, List.cons_append]
    · simp only [if_neg hc, List.cons_append, ih]

/-- Insertion before the last instruction of a list that holds the target nowhere else. -/
theorem insertBeforeIn_last (target : InstrId) (inst : Instruction) (l : List Instruction)
    (t : Instruction) (h : ∀ i ∈ l, i.id ≠ target) (ht : t.id = target) :
    insertBeforeIn target inst (l ++ [t]) = l ++ [inst, t] := by
  induction l with
  | nil => simp only [List.nil_append, insertBeforeIn, if_pos ht]
  | cons hd tl ih =>
    simp only [List.cons_append, insertBeforeIn, List.append_eq]
    rw [if_neg (h hd (List.mem_cons_self _ _)),
      ih (fun i hi => h i (List.mem_cons_of_mem _ hi))]

/-- Insertion keeps the instructions of the list in their order. -/
theorem sublist_insertBeforeIn (target : InstrId) (inst : Instruction) (l : List Instruction) :
    l.Sublist (insertBeforeIn target inst l) := by
  induction l with
  | nil => exact List.Sublist.refl _
  | cons hd tl ih =>
    simp only [insertBeforeIn]
    by_cases hc : hd.id = target
    · rw [if_pos hc]
      exact List.Sublist.cons _ (List.Sublist.refl _)
    · rw [if_neg hc]
      exact List.Sublist.cons₂ _ ih

/-- Insertion adds nothing but the inserted instruction. -/
theorem of_mem_insertBeforeIn (target : InstrId) (inst : Instruction) (l : List Instruction)
    (x : Instruction) (hx : x ∈ insertBeforeIn target inst l) : x ∈ l ∨ x = inst := by
  induction l with
  | nil => exact Or.inl hx
  | cons hd tl ih =>
    simp only [insertBeforeIn] at hx
    by_cases hc : hd.id = target
    · rw [if_pos hc] at hx
      rcases List.mem_cons.mp hx with h | h
      · exact Or.inr h
      · exact Or.inl h
    · rw [if_neg hc] at hx
      rcases List.mem_cons.mp hx with h | h
      · exact Or.inl (h ▸ List.mem_cons_self _ _)
      · rcases ih h with h1 | h1
        · exact Or.inl (List.mem_cons_of_mem _ h1)
        · exact Or.inr h1

/-- Insertion into a list that ends with `t` leaves `t` at the end and the instructions
before it in their order. -/
theorem insertBeforeIn_keeps_last (target : InstrId) (inst : Instruction)
    (pre : List Instruction) (t : Instruction) :
    ∃ mid, insertBeforeIn target inst (pre ++ [t]) = mid ++ [t] ∧ pre.Sublist mid ∧
      ∀ i ∈ mid, i ∈ pre ∨ i = inst := by
  induction pre with
  | nil =>
    by_cases hc : t.id = target
    · refine ⟨[inst], ?_, List.nil_sublist _, fun i hi => Or.inr (List.mem_singleton.mp hi)⟩
      simp only [List.nil_append, insertBeforeIn, if_pos hc, List.singleton_append]
    · refine ⟨[], ?_, List.Sublist.refl _, fun i hi => absurd hi (List.not_mem_nil i)⟩
      simp only [List.nil_append, insertBeforeIn, if_neg hc]
  | cons hd tl ih =>
    by_cases hc : hd.id = target
    · refine ⟨inst :: hd :: tl, ?_, List.Sublist.cons _ (List.Sublist.refl _), ?_⟩
      · simp only [List.cons_append, insertBeforeIn, if_pos hc, List.append_eq]
      · intro i hi
        rcases List.mem_cons.mp hi with h | h
        · exact Or.inr h
        · exact Or.inl h
    · obtain ⟨mid, h1, h2, h3⟩ := ih
      refine ⟨hd :: mid, ?_, List.Sublist.cons₂ _ h2, ?_⟩
      · simp only [List.cons_append, insertBeforeIn, if_neg hc, List.append_eq, h1]
      · intro i hi
        rcases List.mem_cons.mp hi with h | h
        · exact Or.inl (h ▸ List.mem_cons_self _ _)
        · rcases h3 i h with h4 | h4
          · exact Or.inl (List.mem_cons_of_mem _ h4)
          · exact Or.inr h4

/-- Insertion leaves the list as it is or adds one instruction to it. -/
theorem insertBeforeIn_perm (target : InstrId) (inst : Instruction) (l : List Instruction) :
    insertBeforeIn target inst l = l ∨ (insertBeforeIn target inst l).Perm (inst :: l) := by
  induction l with
  | nil => exact Or.inl rfl
  | cons hd tl ih =>
    simp only [insertBeforeIn]
    by_cases hc : hd.id = target
    · rw [if_pos hc]
      exact Or.inr (List.Perm.refl _)
    · rw [if_neg hc]
      rcases ih with h | h
      · rw [h]
        exact Or.inl rfl
      · exact Or.inr ((List.Perm.cons hd h).trans (List.Perm.swap _ _ _))

/-- Insertion of an instruction with a new identity keeps the identities distinct. -/
theorem nodup_insertBeforeIn (target : InstrId) (inst : Instruction) (l : List Instruction)
    (h : (l.map Instruction.id).Nodup) (hnew : ∀ i ∈ l, i.id ≠ inst.id) :
    ((insertBeforeIn target inst l).map Instruction.id).Nodup := by
  rcases insertBeforeIn_perm target inst l with h1 | h1
  · rw [h1]
    exact h
  · rw [(h1.map Instruction.id).nodup_iff, List.map_cons, List.nodup_cons]
    refine ⟨?_, h⟩
    intro hmem
    obtain ⟨i, hi, hid⟩ := List.mem_map.mp hmem
    exact hnew i hi hid

/-- A search that rejects the inserted instruction finds what it found before. -/
theorem find?_insertBeforeIn (target : InstrId) (inst : Instruction) (l : List Instruction)
    (p : Instruction → Bool) (hp : p inst = false) :
    (insertBeforeIn target inst l).find? p = l.find? p := by
  induction l with
  | nil => rfl
  | cons hd tl ih =>
    simp only [insertBeforeIn]
    by_cases hc : hd.id = target
    · rw [if_pos hc, List.find?_cons, hp]
    · rw [if_neg hc, List.find?_cons, List.find?_cons, ih]

theorem allInstrs_cons (B : BasicBlock) (F : Func) :
    Func.allInstrs (B :: F) = B.instrs ++ Func.allInstrs F := by
  simp [Func.allInstrs]

/-- An identifier other than that of the inserted instruction resolves as before. -/
theorem getInstr_insertBefore (F : Func) (target : InstrId) (inst : Instruction) (o : InstrId)
    (h : inst.id ≠ o) : (F.insertBefore target inst).getInstr o = F.getInstr o := by
  unfold Func.getInstr
  induction F with
  | nil => rfl
  | cons B tl ih =>
    have hcons : Func.insertBefore (B :: tl) target inst =
        { B with instrs := insertBeforeIn target inst B.instrs } ::
          Func.insertBefore tl target inst := rfl
    rw [hcons, allInstrs_cons, allInstrs_cons, List.find?_append, List.find?_append, ih,
      find?_insertBeforeIn target inst B.instrs _ (by simp [h])]

/-- The instructions of the function are still there after an insertion. -/
theorem mem_allInstrs_insertBefore (F : Func) (target : InstrId) (inst i : Instruction)
    (h : i ∈ F.allInstrs) : i ∈ (F.insertBefore target inst).allInstrs := by
  unfold Func.allInstrs at h ⊢
  obtain ⟨B, hB, hi⟩ := List.mem_flatMap.mp h
  exact List.mem_flatMap.mpr ⟨_, List.mem_map.mpr ⟨B, hB, rfl⟩,
    mem_insertBeforeIn target inst B.instrs i hi⟩

/-- An insertion adds nothing but the inserted instruction to the function. -/
theorem of_mem_allInstrs_insertBefore (F : Func) (target : InstrId) (inst i : Instruction)
    (h : i ∈ (F.insertBefore target inst).allInstrs) : i ∈ F.allInstrs ∨ i = inst := by
  unfold Func.allInstrs at h ⊢
  obtain ⟨B', hB', hi⟩ := List.mem_flatMap.mp h
  obtain ⟨B, hB, rfl⟩ := List.mem_map.mp hB'
  rcases of_mem_insertBeforeIn target inst B.instrs i hi with h1 | h1
  · exact Or.inl (List.mem_flatMap.mpr ⟨B, hB, h1⟩)
  · exact Or.inr h1

/-- The instructions of the function after `replaceAllUsesWith`. -/
theorem mem_allInstrs_replaceAllUsesWith (F : Func) (old new : InstrId) (i : Instruction) :
    i ∈ (F.replaceAllUsesWith old new).allInstrs ↔
      ∃ j ∈ F.allInstrs, i = j.replaceUses old new := by
  unfold Func.allInstrs Func.replaceAllUsesWith
  simp only [List.mem_flatMap, List.mem_map]
  constructor
  · rintro ⟨B', ⟨B, hB, rfl⟩, hi⟩
    obtain ⟨j, hj, rfl⟩ := List.mem_map.mp hi
    exact ⟨j, ⟨B, hB, hj⟩, rfl⟩
  · rintro ⟨j, ⟨B, hB, hj⟩, rfl⟩
    exact ⟨_, ⟨B, hB, rfl⟩, List.mem_map.mpr ⟨j, hj, rfl⟩⟩

/-- An operand after `replaceAllUsesWith` is the new value or an operand as it was. -/
theorem replaceUse_cases (old new : InstrId) (v : Value) :
    (v = Value.inst old ∧ v.replaceUse old new = Value.inst new) ∨
      (v ≠ Value.inst old ∧ v.replaceUse old new = v) := by
  cases v with
  | inst x =>
    by_cases h : x = old
    · left
      simp [Value.replaceUse, h]
    · right
      simp [Value.replaceUse, h]
  | other c =>
    right
    simp [Value.replaceUse]

/-! ## What every rewriting step of code motion keeps -/

theorem foldl_max_le (l : List Nat) (m : Nat) :
    m ≤ l.foldl max m ∧ ∀ x ∈ l, x ≤ l.foldl max m := by
  induction l generalizing m with
  | nil => simp
  | cons hd tl ih =>
    rw [List.foldl_cons]
    obtain ⟨h1, h2⟩ := ih (max m hd)
    refine ⟨le_trans (le_max_left _ _) h1, ?_⟩
    intro x hx
    rcases List.mem_cons.mp hx with rfl | hx
    · exact le_trans (le_max_right _ _) h1
    · exact h2 x hx

/-- Every identifier of the function is below its fresh identifier. -/
theorem lt_freshId (F : Func) (i : Instruction) (hi : i ∈ F.allInstrs) : i.id < F.freshId := by
  unfold Func.freshId
  exact Nat.lt_succ_of_le ((foldl_max_le _ 0).2 i.id (List.mem_map.mpr ⟨i, hi, rfl⟩))

/-- Along a sequence of rewriting steps a property that every step keeps is kept. -/
theorem MotionStable.along {base : InstrId} {P : Func × InstrId → Prop}
    (hP : MotionStable base P) {s s' : Func × InstrId}
    (h : Relation.ReflTransGen (MotionPrim base) s s') (hs : P s) : P s' := by
  induction h with
  | refl => exact hs
  | tail _ hstep ih => exact hP _ _ hstep ih

/-- The blocks of the function after an insertion. -/
theorem mem_insertBefore (F : Func) (target : InstrId) (inst : Instruction) (B' : BasicBlock)
    (h : B' ∈ F.insertBefore target inst) :
    ∃ B ∈ F, B' = { B with instrs := insertBeforeIn target inst B.instrs } := by
  obtain ⟨B, hB, rfl⟩ := List.mem_map.mp h
  exact ⟨B, hB, rfl⟩

/-- The blocks of the function after `replaceAllUsesWith`. -/
theorem mem_replaceAllUsesWith (F : Func) (old new : InstrId) (B' : BasicBlock)
    (h : B' ∈ F.replaceAllUsesWith old new) :
    ∃ B ∈ F, B' = { B with instrs := B.instrs.map (Instruction.replaceUses old new) } := by
  obtain ⟨B, hB, rfl⟩ := List.mem_map.mp h
  exact ⟨B, hB, rfl⟩

/-- Every rewriting step keeps the function well-formed. -/
theorem FuncWf_stable (F0 : Func) :
    MotionStable F0.freshId (fun s => FuncWf F0 s.1 s.2) := by
  intro s s' hstep hw
  cases hstep with
  | insert F n target inst hid hbase hops =>
    simp only at hw ⊢
    refine ⟨Nat.le_succ_of_le hw.next_ge, ?_, ?_, ?_, ?_⟩
    · intro i hi
      rcases of_mem_allInstrs_insertBefore F target inst i hi with h | h
      · exact Nat.lt_succ_of_lt (hw.ids i h)
      · rw [h, hid]
        exact Nat.lt_succ_self _
    · intro i hi o ho
      rcases of_mem_allInstrs_insertBefore F target inst i hi with h | h
      · exact Nat.lt_succ_of_lt (hw.uses i h o ho)
      · rw [h] at ho
        rcases hops _ ho with ⟨j, hj, hv⟩ | ⟨o', ho', -, hle⟩
        · exact Nat.lt_succ_of_lt (hw.uses j hj o hv)
        · simp only [Value.inst.injEq] at ho'
          rw [ho']
          exact Nat.lt_succ_of_le hle
    · intro B' hB'
      obtain ⟨B, hB, rfl⟩ := mem_insertBefore F target inst B' hB'
      apply nodup_insertBeforeIn target inst B.instrs (hw.nodup B hB)
      intro i hi
      have := hw.ids i (mem_allInstrs F B hB i hi)
      rw [hid]
      exact Nat.ne_of_lt this
    · intro i hi hlt
      rcases of_mem_allInstrs_insertBefore F target inst i hi with h | h
      · exact hw.kinds i h hlt
      · rw [h, hid] at hlt
        exact absurd (Nat.lt_of_lt_of_le hlt hbase) (Nat.lt_irrefl _)
  | replace F n old new hold hnew hlt =>
    simp only at hw ⊢
    refine ⟨hw.next_ge, ?_, ?_, ?_, ?_⟩
    · intro i hi
      obtain ⟨j, hj, rfl⟩ := (mem_allInstrs_replaceAllUsesWith F old new i).mp hi
      exact hw.ids j hj
    · intro i hi o ho
      obtain ⟨j, hj, rfl⟩ := (mem_allInstrs_replaceAllUsesWith F old new i).mp hi
      simp only [Instruction.replaceUses, List.mem_map] at ho
      obtain ⟨v, hv, hvo⟩ := ho
      rcases replaceUse_cases old new v with ⟨-, h2⟩ | ⟨-, h2⟩
      · rw [h2] at hvo
        simp only [Value.inst.injEq] at hvo
        rw [← hvo]
        exact hlt
      · rw [h2] at hvo
        rw [hvo] at hv
        exact hw.uses j hj o hv
    · intro B' hB'
      obtain ⟨B, hB, rfl⟩ := mem_replaceAllUsesWith F old new B' hB'
      simp only [List.map_map]
      exact hw.nodup B hB
    · intro i hi hlt2
      obtain ⟨j, hj, rfl⟩ := (mem_allInstrs_replaceAllUsesWith F old new i).mp hi
      exact hw.kinds j hj hlt2

/-- Every rewriting step keeps an occurrence of the original function unused, once it is
unused. -/
theorem noUse_stable (base e : InstrId) (he : e < base) :
    MotionStable base (fun s => ∀ i ∈ s.1.allInstrs, Value.inst e ∉ i.operands) := by
  intro s s' hstep hP
  cases hstep with
  | insert F n target inst hid hbase hops =>
    simp only at hP ⊢
    intro i hi hmem
    rcases of_mem_allInstrs_insertBefore F target inst i hi with h | h
    · exact hP i h hmem
    · rw [h] at hmem
      rcases hops _ hmem with ⟨j, hj, hv⟩ | ⟨o, ho, hle, -⟩
      · exact hP j hj hv
      · simp only [Value.inst.injEq] at ho
        rw [← ho] at hle
        exact absurd (Nat.lt_of_lt_of_le he hle) (Nat.lt_irrefl _)
  | replace F n old new hold hnew hlt =>
    simp only at hP ⊢
    intro i hi hmem
    obtain ⟨j, hj, rfl⟩ := (mem_allInstrs_replaceAllUsesWith F old new i).mp hi
    simp only [Instruction.replaceUses, List.mem_map] at hmem
    obtain ⟨v, hv, hvo⟩ := hmem
    rcases replaceUse_cases old new v with ⟨-, h2⟩ | ⟨-, h2⟩
    · rw [h2] at hvo
      simp only [Value.inst.injEq] at hvo
      rw [hvo] at hnew
      exact absurd (Nat.lt_of_lt_of_le he hnew) (Nat.lt_irrefl _)
    · rw [h2] at hvo
      rw [hvo] at hv
      exact hP j hj hv

/-- Every rewriting step keeps a load before its occurrence. -/
theorem LoadBefore_stable (base e a l : InstrId) (he : e < base) (ha : base ≤ a) :
    MotionStable base (fun s => LoadBefore e a l s.1) := by
  intro s s' hstep hP
  cases hstep with
  | insert F n target inst hid hbase hops =>
    simp only at hP ⊢
    intro B' hB' hx
    obtain ⟨B, hB, rfl⟩ := mem_insertBefore F target inst B' hB'
    obtain ⟨x, hx, hxe⟩ := hx
    have hxB : ∃ x ∈ B.instrs, x.id = e := by
      rcases of_mem_insertBeforeIn target inst B.instrs x hx with h | h
      · exact ⟨x, h, hxe⟩
      · rw [h, hid] at hxe
        rw [hxe] at hbase
        exact absurd (Nat.lt_of_lt_of_le he hbase) (Nat.lt_irrefl _)
    obtain ⟨y, hy, hsub⟩ := hP B hB hxB
    exact ⟨y, hy, hsub.trans (sublist_insertBeforeIn target inst B.instrs)⟩
  | replace F n old new hold hnew hlt =>
    simp only at hP ⊢
    intro B' hB' hx
    obtain ⟨B, hB, rfl⟩ := mem_replaceAllUsesWith F old new B' hB'
    obtain ⟨x, hx, hxe⟩ := hx
    obtain ⟨x0, hx0, rfl⟩ := List.mem_map.mp hx
    obtain ⟨y, hy, hsub⟩ := hP B hB ⟨x0, hx0, hxe⟩
    refine ⟨y.replaceUses old new, hy, ?_⟩
    have hmap := hsub.map (Instruction.replaceUses old new)
    have hload : Instruction.replaceUses old new ⟨l, Opcode.Load, [Value.inst a]⟩ =
        ⟨l, Opcode.Load, [Value.inst a]⟩ := by
      have hne : a ≠ old := fun h => by
        rw [h] at ha
        exact absurd (Nat.lt_of_lt_of_le hold ha) (Nat.lt_irrefl _)
      simp [Instruction.replaceUses, Value.replaceUse, hne]
    simp only [List.map_cons, List.map_nil, hload] at hmap
    exact hmap

/-! ## The body of the inner loop as a sequence of rewriting steps -/

/-- The two ways `obtainSlot` returns: the slot that `allocas` holds, or a new one. -/
theorem obtainSlot_cases (firstPossInsert : Option InstrId) (st st1 : MotionState)
    (e alloc : InstrId) (h : obtainSlot firstPossInsert st e = some (alloc, st1)) :
    (st.allocas.find? e = some alloc ∧ st1 = st) ∨
      (st.allocas.find? e = none ∧ alloc = st.next ∧ ∃ fp, firstPossInsert = some fp ∧
        st1 = { F := st.F.insertBefore fp ⟨st.next, Opcode.Alloca, []⟩,
                allocas := st.allocas.insert e st.next,
                next := st.next + 1,
                created := st.created ++ [Created.slot e st.next] }) := by
  unfold obtainSlot at h
  cases hf : st.allocas.find? e with
  | some a =>
    simp only [hf, Option.some.injEq, Prod.mk.injEq] at h
    obtain ⟨h1, h2⟩ := h
    subst h1 h2
    exact Or.inl ⟨rfl, rfl⟩
  | none =>
    cases firstPossInsert with
    | none => simp [hf] at h
    | some fp =>
      simp only [hf, Option.some.injEq, Prod.mk.injEq] at h
      obtain ⟨h1, h2⟩ := h
      subst h1 h2
      exact Or.inr ⟨rfl, rfl, fp, rfl, rfl⟩

/-- A remapped operand is the operand as it was or the result of a clone in the map. -/
theorem remapValue_cases (vmap : List (InstrId × InstrId)) (v : Value) :
    remapValue vmap v = v ∨ ∃ p ∈ vmap, remapValue vmap v = Value.inst p.2 := by
  cases v with
  | other c => exact Or.inl rfl
  | inst x =>
    simp only [remapValue]
    cases hf : vmap.find? (fun p => decide (p.1 = x)) with
    | none => exact Or.inl rfl
    | some p => exact Or.inr ⟨p, List.mem_of_find?_eq_some hf, rfl⟩

/-- The operands of a remapped clone of an instruction of the function. -/
theorem cloneAndRemap_operands (base n : InstrId) (F : Func) (Inst : Instruction)
    (hInst : Inst ∈ F.allInstrs) (vmap : List (InstrId × InstrId))
    (hv : ∀ p ∈ vmap, base ≤ p.2 ∧ p.2 ≤ n) (k : InstrId) :
    ∀ v ∈ (cloneAndRemap Inst k vmap).operands, (∃ i ∈ F.allInstrs, v ∈ i.operands) ∨
      ∃ o, v = Value.inst o ∧ base ≤ o ∧ o ≤ n := by
  intro v hvm
  simp only [cloneAndRemap, List.mem_map] at hvm
  obtain ⟨w, hw, rfl⟩ := hvm
  rcases remapValue_cases vmap w with h | ⟨p, hp, h⟩
  · rw [h]
    exact Or.inl ⟨Inst, hInst, hw⟩
  · rw [h]
    exact Or.inr ⟨p.2, rfl, hv p hp⟩

/-- An operand that is an instruction is an instruction of the function. -/
theorem asInstr_mem (F : Func) (U : Value) (Inst : Instruction) (h : F.asInstr U = some Inst) :
    Inst ∈ F.allInstrs := by
  cases U with
  | other c => simp [Func.asInstr] at h
  | inst x => exact List.mem_of_find?_eq_some h

/-- The operand loop is a sequence of rewriting steps; the clones in its map are new, and the
instructions of the function stay. -/
theorem cloneOperands_chain (base ib : InstrId) (operands : List Value) (G : Func)
    (n : InstrId) (vmap : List (InstrId × InstrId)) (hn : base ≤ n)
    (hv : ∀ p ∈ vmap, base ≤ p.2 ∧ p.2 < n) :
    Relation.ReflTransGen (MotionPrim base) (G, n)
        ((cloneOperands ib operands (G, n, vmap)).1,
          (cloneOperands ib operands (G, n, vmap)).2.1) ∧
      n ≤ (cloneOperands ib operands (G, n, vmap)).2.1 ∧
      (∀ p ∈ (cloneOperands ib operands (G, n, vmap)).2.2,
        base ≤ p.2 ∧ p.2 < (cloneOperands ib operands (G, n, vmap)).2.1) ∧
      ∀ i ∈ G.allInstrs, i ∈ (cloneOperands ib operands (G, n, vmap)).1.allInstrs := by
  unfold cloneOperands
  induction operands generalizing G n vmap with
  | nil => exact ⟨Relation.ReflTransGen.refl, le_refl _, hv, fun i hi => hi⟩
  | cons U rest ih =>
    rw [List.foldl_cons]
    cases hU : G.asInstr U with
    | none => exact ih G n vmap hn hv
    | some Inst =>
      simp only
      have hv1 : ∀ p ∈ (Inst.id, n) :: vmap, base ≤ p.2 ∧ p.2 < n + 1 := by
        intro p hp
        rcases List.mem_cons.mp hp with rfl | hp
        · exact ⟨hn, Nat.lt_succ_self _⟩
        · exact ⟨(hv p hp).1, Nat.lt_succ_of_lt (hv p hp).2⟩
      obtain ⟨h1, h2, h3, h4⟩ := ih (G.insertBefore ib (cloneAndRemap Inst n ((Inst.id, n) :: vmap)))
        (n + 1) ((Inst.id, n) :: vmap) (Nat.le_succ_of_le hn) hv1
      have hprim : MotionPrim base (G, n)
          (G.insertBefore ib (cloneAndRemap Inst n ((Inst.id, n) :: vmap)), n + 1) :=
        MotionPrim.insert G n ib _ rfl hn
          (cloneAndRemap_operands base n G Inst (asInstr_mem G U Inst hU) _
            (fun p hp => ⟨(hv1 p hp).1, Nat.le_of_lt_succ (hv1 p hp).2⟩) n)
      exact ⟨Relation.ReflTransGen.head hprim h1, le_trans (Nat.le_succ _) h2, h3,
        fun i hi => h4 i (mem_allInstrs_insertBefore G ib _ i hi)⟩

theorem OrigRel_insertBefore (R : Value → Value → Prop) (F0 F : Func) (target : InstrId)
    (inst : Instruction) (h : OrigRel R F0 F) : OrigRel R F0 (F.insertBefore target inst) := by
  obtain ⟨g, rfl, hg⟩ := h
  refine ⟨fun B => { g B with instrs := insertBeforeIn target inst (g B).instrs }, ?_, ?_⟩
  · simp [Func.insertBefore, List.map_map, Function.comp]
  · intro B
    refine ⟨(hg B).1, fun i hi => ?_⟩
    obtain ⟨j, hj, h1, h2, h3⟩ := (hg B).2 i hi
    exact ⟨j, mem_insertBeforeIn target inst _ j hj, h1, h2, h3⟩

theorem OrigRel_cloneOperands (R : Value → Value → Prop) (F0 : Func) (ib : InstrId)
    (operands : List Value) (st : Func × InstrId × List (InstrId × InstrId))
    (h : OrigRel R F0 st.1) : OrigRel R F0 (cloneOperands ib operands st).1 := by
  unfold cloneOperands
  induction operands generalizing st with
  | nil => exact h
  | cons U rest ih =>
    rw [List.foldl_cons]
    apply ih
    cases st.1.asInstr U with
    | none => exact h
    | some Inst => exact OrigRel_insertBefore R F0 _ _ _ h

theorem OrigRel_replaceAllUsesWith (R R' : Value → Value → Prop) (F0 F : Func)
    (old new : InstrId) (h : OrigRel R F0 F)
    (hR : ∀ a b, R a b → R' a (b.replaceUse old new)) :
    OrigRel R' F0 (F.replaceAllUsesWith old new) := by
  obtain ⟨g, rfl, hg⟩ := h
  refine ⟨fun B => { g B with instrs := (g B).instrs.map (Instruction.replaceUses old new) },
    ?_, ?_⟩
  · simp [Func.replaceAllUsesWith, List.map_map, Function.comp, Instruction.replaceUses]
  · intro B
    refine ⟨(hg B).1, fun i hi => ?_⟩
    obtain ⟨j, hj, h1, h2, h3⟩ := (hg B).2 i hi
    refine ⟨j.replaceUses old new, List.mem_map.mpr ⟨j, hj, rfl⟩, h1, h2, ?_⟩
    simp only [Instruction.replaceUses]
    rw [List.forall₂_map_right_iff]
    exact h3.imp (fun a b hab => hR a b hab)

theorem OrigRel_initial (F0 : Func) : OrigRel (Redirected []) F0 F0 := by
  refine ⟨id, by simp, fun B => ⟨rfl, fun i hi => ⟨i, hi, rfl, rfl, ?_⟩⟩⟩
  exact List.forall₂_same.mpr (fun a _ => Or.inl rfl)

/-- A new load before an occurrence, once the uses of the occurrence are redirected to it. -/
theorem LoadBefore_new (e a l : InstrId) (F : Func) (hae : a ≠ e) (hle : l ≠ e) :
    LoadBefore e a l
      ((F.insertBefore e ⟨l, Opcode.Load, [Value.inst a]⟩).replaceAllUsesWith e l) := by
  intro B2 hB2 hx
  obtain ⟨B1, hB1, rfl⟩ := mem_replaceAllUsesWith _ e l B2 hB2
  obtain ⟨B, hB, rfl⟩ := mem_insertBefore F e _ B1 hB1
  obtain ⟨x2, hx2, hid⟩ := hx
  obtain ⟨x1, hx1, rfl⟩ := List.mem_map.mp hx2
  have hxB : ∃ x ∈ B.instrs, x.id = e := by
    rcases of_mem_insertBeforeIn e _ B.instrs x1 hx1 with h | h
    · exact ⟨x1, h, hid⟩
    · rw [h] at hid
      exact absurd hid hle
  have key : ∀ (L : List Instruction), (∃ x ∈ L, x.id = e) →
      ∃ x, x.id = e ∧ [(⟨l, Opcode.Load, [Value.inst a]⟩ : Instruction), x].Sublist
        (insertBeforeIn e ⟨l, Opcode.Load, [Value.inst a]⟩ L) := by
    intro L
    induction L with
    | nil => rintro ⟨x, hx, -⟩; exact absurd hx (List.not_mem_nil x)
    | cons hd tl ih =>
      rintro ⟨x, hx, hxe⟩
      simp only [insertBeforeIn]
      by_cases hc : hd.id = e
      · rw [if_pos hc]
        exact ⟨hd, hc, List.Sublist.cons₂ _ (List.Sublist.cons₂ _ (List.nil_sublist _))⟩
      · rw [if_neg hc]
        rcases List.mem_cons.mp hx with h | h
        · rw [h] at hxe
          exact absurd hxe hc
        · obtain ⟨y, hy, hsub⟩ := ih ⟨x, h, hxe⟩
          exact ⟨y, hy, List.Sublist.cons _ hsub⟩
  obtain ⟨y, hy, hsub⟩ := key B.instrs hxB
  refine ⟨y.replaceUses e l, hy, ?_⟩
  have hmap := hsub.map (Instruction.replaceUses e l)
  have hload : Instruction.replaceUses e l ⟨l, Opcode.Load, [Value.inst a]⟩ =
      ⟨l, Opcode.Load, [Value.inst a]⟩ := by
    simp [Instruction.replaceUses, Value.replaceUse, hae]
  simp only [List.map_cons, List.map_nil, hload] at hmap
  exact hmap

/-- After `replaceAllUsesWith` no instruction uses the old value. -/
theorem noUse_replaceAllUsesWith (F : Func) (old new : InstrId) (h : new ≠ old) :
    ∀ i ∈ (F.replaceAllUsesWith old new).allInstrs, Value.inst old ∉ i.operands := by
  intro i hi hmem
  obtain ⟨j, hj, rfl⟩ := (mem_allInstrs_replaceAllUsesWith F old new i).mp hi
  simp only [Instruction.replaceUses, List.mem_map] at hmem
  obtain ⟨v, hv, hvo⟩ := hmem
  rcases replaceUse_cases old new v with ⟨-, h2⟩ | ⟨h1, h2⟩
  · rw [h2] at hvo
    simp only [Value.inst.injEq] at hvo
    exact h hvo
  · rw [h2] at hvo
    exact h1 hvo

/-! ## The invariant of code motion -/

theorem Redirected.more {c1 c2 : List Created} (h : ∀ c ∈ c1, c ∈ c2) (a b : Value)
    (hab : Redirected c1 a b) : Redirected c2 a b := by
  rcases hab with h1 | ⟨e, al, l, h1, h2, h3⟩
  · exact Or.inl h1
  · exact Or.inr ⟨e, al, l, h1, h2, h _ h3⟩

theorem OrigRel.weaker {R R' : Value → Value → Prop} {F0 F : Func} (h : OrigRel R F0 F)
    (hR : ∀ a b, R a b → R' a b) : OrigRel R' F0 F := by
  obtain ⟨g, hF, hg⟩ := h
  refine ⟨g, hF, fun B => ⟨(hg B).1, fun i hi => ?_⟩⟩
  obtain ⟨j, hj, h1, h2, h3⟩ := (hg B).2 i hi
  exact ⟨j, hj, h1, h2, h3.imp hR⟩

/-- The body of the inner loop keeps the invariant, for an occurrence of the original
function. -/
theorem motionOccurrence_wf (F0 : Func) (edge : Edge)
    (firstPossInsert insertBefore : Option InstrId) (st st' : MotionState) (e : InstrId)
    (h : motionOccurrence edge firstPossInsert insertBefore st e = some st')
    (hw : MotionWf F0 st) (he : e < F0.freshId) :
    MotionWf F0 st' ∧ st.next ≤ st'.next ∧ (∀ c ∈ st.created, c ∈ st'.created) ∧
      (∀ e' a, st.allocas.find? e' = some a → st'.allocas.find? e' = some a) ∧
      ∃ alloc l, st'.allocas.find? e = some alloc ∧ Created.load e alloc l ∈ st'.created := by
  obtain ⟨alloc, st1, x, ib, ho, hg, -, rfl⟩ :=
    motionOccurrence_some edge firstPossInsert insertBefore st st' e h
  -- the slot
  have hslot : Relation.ReflTransGen (MotionPrim F0.freshId) (st.F, st.next) (st1.F, st1.next) ∧
      st1.allocas.find? e = some alloc ∧ F0.freshId ≤ alloc ∧ alloc < st1.next ∧
      (∀ e' a, st1.allocas.find? e' = some a →
        st.allocas.find? e' = some a ∨ e' = e) ∧
      (∀ e' a, st.allocas.find? e' = some a → st1.allocas.find? e' = some a) ∧
      (∀ e' a l, Created.load e' a l ∈ st1.created → Created.load e' a l ∈ st.created) ∧
      (∀ c ∈ st.created, c ∈ st1.created) ∧
      OrigRel (Redirected st.created) F0 st1.F ∧ st.next ≤ st1.next := by
    rcases obtainSlot_cases firstPossInsert st st1 e alloc ho with ⟨hf, rfl⟩ |
      ⟨hf, rfl, fp, -, rfl⟩
    · exact ⟨Relation.ReflTransGen.refl, hf, (hw.keys e alloc hf).2.1, (hw.keys e alloc hf).2.2,
        fun e' a h1 => Or.inl h1, fun e' a h1 => h1, fun e' a l h1 => h1, fun c hc => hc,
        hw.orig, le_refl _⟩
    · have hfind : ∀ e', (st.allocas.insert e st.next).find? e' =
          if e = e' then some st.next else st.allocas.find? e' :=
        fun e' => StdMap.find?_insert st.allocas e st.next e'
      refine ⟨Relation.ReflTransGen.single
          (MotionPrim.insert st.F st.next fp _ rfl hw.func.next_ge
            (fun v hv => absurd hv (List.not_mem_nil v))),
        ?_, hw.func.next_ge, Nat.lt_succ_self _, ?_, ?_, ?_, ?_, ?_, Nat.le_succ _⟩
      · simp only [hfind, if_true]
      · intro e' a h1
        simp only [hfind] at h1
        by_cases hc : e = e'
        · exact Or.inr hc.symm
        · rw [if_neg hc] at h1
          exact Or.inl h1
      · intro e' a h1
        simp only [hfind]
        by_cases hc : e = e'
        · subst hc
          rw [hf] at h1
          simp at h1
        · rw [if_neg hc]
          exact h1
      · intro e' a l h1
        simp only [List.mem_append, List.mem_singleton] at h1
        rcases h1 with h1 | h1
        · exact h1
        · simp at h1
      · intro c hc
        exact List.mem_append_left _ hc
      · exact OrigRel_insertBefore _ F0 _ _ _ hw.orig
  obtain ⟨hchain1, hfind1, hallocLo, hallocHi, hkeys1, hkeep1, hloads1, hcreated1, horig1,
    hnext1⟩ := hslot
  have hn1 : F0.freshId ≤ st1.next := le_trans hw.func.next_ge hnext1
  -- the operand loop
  obtain ⟨hchain2, hnext2, hvmap, hmem2⟩ := cloneOperands_chain F0.freshId ib x.operands st1.F
    st1.next [] hn1 (fun p hp => absurd hp (List.not_mem_nil p))
  have hx1 : x ∈ st1.F.allInstrs := List.mem_of_find?_eq_some hg
  generalize hr : cloneOperands ib x.operands (st1.F, st1.next, []) = r at hchain2 hnext2 hvmap hmem2 ⊢
  obtain ⟨G, cloneId, vmap⟩ := r
  simp only at hchain2 hnext2 hvmap hmem2 ⊢
  have horig2 : OrigRel (Redirected st.created) F0 G := by
    have := OrigRel_cloneOperands (Redirected st.created) F0 ib x.operands
      (st1.F, st1.next, []) horig1
    rw [hr] at this
    exact this
  have hbase2 : F0.freshId ≤ cloneId := le_trans hn1 hnext2
  -- the clone, the store and the load
  have hprim3 : MotionPrim F0.freshId (G, cloneId)
      (G.insertBefore ib (cloneAndRemap x cloneId ((e, cloneId) :: vmap)), cloneId + 1) :=
    MotionPrim.insert G cloneId ib _ rfl hbase2
      (cloneAndRemap_operands F0.freshId cloneId G x (hmem2 x hx1) _
        (fun p hp => by
          rcases List.mem_cons.mp hp with rfl | hp
          · exact ⟨hbase2, le_refl _⟩
          · exact ⟨(hvmap p hp).1, le_of_lt (hvmap p hp).2⟩) cloneId)
  have hprim4 : MotionPrim F0.freshId
      (G.insertBefore ib (cloneAndRemap x cloneId ((e, cloneId) :: vmap)), cloneId + 1)
      ((G.insertBefore ib (cloneAndRemap x cloneId ((e, cloneId) :: vmap))).insertBefore ib
        ⟨cloneId + 1, Opcode.Store, [Value.inst cloneId, Value.inst alloc]⟩, cloneId + 1 + 1) :=
    MotionPrim.insert _ (cloneId + 1) ib _ rfl (Nat.le_succ_of_le hbase2)
      (fun v hv => by
        simp only [List.mem_cons, List.mem_singleton, List.not_mem_nil, or_false] at hv
        rcases hv with rfl | rfl
        · exact Or.inr ⟨cloneId, rfl, hbase2, Nat.le_succ _⟩
        · exact Or.inr ⟨alloc, rfl, hallocLo,
            le_trans (le_of_lt hallocHi) (le_trans hnext2 (Nat.le_succ _))⟩)
  have hprim5 : MotionPrim F0.freshId
      ((G.insertBefore ib (cloneAndRemap x cloneId ((e, cloneId) :: vmap))).insertBefore ib
        ⟨cloneId + 1, Opcode.Store, [Value.inst cloneId, Value.inst alloc]⟩, cloneId + 2)
      ((((G.insertBefore ib (cloneAndRemap x cloneId ((e, cloneId) :: vmap))).insertBefore ib
        ⟨cloneId + 1, Opcode.Store, [Value.inst cloneId, Value.inst alloc]⟩).insertBefore e
          ⟨cloneId + 2, Opcode.Load, [Value.inst alloc]⟩), cloneId + 2 + 1) :=
    MotionPrim.insert _ (cloneId + 2) e _ rfl
      (Nat.le_succ_of_le (Nat.le_succ_of_le hbase2))
      (fun v hv => by
        simp only [List.mem_singleton] at hv
        rw [hv]
        exact Or.inr ⟨alloc, rfl, hallocLo,
          le_trans (le_of_lt hallocHi)
            (le_trans hnext2 (Nat.le_succ_of_le (Nat.le_succ _)))⟩)
  have hprim6 : MotionPrim F0.freshId
      ((((G.insertBefore ib (cloneAndRemap x cloneId ((e, cloneId) :: vmap))).insertBefore ib
        ⟨cloneId + 1, Opcode.Store, [Value.inst cloneId, Value.inst alloc]⟩).insertBefore e
          ⟨cloneId + 2, Opcode.Load, [Value.inst alloc]⟩), cloneId + 3)
      (((((G.insertBefore ib (cloneAndRemap x cloneId ((e, cloneId) :: vmap))).insertBefore ib
        ⟨cloneId + 1, Opcode.Store, [Value.inst cloneId, Value.inst alloc]⟩).insertBefore e
          ⟨cloneId + 2, Opcode.Load, [Value.inst alloc]⟩).replaceAllUsesWith e (cloneId + 2)),
        cloneId + 3) :=
    MotionPrim.replace _ (cloneId + 3) e (cloneId + 2) he
      (Nat.le_succ_of_le (Nat.le_succ_of_le hbase2)) (Nat.lt_succ_self _)
  have hchain : Relation.ReflTransGen (MotionPrim F0.freshId) (st.F, st.next)
      (((((G.insertBefore ib (cloneAndRemap x cloneId ((e, cloneId) :: vmap))).insertBefore ib
        ⟨cloneId + 1, Opcode.Store, [Value.inst cloneId, Value.inst alloc]⟩).insertBefore e
          ⟨cloneId + 2, Opcode.Load, [Value.inst alloc]⟩).replaceAllUsesWith e (cloneId + 2)),
        cloneId + 3) :=
    ((((hchain1.trans hchain2).tail hprim3).tail hprim4).tail hprim5).tail hprim6
  have hle3 : st.next ≤ cloneId + 3 :=
    le_trans hnext1 (le_trans hnext2 (Nat.le_add_right _ _))
  have hea : alloc ≠ e := fun hc => by
    rw [hc] at hallocLo
    exact absurd (Nat.lt_of_lt_of_le he hallocLo) (Nat.lt_irrefl _)
  have hel : cloneId + 2 ≠ e := fun hc => by
    have h1 : F0.freshId ≤ cloneId + 2 := Nat.le_succ_of_le (Nat.le_succ_of_le hbase2)
    rw [hc] at h1
    exact absurd (Nat.lt_of_lt_of_le he h1) (Nat.lt_irrefl _)
  refine ⟨⟨?_, ?_, ?_, ?_, ?_, ?_⟩, hle3, ?_, hkeep1, alloc, cloneId + 2, hfind1, ?_⟩
  · exact (FuncWf_stable F0).along hchain hw.func
  · intro e' a hfa
    rcases hkeys1 e' a hfa with h1 | h1
    · have := hw.keys e' a h1
      exact ⟨this.1, this.2.1, Nat.lt_of_lt_of_le this.2.2 hle3⟩
    · subst h1
      rw [hfind1] at hfa
      simp only [Option.some.injEq] at hfa
      subst hfa
      exact ⟨he, hallocLo,
        Nat.lt_of_lt_of_le hallocHi (le_trans hnext2 (Nat.le_add_right _ _))⟩
  · intro e' a l hmem
    simp only [List.mem_append, List.mem_cons, List.mem_singleton, List.not_mem_nil,
      or_false] at hmem
    rcases hmem with hmem | hmem | hmem
    · have := hw.loads e' a l (hloads1 e' a l hmem)
      exact ⟨hkeep1 e' a this.1, this.2.1, Nat.lt_of_lt_of_le this.2.2 hle3⟩
    · simp at hmem
    · simp only [Created.load.injEq] at hmem
      obtain ⟨rfl, rfl, rfl⟩ := hmem
      exact ⟨hfind1, Nat.le_succ_of_le (Nat.le_succ_of_le hbase2), Nat.lt_succ_self _⟩
  · intro e' a hfa
    by_cases hc : e' = e
    · subst hc
      exact noUse_replaceAllUsesWith _ e' (cloneId + 2) hel
    · rcases hkeys1 e' a hfa with h1 | h1
      · exact (noUse_stable F0.freshId e' (hw.keys e' a h1).1).along hchain (hw.noUse e' a h1)
      · exact absurd h1 hc
  · intro e' a l hmem
    simp only [List.mem_append, List.mem_cons, List.mem_singleton, List.not_mem_nil,
      or_false] at hmem
    rcases hmem with hmem | hmem | hmem
    · have hold := hloads1 e' a l hmem
      have hk := hw.keys e' a (hw.loads e' a l hold).1
      exact (LoadBefore_stable F0.freshId e' a l hk.1 hk.2.1).along hchain
        (hw.before e' a l hold)
    · simp at hmem
    · simp only [Created.load.injEq] at hmem
      obtain ⟨rfl, rfl, rfl⟩ := hmem
      exact LoadBefore_new e' a (cloneId + 2) _ hea hel
  · apply OrigRel_replaceAllUsesWith (Redirected st.created) _ F0 _ e (cloneId + 2)
      (OrigRel_insertBefore _ F0 _ _ _ (OrigRel_insertBefore _ F0 _ _ _
        (OrigRel_insertBefore _ F0 _ _ _ horig2)))
    intro a b hab
    rcases hab with h1 | ⟨e0, al, l, h1, h2, h3⟩
    · subst h1
      rcases replaceUse_cases e (cloneId + 2) b with ⟨h4, h5⟩ | ⟨-, h5⟩
      · rw [h5]
        exact Or.inr ⟨e, alloc, cloneId + 2, h4, rfl,
          List.mem_append_right _ (List.mem_cons_of_mem _ (List.mem_singleton.mpr rfl))⟩
      · rw [h5]
        exact Or.inl rfl
    · have hl := (hw.loads e0 al l h3).2.1
      have hne : l ≠ e := fun hc => by
        rw [hc] at hl
        exact absurd (Nat.lt_of_lt_of_le he hl) (Nat.lt_irrefl _)
      rw [h2]
      simp only [Value.replaceUse, if_neg hne]
      exact Or.inr ⟨e0, al, l, h1, rfl, List.mem_append_left _ (hcreated1 _ h3)⟩
  · intro c hc
    exact List.mem_append_left _ (hcreated1 c hc)
  · exact List.mem_append_right _ (List.mem_cons_of_mem _ (List.mem_singleton.mpr rfl))

/-! ## What code motion adds to the source block of an edge -/

/-- The clones depend on the function only through the operands that are looked up. -/
theorem operandClones_congr (F G : Func) (operands : List Value) (n : InstrId)
    (vmap : List (InstrId × InstrId))
    (h : ∀ o, Value.inst o ∈ operands → G.getInstr o = F.getInstr o) :
    operandClones G operands n vmap = operandClones F operands n vmap := by
  induction operands generalizing n vmap with
  | nil => rfl
  | cons U rest ih =>
    have hU : G.asInstr U = F.asInstr U := by
      cases U with
      | other c => rfl
      | inst o => exact h o (List.mem_cons_self _ _)
    have hrest : ∀ o, Value.inst o ∈ rest → G.getInstr o = F.getInstr o :=
      fun o ho => h o (List.mem_cons_of_mem _ ho)
    simp only [operandClones, hU]
    cases F.asInstr U with
    | none => exact ih n vmap hrest
    | some Inst => simp only [ih _ _ hrest]

/-- The operand loop, seen from the block whose last instruction is the insertion point: the
clones are added before that instruction, in operand order. -/
theorem cloneOperands_block (ib : InstrId) (operands : List Value) (G : Func) (n : InstrId)
    (vmap : List (InstrId × InstrId)) (U : BasicBlock) (pre : List Instruction)
    (t : Instruction) (hU : U ∈ G) (hUi : U.instrs = pre ++ [t]) (ht : t.id = ib)
    (hpre : ∀ i ∈ pre, i.id ≠ ib) (hib : ib < n)
    (hops : ∀ o, Value.inst o ∈ operands → o < n) :
    (cloneOperands ib operands (G, n, vmap)).2 = (operandClones G operands n vmap).2 ∧
      ∃ U' ∈ (cloneOperands ib operands (G, n, vmap)).1, U'.name = U.name ∧
        U'.instrs = pre ++ (operandClones G operands n vmap).1 ++ [t] := by
  unfold cloneOperands
  induction operands generalizing G n vmap U pre with
  | nil =>
    refine ⟨rfl, U, hU, rfl, ?_⟩
    simp [operandClones, hUi]
  | cons v rest ih =>
    rw [List.foldl_cons]
    have hrest : ∀ o, Value.inst o ∈ rest → o < n :=
      fun o ho => hops o (List.mem_cons_of_mem _ ho)
    cases hv : G.asInstr v with
    | none =>
      simp only [operandClones, hv]
      exact ih G n vmap U pre hU hUi hpre hib hrest
    | some Inst =>
      simp only [operandClones, hv]
      have hcid : (cloneAndRemap Inst n ((Inst.id, n) :: vmap)).id = n := rfl
      generalize cloneAndRemap Inst n ((Inst.id, n) :: vmap) = c at hcid ⊢
      have hU1 : ({ U with instrs := insertBeforeIn ib c U.instrs } : BasicBlock) ∈
          G.insertBefore ib c :=
        List.mem_map.mpr ⟨U, hU, rfl⟩
      have hUi1 : ({ U with instrs := insertBeforeIn ib c U.instrs } : BasicBlock).instrs =
          (pre ++ [c]) ++ [t] := by
        simp only [hUi, insertBeforeIn_last ib _ pre t hpre ht, List.append_assoc,
          List.singleton_append]
      have hpre1 : ∀ i ∈ pre ++ [c], i.id ≠ ib := by
        intro i hi
        rcases List.mem_append.mp hi with h | h
        · exact hpre i h
        · rw [List.mem_singleton.mp h, hcid]
          exact fun hc => absurd (hc ▸ hib : n < n) (Nat.lt_irrefl _)
      obtain ⟨h1, U', hU', hname, hinstrs⟩ := ih (G.insertBefore ib c) (n + 1)
        ((Inst.id, n) :: vmap) _ _ hU1 hUi1 hpre1 (Nat.lt_succ_of_lt hib)
        (fun o ho => Nat.lt_succ_of_lt (hrest o ho))
      have hcongr := operandClones_congr G (G.insertBefore ib c) rest (n + 1)
        ((Inst.id, n) :: vmap)
        (fun o ho => getInstr_insertBefore G ib _ o
          (fun hc => by
            rw [hcid] at hc
            exact absurd (hc ▸ hrest o ho : n < n) (Nat.lt_irrefl _)))
      rw [hcongr] at h1 hinstrs
      refine ⟨h1, U', hU', hname, ?_⟩
      rw [hinstrs]
      simp only [List.append_assoc, List.singleton_append, List.cons_append, List.nil_append]

/-- The clones carry the fresh identifiers from `n` on. -/
theorem operandClones_ids (F : Func) (operands : List Value) (n : InstrId)
    (vmap : List (InstrId × InstrId)) :
    n ≤ (operandClones F operands n vmap).2.1 ∧
      ∀ c ∈ (operandClones F operands n vmap).1,
        n ≤ c.id ∧ c.id < (operandClones F operands n vmap).2.1 := by
  induction operands generalizing n vmap with
  | nil => exact ⟨le_refl _, fun c hc => absurd hc (List.not_mem_nil c)⟩
  | cons U rest ih =>
    simp only [operandClones]
    cases F.asInstr U with
    | none => exact ih n vmap
    | some Inst =>
      simp only
      obtain ⟨h1, h2⟩ := ih (n + 1) ((Inst.id, n) :: vmap)
      refine ⟨le_trans (Nat.le_succ _) h1, fun c hc => ?_⟩
      rcases List.mem_cons.mp hc with rfl | hc
      · exact ⟨le_refl _, Nat.lt_of_lt_of_le (Nat.lt_succ_self _) h1⟩
      · exact ⟨le_trans (Nat.le_succ _) (h2 c hc).1, (h2 c hc).2⟩

/-- The body of the inner loop, seen from the source block of the edge, whose last
instruction `t` is the insertion point: the block gets the clones of the operands, the clone
of the occurrence and the store, in this order, immediately before `t`; what it held before
`t` stays, in its order, with at most the new slot and the new load added to it. -/
theorem motionOccurrence_block (edge : Edge) (fp ib : InstrId) (st : MotionState)
    (e : InstrId) (x : Instruction) (U : BasicBlock) (pre : List Instruction) (t : Instruction)
    (hU : U ∈ st.F) (hUi : U.instrs = pre ++ [t]) (ht : t.id = ib)
    (hpre : ∀ i ∈ pre, i.id ≠ ib) (hib : ib < st.next) (he : e < st.next) (hne : e ≠ ib)
    (hx : st.F.getInstr e = some x) (hops : ∀ o, Value.inst o ∈ x.operands → o < st.next) :
    ∃ st' alloc n mid,
      motionOccurrence edge (some fp) (some ib) st e = some st' ∧
      st'.allocas.find? e = some alloc ∧
      (st.allocas.find? e = some alloc ∧ n = st.next ∨
        st.allocas.find? e = none ∧ alloc = st.next ∧ n = st.next + 1) ∧
      st'.next = (operandClones st.F x.operands n []).2.1 + 3 ∧
      pre.Sublist mid ∧
      (∀ i ∈ mid, i ∈ pre ∨ i = ⟨alloc, Opcode.Alloca, []⟩ ∨
        i = ⟨(operandClones st.F x.operands n []).2.1 + 2, Opcode.Load, [Value.inst alloc]⟩) ∧
      ∃ U' ∈ st'.F, U'.name = U.name ∧
        U'.instrs =
          (mid ++ (operandClones st.F x.operands n []).1 ++
            [cloneAndRemap x (operandClones st.F x.operands n []).2.1
                ((e, (operandClones st.F x.operands n []).2.1) ::
                  (operandClones st.F x.operands n []).2.2),
              ⟨(operandClones st.F x.operands n []).2.1 + 1, Opcode.Store,
                [Value.inst (operandClones st.F x.operands n []).2.1, Value.inst alloc]⟩,
              t]).map
            (Instruction.replaceUses e ((operandClones st.F x.operands n []).2.1 + 2)) := by
  -- the slot
  have hslot : ∃ alloc st1 U1 A1,
      obtainSlot (some fp) st e = some (alloc, st1) ∧
      st1.allocas.find? e = some alloc ∧
      (st.allocas.find? e = some alloc ∧ st1.next = st.next ∨
        st.allocas.find? e = none ∧ alloc = st.next ∧ st1.next = st.next + 1) ∧
      st1.F.getInstr e = some x ∧
      (∀ o, Value.inst o ∈ x.operands → st1.F.getInstr o = st.F.getInstr o) ∧
      U1 ∈ st1.F ∧ U1.name = U.name ∧ U1.instrs = A1 ++ [t] ∧ pre.Sublist A1 ∧
      (∀ i ∈ A1, i ∈ pre ∨ i = ⟨alloc, Opcode.Alloca, []⟩) ∧ ∀ i ∈ A1, i.id ≠ ib := by
    cases hf : st.allocas.find? e with
    | some a =>
      refine ⟨a, st, U, pre, ?_, hf, Or.inl ⟨rfl, rfl⟩, hx, fun o _ => rfl, hU, rfl, hUi,
        List.Sublist.refl _, fun i hi => Or.inl hi, hpre⟩
      simp only [obtainSlot, hf]
    | none =>
      obtain ⟨al, hal⟩ : ∃ al : Instruction, al = ⟨st.next, Opcode.Alloca, []⟩ := ⟨_, rfl⟩
      have halid : al.id = st.next := by rw [hal]
      obtain ⟨A1, hA1, hsub, hmem⟩ := insertBeforeIn_keeps_last fp al pre t
      refine ⟨st.next,
        MotionState.mk (st.F.insertBefore fp al) (st.allocas.insert e st.next) (st.next + 1)
          (st.created ++ [Created.slot e st.next]),
        BasicBlock.mk U.name (insertBeforeIn fp al U.instrs) U.preds U.succs U.count, A1,
        ?_, ?_, Or.inr ⟨rfl, rfl, rfl⟩, ?_, ?_, ?_, rfl, ?_, hsub, ?_, ?_⟩
      · simp only [obtainSlot, hf, hal]
      · simp only [StdMap.find?_insert, if_true]
      · simp only
        rw [getInstr_insertBefore st.F fp al e
          (fun hc => by
            rw [halid] at hc
            exact absurd (hc ▸ he : e < e) (Nat.lt_irrefl _))]
        exact hx
      · intro o ho
        simp only
        exact getInstr_insertBefore st.F fp al o
          (fun hc => by
            rw [halid] at hc
            exact absurd (hc ▸ hops o ho : o < o) (Nat.lt_irrefl _))
      · simp only
        exact List.mem_map.mpr ⟨U, hU, rfl⟩
      · simp only [hUi, hA1]
      · intro i hi
        rw [← hal]
        exact hmem i hi
      · intro i hi
        rcases hmem i hi with h | h
        · exact hpre i h
        · rw [h, halid]
          exact fun hc => absurd (hc ▸ hib : st.next < st.next) (Nat.lt_irrefl _)
  obtain ⟨alloc, st1, U1, A1, ho, hfind1, hcase, hx1, hlook, hU1, hname1, hUi1, hsub1, hmem1,
    hA1⟩ := hslot
  have hnext1 : st.next ≤ st1.next := by
    rcases hcase with ⟨-, h⟩ | ⟨-, -, h⟩
    · rw [h]
    · rw [h]
      exact Nat.le_succ _
  -- the result of the body
  have hmo : ∃ st', motionOccurrence edge (some fp) (some ib) st e = some st' ∧
      st'.allocas = st1.allocas ∧
      st'.next = (cloneOperands ib x.operands (st1.F, st1.next, [])).2.1 + 3 ∧
      st'.F = (((((cloneOperands ib x.operands (st1.F, st1.next, [])).1.insertBefore ib
        (cloneAndRemap x (cloneOperands ib x.operands (st1.F, st1.next, [])).2.1
          ((e, (cloneOperands ib x.operands (st1.F, st1.next, [])).2.1) ::
            (cloneOperands ib x.operands (st1.F, st1.next, [])).2.2))).insertBefore ib
        ⟨(cloneOperands ib x.operands (st1.F, st1.next, [])).2.1 + 1, Opcode.Store,
          [Value.inst (cloneOperands ib x.operands (st1.F, st1.next, [])).2.1,
            Value.inst alloc]⟩).insertBefore e
        ⟨(cloneOperands ib x.operands (st1.F, st1.next, [])).2.1 + 2, Opcode.Load,
          [Value.inst alloc]⟩).replaceAllUsesWith e
        ((cloneOperands ib x.operands (st1.F, st1.next, [])).2.1 + 2)) := by
    unfold motionOccurrence
    simp only [ho, hx1]
    exact ⟨_, rfl, rfl, rfl, rfl⟩
  obtain ⟨st', hst', hallocas', hnext', hF'⟩ := hmo
  -- the operand loop
  obtain ⟨hr2, U2, hU2, hname2, hUi2⟩ := cloneOperands_block ib x.operands st1.F st1.next []
    U1 A1 t hU1 hUi1 ht hA1 (Nat.lt_of_lt_of_le hib hnext1)
    (fun o ho => Nat.lt_of_lt_of_le (hops o ho) hnext1)
  rw [operandClones_congr st.F st1.F x.operands st1.next [] hlook] at hr2 hUi2
  obtain ⟨hidlo, hids⟩ := operandClones_ids st.F x.operands st1.next []
  have hr21 : (cloneOperands ib x.operands (st1.F, st1.next, [])).2.1 =
      (operandClones st.F x.operands st1.next []).2.1 := by rw [hr2]
  have hr22 : (cloneOperands ib x.operands (st1.F, st1.next, [])).2.2 =
      (operandClones st.F x.operands st1.next []).2.2 := by rw [hr2]
  rw [hr21, hr22] at hF'
  rw [hr21] at hnext'
  have hn : (st.allocas.find? e = some alloc ∧ st1.next = st.next ∨
      st.allocas.find? e = none ∧ alloc = st.next ∧ st1.next = st.next + 1) := hcase
  refine ⟨st', alloc, st1.next,
    insertBeforeIn e ⟨(operandClones st.F x.operands st1.next []).2.1 + 2, Opcode.Load,
      [Value.inst alloc]⟩ A1,
    hst', by rw [hallocas']; exact hfind1, hn, hnext',
    hsub1.trans (sublist_insertBeforeIn _ _ _), ?_, ?_⟩
  · intro i hi
    rcases of_mem_insertBeforeIn _ _ _ i hi with h | h
    · rcases hmem1 i h with h1 | h1
      · exact Or.inl h1
      · exact Or.inr (Or.inl h1)
    · exact Or.inr (Or.inr h)
  generalize (operandClones st.F x.operands st1.next []).1 = clones at hUi2 hids ⊢
  generalize (operandClones st.F x.operands st1.next []).2.1 = cloneId at hidlo hids hF' ⊢
  generalize (operandClones st.F x.operands st1.next []).2.2 = vmap at hF' ⊢
  generalize (cloneOperands ib x.operands (st1.F, st1.next, [])).1 = G at hU2 hF'
  have hibn : ib < st1.next := Nat.lt_of_lt_of_le hib hnext1
  have hen : e < st1.next := Nat.lt_of_lt_of_le he hnext1
  generalize hce : cloneAndRemap x cloneId ((e, cloneId) :: vmap) = cloneE at hF' ⊢
  have hceid : cloneE.id = cloneId := by rw [← hce]; rfl
  obtain ⟨store, hstore⟩ : ∃ store : Instruction,
      store = ⟨cloneId + 1, Opcode.Store, [Value.inst cloneId, Value.inst alloc]⟩ := ⟨_, rfl⟩
  obtain ⟨load, hload⟩ : ∃ load : Instruction,
      load = ⟨cloneId + 2, Opcode.Load, [Value.inst alloc]⟩ := ⟨_, rfl⟩
  have hsid : store.id = cloneId + 1 := by rw [hstore]
  rw [← hstore, ← hload] at hF'
  rw [← hstore, ← hload]
  -- the block after the three insertions
  have h3 : insertBeforeIn ib cloneE U2.instrs = (A1 ++ clones ++ [cloneE]) ++ [t] := by
    rw [hUi2, insertBeforeIn_last ib cloneE (A1 ++ clones) t _ ht]
    · simp only [List.append_assoc, List.singleton_append]
    · intro i hi
      rcases List.mem_append.mp hi with h | h
      · exact hA1 i h
      · exact fun hc => absurd (Nat.lt_of_lt_of_le (hc ▸ hibn) (hids i h).1)
          (Nat.lt_irrefl _)
  have h4 : insertBeforeIn ib store (insertBeforeIn ib cloneE U2.instrs) =
      (A1 ++ clones ++ [cloneE, store]) ++ [t] := by
    rw [h3, insertBeforeIn_last ib store (A1 ++ clones ++ [cloneE]) t _ ht]
    · simp only [List.append_assoc, List.singleton_append, List.cons_append, List.nil_append]
    · intro i hi
      rcases List.mem_append.mp hi with h | h
      · rcases List.mem_append.mp h with h | h
        · exact hA1 i h
        · exact fun hc => absurd (Nat.lt_of_lt_of_le (hc ▸ hibn) (hids i h).1)
            (Nat.lt_irrefl _)
      · rw [List.mem_singleton.mp h, hceid]
        exact fun hc => absurd (Nat.lt_of_lt_of_le (hc ▸ hibn) hidlo) (Nat.lt_irrefl _)
  have h5 : insertBeforeIn e load
      (insertBeforeIn ib store (insertBeforeIn ib cloneE U2.instrs)) =
      insertBeforeIn e load A1 ++ (clones ++ [cloneE, store, t]) := by
    rw [h4]
    have : A1 ++ clones ++ [cloneE, store] ++ [t] = A1 ++ (clones ++ [cloneE, store, t]) := by
      simp only [List.append_assoc, List.cons_append, List.nil_append]
    rw [this]
    apply insertBeforeIn_append_right
    intro i hi
    rcases List.mem_append.mp hi with h | h
    · exact fun hc => absurd (Nat.lt_of_lt_of_le (hc ▸ hen) (hids i h).1) (Nat.lt_irrefl _)
    · simp only [List.mem_cons, List.mem_singleton, List.not_mem_nil, or_false] at h
      rcases h with h | h | h
      · rw [h, hceid]
        exact fun hc => absurd (Nat.lt_of_lt_of_le (hc ▸ hen) hidlo) (Nat.lt_irrefl _)
      · rw [h, hsid]
        exact fun hc => absurd
          (Nat.lt_of_lt_of_le (hc ▸ hen : cloneId + 1 < st1.next) (Nat.le_succ_of_le hidlo))
          (Nat.lt_irrefl _)
      · rw [h, ht]
        exact fun hc => hne hc.symm
  refine ⟨BasicBlock.mk U2.name
    ((insertBeforeIn e load (insertBeforeIn ib store (insertBeforeIn ib cloneE U2.instrs))).map
      (Instruction.replaceUses e (cloneId + 2))) U2.preds U2.succs U2.count, ?_,
    by rw [← hname1, ← hname2], ?_⟩
  · rw [hF']
    exact List.mem_map.mpr ⟨_, List.mem_map.mpr ⟨_, List.mem_map.mpr ⟨_,
      List.mem_map.mpr ⟨U2, hU2, rfl⟩, rfl⟩, rfl⟩, rfl⟩
  · simp only [h5, List.append_assoc]

/-! ## The invariant along the loops of `performRemoveAndInsert` -/

/-- The invariant holds at the start, for a function whose blocks hold distinct identifiers
and whose operands name instructions of the function. -/
theorem MotionWf_initial (F : Func) (hids : ∀ B ∈ F, (B.instrs.map Instruction.id).Nodup)
    (huses : ∀ i ∈ F.allInstrs, ∀ o, Value.inst o ∈ i.operands → ∃ x ∈ F.allInstrs, x.id = o) :
    MotionWf F (MotionState.initial F) := by
  refine ⟨⟨le_refl _, fun i hi => lt_freshId F i hi, ?_, hids, fun i hi _ => ⟨i, hi, rfl, rfl⟩⟩,
    ?_, ?_, ?_, ?_, OrigRel_initial F⟩
  · intro i hi o ho
    obtain ⟨x, hx, rfl⟩ := huses i hi o ho
    exact lt_freshId F x hx
  · intro e a h
    simp [MotionState.initial, StdMap.find?_empty] at h
  · intro e a l h
    exact absurd h (List.not_mem_nil _)
  · intro e a h
    simp [MotionState.initial, StdMap.find?_empty] at h
  · intro e a l h
    exact absurd h (List.not_mem_nil _)

/-- The inner loop keeps the invariant and leaves a load for each of its occurrences. -/
theorem motionOccurrences_wf (F0 : Func) (edge : Edge)
    (firstPossInsert insertBefore : Option InstrId) (l : List InstrId) (st st' : MotionState)
    (h : motionOccurrences edge firstPossInsert insertBefore l st = some st')
    (hw : MotionWf F0 st) (hl : ∀ e ∈ l, e < F0.freshId) :
    MotionWf F0 st' ∧ st.next ≤ st'.next ∧ (∀ c ∈ st.created, c ∈ st'.created) ∧
      (∀ e' a, st.allocas.find? e' = some a → st'.allocas.find? e' = some a) ∧
      ∀ e ∈ l, ∃ alloc lo, st'.allocas.find? e = some alloc ∧
        Created.load e alloc lo ∈ st'.created := by
  induction l generalizing st with
  | nil =>
    simp only [motionOccurrences, Option.some.injEq] at h
    subst h
    exact ⟨hw, le_refl _, fun c hc => hc, fun e' a h1 => h1,
      fun e he => absurd he (List.not_mem_nil e)⟩
  | cons e rest ih =>
    simp only [motionOccurrences] at h
    cases hm : motionOccurrence edge firstPossInsert insertBefore st e with
    | none => simp [hm] at h
    | some st1 =>
      simp only [hm] at h
      obtain ⟨hw1, hn1, hc1, ha1, alloc, lo, hf1, hl1⟩ :=
        motionOccurrence_wf F0 edge firstPossInsert insertBefore st st1 e hm hw
          (hl e (List.mem_cons_self _ _))
      obtain ⟨hw2, hn2, hc2, ha2, hserved⟩ := ih st1 h hw1
        (fun x hx => hl x (List.mem_cons_of_mem _ hx))
      refine ⟨hw2, le_trans hn1 hn2, fun c hc => hc2 c (hc1 c hc),
        fun e' a h1 => ha2 e' a (ha1 e' a h1), fun x hx => ?_⟩
      rcases List.mem_cons.mp hx with rfl | hx
      · exact ⟨alloc, lo, ha2 x alloc hf1, hc2 _ hl1⟩
      · exact hserved x hx

/-- The body of the outer loop keeps the invariant. -/
theorem motionPair_wf (F0 : Func) (st st' : MotionState) (pair : Edge × OccSet)
    (h : motionPair st pair = some st') (hw : MotionWf F0 st)
    (hv : ∀ e ∈ pair.2, e < F0.freshId) :
    MotionWf F0 st' ∧ st.next ≤ st'.next ∧ (∀ c ∈ st.created, c ∈ st'.created) ∧
      (∀ e' a, st.allocas.find? e' = some a → st'.allocas.find? e' = some a) ∧
      ∀ e ∈ pair.2, ∃ alloc lo, st'.allocas.find? e = some alloc ∧
        Created.load e alloc lo ∈ st'.created := by
  unfold motionPair at h
  cases hh : st.F.head? with
  | none => rw [hh] at h; simp at h
  | some entry =>
    rw [hh] at h
    cases hb : st.F.findBlock pair.1.1 with
    | none => rw [hb] at h; simp at h
    | some toInsert =>
      rw [hb] at h
      obtain ⟨h1, h2, h3, h4, h5⟩ := motionOccurrences_wf F0 _ _ _ _ st st' h hw
        (fun e he => hv e ((mem_valuesInOrder pair.2 e).mp he))
      exact ⟨h1, h2, h3, h4, fun e he => h5 e ((mem_valuesInOrder pair.2 e).mpr he)⟩

/-- The outer loop keeps the invariant and leaves a load for every occurrence of every
INSERT set. -/
theorem motionPairs_wf (F0 : Func) (l : List (Edge × OccSet)) (st st' : MotionState)
    (h : motionPairs l st = some st') (hw : MotionWf F0 st)
    (hv : ∀ p ∈ l, ∀ e ∈ p.2, e < F0.freshId) :
    MotionWf F0 st' ∧ st.next ≤ st'.next ∧ (∀ c ∈ st.created, c ∈ st'.created) ∧
      (∀ e' a, st.allocas.find? e' = some a → st'.allocas.find? e' = some a) ∧
      ∀ p ∈ l, ∀ e ∈ p.2, ∃ alloc lo, st'.allocas.find? e = some alloc ∧
        Created.load e alloc lo ∈ st'.created := by
  induction l generalizing st with
  | nil =>
    simp only [motionPairs, Option.some.injEq] at h
    subst h
    exact ⟨hw, le_refl _, fun c hc => hc, fun e' a h1 => h1,
      fun p hp => absurd hp (List.not_mem_nil p)⟩
  | cons p rest ih =>
    simp only [motionPairs] at h
    cases hm : motionPair st p with
    | none => simp [hm] at h
    | some st1 =>
      simp only [hm] at h
      obtain ⟨hw1, hn1, hc1, ha1, hs1⟩ := motionPair_wf F0 st st1 p hm hw
        (hv p (List.mem_cons_self _ _))
      obtain ⟨hw2, hn2, hc2, ha2, hs2⟩ := ih st1 h hw1
        (fun q hq => hv q (List.mem_cons_of_mem _ hq))
      refine ⟨hw2, le_trans hn1 hn2, fun c hc => hc2 c (hc1 c hc),
        fun e' a h1 => ha2 e' a (ha1 e' a h1), fun q hq e he => ?_⟩
      rcases List.mem_cons.mp hq with rfl | hq
      · obtain ⟨alloc, lo, hf, hl⟩ := hs1 e he
        exact ⟨alloc, lo, ha2 e alloc hf, hc2 _ hl⟩
      · exact hs2 q hq e he

/-- Distinct identifiers in the function are distinct identifiers in every block. -/
theorem nodup_block_of_nodup (F : Func) (h : (F.allInstrs.map Instruction.id).Nodup)
    (B : BasicBlock) (hB : B ∈ F) : (B.instrs.map Instruction.id).Nodup := by
  unfold Func.allInstrs at h
  induction F with
  | nil => exact absurd hB (List.not_mem_nil B)
  | cons hd tl ih =>
    rw [List.flatMap_cons, List.map_append, List.nodup_append] at h
    rcases List.mem_cons.mp hB with rfl | hB
    · exact h.1
    · exact ih h.2.1 hB

/-- Related operand lists, position by position. -/
theorem forall₂_get? {R : Value → Value → Prop} {l1 l2 : List Value}
    (h : List.Forall₂ R l1 l2) (k : Nat) (a : Value) (ha : l1.get? k = some a) :
    ∃ b, l2.get? k = some b ∧ R a b := by
  induction h generalizing k with
  | nil => simp at ha
  | cons hab _ ih =>
    cases k with
    | zero =>
      simp only [List.get?_cons_zero, Option.some.injEq] at ha
      subst ha
      exact ⟨_, rfl, hab⟩
    | succ k => exact ih k ha

/-- Two instructions of a list with distinct identifiers that share an identifier are the
same instruction. -/
theorem eq_of_id_eq (l : List Instruction) (h : (l.map Instruction.id).Nodup)
    (a b : Instruction) (ha : a ∈ l) (hb : b ∈ l) (hid : a.id = b.id) : a = b :=
  List.inj_on_of_nodup_map h ha hb hid

/-! ## The source block of an edge along the inner loop -/

/-- The block that the search loop finds is a block of the function with the name sought. -/
theorem findBlock_some (F : Func) (name : BlockName) (B : BasicBlock)
    (h : F.findBlock name = some B) : B ∈ F ∧ B.name = name := by
  unfold Func.findBlock at h
  have key : ∀ (l : List BasicBlock) (acc : Option BasicBlock),
      l.foldl (fun toInsert BB => if BB.name = name then some BB else toInsert) acc = some B →
        acc = some B ∨ (B ∈ l ∧ B.name = name) := by
    intro l
    induction l with
    | nil => intro acc h; exact Or.inl h
    | cons hd tl ih =>
      intro acc h
      rw [List.foldl_cons] at h
      rcases ih _ h with h1 | ⟨h1, h2⟩
      · by_cases hc : hd.name = name
        · rw [if_pos hc] at h1
          simp only [Option.some.injEq] at h1
          subst h1
          exact Or.inr ⟨List.mem_cons_self _ _, hc⟩
        · rw [if_neg hc] at h1
          exact Or.inl h1
      · exact Or.inr ⟨List.mem_cons_of_mem _ h1, h2⟩
  rcases key F none h with h1 | h1
  · simp at h1
  · exact h1

/-- A block with a terminator ends with it. -/
theorem getTerminator_some (B : BasicBlock) (t : Instruction) (h : B.getTerminator = some t) :
    t.opcode.isTerminator = true ∧ ∃ pre, B.instrs = pre ++ [t] := by
  unfold BasicBlock.getTerminator at h
  cases hl : B.instrs.getLast? with
  | none => simp [hl] at h
  | some t1 =>
    simp only [hl] at h
    by_cases hc : t1.opcode.isTerminator = true
    · simp only [hc, if_true, Option.some.injEq] at h
      subst h
      refine ⟨hc, B.instrs.dropLast, ?_⟩
      have hne : B.instrs ≠ [] := by
        intro h0
        rw [h0] at hl
        simp at hl
      rw [List.getLast?_eq_getLast _ hne] at hl
      simp only [Option.some.injEq] at hl
      rw [← hl]
      exact (List.dropLast_append_getLast hne).symm
    · simp [hc] at h

/-- An occurrence that is no terminator in the original function is not the identity of a
terminator later. -/
theorem ne_terminator (F0 : Func) (hids : (F0.allInstrs.map Instruction.id).Nodup)
    (F : Func) (n : InstrId) (hw : FuncWf F0 F n) (e : InstrId) (x0 : Instruction)
    (hx0 : x0 ∈ F0.allInstrs) (hxe : x0.id = e) (hxt : x0.opcode.isTerminator = false)
    (t : Instruction) (ht : t ∈ F.allInstrs) (htt : t.opcode.isTerminator = true) :
    e ≠ t.id := by
  intro hc
  have hlt : t.id < F0.freshId := by
    rw [← hc, ← hxe]
    exact lt_freshId F0 x0 hx0
  obtain ⟨i0, hi0, hid, hop⟩ := hw.kinds t ht hlt
  have heq : i0 = x0 := eq_of_id_eq F0.allInstrs hids i0 x0 hi0 hx0 (by rw [hid, ← hc, hxe])
  rw [heq] at hop
  rw [hop, htt] at hxt
  exact Bool.noConfusion hxt

/-- What the body of the inner loop needs of the state, from the invariant. -/
theorem motionOccurrence_ready (F0 : Func) (hids : (F0.allInstrs.map Instruction.id).Nodup)
    (st : MotionState) (hw : MotionWf F0 st) (U : BasicBlock) (pre : List Instruction)
    (t : Instruction) (hU : U ∈ st.F) (hUi : U.instrs = pre ++ [t])
    (htt : t.opcode.isTerminator = true) (e : InstrId)
    (he : ∃ x0 ∈ F0.allInstrs, x0.id = e ∧ x0.opcode.isTerminator = false) :
    (∀ i ∈ pre, i.id ≠ t.id) ∧ t.id < st.next ∧ e < st.next ∧ e ≠ t.id ∧ e < F0.freshId ∧
      ∃ x, st.F.getInstr e = some x ∧ ∀ o, Value.inst o ∈ x.operands → o < st.next := by
  obtain ⟨x0, hx0, hxe, hxt⟩ := he
  have htmem : t ∈ st.F.allInstrs :=
    mem_allInstrs st.F U hU t (by rw [hUi]; exact List.mem_append_right _ (List.mem_singleton.mpr rfl))
  have hbase : e < F0.freshId := hxe ▸ lt_freshId F0 x0 hx0
  have hnd := hw.func.nodup U hU
  rw [hUi, List.map_append, List.nodup_append] at hnd
  obtain ⟨g, hF, hg⟩ := hw.orig
  have hex : ∃ y ∈ st.F.allInstrs, y.id = e := by
    unfold Func.allInstrs at hx0
    obtain ⟨B0, hB0, hxB0⟩ := List.mem_flatMap.mp hx0
    obtain ⟨j, hj, hjid, -, -⟩ := (hg B0).2 x0 hxB0
    exact ⟨j, mem_allInstrs st.F (g B0) (by rw [hF]; exact List.mem_map.mpr ⟨B0, hB0, rfl⟩) j hj,
      hjid.trans hxe⟩
  obtain ⟨x, hx⟩ := getInstr_some_of_id st.F e hex
  have hxmem : x ∈ st.F.allInstrs := List.mem_of_find?_eq_some hx
  refine ⟨?_, hw.func.ids t htmem, Nat.lt_of_lt_of_le hbase hw.func.next_ge,
    ne_terminator F0 hids st.F st.next hw.func e x0 hx0 hxe hxt t htmem htt, hbase, x, hx,
    fun o ho => hw.func.uses x hxmem o ho⟩
  intro i hi hc
  exact hnd.2.2 (List.mem_map.mpr ⟨i, hi, rfl⟩) (by simp [hc])

/-- The inner loop returns, keeps the invariant, and leaves the source block of the edge with
the same last instruction. -/
theorem motionOccurrences_block (F0 : Func) (hids : (F0.allInstrs.map Instruction.id).Nodup)
    (edge : Edge) (fp ib : InstrId) (es : List InstrId) (st : MotionState)
    (hw : MotionWf F0 st) (U : BasicBlock) (pre : List Instruction) (t : Instruction)
    (hU : U ∈ st.F) (hUi : U.instrs = pre ++ [t]) (ht : t.id = ib)
    (htt : t.opcode.isTerminator = true)
    (hes : ∀ e ∈ es, ∃ x0 ∈ F0.allInstrs, x0.id = e ∧ x0.opcode.isTerminator = false) :
    ∃ st', motionOccurrences edge (some fp) (some ib) es st = some st' ∧ MotionWf F0 st' ∧
      ∃ U' ∈ st'.F, U'.name = U.name ∧ ∃ pre' t', U'.instrs = pre' ++ [t'] ∧ t'.id = ib ∧
        t'.opcode = t.opcode := by
  induction es generalizing st U pre t with
  | nil => exact ⟨st, rfl, hw, U, hU, rfl, pre, t, hUi, ht, rfl⟩
  | cons e rest ih =>
    obtain ⟨hpre, hib, he, hne, hbase, x, hx, hops⟩ := motionOccurrence_ready F0 hids st hw U
      pre t hU hUi htt e (hes e (List.mem_cons_self _ _))
    rw [ht] at hpre hib hne
    obtain ⟨st1, alloc, n, mid, hst1, -, -, -, -, -, U1, hU1, hname1, hUi1⟩ :=
      motionOccurrence_block edge fp ib st e x U pre t hU hUi ht hpre hib he hne hx hops
    obtain ⟨hw1, -⟩ := motionOccurrence_wf F0 edge (some fp) (some ib) st st1 e hst1 hw hbase
    have hUi1' : U1.instrs =
        (mid ++ (operandClones st.F x.operands n []).1 ++
          [cloneAndRemap x (operandClones st.F x.operands n []).2.1
              ((e, (operandClones st.F x.operands n []).2.1) ::
                (operandClones st.F x.operands n []).2.2),
            ⟨(operandClones st.F x.operands n []).2.1 + 1, Opcode.Store,
              [Value.inst (operandClones st.F x.operands n []).2.1, Value.inst alloc]⟩]).map
          (Instruction.replaceUses e ((operandClones st.F x.operands n []).2.1 + 2)) ++
        [t.replaceUses e ((operandClones st.F x.operands n []).2.1 + 2)] := by
      rw [hUi1]
      simp only [List.map_append, List.map_cons, List.map_nil, List.append_assoc,
        List.cons_append, List.nil_append]
    obtain ⟨st', hst', hw', U', hU', hname', pre', t', hUi', ht', hop'⟩ := ih st1 hw1 U1 _ _ hU1
      hUi1' ht htt (fun x hx => hes x (List.mem_cons_of_mem _ hx))
    refine ⟨st', ?_, hw', U', hU', hname'.trans hname1, pre', t', hUi', ht', hop'⟩
    simp only [motionOccurrences, hst1]
    exact hst'

/-! ## The clones of the operands -/

/-- The identifier that resolves to an instruction is the identifier of that instruction. -/
theorem getInstr_id (F : Func) (o : InstrId) (Inst : Instruction)
    (h : F.getInstr o = some Inst) : Inst.id = o := by
  unfold Func.getInstr at h
  have := List.find?_some h
  simpa using this

/-- The clones are clones of the operands that are instructions, in operand order: a clone
has the opcode of its operand and the operands of its operand, remapped. -/
theorem operandClones_clones (F : Func) (operands : List Value) (n : InstrId)
    (vmap : List (InstrId × InstrId)) :
    List.Forall₂
      (fun c Inst => c.opcode = Inst.opcode ∧
        ∃ vm, c.operands = Inst.operands.map (remapValue vm))
      (operandClones F operands n vmap).1 (operands.filterMap F.asInstr) := by
  induction operands generalizing n vmap with
  | nil => exact List.Forall₂.nil
  | cons U rest ih =>
    simp only [operandClones, List.filterMap_cons]
    cases F.asInstr U with
    | none => exact ih n vmap
    | some Inst => exact List.Forall₂.cons ⟨rfl, _, rfl⟩ (ih _ _)

/-- The map that the operand loop leaves sends every operand that is an instruction to its
latest clone. -/
theorem operandClones_vmap (F : Func) (operands : List Value) (n : InstrId)
    (vmap : List (InstrId × InstrId)) :
    ∃ ext, (operandClones F operands n vmap).2.2 = ext ++ vmap ∧
      (∀ q ∈ ext, Value.inst q.1 ∈ operands) ∧
      ∀ o Inst, Value.inst o ∈ operands → F.getInstr o = some Inst →
        ∃ c ∈ (operandClones F operands n vmap).1, c.opcode = Inst.opcode ∧
          ext.find? (fun p => decide (p.1 = o)) = some (o, c.id) := by
  induction operands generalizing n vmap with
  | nil =>
    exact ⟨[], rfl, fun q hq => absurd hq (List.not_mem_nil q),
      fun o Inst ho => absurd ho (List.not_mem_nil _)⟩
  | cons U rest ih =>
    simp only [operandClones]
    cases hU : F.asInstr U with
    | none =>
      obtain ⟨ext, h1, h2, h3⟩ := ih n vmap
      refine ⟨ext, h1, fun q hq => List.mem_cons_of_mem _ (h2 q hq), fun o Inst ho hg => ?_⟩
      rcases List.mem_cons.mp ho with h | h
      · rw [← h] at hU
        simp only [Func.asInstr] at hU
        rw [hg] at hU
        simp at hU
      · exact h3 o Inst h hg
    | some I =>
      simp only
      obtain ⟨ext, h1, h2, h3⟩ := ih (n + 1) ((I.id, n) :: vmap)
      have hUI : U = Value.inst I.id := by
        cases U with
        | other c => simp [Func.asInstr] at hU
        | inst u =>
          simp only [Func.asInstr] at hU
          rw [getInstr_id F u I hU]
      refine ⟨ext ++ [(I.id, n)], ?_, ?_, ?_⟩
      · rw [h1]
        simp only [List.append_assoc, List.singleton_append]
      · intro q hq
        rcases List.mem_append.mp hq with h | h
        · exact List.mem_cons_of_mem _ (h2 q h)
        · rw [List.mem_singleton.mp h, hUI]
          exact List.mem_cons_self _ _
      · intro o Inst ho hg
        by_cases hrest : Value.inst o ∈ rest
        · obtain ⟨c, hc, hop, hf⟩ := h3 o Inst hrest hg
          refine ⟨c, List.mem_cons_of_mem _ hc, hop, ?_⟩
          rw [List.find?_append, hf]
          rfl
        · have hUo : U = Value.inst o := by
            rcases List.mem_cons.mp ho with h | h
            · exact h.symm
            · exact absurd h hrest
          have hIo : I.id = o := by
            rw [hUI] at hUo
            simpa using hUo
          have hII : I = Inst := by
            rw [hUo] at hU
            simp only [Func.asInstr] at hU
            rw [hg] at hU
            simpa using hU.symm
          refine ⟨_, List.mem_cons_self _ _, by rw [← hII]; rfl, ?_⟩
          have hnone : ext.find? (fun p => decide (p.1 = o)) = none := by
            rw [List.find?_eq_none]
            intro q hq
            simp only [decide_eq_true_eq]
            intro hc
            exact hrest (hc ▸ h2 q hq)
          rw [List.find?_append, hnone]
          simp [hIo, cloneAndRemap]

/-- In the clone of the occurrence, an operand that is an instruction of the function, other
than the occurrence, is the result of its latest clone. -/
theorem cloneAndRemap_operand (F : Func) (x : Instruction) (e n : InstrId) (k : Nat)
    (o : InstrId) (Inst : Instruction) (hk : x.operands.get? k = some (Value.inst o))
    (hoe : o ≠ e) (hg : F.getInstr o = some Inst) :
    ∃ c ∈ (operandClones F x.operands n []).1, c.opcode = Inst.opcode ∧
      (cloneAndRemap x (operandClones F x.operands n []).2.1
        ((e, (operandClones F x.operands n []).2.1) ::
          (operandClones F x.operands n []).2.2)).operands.get? k = some (Value.inst c.id) := by
  obtain ⟨ext, h1, -, h3⟩ := operandClones_vmap F x.operands n []
  obtain ⟨c, hc, hop, hf⟩ := h3 o Inst (List.get?_mem hk) hg
  refine ⟨c, hc, hop, ?_⟩
  rw [List.append_nil] at h1
  rw [List.get?_eq_getElem?] at hk ⊢
  simp only [cloneAndRemap, List.getElem?_map, hk, Option.map_some', remapValue,
    List.find?_cons, h1, hf]
  have hne : decide (e = o) = false := by simpa using fun h => hoe h.symm
  simp only [hne]

/-! ## Claims on the dataflow analyses -/

/-- C1 (the code departs from the claim).  On the diamond, with the CANDIDATE, GEN and KILL
sets the pass computes (every block is hot, so there is no ingress edge), `fillAvinAvouts`
returns AVIN(3) = {12} although the second predecessor of block 3, block 2, has
AVOUT(2) = ∅: the intersection over every predecessor is empty, yet occurrence 12, missing
from the second predecessor's contribution, is in AVIN(3). -/
theorem fillAvinAvouts_keeps_first_predecessor :
    ∃ avouts avins,
      fillAvinAvouts 3 (fillCandidates [0, 1, 2, 3] (fillXUses diamond StdMap.empty) ∅)
          (fillGens diamond StdMap.empty) (fillKills diamond StdMap.empty) []
          StdMap.empty StdMap.empty diamond = some (avouts, avins) ∧
        diamondMerge ∈ diamond ∧ diamondMerge.preds = [1, 2] ∧
        avouts.get 1 = {12} ∧ avouts.get 2 = ∅ ∧
        avins.get diamondMerge.name = {12} ∧
        avinSpec (fillCandidates [0, 1, 2, 3] (fillXUses diamond StdMap.empty) ∅) [] avouts
          diamondMerge = ∅ :=
  ⟨⟨[(0, ∅), (1, {12}), (2, ∅), (3, {12, 22})]⟩, ⟨[(0, ∅), (1, ∅), (2, ∅), (3, {12})]⟩,
    by decide⟩

/-- C2.  `fillAvinAvouts` returns (the loop stops after finitely many passes), and when it
returns, the returned maps are a fixed point of the transfer equation: for every block `b`
of the function, AVOUT(b) = (AVIN(b) − KILL(b)) ∪ GEN(b), where AVIN(b) is the returned
entry, and that entry is what the predecessor loop computes from the returned (final) AVOUT
map.  Block names are unique, as in the data model. -/
theorem fillAvinAvouts_fixpoint (candidates : OccSet)
    (gens kills : StdMap BlockName OccSet) (ingressEdges : List Edge)
    (avouts0 avins0 : StdMap BlockName OccSet) (F : Func) (hn : F.names.Nodup) :
    (∃ fuel avouts avins,
      fillAvinAvouts fuel candidates gens kills ingressEdges avouts0 avins0 F =
        some (avouts, avins)) ∧
    ∀ fuel avouts avins,
      fillAvinAvouts fuel candidates gens kills ingressEdges avouts0 avins0 F =
          some (avouts, avins) →
        ∀ BB ∈ F,
          avouts.get BB.name = (avins.get BB.name \ kills.get BB.name) ∪ gens.get BB.name ∧
          avins.get BB.name = newAvin candidates ingressEdges avouts BB := by
  constructor
  · obtain ⟨fuel, -, r, hr⟩ :=
      fillAvinAvouts_returns candidates gens kills ingressEdges avouts0 avins0 F hn
    exact ⟨fuel, r.1, r.2, hr⟩
  · intro fuel avouts avins h
    unfold fillAvinAvouts at h
    rw [avinAvoutLoop_eq] at h
    intro BB hBB
    obtain ⟨h1, h2⟩ := flowLoop_fixpoint _ _
      (fun a b B hab => newAvin_congr candidates ingressEdges a b B hab) F hn fuel _ _ _ _ h
      BB hBB
    refine ⟨?_, h1⟩
    rw [h2]
    ext x
    rw [newAvout_mem]
    simp only [Finset.mem_union, Finset.mem_sdiff]

/-- Witness for C2: the diamond, where the loop stops within three passes. -/
theorem fillAvinAvouts_fixpoint_witness :
    diamond.names.Nodup ∧
      fillAvinAvouts 3 ∅ (fillGens diamond StdMap.empty) (fillKills diamond StdMap.empty) []
          StdMap.empty StdMap.empty diamond =
        some (⟨[(0, ∅), (1, {12}), (2, ∅), (3, {12, 22})]⟩,
          ⟨[(0, ∅), (1, ∅), (2, ∅), (3, {12})]⟩) ∧
      ∀ BB ∈ diamond,
        (⟨[(0, ∅), (1, {12}), (2, ∅), (3, {12, 22})]⟩ : StdMap BlockName OccSet).get BB.name =
            ((⟨[(0, ∅), (1, ∅), (2, ∅), (3, {12})]⟩ : StdMap BlockName OccSet).get BB.name \
              (fillKills diamond StdMap.empty).get BB.name) ∪
              (fillGens diamond StdMap.empty).get BB.name ∧
          (⟨[(0, ∅), (1, ∅), (2, ∅), (3, {12})]⟩ : StdMap BlockName OccSet).get BB.name =
            newAvin ∅ [] ⟨[(0, ∅), (1, {12}), (2, ∅), (3, {12, 22})]⟩ BB :=
  ⟨by decide, by decide,
    (fillAvinAvouts_fixpoint ∅ (fillGens diamond StdMap.empty)
      (fillKills diamond StdMap.empty) [] StdMap.empty StdMap.empty diamond
      (by decide)).2 3 _ _ (by decide)⟩

/-- C3.  Started with an empty INSERT map, `compute_inserts` produces a map whose key set is
exactly the set of ingress edges, and the entry of every ingress edge `(u, v)` is
NEEDIN(v) − AVOUT(u); an edge that is no ingress edge has no entry. -/
theorem compute_inserts_spec (ingressEdges : List Edge)
    (needins avouts : StdMap BlockName OccSet) (e : Edge) :
    (e ∈ (compute_inserts ingressEdges needins avouts StdMap.empty).keys ↔ e ∈ ingressEdges) ∧
      (compute_inserts ingressEdges needins avouts StdMap.empty).find? e =
        if e ∈ ingressEdges then some (needins.get e.2 \ avouts.get e.1) else none := by
  have h := compute_inserts_find? ingressEdges needins avouts StdMap.empty e
  rw [StdMap.find?_empty] at h
  refine ⟨?_, h⟩
  rw [StdMap.mem_keys_iff, h]
  by_cases he : e ∈ ingressEdges <;> simp [he]

/-- C4.  Started with an empty REMOVABLE map, `fillRemovables` stores
REMOVABLE(b) = AVIN(b) ∩ XUSE(b) for every block `b` of the function that is in `hotNodes`,
and stores no entry (so REMOVABLE reads as empty) for every other name. -/
theorem fillRemovables_spec (xUses avins : StdMap BlockName OccSet)
    (hotNodes : List BlockName) (F : Func) (n : BlockName) :
    (fillRemovables xUses avins hotNodes StdMap.empty F).find? n =
        (if n ∈ hotNodes ∧ n ∈ F.names then some (avins.get n ∩ xUses.get n) else none) ∧
      (fillRemovables xUses avins hotNodes StdMap.empty F).get n =
        if n ∈ hotNodes ∧ n ∈ F.names then avins.get n ∩ xUses.get n else ∅ := by
  have h := fillRemovables_find? xUses avins hotNodes StdMap.empty F n
  rw [StdMap.find?_empty] at h
  refine ⟨h, ?_⟩
  unfold StdMap.get
  rw [h]
  by_cases hc : n ∈ hotNodes ∧ n ∈ F.names
  · rw [if_pos hc, if_pos hc]; rfl
  · rw [if_neg hc, if_neg hc]; rfl

/-- C5.  `compute_needin_needout` returns (the loop stops after finitely many passes), and
when it returns, the returned maps solve the need equations at every block `b` of the
function: NEEDOUT(b) is the union of the returned NEEDIN(s) over the successors `s` of `b`,
and NEEDIN(b) = (NEEDOUT(b) − GEN(b)) ∪ REMOVABLE(b).  Block names are unique, as in the
data model. -/
theorem compute_needin_needout_fixpoint
    (removables gens needins0 needouts0 : StdMap BlockName OccSet)
    (F : Func) (hn : F.names.Nodup) :
    (∃ fuel needins needouts,
      compute_needin_needout fuel removables gens needins0 needouts0 F =
        some (needins, needouts)) ∧
    ∀ fuel needins needouts,
      compute_needin_needout fuel removables gens needins0 needouts0 F =
          some (needins, needouts) →
        ∀ BB ∈ F,
          (∀ x, x ∈ needouts.get BB.name ↔ ∃ s ∈ BB.succs, x ∈ needins.get s) ∧
          needins.get BB.name =
            (needouts.get BB.name \ gens.get BB.name) ∪ removables.get BB.name := by
  constructor
  · obtain ⟨fuel, -, r, hr⟩ :=
      compute_needin_needout_returns removables gens needins0 needouts0 F hn
    exact ⟨fuel, r.1, r.2, hr⟩
  · intro fuel needins needouts h
    unfold compute_needin_needout at h
    rw [needLoop_eq] at h
    intro BB hBB
    obtain ⟨h1, h2⟩ := flowLoop_fixpoint _ _
      (fun a b B hab => newNeedout_congr a b B hab) F hn fuel _ _ _ _ h BB hBB
    constructor
    · intro x
      rw [h1, newNeedout_mem]
    · rw [h2]
      ext x
      rw [newNeedin_mem]
      simp only [Finset.mem_union, Finset.mem_sdiff]

/-- Witness for C5: the diamond with REMOVABLE(3) = {22}; the loop stops within five
passes. -/
theorem compute_needin_needout_fixpoint_witness :
    diamond.names.Nodup ∧
      ∀ BB ∈ diamond,
        (∀ x, x ∈ (⟨[(0, {22}), (1, {22}), (2, {22}), (3, ∅)]⟩ :
              StdMap BlockName OccSet).get BB.name ↔
            ∃ s ∈ BB.succs, x ∈ (⟨[(0, {22}), (1, {22}), (2, {22}), (3, {22})]⟩ :
              StdMap BlockName OccSet).get s) ∧
          (⟨[(0, {22}), (1, {22}), (2, {22}), (3, {22})]⟩ : StdMap BlockName OccSet).get
              BB.name =
            ((⟨[(0, {22}), (1, {22}), (2, {22}), (3, ∅)]⟩ : StdMap BlockName OccSet).get
                BB.name \ (fillGens diamond StdMap.empty).get BB.name) ∪
              (⟨[(3, {22})]⟩ : StdMap BlockName OccSet).get BB.name :=
  ⟨by decide,
    (compute_needin_needout_fixpoint ⟨[(3, {22})]⟩ (fillGens diamond StdMap.empty)
      StdMap.empty StdMap.empty diamond (by decide)).2 5 _ _ (by decide)⟩

/-- C6.  Started with an empty candidate set, `fillCandidates` returns exactly the union of
XUSE(b) over the blocks `b` in `hotNodes`: an occurrence is in CANDIDATE if and only if it is
in XUSE(b) for some hot block `b`.  The keys of the `std::map` are unique. -/
theorem fillCandidates_spec (hotNodes : List BlockName) (xUses : StdMap BlockName OccSet)
    (hk : xUses.keys.Nodup) (e : InstrId) :
    e ∈ fillCandidates hotNodes xUses ∅ ↔ ∃ b ∈ hotNodes, e ∈ xUses.get b := by
  unfold fillCandidates
  rw [fillCandidates_mem]
  simp only [Finset.not_mem_empty, false_or]
  constructor
  · rintro ⟨⟨k, s⟩, hp, hh, he⟩
    refine ⟨k, hh, ?_⟩
    have hf : xUses.find? k = some s := StdMap.findIn_of_mem xUses.entries hk k s hp
    simp only [StdMap.get, hf, Option.getD_some]
    exact he
  · rintro ⟨b, hb, he⟩
    unfold StdMap.get at he
    cases hf : xUses.find? b with
    | none => simp [hf] at he
    | some s =>
      simp only [hf, Option.getD_some] at he
      exact ⟨(b, s), StdMap.mem_of_findIn xUses.entries b s hf, hb, he⟩

/-- Witness for C6: the XUSE map the pass computes for the diamond, with blocks 0, 1 and 3
hot. -/
theorem fillCandidates_spec_witness :
    (fillXUses diamond StdMap.empty).keys.Nodup ∧
      (22 ∈ fillCandidates [0, 1, 3] (fillXUses diamond StdMap.empty) ∅ ↔
        ∃ b ∈ [0, 1, 3], 22 ∈ (fillXUses diamond StdMap.empty).get b) :=
  ⟨by decide, fillCandidates_spec [0, 1, 3] (fillXUses diamond StdMap.empty) (by decide) 22⟩

/-! ## Claims on the expression sets -/

/-- C7 (the code departs from the claim).  In `xuseDemoBlock` the sum 6 has the loads 4
and 5 as operands, and no store of the block writes the address of either, so no operand of
6 is sourced from an overwritten load; `fillXUses` nevertheless leaves 6 out of XUSE,
because the load 2 of `x`, which does not feed 6, follows the store 1 to `x`. -/
theorem fillXUses_excludes_unrelated_load :
    Opcode.isBinaryArith Opcode.Add = true ∧
      (⟨6, Opcode.Add, [Value.inst 4, Value.inst 5]⟩ : Instruction) ∈ xuseDemoBlock.instrs ∧
      xUseSpecKilled xuseDemoBlock ⟨6, Opcode.Add, [Value.inst 4, Value.inst 5]⟩ = false ∧
      6 ∉ (fillXUses [xuseDemoBlock] StdMap.empty).get xuseDemoBlock.name := by
  decide

/-- C8 (amended).  For every block `b` and every binary arithmetic/bitwise instruction `e`
of `b` that no earlier instruction of `b` is structurally identical to: `fillGens` leaves
`e` out of GEN(b) when a load feeding `e`, located before `e` in `b`, has a store to its
address located after `e` in `b`; and `fillGens` puts `e` in GEN(b) when no load located
before `e` in `b` has a store to its address located after `e`.  Block names and instruction
identities are unique. -/
theorem fillGens_store_after_occurrence (F : Func) (hn : F.names.Nodup)
    (hi : (F.allInstrs.map Instruction.id).Nodup) (BB : BasicBlock) (hBB : BB ∈ F)
    (pre post : List Instruction) (e : Instruction) (hsplit : BB.instrs = pre ++ e :: post)
    (hop : e.opcode.isBinaryArith = true)
    (hfirst : ∀ k ∈ pre, e.isIdenticalTo k = false) :
    ((∃ l ∈ pre, l.opcode = Opcode.Load ∧ Value.inst l.id ∈ e.operands ∧
        ∃ s ∈ post, storesTo s (l.getOperand 0) = true) →
      e.id ∉ (fillGens F StdMap.empty).get BB.name) ∧
    ((∀ l ∈ pre, l.opcode = Opcode.Load → ∀ s ∈ post, storesTo s (l.getOperand 0) = false) →
      e.id ∈ (fillGens F StdMap.empty).get BB.name) := by
  have hk := genKilled_first BB pre post e hsplit hop hfirst
  have heBB : e ∈ BB.instrs := by rw [hsplit]; simp
  constructor
  · rintro ⟨l, hl, hload, hfeed, s, hs, hst⟩
    have hkilled : genKilled BB e = true := by
      rw [hk]
      have h1 : e.operands.isEmpty = false := by
        cases hops : e.operands with
        | nil => rw [hops] at hfeed; simp at hfeed
        | cons a b => rfl
      have h2 : pre.any (fun l => decide (l.opcode = Opcode.Load) &&
          post.any (fun s => storesTo s (l.getOperand 0))) = true := by
        rw [List.any_eq_true]
        refine ⟨l, hl, ?_⟩
        simp only [hload, decide_True, Bool.true_and]
        rw [List.any_eq_true]
        exact ⟨s, hs, hst⟩
      simp [h1, h2]
    intro hmem
    rw [fillGens_mem] at hmem
    simp only [StdMap.get_empty, Finset.not_mem_empty, false_or] at hmem
    obtain ⟨BB0, hBB0, instr, hinstr, -, hnk, hname, hid⟩ := hmem
    have hb : BB0 = BB := block_eq_of_name F hn BB0 BB hBB0 hBB hname
    subst hb
    have hie : instr = e :=
      instr_eq_of_id F hi instr e (mem_allInstrs F BB0 hBB0 instr hinstr)
        (mem_allInstrs F BB0 hBB0 e heBB) hid.symm
    subst hie
    rw [hkilled] at hnk
    exact absurd hnk (by decide)
  · intro hnone
    have hkilled : genKilled BB e = false := by
      rw [hk]
      have h2 : pre.any (fun l => decide (l.opcode = Opcode.Load) &&
          post.any (fun s => storesTo s (l.getOperand 0))) = false := by
        rw [List.any_eq_false]
        intro l hl
        by_cases hload : l.opcode = Opcode.Load
        · simp only [hload, decide_True, Bool.true_and, Bool.not_eq_true]
          rw [List.any_eq_false]
          intro s hs
          simp [hnone l hl hload s hs]
        · simp [hload]
      simp [h2]
    rw [fillGens_mem]
    exact Or.inr ⟨BB, hBB, e, heBB, hop, hkilled, rfl, rfl⟩

/-- Witness for C8: `genDemoBlock2`, where the load of `x` feeds the sum 2 and the store
to `x` follows the sum. -/
theorem fillGens_store_after_occurrence_witness :
    Func.names [genDemoBlock2] = [0] ∧
      2 ∉ (fillGens [genDemoBlock2] StdMap.empty).get genDemoBlock2.name :=
  ⟨by decide,
    (fillGens_store_after_occurrence [genDemoBlock2] (by decide) (by decide) genDemoBlock2
      (by decide) [⟨1, Opcode.Load, [Value.other 100]⟩]
      [⟨3, Opcode.Store, [Value.inst 2, Value.other 100]⟩, ⟨4, Opcode.Other 1, []⟩]
      ⟨2, Opcode.Add, [Value.inst 1, Value.other 8]⟩ (by decide) (by decide) (by decide)).1
      ⟨⟨1, Opcode.Load, [Value.other 100]⟩, by decide, by decide, by decide,
        ⟨3, Opcode.Store, [Value.inst 2, Value.other 100]⟩, by decide, by decide⟩⟩

/-- C8 (counterexample to the claim as stated).  In `genDemoBlock` the load 1 of `x` feeds
the sum 3 and is followed, later in the block, by the store 2 to `x`, so the claim excludes
3 from GEN; the store precedes the sum, and `fillGens`, which looks for stores after the
occurrence only, puts 3 in GEN. -/
theorem fillGens_store_before_occurrence :
    Opcode.isBinaryArith Opcode.Add = true ∧
      (⟨3, Opcode.Add, [Value.inst 1, Value.other 8]⟩ : Instruction) ∈ genDemoBlock.instrs ∧
      genSpecKilled genDemoBlock ⟨3, Opcode.Add, [Value.inst 1, Value.other 8]⟩ = true ∧
      3 ∈ (fillGens [genDemoBlock] StdMap.empty).get genDemoBlock.name ∧
      ¬ (3 ∈ (fillGens [genDemoBlock] StdMap.empty).get genDemoBlock.name ↔
        genSpecKilled genDemoBlock ⟨3, Opcode.Add, [Value.inst 1, Value.other 8]⟩ = false) := by
  decide

/-- The scan of `fillGens` covers loads that do not feed the occurrence: in `genDemoBlock3`
the sum 5 has the loads 3 and 4 as operands and no store of the block writes the address of
either, yet `fillGens` leaves 5 out of GEN, because the block loads `x` before the sum and
stores to `x` after it. -/
theorem fillGens_excludes_unrelated_load :
    Opcode.isBinaryArith Opcode.Add = true ∧
      (⟨5, Opcode.Add, [Value.inst 3, Value.inst 4]⟩ : Instruction) ∈ genDemoBlock3.instrs ∧
      genSpecKilled genDemoBlock3 ⟨5, Opcode.Add, [Value.inst 3, Value.inst 4]⟩ = false ∧
      5 ∉ (fillGens [genDemoBlock3] StdMap.empty).get genDemoBlock3.name := by
  decide

/-- C9 (amended).  For every binary arithmetic/bitwise occurrence `e` of the function and
every block `b`, `fillKills` puts `e` in KILL(b) if and only if `b` holds a store whose
destination equals the address of a load that is an operand of `e` or an operand of a
producer with opcode `Mul`, `Add` or `Sub` that is itself an operand of `e`.  Loads behind
a producer of any other opcode, or two or more producers away, cause no kill.  Block names
and instruction identities are unique. -/
theorem fillKills_mul_add_sub_producers (F : Func) (hn : F.names.Nodup)
    (hi : (F.allInstrs.map Instruction.id).Nodup) (BB : BasicBlock) (hBB : BB ∈ F)
    (e : Instruction) (he : e ∈ F.allInstrs) (hop : e.opcode.isBinaryArith = true) :
    e.id ∈ (fillKills F StdMap.empty).get BB.name ↔ killSpec Opcode.isMulAddSub F BB e := by
  rw [fillKills_mem]
  simp only [StdMap.get_empty, Finset.not_mem_empty, false_or]
  constructor
  · rintro ⟨BB0, hBB0, instr, hinstr, -, v, hv, p, hp, hcase⟩
    have key : ∀ (l : Instruction) (BB1 : BasicBlock), BB1 ∈ F →
        BB1.instrs.any (fun instr1 => storesTo instr1 (l.getOperand 0)) = true →
        BB1.name = BB.name → e.id = instr.id → instr = e ∧ storeToAddressOf BB l := by
      intro l BB1 hBB1 hany hname hid
      have hie : instr = e :=
        instr_eq_of_id F hi instr e (mem_allInstrs F BB0 hBB0 instr hinstr) he hid.symm
      have hb : BB1 = BB := block_eq_of_name F hn BB1 BB hBB1 hBB hname
      subst hb
      rw [List.any_eq_true] at hany
      exact ⟨hie, hany⟩
    rcases hcase with ⟨hload, BB1, hBB1, hany, hname, hid⟩ |
      ⟨hok, v1, hv1, l, hl, hload, BB1, hBB1, hany, hname, hid⟩
    · obtain ⟨hie, hst⟩ := key p BB1 hBB1 hany hname hid
      subst hie
      exact ⟨p, ⟨hload, Or.inl ⟨v, hv, hp⟩⟩, hst⟩
    · obtain ⟨hie, hst⟩ := key l BB1 hBB1 hany hname hid
      subst hie
      exact ⟨l, ⟨hload, Or.inr ⟨v, hv, p, hp, hok, v1, hv1, hl⟩⟩, hst⟩
  · rintro ⟨l, ⟨hload, hfeed⟩, hst⟩
    have hany : BB.instrs.any (fun instr1 => storesTo instr1 (l.getOperand 0)) = true := by
      rw [List.any_eq_true]
      exact hst
    obtain ⟨BB0, hBB0, he0⟩ := List.mem_flatMap.mp he
    refine ⟨BB0, hBB0, e, he0, hop, ?_⟩
    rcases hfeed with ⟨v, hv, hvl⟩ | ⟨v, hv, p, hp, hok, v1, hv1, hl⟩
    · exact ⟨v, hv, l, hvl, Or.inl ⟨hload, BB, hBB, hany, rfl, rfl⟩⟩
    · exact ⟨v, hv, p, hp, Or.inr ⟨hok, v1, hv1, l, hl, hload, BB, hBB, hany, rfl, rfl⟩⟩

/-- Witness for C9: in `killDemo`, `x * 2 - 1` (occurrence 8) reads `x` through the `Mul`
producer 7, and block 1 stores to `x`. -/
theorem fillKills_mul_add_sub_producers_witness :
    killDemo.names.Nodup ∧ (killDemo.allInstrs.map Instruction.id).Nodup ∧
      (8 ∈ (fillKills killDemo StdMap.empty).get 1 ↔
        killSpec Opcode.isMulAddSub killDemo killDemoStore
          ⟨8, Opcode.Sub, [Value.inst 7, Value.other 1]⟩) :=
  ⟨by decide, by decide,
    fillKills_mul_add_sub_producers killDemo (by decide) (by decide) killDemoStore (by decide)
      ⟨8, Opcode.Sub, [Value.inst 7, Value.other 1]⟩ (by decide) (by decide)⟩

/-- C9 (counterexample to the claim as stated).  In `killDemo`, `(x ^ 8) + 8` (occurrence 6)
has the `Xor` producer 5 as an operand, 5 has the load 1 of `x` as an operand, and block 1
stores to `x`; with producers of any binary arithmetic/bitwise opcode the claim puts 6 in
KILL(1), but `fillKills` looks through `Mul`, `Add` and `Sub` only and leaves it out. -/
theorem fillKills_xor_producer_not_killed :
    killSpec Opcode.isBinaryArith killDemo killDemoStore
        ⟨6, Opcode.Add, [Value.inst 5, Value.other 8]⟩ ∧
      6 ∉ (fillKills killDemo StdMap.empty).get killDemoStore.name ∧
      ¬ (6 ∈ (fillKills killDemo StdMap.empty).get killDemoStore.name ↔
        killSpec Opcode.isBinaryArith killDemo killDemoStore
          ⟨6, Opcode.Add, [Value.inst 5, Value.other 8]⟩) := by
  have hspec : killSpec Opcode.isBinaryArith killDemo killDemoStore
      ⟨6, Opcode.Add, [Value.inst 5, Value.other 8]⟩ :=
    ⟨⟨1, Opcode.Load, [Value.other 100]⟩,
      ⟨rfl, Or.inr ⟨Value.inst 5, by decide, ⟨5, Opcode.Xor, [Value.inst 1, Value.other 8]⟩,
        by decide, by decide, Value.inst 1, by decide, by decide⟩⟩,
      ⟨⟨2, Opcode.Store, [Value.other 2, Value.other 100]⟩, by decide, by decide⟩⟩
  have hnot : 6 ∉ (fillKills killDemo StdMap.empty).get killDemoStore.name := by decide
  exact ⟨hspec, hnot, fun h => hnot (h.mpr hspec)⟩

/-! ## Claims on the profile classification -/

/-- C10 (the code departs from the claim).  In `longLoop` the loop block has the largest
count, three billion, so its normalised count is 1 and the design classifies it hot and the
two other blocks, of count 1, cold.  `calculateHotColdNodes` reads the count into an `int`,
where three billion becomes -1294967296: it finds the maximum 1, puts the loop block in
`coldNodes` and the two other blocks in `hotNodes`. -/
theorem calculateHotColdNodes_truncates_count :
    maxBlockCount longLoop = 3000000000 ∧ longLoopBody ∈ longLoop ∧
      hotSpec longLoop longLoopBody = true ∧
      toInt32 longLoopBody.count = -1294967296 ∧
      (calculateHotColdNodes longLoop StdMap.empty [] []).2.2.2 = 1 ∧
      (calculateHotColdNodes longLoop StdMap.empty [] []).2.1 = [0, 2] ∧
      (calculateHotColdNodes longLoop StdMap.empty [] []).2.2.1 = [longLoopBody.name] := by
  decide

/-- The threshold boundary, an instance of `calculateHotColdNodes_threshold`: in
`boundaryProfile` block 1 has count 22 and the maximum is 100, so its normalised count is
exactly 0.22; it is listed once, it is not hot, and it is cold. -/
theorem calculateHotColdNodes_threshold_witness :
    boundaryProfile.names.Nodup ∧ maxBlockCount boundaryProfile = 100 ∧
      ((calculateHotColdNodes boundaryProfile StdMap.empty [] []).2.1 ++
          (calculateHotColdNodes boundaryProfile StdMap.empty [] []).2.2.1).count 1 = 1 ∧
      (1 ∈ (calculateHotColdNodes boundaryProfile StdMap.empty [] []).2.1 ↔
        hotSpec boundaryProfile boundaryBlock = true) ∧
      1 ∈ (calculateHotColdNodes boundaryProfile StdMap.empty [] []).2.2.1 :=
  ⟨by decide, by decide,
    (calculateHotColdNodes_threshold boundaryProfile (by decide) (by decide) (by decide)
      boundaryBlock (by decide)).1,
    (calculateHotColdNodes_threshold boundaryProfile (by decide) (by decide) (by decide)
      boundaryBlock (by decide)).2,
    by decide⟩

/-! ## Claims on the edge classification -/

set_option maxRecDepth 65536

/-- C11.  Started with an empty list, `calculateIngressEdges` returns exactly the cold edges
`(u, v)` whose source `u` is in `coldNodes` and whose destination `v` is in `hotNodes`: every
returned edge satisfies the three conditions, and every cold edge with a cold source and a
hot destination is returned. -/
theorem calculateIngressEdges_spec (coldEdges : List Edge) (hotNodes coldNodes : List BlockName)
    (e : Edge) :
    e ∈ calculateIngressEdges coldEdges hotNodes coldNodes [] ↔
      e ∈ coldEdges ∧ e.1 ∈ coldNodes ∧ e.2 ∈ hotNodes := by
  rw [calculateIngressEdges_eq_filter]
  simp only [List.nil_append, List.mem_filter, decide_eq_true_eq]

/-- C12 (the code departs from the claim).  In `narrowArm` the edge from block 1 to block 3
has probability 1 and block 1 has count 125 of a maximum of 564, so its normalised weight
is 125/564, more than 0.22, and the design classifies it hot.  `calculateHotColdEdges`
rebuilds the count from the normalised `double`: 125/564 times 564 gives a `double` below
125, which the conversion to `uint64_t` truncates to 124, and 124/564 is below 0.22: the
edge goes to `coldEdges`. -/
theorem calculateHotColdEdges_loses_a_count :
    narrowArmBlock ∈ narrowArm ∧ maxBlockCount narrowArm = 564 ∧
      BranchProbability.scale (narrowArmBpi 1 3) narrowArmBlock.count = 125 ∧
      edgeHotSpec narrowArm narrowArmBpi narrowArmBlock 3 = true ∧
      narrowArmBlock.name = 1 ∧
      (((Double.ofInt 125).divInt 564).mulInt 564).toUInt64 = 124 ∧
      calculateHotColdEdges narrowArm narrowArmBpi
          (calculateHotColdNodes narrowArm StdMap.empty [] []).1 [] []
          (calculateHotColdNodes narrowArm StdMap.empty [] []).2.2.2 =
        ([(0, 2), (2, 3)], [(0, 1), (1, 3)]) := by
  decide

/-! ## Claims on the transformation as a whole -/

/-- C13 (the code departs from the claim).  `sumLoop` adds 5 to the cell at address 100 on
each of its two iterations and returns the last sum: it returns 10 and stores 5, then 10.
The function that `runOnFunction` makes of it returns 5 and stores 5 twice: the sum was
computed once on the edge into the loop, although a store of the loop body changes its
operand, because AVIN of the loop head was taken from the first predecessor alone. -/
theorem runOnFunction_changes_result :
    observe sumLoop 20 sumLoopMem =
        some (some 10, [(100, 5), (200, 1), (201, 0), (100, 10), (200, 0), (201, 0)]) ∧
      (runAnalyses 10 sumLoopBpi sumLoop).map (fun a => (a.ingressEdges, a.inserts)) =
        some ([(0, 1)], ⟨[((0, 1), {12})]⟩) ∧
      (runOnFunction 10 sumLoopBpi sumLoop).bind (fun r => observe r.1 20 sumLoopMem) =
        some (some 5, [(100, 5), (200, 1), (201, 0), (100, 5), (200, 0), (201, 0)]) := by
  decide

/-- C14 (the code departs from the claim).  In `coldArm` the occurrence 31 of block 3 is in
INSERT of the ingress edge (2, 3), and the path 0, 1, 3 from the entry to block 3 is a path
of the CFG that traverses no edge whose INSERT set holds 31.  Run along that path, the
original function returns 5, while the transformed function reads the slot of 31 before
anything was stored to it and has no result. -/
theorem performRemoveAndInsert_slot_read_unwritten :
    (runAnalyses 10 coldArmBpi coldArm).map
        (fun a => (a.ingressEdges, decide (31 ∈ a.inserts.get (2, 3)),
          passesInsertOf a.inserts 31 [0, 1, 3])) = some ([(2, 3)], true, false) ∧
      (coldArm.head?.map BasicBlock.name = some 0 ∧ isCfgPath coldArm [0, 1, 3] = true ∧
        (coldArm.findBlock 3).map (fun BB => decide (31 ∈ BB.instrs.map Instruction.id)) =
          some true) ∧
      observe coldArm 20 [(100, 4), (300, 1)] = some (some 5, [(400, 7), (101, 5)]) ∧
      (runOnFunction 10 coldArmBpi coldArm).map (fun r => observe r.1 20 [(100, 4), (300, 1)]) =
        some none := by
  decide

/-- C15 (the claim as the code has it).  `runOnFunction` returns on every function whose
blocks have distinct names and end with a terminator, and the value it returns is always
`true`, whether or not it has modified the function. -/
theorem runOnFunction_always_true (bpi : BlockName → BlockName → BranchProbability) (F : Func)
    (hn : F.names.Nodup) (ht : ∀ B ∈ F, B.getTerminator ≠ none) :
    (∃ F', runOnFunction (F.length * F.occurrences.card + 1) bpi F = some (F', true)) ∧
      ∀ fuel F' r, runOnFunction fuel bpi F = some (F', r) → r = true :=
  ⟨runOnFunction_returns bpi F hn ht, fun fuel F' r h => runOnFunction_flag fuel bpi F F' r h⟩

/-- Witness for C15: the diamond with even branch probabilities. -/
theorem runOnFunction_always_true_witness :
    diamond.names.Nodup ∧ (∀ B ∈ diamond, B.getTerminator ≠ none) ∧
      ((∃ F', runOnFunction (diamond.length * diamond.occurrences.card + 1) evenBpi diamond =
          some (F', true)) ∧
        ∀ fuel F' r, runOnFunction fuel evenBpi diamond = some (F', r) → r = true) :=
  ⟨by decide, by decide, runOnFunction_always_true evenBpi diamond (by decide) (by decide)⟩

/-- C15 (the claim fails as stated).  In `coldArmPlain` the only INSERT set, that of the
ingress edge (2, 3), is empty; nothing is created and the function is left as it is, and
`runOnFunction` returns `true`, not `false`. -/
theorem runOnFunction_true_without_change :
    (runAnalyses 10 coldArmBpi coldArmPlain).map (fun a => a.inserts) =
        some ⟨[((2, 3), ∅)]⟩ ∧
      (runAnalyses 10 coldArmBpi coldArmPlain).bind
          (fun a => (performRemoveAndInsert a.inserts (MotionState.initial coldArmPlain)).map
            (fun st => st.created)) = some [] ∧
      runOnFunction 10 coldArmBpi coldArmPlain = some (coldArmPlain, true) := by
  decide

/-- C16.  The analyses return on every function whose blocks have distinct names, and
whenever they yield no ingress edge the INSERT map is empty and `performRemoveAndInsert`
returns the state it was given: no slot in `allocas`, nothing created, and the function, so
every block's instruction sequence, exactly as before. -/
theorem no_ingress_no_change (bpi : BlockName → BlockName → BranchProbability) (F : Func)
    (hn : F.names.Nodup) :
    (∃ a, runAnalyses (F.length * F.occurrences.card + 1) bpi F = some a) ∧
      ∀ fuel a, runAnalyses fuel bpi F = some a → a.ingressEdges = [] →
        a.inserts = StdMap.empty ∧
          performRemoveAndInsert a.inserts (MotionState.initial F) =
            some (MotionState.initial F) ∧
          runOnFunction fuel bpi F = some (F, true) := by
  refine ⟨runAnalyses_returns bpi F hn, ?_⟩
  intro fuel a ha hi
  have hempty := runAnalyses_no_ingress fuel bpi F a ha hi
  refine ⟨hempty, ?_⟩
  exact runOnFunction_nothing_to_insert fuel bpi F hn a ha
    (fun p hp => by rw [hempty] at hp; simp [StdMap.empty] at hp)

/-- Witness for C16: the diamond with even branch probabilities has no ingress edge. -/
theorem no_ingress_no_change_witness :
    diamond.names.Nodup ∧
      (runAnalyses 10 evenBpi diamond).map (fun a => a.ingressEdges) = some [] ∧
      ((∃ a, runAnalyses (diamond.length * diamond.occurrences.card + 1) evenBpi diamond =
          some a) ∧
        ∀ fuel a, runAnalyses fuel evenBpi diamond = some a → a.ingressEdges = [] →
          a.inserts = StdMap.empty ∧
            performRemoveAndInsert a.inserts (MotionState.initial diamond) =
              some (MotionState.initial diamond) ∧
            runOnFunction fuel evenBpi diamond = some (diamond, true)) :=
  ⟨by decide, by decide, no_ingress_no_change evenBpi diamond (by decide)⟩

/-- C17 (the claim as the code has it).  When the INSERT sets of a run are all empty, the
run leaves the function as it is, so a second run on its result, with the same counts and
probabilities, finds the same empty sets and changes nothing either.  The analyses return
on every function whose blocks have distinct names. -/
theorem runOnFunction_idempotent_without_insert
    (bpi : BlockName → BlockName → BranchProbability) (F : Func) (hn : F.names.Nodup) :
    (∃ a, runAnalyses (F.length * F.occurrences.card + 1) bpi F = some a) ∧
      ∀ fuel a, runAnalyses fuel bpi F = some a → (∀ p ∈ a.inserts.entries, p.2 = ∅) →
        runOnFunction fuel bpi F = some (F, true) ∧
          (runOnFunction fuel bpi F).bind (fun r => runOnFunction fuel bpi r.1) =
            some (F, true) := by
  refine ⟨runAnalyses_returns bpi F hn, ?_⟩
  intro fuel a ha he
  have h := (runOnFunction_nothing_to_insert fuel bpi F hn a ha he).2
  refine ⟨h, ?_⟩
  rw [h]
  exact h

/-- Witness for C17: `coldArmPlain`, whose only INSERT set is empty. -/
theorem runOnFunction_idempotent_without_insert_witness :
    coldArmPlain.names.Nodup ∧
      (runAnalyses 10 coldArmBpi coldArmPlain).map (fun a => a.inserts) =
        some ⟨[((2, 3), ∅)]⟩ ∧
      ((∃ a, runAnalyses (coldArmPlain.length * coldArmPlain.occurrences.card + 1) coldArmBpi
          coldArmPlain = some a) ∧
        ∀ fuel a, runAnalyses fuel coldArmBpi coldArmPlain = some a →
          (∀ p ∈ a.inserts.entries, p.2 = ∅) →
          runOnFunction fuel coldArmBpi coldArmPlain = some (coldArmPlain, true) ∧
            (runOnFunction fuel coldArmBpi coldArmPlain).bind
                (fun r => runOnFunction fuel coldArmBpi r.1) = some (coldArmPlain, true)) :=
  ⟨by decide, by decide,
    runOnFunction_idempotent_without_insert coldArmBpi coldArmPlain (by decide)⟩

/-- C17 (the claim fails as stated).  In `steadyLoop` occurrence 12 is loop-invariant.  The
first run creates a slot, a store on the edge (0, 1) and a load for it, keeps the observable
results, and leaves the occurrence in its block; a second run on the result, with the same
counts and probabilities, finds 12 in INSERT of the edge (0, 1) again and creates another
slot, store and load: the function grows from 17 to 22 instructions. -/
theorem runOnFunction_second_run_inserts_again :
    (runAnalyses 10 sumLoopBpi steadyLoop).bind
        (fun a => (performRemoveAndInsert a.inserts (MotionState.initial steadyLoop)).map
          (fun st => st.created)) =
      some [Created.slot 12 22, Created.store 12 (0, 1) 22 25, Created.load 12 22 26] ∧
    (runOnFunction 10 sumLoopBpi steadyLoop).bind
        (fun r => (runAnalyses 10 sumLoopBpi r.1).bind
          (fun a => (performRemoveAndInsert a.inserts (MotionState.initial r.1)).map
            (fun st => (a.inserts, st.created)))) =
      some (⟨[((0, 1), {12})]⟩,
        [Created.slot 12 27, Created.store 12 (0, 1) 27 30, Created.load 12 27 31]) ∧
    (runOnFunction 10 sumLoopBpi steadyLoop).bind
        (fun r => (runOnFunction 10 sumLoopBpi r.1).map
          (fun r2 => (decide (r2.1 = r.1), r.1.allInstrs.length, r2.1.allInstrs.length))) =
      some (false, 17, 22) ∧
    (runOnFunction 10 sumLoopBpi steadyLoop).bind
        (fun r => observe r.1 20 [(100, 3), (102, 0), (200, 1), (201, 1)]) =
      observe steadyLoop 20 [(100, 3), (102, 0), (200, 1), (201, 1)] :=
  ⟨by decide, by decide, by decide, by decide⟩

/-! ## Claims on the fixpoint loops -/

/-- C18.  On every function whose blocks have distinct names, and for every choice of the
input sets and of the maps handed in, both `while (change)` loops return after finitely many
passes.  Every pass that reports a change shrinks no set and strictly enlarges the AVOUT
(resp. NEEDIN) set of some block, and after any number of passes these sets lie inside a
finite universe: CANDIDATE, the GEN sets and the AVOUT sets handed in (resp. the REMOVABLE
sets and the NEEDIN sets handed in). -/
theorem fixpoint_loops_terminate (F : Func) (hn : F.names.Nodup) (candidates : OccSet)
    (gens kills : StdMap BlockName OccSet) (ingressEdges : List Edge)
    (avouts0 avins0 removables gens2 needins0 needouts0 : StdMap BlockName OccSet) :
    ((∃ fuel r, fillAvinAvouts fuel candidates gens kills ingressEdges avouts0 avins0 F =
          some r) ∧
        (∀ n, (avinAvoutPass candidates gens kills ingressEdges
              (avinAvoutAfter candidates gens kills ingressEdges F n
                (F.foldl (fun m BB => m.insert BB.name ∅) avouts0) avins0).1
              (avinAvoutAfter candidates gens kills ingressEdges F n
                (F.foldl (fun m BB => m.insert BB.name ∅) avouts0) avins0).2 F).2.2 = true →
            (∀ k, (avinAvoutAfter candidates gens kills ingressEdges F n
                  (F.foldl (fun m BB => m.insert BB.name ∅) avouts0) avins0).1.get k ⊆
                (avinAvoutAfter candidates gens kills ingressEdges F (n + 1)
                  (F.foldl (fun m BB => m.insert BB.name ∅) avouts0) avins0).1.get k) ∧
              ∃ BB ∈ F, (avinAvoutAfter candidates gens kills ingressEdges F n
                  (F.foldl (fun m BB => m.insert BB.name ∅) avouts0) avins0).1.get BB.name ⊂
                (avinAvoutAfter candidates gens kills ingressEdges F (n + 1)
                  (F.foldl (fun m BB => m.insert BB.name ∅) avouts0) avins0).1.get BB.name) ∧
        ∀ n k, (avinAvoutAfter candidates gens kills ingressEdges F n
            (F.foldl (fun m BB => m.insert BB.name ∅) avouts0) avins0).1.get k ⊆
          candidates ∪ gens.unionAll ∪ avouts0.unionAll) ∧
      ((∃ fuel r, compute_needin_needout fuel removables gens2 needins0 needouts0 F =
          some r) ∧
        (∀ n, (needPass removables gens2
              (needAfter removables gens2 F n
                (F.foldl (fun m BB => m.insert BB.name ∅) needins0) needouts0).1
              (needAfter removables gens2 F n
                (F.foldl (fun m BB => m.insert BB.name ∅) needins0) needouts0).2 F).2.2 = true →
            (∀ k, (needAfter removables gens2 F n
                  (F.foldl (fun m BB => m.insert BB.name ∅) needins0) needouts0).1.get k ⊆
                (needAfter removables gens2 F (n + 1)
                  (F.foldl (fun m BB => m.insert BB.name ∅) needins0) needouts0).1.get k) ∧
              ∃ BB ∈ F, (needAfter removables gens2 F n
                  (F.foldl (fun m BB => m.insert BB.name ∅) needins0) needouts0).1.get BB.name ⊂
                (needAfter removables gens2 F (n + 1)
                  (F.foldl (fun m BB => m.insert BB.name ∅) needins0) needouts0).1.get BB.name) ∧
        ∀ n k, (needAfter removables gens2 F n
            (F.foldl (fun m BB => m.insert BB.name ∅) needins0) needouts0).1.get k ⊆
          removables.unionAll ∪ needins0.unionAll) := by
  have hU1 : candidates ⊆ candidates ∪ gens.unionAll ∪ avouts0.unionAll :=
    fun x hx => Finset.mem_union_left _ (Finset.mem_union_left _ hx)
  have hU2 : ∀ k, gens.get k ⊆ candidates ∪ gens.unionAll ∪ avouts0.unionAll :=
    fun k x hx => Finset.mem_union_left _
      (Finset.mem_union_right _ (StdMap.get_subset_unionAll gens k hx))
  have hb1 : ∀ k, (F.foldl (fun m BB => m.insert BB.name ∅) avouts0).get k ⊆
      candidates ∪ gens.unionAll ∪ avouts0.unionAll := by
    intro k
    rw [initEmpty_get]
    split_ifs
    · exact Finset.empty_subset _
    · exact (StdMap.get_subset_unionAll avouts0 k).trans Finset.subset_union_right
  have hpre1 : ∀ BB ∈ F, (F.foldl (fun m BB => m.insert BB.name ∅) avouts0).get BB.name ⊆
      newAvout gens kills BB (newAvin candidates ingressEdges
        (F.foldl (fun m BB => m.insert BB.name ∅) avouts0) BB) := by
    intro BB hBB
    have hmem : BB.name ∈ F.names := List.mem_map.mpr ⟨BB, hBB, rfl⟩
    rw [initEmpty_get, if_pos hmem]
    exact Finset.empty_subset _
  have hU3 : ∀ k, removables.get k ⊆ removables.unionAll ∪ needins0.unionAll :=
    fun k x hx => Finset.mem_union_left _ (StdMap.get_subset_unionAll removables k hx)
  have hb2 : ∀ k, (F.foldl (fun m BB => m.insert BB.name ∅) needins0).get k ⊆
      removables.unionAll ∪ needins0.unionAll := by
    intro k
    rw [initEmpty_get]
    split_ifs
    · exact Finset.empty_subset _
    · exact (StdMap.get_subset_unionAll needins0 k).trans Finset.subset_union_right
  have hpre2 : ∀ BB ∈ F, (F.foldl (fun m BB => m.insert BB.name ∅) needins0).get BB.name ⊆
      newNeedin removables gens2 BB (newNeedout
        (F.foldl (fun m BB => m.insert BB.name ∅) needins0) BB) := by
    intro BB hBB
    have hmem : BB.name ∈ F.names := List.mem_map.mpr ⟨BB, hBB, rfl⟩
    rw [initEmpty_get, if_pos hmem]
    exact Finset.empty_subset _
  refine ⟨⟨?_, ?_, ?_⟩, ⟨?_, ?_, ?_⟩⟩
  · obtain ⟨fuel, -, r, hr⟩ :=
      fillAvinAvouts_returns candidates gens kills ingressEdges avouts0 avins0 F hn
    exact ⟨fuel, r, hr⟩
  · intro n hc
    simp only [avinAvoutAfter_eq, avinAvoutPass_eq] at hc ⊢
    obtain ⟨hb, hpre⟩ := flowAfter_invariant _ _ (newAvin_mono candidates ingressEdges)
      (newAvout_mono gens kills) _
      (newAvout_bound candidates gens kills ingressEdges _ hU1 hU2) F hn n _ avins0 hb1 hpre1
    have := flowPass_enlarges _ _ (newAvin_mono candidates ingressEdges)
      (newAvout_mono gens kills) _
      (newAvout_bound candidates gens kills ingressEdges _ hU1 hU2) F hn _ _ hb hpre hc
    rw [flowAfter_succ]
    exact this
  · intro n k
    rw [avinAvoutAfter_eq]
    exact (flowAfter_invariant _ _ (newAvin_mono candidates ingressEdges)
      (newAvout_mono gens kills) _
      (newAvout_bound candidates gens kills ingressEdges _ hU1 hU2) F hn n _ avins0 hb1
      hpre1).1 k
  · obtain ⟨fuel, -, r, hr⟩ :=
      compute_needin_needout_returns removables gens2 needins0 needouts0 F hn
    exact ⟨fuel, r, hr⟩
  · intro n hc
    simp only [needAfter_eq, needPass_eq] at hc ⊢
    obtain ⟨hb, hpre⟩ := flowAfter_invariant _ _ newNeedout_mono
      (newNeedin_mono removables gens2) _ (newNeedin_bound removables gens2 _ hU3) F hn n _
      needouts0 hb2 hpre2
    have := flowPass_enlarges _ _ newNeedout_mono (newNeedin_mono removables gens2) _
      (newNeedin_bound removables gens2 _ hU3) F hn _ _ hb hpre hc
    rw [flowAfter_succ]
    exact this
  · intro n k
    rw [needAfter_eq]
    exact (flowAfter_invariant _ _ newNeedout_mono (newNeedin_mono removables gens2) _
      (newNeedin_bound removables gens2 _ hU3) F hn n _ needouts0 hb2 hpre2).1 k

/-- Witness for C18: the self loop, where the first pass of each loop reports a change. -/
theorem fixpoint_loops_terminate_witness :
    selfLoop.names.Nodup ∧
      (avinAvoutPass {1} ⟨[(0, {1})]⟩ StdMap.empty []
        (selfLoop.foldl (fun m BB => m.insert BB.name ∅) StdMap.empty) StdMap.empty
        selfLoop).2.2 = true ∧
      (((∃ fuel r, fillAvinAvouts fuel {1} ⟨[(0, {1})]⟩ StdMap.empty [] StdMap.empty
            StdMap.empty selfLoop = some r) ∧
          (∀ n, (avinAvoutPass {1} ⟨[(0, {1})]⟩ StdMap.empty []
                (avinAvoutAfter {1} ⟨[(0, {1})]⟩ StdMap.empty [] selfLoop n
                  (selfLoop.foldl (fun m BB => m.insert BB.name ∅) StdMap.empty)
                  StdMap.empty).1
                (avinAvoutAfter {1} ⟨[(0, {1})]⟩ StdMap.empty [] selfLoop n
                  (selfLoop.foldl (fun m BB => m.insert BB.name ∅) StdMap.empty)
                  StdMap.empty).2 selfLoop).2.2 = true →
              (∀ k, (avinAvoutAfter {1} ⟨[(0, {1})]⟩ StdMap.empty [] selfLoop n
                    (selfLoop.foldl (fun m BB => m.insert BB.name ∅) StdMap.empty)
                    StdMap.empty).1.get k ⊆
                  (avinAvoutAfter {1} ⟨[(0, {1})]⟩ StdMap.empty [] selfLoop (n + 1)
                    (selfLoop.foldl (fun m BB => m.insert BB.name ∅) StdMap.empty)
                    StdMap.empty).1.get k) ∧
                ∃ BB ∈ selfLoop, (avinAvoutAfter {1} ⟨[(0, {1})]⟩ StdMap.empty [] selfLoop n
                    (selfLoop.foldl (fun m BB => m.insert BB.name ∅) StdMap.empty)
                    StdMap.empty).1.get BB.name ⊂
                  (avinAvoutAfter {1} ⟨[(0, {1})]⟩ StdMap.empty [] selfLoop (n + 1)
                    (selfLoop.foldl (fun m BB => m.insert BB.name ∅) StdMap.empty)
                    StdMap.empty).1.get BB.name) ∧
          ∀ n k, (avinAvoutAfter {1} ⟨[(0, {1})]⟩ StdMap.empty [] selfLoop n
              (selfLoop.foldl (fun m BB => m.insert BB.name ∅) StdMap.empty)
              StdMap.empty).1.get k ⊆
            {1} ∪ (⟨[(0, {1})]⟩ : StdMap BlockName OccSet).unionAll ∪
              (StdMap.empty : StdMap BlockName OccSet).unionAll) ∧
        ((∃ fuel r, compute_needin_needout fuel ⟨[(0, {1})]⟩ ⟨[(0, {1})]⟩ StdMap.empty
            StdMap.empty selfLoop = some r) ∧
          (∀ n, (needPass ⟨[(0, {1})]⟩ ⟨[(0, {1})]⟩
                (needAfter ⟨[(0, {1})]⟩ ⟨[(0, {1})]⟩ selfLoop n
                  (selfLoop.foldl (fun m BB => m.insert BB.name ∅) StdMap.empty)
                  StdMap.empty).1
                (needAfter ⟨[(0, {1})]⟩ ⟨[(0, {1})]⟩ selfLoop n
                  (selfLoop.foldl (fun m BB => m.insert BB.name ∅) StdMap.empty)
                  StdMap.empty).2 selfLoop).2.2 = true →
              (∀ k, (needAfter ⟨[(0, {1})]⟩ ⟨[(0, {1})]⟩ selfLoop n
                    (selfLoop.foldl (fun m BB => m.insert BB.name ∅) StdMap.empty)
                    StdMap.empty).1.get k ⊆
                  (needAfter ⟨[(0, {1})]⟩ ⟨[(0, {1})]⟩ selfLoop (n + 1)
                    (selfLoop.foldl (fun m BB => m.insert BB.name ∅) StdMap.empty)
                    StdMap.empty).1.get k) ∧
                ∃ BB ∈ selfLoop, (needAfter ⟨[(0, {1})]⟩ ⟨[(0, {1})]⟩ selfLoop n
                    (selfLoop.foldl (fun m BB => m.insert BB.name ∅) StdMap.empty)
                    StdMap.empty).1.get BB.name ⊂
                  (needAfter ⟨[(0, {1})]⟩ ⟨[(0, {1})]⟩ selfLoop (n + 1)
                    (selfLoop.foldl (fun m BB => m.insert BB.name ∅) StdMap.empty)
                    StdMap.empty).1.get BB.name) ∧
          ∀ n k, (needAfter ⟨[(0, {1})]⟩ ⟨[(0, {1})]⟩ selfLoop n
              (selfLoop.foldl (fun m BB => m.insert BB.name ∅) StdMap.empty)
              StdMap.empty).1.get k ⊆
            (⟨[(0, {1})]⟩ : StdMap BlockName OccSet).unionAll ∪
              (StdMap.empty : StdMap BlockName OccSet).unionAll)) :=
  ⟨by decide, by decide,
    fixpoint_loops_terminate selfLoop (by decide) {1} ⟨[(0, {1})]⟩ StdMap.empty []
      StdMap.empty StdMap.empty ⟨[(0, {1})]⟩ ⟨[(0, {1})]⟩ StdMap.empty StdMap.empty⟩

/-- C19 (the claim as the code has it).  On every function whose blocks have distinct
names, with the sets that the pass computes for it and whatever the hot blocks, the ingress
edges and the AVIN sets are, each of the two `while (change)` loops returns within blocks
times occurrences plus one passes: the last pass is the one that finds nothing to change. -/
theorem fixpoint_loops_pass_bound (F : Func) (hn : F.names.Nodup) (hotNodes : List BlockName)
    (ingressEdges : List Edge) (avins : StdMap BlockName OccSet) :
    (∃ r, fillAvinAvouts (F.length * F.occurrences.card + 1)
        (fillCandidates hotNodes (fillXUses F StdMap.empty) ∅) (fillGens F StdMap.empty)
        (fillKills F StdMap.empty) ingressEdges StdMap.empty StdMap.empty F = some r) ∧
      ∃ r, compute_needin_needout (F.length * F.occurrences.card + 1)
        (fillRemovables (fillXUses F StdMap.empty) avins hotNodes StdMap.empty F)
        (fillGens F StdMap.empty) StdMap.empty StdMap.empty F = some r :=
  ⟨fillAvinAvouts_returns_within _ _ _ ingressEdges StdMap.empty F hn F.occurrences
      (fillCandidates_subset_occurrences hotNodes F) (fillGens_subset_occurrences F),
    compute_needin_needout_returns_within _ _ StdMap.empty F hn F.occurrences
      (fun k => (fillRemovables_get_subset _ _ _ F k).trans
        (fillXUses_subset_occurrences F k))⟩

/-- Witness for C19: the self loop, with its block hot and the AVIN set the pass finds. -/
theorem fixpoint_loops_pass_bound_witness :
    selfLoop.names.Nodup ∧
      ((∃ r, fillAvinAvouts (selfLoop.length * selfLoop.occurrences.card + 1)
          (fillCandidates [0] (fillXUses selfLoop StdMap.empty) ∅)
          (fillGens selfLoop StdMap.empty) (fillKills selfLoop StdMap.empty) [] StdMap.empty
          StdMap.empty selfLoop = some r) ∧
        ∃ r, compute_needin_needout (selfLoop.length * selfLoop.occurrences.card + 1)
          (fillRemovables (fillXUses selfLoop StdMap.empty) ⟨[(0, {1})]⟩ [0] StdMap.empty
            selfLoop)
          (fillGens selfLoop StdMap.empty) StdMap.empty StdMap.empty selfLoop = some r) :=
  ⟨by decide, fixpoint_loops_pass_bound selfLoop (by decide) [0] [] ⟨[(0, {1})]⟩⟩

/-- C19 (the claim fails as stated).  The self loop has one block and one occurrence, so the
claimed bound is one pass.  With the sets the pass computes for it, neither loop has stopped
after one pass: the first pass changes a set, and it takes a second pass to find nothing to
change. -/
theorem fixpoint_loops_need_one_more_pass :
    selfLoop.length * selfLoop.occurrences.card = 1 ∧
      (runAnalyses 2 evenBpi selfLoop).map
          (fun a => (a.hotNodes, a.ingressEdges, a.avins)) =
        some ([0], [], ⟨[(0, {1})]⟩) ∧
      fillAvinAvouts 1 (fillCandidates [0] (fillXUses selfLoop StdMap.empty) ∅)
          (fillGens selfLoop StdMap.empty) (fillKills selfLoop StdMap.empty) [] StdMap.empty
          StdMap.empty selfLoop = none ∧
      fillAvinAvouts 2 (fillCandidates [0] (fillXUses selfLoop StdMap.empty) ∅)
          (fillGens selfLoop StdMap.empty) (fillKills selfLoop StdMap.empty) [] StdMap.empty
          StdMap.empty selfLoop = some (⟨[(0, {1})]⟩, ⟨[(0, {1})]⟩) ∧
      compute_needin_needout 1
          (fillRemovables (fillXUses selfLoop StdMap.empty) ⟨[(0, {1})]⟩ [0] StdMap.empty
            selfLoop)
          (fillGens selfLoop StdMap.empty) StdMap.empty StdMap.empty selfLoop = none ∧
      compute_needin_needout 2
          (fillRemovables (fillXUses selfLoop StdMap.empty) ⟨[(0, {1})]⟩ [0] StdMap.empty
            selfLoop)
          (fillGens selfLoop StdMap.empty) StdMap.empty StdMap.empty selfLoop =
        some (⟨[(0, {1})]⟩, ⟨[(0, {1})]⟩) :=
  ⟨by decide, by decide, by decide, by decide, by decide, by decide⟩

/-! ## Claim on the storage slots -/

/-- C20.  Within one run of `performRemoveAndInsert`, from an empty `allocas` map: for every
occurrence `e` that appears in at least one INSERT set, the record of the run holds exactly
one slot for `e`; that slot is an `alloca` of the entry block; on every edge whose INSERT set
lists `e` a store for `e` into that slot was created, and a load for `e` from that slot was
created; and every store and every load created for `e` uses that slot.  No slot is created
for any other occurrence, and no two occurrences share a slot. -/
theorem performRemoveAndInsert_one_slot (inserts : StdMap Edge OccSet) (F : Func)
    (st : MotionState)
    (h : performRemoveAndInsert inserts (MotionState.initial F) = some st) :
    (∀ e, (∃ p ∈ inserts.entries, e ∈ p.2) →
        ∃ alloc, slotsOf e st.created = [alloc] ∧
          (∃ entry, st.F.head? = some entry ∧
            (⟨alloc, Opcode.Alloca, []⟩ : Instruction) ∈ entry.instrs) ∧
          (∀ p ∈ inserts.entries, e ∈ p.2 →
            ∃ id, Created.store e p.1 alloc id ∈ st.created) ∧
          (∃ id, Created.load e alloc id ∈ st.created) ∧
          (∀ edge a id, Created.store e edge a id ∈ st.created → a = alloc) ∧
          ∀ a id, Created.load e a id ∈ st.created → a = alloc) ∧
      (∀ e alloc, Created.slot e alloc ∈ st.created → ∃ p ∈ inserts.entries, e ∈ p.2) ∧
      ∀ e e' alloc, Created.slot e alloc ∈ st.created → Created.slot e' alloc ∈ st.created →
        e = e' := by
  obtain ⟨hinv, hext, hserved⟩ :=
    motionPairs_inv inserts.entries (MotionState.initial F) st h (SlotInv_initial F)
  have hslot : ∀ e a, Created.slot e a ∈ st.created → st.allocas.find? e = some a := by
    intro e a hmem
    have := (mem_slotsOf e a st.created).mpr hmem
    rw [hinv.slots e] at this
    simpa using this
  refine ⟨?_, ?_, ?_⟩
  · rintro e ⟨p, hp, hep⟩
    obtain ⟨alloc, hfind, -, hload⟩ := hserved p hp e hep
    refine ⟨alloc, ?_, hinv.placed e alloc hfind, ?_, hload, ?_, ?_⟩
    · rw [hinv.slots e, hfind]
      rfl
    · intro q hq heq
      obtain ⟨alloc2, hfind2, hstore, -⟩ := hserved q hq e heq
      rw [hfind] at hfind2
      simp only [Option.some.injEq] at hfind2
      rw [hfind2]
      exact hstore
    · intro edge a id hmem
      have := hinv.stores e edge a id hmem
      rw [hfind] at this
      simp only [Option.some.injEq] at this
      exact this.symm
    · intro a id hmem
      have := hinv.loads e a id hmem
      rw [hfind] at this
      simp only [Option.some.injEq] at this
      exact this.symm
  · intro e alloc hmem
    rcases hext.only e alloc (hslot e alloc hmem) with h1 | h1
    · simp [MotionState.initial, StdMap.find?_empty] at h1
    · exact h1
  · intro e e' alloc h1 h2
    exact hinv.distinct e e' alloc (hslot e alloc h1) (hslot e' alloc h2)

/-- Witness for C20: occurrence 12 of `sumLoop`, listed on two edges, gets the one slot 22,
used by both stores and both loads. -/
theorem performRemoveAndInsert_one_slot_witness :
    (performRemoveAndInsert twoEdgeInserts (MotionState.initial sumLoop)).map
        (fun st => st.created) =
      some [Created.slot 12 22, Created.store 12 (0, 1) 22 25, Created.load 12 22 26,
        Created.store 12 (2, 1) 22 29, Created.load 12 22 30] ∧
    ∃ st, performRemoveAndInsert twoEdgeInserts (MotionState.initial sumLoop) = some st ∧
      ((∀ e, (∃ p ∈ twoEdgeInserts.entries, e ∈ p.2) →
          ∃ alloc, slotsOf e st.created = [alloc] ∧
            (∃ entry, st.F.head? = some entry ∧
              (⟨alloc, Opcode.Alloca, []⟩ : Instruction) ∈ entry.instrs) ∧
            (∀ p ∈ twoEdgeInserts.entries, e ∈ p.2 →
              ∃ id, Created.store e p.1 alloc id ∈ st.created) ∧
            (∃ id, Created.load e alloc id ∈ st.created) ∧
            (∀ edge a id, Created.store e edge a id ∈ st.created → a = alloc) ∧
            ∀ a id, Created.load e a id ∈ st.created → a = alloc) ∧
        (∀ e alloc, Created.slot e alloc ∈ st.created →
          ∃ p ∈ twoEdgeInserts.entries, e ∈ p.2) ∧
        ∀ e e' alloc, Created.slot e alloc ∈ st.created →
          Created.slot e' alloc ∈ st.created → e = e') := by
  refine ⟨by decide, ?_⟩
  have hs : (performRemoveAndInsert twoEdgeInserts (MotionState.initial sumLoop)).isSome =
      true := by decide
  obtain ⟨st, hst⟩ := Option.isSome_iff_exists.mp hs
  exact ⟨st, hst, performRemoveAndInsert_one_slot twoEdgeInserts sumLoop st hst⟩

/-! ## Claims on what is hoisted -/

/-- C21.  In the pipeline of `runOnFunction`, on a function whose blocks have distinct
names: the analyses return, and for every ingress edge `(u, v)` every occurrence of
INSERT(u, v) is in CANDIDATE, and it is a binary arithmetic/bitwise instruction of a hot
block `h` of the function with the occurrence in REMOVABLE(h) and in XUSE(h).  When
instruction identities are unique, this holds of every block that holds the occurrence. -/
theorem inserts_within_removables (bpi : BlockName → BlockName → BranchProbability) (F : Func)
    (hn : F.names.Nodup) :
    (∃ a, runAnalyses (F.length * F.occurrences.card + 1) bpi F = some a) ∧
      ∀ fuel a, runAnalyses fuel bpi F = some a →
        ∀ edge ∈ a.ingressEdges, ∀ e ∈ a.inserts.get edge,
          e ∈ a.candidates ∧
            (∃ BB ∈ F, BB.name ∈ a.hotNodes ∧
              (∃ instr ∈ BB.instrs, instr.id = e ∧ instr.opcode.isBinaryArith = true) ∧
              e ∈ a.removables.get BB.name ∧ e ∈ a.xUses.get BB.name) ∧
            ((F.allInstrs.map Instruction.id).Nodup →
              ∀ BB ∈ F, (∃ instr ∈ BB.instrs, instr.id = e) →
                BB.name ∈ a.hotNodes ∧ e ∈ a.removables.get BB.name ∧
                  e ∈ a.xUses.get BB.name) := by
  refine ⟨runAnalyses_returns bpi F hn, ?_⟩
  intro fuel a ha edge hedge e he
  obtain ⟨avouts, avins, needins, needouts, -, h2, hhot, -, -, -, -, hx, -, -, hc, -, -, hr,
    -, -, hins⟩ := runAnalyses_eq fuel bpi F a ha
  have hfind := compute_inserts_find? a.ingressEdges needins avouts StdMap.empty edge
  rw [if_pos hedge] at hfind
  have hget : a.inserts.get edge = needins.get edge.2 \ avouts.get edge.1 := by
    rw [hins]
    unfold StdMap.get
    rw [hfind]
    rfl
  rw [hget] at he
  have hneed : e ∈ needins.get edge.2 := (Finset.mem_sdiff.mp he).1
  rw [← hhot, ← hx] at h2
  rw [← hr] at h2
  obtain ⟨p, hp, hep⟩ := compute_needin_needout_from_removables fuel _ _ _ needins needouts F hn
    h2 edge.2 e hneed
  rw [hr] at hp
  obtain ⟨hp1, hp2, hp3⟩ := fillRemovables_entries _ _ _ F p hp
  rw [hp3] at hep
  have hexu : e ∈ a.xUses.get p.1 := (Finset.mem_inter.mp hep).2
  have hrem : e ∈ a.removables.get p.1 := by
    rw [hr]
    unfold StdMap.get
    rw [fillRemovables_find?, if_pos ⟨hp1, hp2⟩]
    exact hep
  have hcand : e ∈ a.candidates := by
    rw [hc]
    unfold fillCandidates
    rw [fillCandidates_mem]
    right
    obtain ⟨s, hs, hes⟩ := StdMap.entry_of_mem_get a.xUses p.1 e hexu
    exact ⟨(p.1, s), hs, hp1, hes⟩
  have hblock : ∃ BB ∈ F, ∃ instr ∈ BB.instrs,
      instr.opcode.isBinaryArith = true ∧ BB.name = p.1 ∧ e = instr.id := by
    have := hexu
    rw [hx, fillXUses_mem] at this
    rcases this with h | ⟨BB, hBB, instr, hinstr, hop, -, hname, hid⟩
    · rw [StdMap.get_empty] at h
      simp at h
    · exact ⟨BB, hBB, instr, hinstr, hop, hname, hid⟩
  obtain ⟨BB, hBB, instr, hinstr, hop, hname, hid⟩ := hblock
  refine ⟨hcand, ⟨BB, hBB, by rw [hname]; exact hp1, ⟨instr, hinstr, hid.symm, hop⟩,
    by rw [hname]; exact hrem, by rw [hname]; exact hexu⟩, ?_⟩
  intro hi BB2 hBB2 hin2
  obtain ⟨instr2, hinstr2, hid2⟩ := hin2
  have heq : BB2 = BB := block_eq_of_instr F hi BB2 BB hBB2 hBB instr2 instr hinstr2 hinstr
    (hid2.trans hid)
  rw [heq, hname]
  exact ⟨hp1, hrem, hexu⟩

/-- Witness for C21: `steadyLoop`, where occurrence 12 of the hot block 2 is in INSERT of the
ingress edge (0, 1). -/
theorem inserts_within_removables_witness :
    steadyLoop.names.Nodup ∧
      (runAnalyses 10 sumLoopBpi steadyLoop).map (fun a => (a.ingressEdges, a.inserts)) =
        some ([(0, 1)], ⟨[((0, 1), {12})]⟩) ∧
      ((∃ a, runAnalyses (steadyLoop.length * steadyLoop.occurrences.card + 1) sumLoopBpi
          steadyLoop = some a) ∧
        ∀ fuel a, runAnalyses fuel sumLoopBpi steadyLoop = some a →
          ∀ edge ∈ a.ingressEdges, ∀ e ∈ a.inserts.get edge,
            e ∈ a.candidates ∧
              (∃ BB ∈ steadyLoop, BB.name ∈ a.hotNodes ∧
                (∃ instr ∈ BB.instrs, instr.id = e ∧ instr.opcode.isBinaryArith = true) ∧
                e ∈ a.removables.get BB.name ∧ e ∈ a.xUses.get BB.name) ∧
              ((steadyLoop.allInstrs.map Instruction.id).Nodup →
                ∀ BB ∈ steadyLoop, (∃ instr ∈ BB.instrs, instr.id = e) →
                  BB.name ∈ a.hotNodes ∧ e ∈ a.removables.get BB.name ∧
                    e ∈ a.xUses.get BB.name)) :=
  ⟨by decide, by decide, inserts_within_removables sumLoopBpi steadyLoop (by decide)⟩

/-- C28.  `fillAvinAvouts` returns on every function whose blocks have distinct names, and
for every block `b` with at least one predecessor the returned AVIN(b) is the contribution
of the first predecessor in iteration order alone: CANDIDATE when the edge from it is an
ingress edge, that predecessor's returned AVOUT otherwise.  The other predecessors do not
appear. -/
theorem fillAvinAvouts_first_predecessor (candidates : OccSet)
    (gens kills : StdMap BlockName OccSet) (ingressEdges : List Edge)
    (avouts0 avins0 : StdMap BlockName OccSet) (F : Func) (hn : F.names.Nodup) :
    (∃ fuel avouts avins,
      fillAvinAvouts fuel candidates gens kills ingressEdges avouts0 avins0 F =
        some (avouts, avins)) ∧
    ∀ fuel avouts avins,
      fillAvinAvouts fuel candidates gens kills ingressEdges avouts0 avins0 F =
          some (avouts, avins) →
        ∀ BB ∈ F, ∀ p ps, BB.preds = p :: ps →
          avins.get BB.name =
            if (p, BB.name) ∈ ingressEdges then candidates else avouts.get p := by
  constructor
  · obtain ⟨fuel, -, r, hr⟩ :=
      fillAvinAvouts_returns candidates gens kills ingressEdges avouts0 avins0 F hn
    exact ⟨fuel, r.1, r.2, hr⟩
  · intro fuel avouts avins h BB hBB p ps hp
    unfold fillAvinAvouts at h
    rw [avinAvoutLoop_eq] at h
    obtain ⟨h1, -⟩ := flowLoop_fixpoint _ _
      (fun a b B hab => newAvin_congr candidates ingressEdges a b B hab) F hn fuel _ _ _ _ h
      BB hBB
    rw [h1, newAvin_eq_first, hp]

/-- Witness for C28: the diamond, whose merge block 3 has the predecessors 1 and 2; AVIN(3)
is AVOUT(1) = {12} although AVOUT(2) is empty. -/
theorem fillAvinAvouts_first_predecessor_witness :
    diamond.names.Nodup ∧
      fillAvinAvouts 3 {12, 22} (fillGens diamond StdMap.empty)
          (fillKills diamond StdMap.empty) [] StdMap.empty StdMap.empty diamond =
        some (⟨[(0, ∅), (1, {12}), (2, ∅), (3, {12, 22})]⟩,
          ⟨[(0, ∅), (1, ∅), (2, ∅), (3, {12})]⟩) ∧
      ∀ BB ∈ diamond, ∀ p ps, BB.preds = p :: ps →
        (⟨[(0, ∅), (1, ∅), (2, ∅), (3, {12})]⟩ : StdMap BlockName OccSet).get BB.name =
          if (p, BB.name) ∈ ([] : List Edge) then ({12, 22} : OccSet)
          else (⟨[(0, ∅), (1, {12}), (2, ∅), (3, {12, 22})]⟩ :
            StdMap BlockName OccSet).get p :=
  ⟨by decide, by decide,
    (fillAvinAvouts_first_predecessor {12, 22} (fillGens diamond StdMap.empty)
      (fillKills diamond StdMap.empty) [] StdMap.empty StdMap.empty diamond
      (by decide)).2 3 _ _ (by decide)⟩

/-- C22 (the code departs from the claim).  In `preTest1` the occurrence 32 (`x + y`) of the
merge block 3 has the load 30 of `x` as an operand, and the predecessor 2 of block 3, which is
not block 3 and whose edge to it is no ingress edge, stores to `x`: the occurrence is in
KILL(2) and not in AVOUT(2).  Block 3 lists its cold predecessor 1 first, over the ingress
edge (1, 3), and AVIN(3) is taken from it alone: 32 is in REMOVABLE(3) and in INSERT(1, 3),
and the pass rewrites it.  On the path through block 2 the original function returns 3 and
the transformed one reads a slot nothing was stored to. -/
theorem fillRemovables_ignores_second_predecessor :
    (preTest1Else ∈ preTest1 ∧ preTest1Else.name = 2 ∧
        (preTest1.findBlock 3).map (fun BB => BB.preds) = some [1, 2] ∧
        preTest1.getInstr 32 = some ⟨32, Opcode.Add, [Value.inst 30, Value.inst 31]⟩ ∧
        preTest1.getInstr 30 = some ⟨30, Opcode.Load, [Value.other 100]⟩ ∧
        (⟨20, Opcode.Store, [Value.other 2, Value.other 100]⟩ : Instruction) ∈
          preTest1Else.instrs) ∧
      ((runAnalyses 10 preTest1Bpi preTest1).map
            (fun a => (a.hotNodes, a.ingressEdges, a.inserts)) =
          some ([0, 2, 3], [(1, 3)], ⟨[((1, 3), {32})]⟩) ∧
        (runAnalyses 10 preTest1Bpi preTest1).map (fun a => decide (32 ∈ a.kills.get 2)) =
          some true ∧
        (runAnalyses 10 preTest1Bpi preTest1).map (fun a => decide (32 ∈ a.avouts.get 2)) =
          some false ∧
        (runAnalyses 10 preTest1Bpi preTest1).map
            (fun a => decide (32 ∈ a.removables.get 3)) = some true) ∧
      observe preTest1 20 [(300, 0)] =
        some (some 3, [(100, 0), (101, 1), (100, 2), (102, 3), (103, 3)]) ∧
      (runOnFunction 10 preTest1Bpi preTest1).map (fun r => observe r.1 20 [(300, 0)]) =
        some none :=
  ⟨by decide, ⟨by decide, by decide, by decide, by decide⟩, by decide, by decide⟩

/-! ## Claims on the local scans -/

/-- C26 (the code departs from the claim).  In `twinBlock` the occurrences 2 and 5 are
structurally identical.  Decided from its own position, occurrence 5 is excluded from XUSE
(the load 4 before it follows a store to its address) and is in GEN (no store follows it);
the scans of `fillXUses` and `fillGens` stop at occurrence 2, the first instruction
identical to 5, and give 5 the decision of 2: 5 is in XUSE and is excluded from GEN. -/
theorem fillXUses_fillGens_stop_at_first_identical :
    (twinBlock.instrs.get? 1 = some ⟨2, Opcode.Add, [Value.inst 1, Value.other 5]⟩ ∧
        twinBlock.instrs.get? 4 = some ⟨5, Opcode.Add, [Value.inst 1, Value.other 5]⟩ ∧
        Instruction.isIdenticalTo ⟨5, Opcode.Add, [Value.inst 1, Value.other 5]⟩
          ⟨2, Opcode.Add, [Value.inst 1, Value.other 5]⟩ = true) ∧
      (xUseKilledAt twinBlock 1 = false ∧ xUseKilledAt twinBlock 4 = true ∧
        (fillXUses [twinBlock] StdMap.empty).get 0 = {2, 5}) ∧
      (genKilledAt twinBlock 1 = true ∧ genKilledAt twinBlock 4 = false ∧
        (fillGens [twinBlock] StdMap.empty).get 0 = ∅) :=
  ⟨by decide, by decide, by decide⟩

/-- C27.  For a block `b` of a function with unique block names and instruction identities,
and a binary arithmetic/bitwise instruction `e` of `b` with an operand and with no
structurally identical instruction before it: `fillXUses` leaves `e` out of XUSE(b) exactly
when some load located before `e` in `b` is preceded in `b` by a store to the address that
load reads.  The operands of `e` do not appear in the condition. -/
theorem fillXUses_all_loads_scan (F : Func) (hn : F.names.Nodup)
    (hi : (F.allInstrs.map Instruction.id).Nodup) (BB : BasicBlock) (hBB : BB ∈ F)
    (pre post : List Instruction) (e : Instruction) (hsplit : BB.instrs = pre ++ e :: post)
    (hop : e.opcode.isBinaryArith = true) (hops : e.operands ≠ [])
    (hfirst : ∀ k ∈ pre, e.isIdenticalTo k = false) :
    e.id ∉ (fillXUses F StdMap.empty).get BB.name ↔
      ∃ a l b, pre = a ++ l :: b ∧ l.opcode = Opcode.Load ∧
        ∃ s ∈ a, storesTo s (l.getOperand 0) = true := by
  rw [← xUseKilled_first BB pre post e hsplit hops hfirst]
  have hmem : e ∈ BB.instrs := by rw [hsplit]; simp
  rw [fillXUses_mem]
  constructor
  · intro h
    by_contra hk
    apply h
    right
    exact ⟨BB, hBB, e, hmem, hop, by simpa using hk, rfl, rfl⟩
  · rintro hk (h | ⟨BB2, hBB2, instr, hinstr, -, hk2, hname, hid⟩)
    · rw [StdMap.get_empty] at h
      simp at h
    · have hBBeq : BB2 = BB := block_eq_of_name F hn BB2 BB hBB2 hBB hname
      subst hBBeq
      have hieq : e = instr := instr_eq_of_id F hi e instr (mem_allInstrs F BB2 hBB e hmem)
        (mem_allInstrs F BB2 hBB instr hinstr) hid
      subst hieq
      rw [hk] at hk2
      exact absurd hk2 (by simp)

/-- Witness for C27: the block of `x = 2; t = x; a = y + z;`, where the load of `x`, which
does not feed the sum, follows the store to `x`. -/
theorem fillXUses_all_loads_scan_witness :
    (Func.names [xuseDemoBlock]).Nodup ∧
      ((Func.allInstrs [xuseDemoBlock]).map Instruction.id).Nodup ∧
      xuseDemoBlock.instrs =
        [⟨1, Opcode.Store, [Value.other 2, Value.other 100]⟩,
          ⟨2, Opcode.Load, [Value.other 100]⟩,
          ⟨3, Opcode.Store, [Value.inst 2, Value.other 105]⟩,
          ⟨4, Opcode.Load, [Value.other 101]⟩, ⟨5, Opcode.Load, [Value.other 102]⟩] ++
          ⟨6, Opcode.Add, [Value.inst 4, Value.inst 5]⟩ ::
            [⟨7, Opcode.Store, [Value.inst 6, Value.other 103]⟩, ⟨8, Opcode.Other 1, []⟩] ∧
      (6 ∉ (fillXUses [xuseDemoBlock] StdMap.empty).get xuseDemoBlock.name ↔
        ∃ a l b,
          [⟨1, Opcode.Store, [Value.other 2, Value.other 100]⟩,
            ⟨2, Opcode.Load, [Value.other 100]⟩,
            ⟨3, Opcode.Store, [Value.inst 2, Value.other 105]⟩,
            ⟨4, Opcode.Load, [Value.other 101]⟩, ⟨5, Opcode.Load, [Value.other 102]⟩] =
              a ++ l :: b ∧
            l.opcode = Opcode.Load ∧ ∃ s ∈ a, storesTo s (l.getOperand 0) = true) :=
  ⟨by decide, by decide, by decide,
    fillXUses_all_loads_scan [xuseDemoBlock] (by decide) (by decide) xuseDemoBlock (by decide)
      [⟨1, Opcode.Store, [Value.other 2, Value.other 100]⟩,
        ⟨2, Opcode.Load, [Value.other 100]⟩,
        ⟨3, Opcode.Store, [Value.inst 2, Value.other 105]⟩,
        ⟨4, Opcode.Load, [Value.other 101]⟩, ⟨5, Opcode.Load, [Value.other 102]⟩]
      [⟨7, Opcode.Store, [Value.inst 6, Value.other 103]⟩, ⟨8, Opcode.Other 1, []⟩]
      ⟨6, Opcode.Add, [Value.inst 4, Value.inst 5]⟩ (by decide) (by decide) (by decide)
      (by decide)⟩

/-! ## Claim on the iteration order -/

/-- C23.  Let two functions hold the same blocks (each with its predecessor and successor
lists) in two orders, with distinct block names.  For all inputs, `fillAvinAvouts` returns
on both, and whatever it returns on the two, the AVOUT maps hold the same entry under every
name and so do the AVIN maps; likewise `compute_needin_needout` returns on both, with the
same NEEDIN and NEEDOUT entries under every name. -/
theorem dataflow_order_independent (F1 F2 : Func) (hperm : F1.Perm F2)
    (hn : F1.names.Nodup) (candidates : OccSet) (gens kills : StdMap BlockName OccSet)
    (ingressEdges : List Edge)
    (avouts0 avins0 removables gens2 needins0 needouts0 : StdMap BlockName OccSet) :
    ((∃ fuel r, fillAvinAvouts fuel candidates gens kills ingressEdges avouts0 avins0 F1 =
          some r) ∧
        (∃ fuel r, fillAvinAvouts fuel candidates gens kills ingressEdges avouts0 avins0 F2 =
          some r) ∧
        ∀ fuel1 fuel2 r1 r2,
          fillAvinAvouts fuel1 candidates gens kills ingressEdges avouts0 avins0 F1 = some r1 →
          fillAvinAvouts fuel2 candidates gens kills ingressEdges avouts0 avins0 F2 = some r2 →
          ∀ k, r1.1.find? k = r2.1.find? k ∧ r1.2.find? k = r2.2.find? k) ∧
      ((∃ fuel r, compute_needin_needout fuel removables gens2 needins0 needouts0 F1 =
          some r) ∧
        (∃ fuel r, compute_needin_needout fuel removables gens2 needins0 needouts0 F2 =
          some r) ∧
        ∀ fuel1 fuel2 r1 r2,
          compute_needin_needout fuel1 removables gens2 needins0 needouts0 F1 = some r1 →
          compute_needin_needout fuel2 removables gens2 needins0 needouts0 F2 = some r2 →
          ∀ k, r1.1.find? k = r2.1.find? k ∧ r1.2.find? k = r2.2.find? k) := by
  have hn2 : F2.names.Nodup := (hperm.map BasicBlock.name).nodup_iff.mp hn
  have hnames : ∀ k, k ∈ F1.names ↔ k ∈ F2.names := fun k =>
    (hperm.map BasicBlock.name).mem_iff
  have hinit : ∀ (m : StdMap BlockName OccSet) (k : BlockName),
      (F1.foldl (fun m BB => m.insert BB.name ∅) m).find? k =
        (F2.foldl (fun m BB => m.insert BB.name ∅) m).find? k := by
    intro m k
    rw [initEmpty_find?, initEmpty_find?]
    by_cases hk : k ∈ F1.names
    · rw [if_pos hk, if_pos ((hnames k).mp hk)]
    · rw [if_neg hk, if_neg (fun h => hk ((hnames k).mpr h))]
  have hempty : ∀ (m : StdMap BlockName OccSet), ∀ k ∈ F1.names,
      (F1.foldl (fun m BB => m.insert BB.name ∅) m).get k = ∅ := by
    intro m k hk
    rw [initEmpty_get, if_pos hk]
  refine ⟨⟨?_, ?_, ?_⟩, ⟨?_, ?_, ?_⟩⟩
  · obtain ⟨fuel, -, r, hr⟩ :=
      fillAvinAvouts_returns candidates gens kills ingressEdges avouts0 avins0 F1 hn
    exact ⟨fuel, r, hr⟩
  · obtain ⟨fuel, -, r, hr⟩ :=
      fillAvinAvouts_returns candidates gens kills ingressEdges avouts0 avins0 F2 hn2
    exact ⟨fuel, r, hr⟩
  · intro fuel1 fuel2 r1 r2 h1 h2
    unfold fillAvinAvouts at h1 h2
    rw [avinAvoutLoop_eq] at h1 h2
    exact flowLoop_order _ _ (newAvin_mono candidates ingressEdges) (newAvout_mono gens kills)
      F1 F2 hperm hn fuel1 fuel2 _ _ _ _ r1.1 r1.2 r2.1 r2.2 (hinit avouts0) (fun _ => rfl)
      (hempty avouts0) h1 h2
  · obtain ⟨fuel, -, r, hr⟩ :=
      compute_needin_needout_returns removables gens2 needins0 needouts0 F1 hn
    exact ⟨fuel, r, hr⟩
  · obtain ⟨fuel, -, r, hr⟩ :=
      compute_needin_needout_returns removables gens2 needins0 needouts0 F2 hn2
    exact ⟨fuel, r, hr⟩
  · intro fuel1 fuel2 r1 r2 h1 h2
    unfold compute_needin_needout at h1 h2
    rw [needLoop_eq] at h1 h2
    exact flowLoop_order _ _ newNeedout_mono (newNeedin_mono removables gens2)
      F1 F2 hperm hn fuel1 fuel2 _ _ _ _ r1.1 r1.2 r2.1 r2.2 (hinit needins0) (fun _ => rfl)
      (hempty needins0) h1 h2

/-- Witness for C23: the diamond and the diamond with its blocks in reverse order; in the
forward order the loop of `fillAvinAvouts` makes two passes, in the reverse order three. -/
theorem dataflow_order_independent_witness :
    diamond.Perm diamondBackwards ∧ diamond.names.Nodup ∧
      (fillAvinAvouts 2 {12, 22} (fillGens diamond StdMap.empty)
          (fillKills diamond StdMap.empty) [] StdMap.empty StdMap.empty diamond =
        some (⟨[(0, ∅), (1, {12}), (2, ∅), (3, {12, 22})]⟩,
          ⟨[(0, ∅), (1, ∅), (2, ∅), (3, {12})]⟩) ∧
      fillAvinAvouts 2 {12, 22} (fillGens diamond StdMap.empty)
          (fillKills diamond StdMap.empty) [] StdMap.empty StdMap.empty diamondBackwards =
        none ∧
      fillAvinAvouts 3 {12, 22} (fillGens diamond StdMap.empty)
          (fillKills diamond StdMap.empty) [] StdMap.empty StdMap.empty diamondBackwards =
        some (⟨[(0, ∅), (1, {12}), (2, ∅), (3, {12, 22})]⟩,
          ⟨[(0, ∅), (1, ∅), (2, ∅), (3, {12})]⟩)) ∧
      (((∃ fuel r, fillAvinAvouts fuel {12, 22} (fillGens diamond StdMap.empty)
            (fillKills diamond StdMap.empty) [] StdMap.empty StdMap.empty diamond =
            some r) ∧
          (∃ fuel r, fillAvinAvouts fuel {12, 22} (fillGens diamond StdMap.empty)
            (fillKills diamond StdMap.empty) [] StdMap.empty StdMap.empty diamondBackwards =
            some r) ∧
          ∀ fuel1 fuel2 r1 r2,
            fillAvinAvouts fuel1 {12, 22} (fillGens diamond StdMap.empty)
              (fillKills diamond StdMap.empty) [] StdMap.empty StdMap.empty diamond =
              some r1 →
            fillAvinAvouts fuel2 {12, 22} (fillGens diamond StdMap.empty)
              (fillKills diamond StdMap.empty) [] StdMap.empty StdMap.empty diamondBackwards =
              some r2 →
            ∀ k, r1.1.find? k = r2.1.find? k ∧ r1.2.find? k = r2.2.find? k) ∧
        ((∃ fuel r, compute_needin_needout fuel ⟨[(3, {22})]⟩ (fillGens diamond StdMap.empty)
            StdMap.empty StdMap.empty diamond = some r) ∧
          (∃ fuel r, compute_needin_needout fuel ⟨[(3, {22})]⟩ (fillGens diamond StdMap.empty)
            StdMap.empty StdMap.empty diamondBackwards = some r) ∧
          ∀ fuel1 fuel2 r1 r2,
            compute_needin_needout fuel1 ⟨[(3, {22})]⟩ (fillGens diamond StdMap.empty)
              StdMap.empty StdMap.empty diamond = some r1 →
            compute_needin_needout fuel2 ⟨[(3, {22})]⟩ (fillGens diamond StdMap.empty)
              StdMap.empty StdMap.empty diamondBackwards = some r2 →
            ∀ k, r1.1.find? k = r2.1.find? k ∧ r1.2.find? k = r2.2.find? k)) :=
  ⟨by decide, by decide, ⟨by decide, by decide, by decide⟩,
    dataflow_order_independent diamond diamondBackwards (by decide) (by decide) {12, 22}
      (fillGens diamond StdMap.empty) (fillKills diamond StdMap.empty) [] StdMap.empty
      StdMap.empty ⟨[(3, {22})]⟩ (fillGens diamond StdMap.empty) StdMap.empty StdMap.empty⟩

/-- C29.  For a function whose blocks have distinct names, with a positive maximum block
count and every edge probability at most 1 (a numerator of at most `2 ^ 31`): every CFG edge
whose source block is in `coldNodes` is in `coldEdges` and not in `hotEdges`, the weight of
an edge does not exceed a source count that is not negative, and the ingress edges that
`calculateIngressEdges` computes are exactly the CFG edges with a source in `coldNodes` and a
destination in `hotNodes`, in the order of the CFG edges. -/
theorem cold_source_cold_edge (F : Func) (bpi : BlockName → BlockName → BranchProbability)
    (hn : F.names.Nodup) (hmax : 0 < (calculateHotColdNodes F StdMap.empty [] []).2.2.2)
    (hprob : ∀ u v, bpi u v ≤ 2 ^ 31) :
    (∀ BB ∈ F, ∀ v ∈ BB.succs,
      (0 ≤ toInt32 BB.count →
        edgeProb2 bpi (calculateHotColdNodes F StdMap.empty [] []).1
          (calculateHotColdNodes F StdMap.empty [] []).2.2.2 BB.name v ≤ toInt32 BB.count) ∧
      (BB.name ∈ (calculateHotColdNodes F StdMap.empty [] []).2.2.1 →
        (BB.name, v) ∈ (calculateHotColdEdges F bpi
            (calculateHotColdNodes F StdMap.empty [] []).1 [] []
            (calculateHotColdNodes F StdMap.empty [] []).2.2.2).2 ∧
          (BB.name, v) ∉ (calculateHotColdEdges F bpi
            (calculateHotColdNodes F StdMap.empty [] []).1 [] []
            (calculateHotColdNodes F StdMap.empty [] []).2.2.2).1)) ∧
      calculateIngressEdges
          (calculateHotColdEdges F bpi (calculateHotColdNodes F StdMap.empty [] []).1 [] []
            (calculateHotColdNodes F StdMap.empty [] []).2.2.2).2
          (calculateHotColdNodes F StdMap.empty [] []).2.1
          (calculateHotColdNodes F StdMap.empty [] []).2.2.1 [] =
        F.edges.filter (fun e =>
          decide (e.1 ∈ (calculateHotColdNodes F StdMap.empty [] []).2.2.1 ∧
            e.2 ∈ (calculateHotColdNodes F StdMap.empty [] []).2.1)) := by
  have hlt : (calculateHotColdNodes F StdMap.empty [] []).2.2.2 < 2 ^ 31 := by
    obtain ⟨B, hB, -⟩ : ∃ B, B ∈ F ∧ True := by
      cases F with
      | nil => exact absurd hmax (by decide)
      | cons B tl => exact ⟨B, List.mem_cons_self _ _, trivial⟩
    obtain ⟨-, -, -, B2, -, hB2⟩ := calculateHotColdNodes_int F hn hmax B hB
    rw [hB2]
    exact toInt32_lt _
  -- the threshold test fails on every edge out of a cold block
  have hcold : ∀ BB ∈ F, ∀ v, BB.name ∈ (calculateHotColdNodes F StdMap.empty [] []).2.2.1 →
      THRESHOLD.lt ((Double.ofInt (edgeProb2 bpi (calculateHotColdNodes F StdMap.empty [] []).1
        (calculateHotColdNodes F StdMap.empty [] []).2.2.2 BB.name v)).divInt
          (calculateHotColdNodes F StdMap.empty [] []).2.2.2) = false := by
    intro BB hBB v hc
    obtain ⟨h1, h2, -, -⟩ := calculateHotColdNodes_int F hn hmax BB hBB
    have hnothot : BB.name ∉ (calculateHotColdNodes F StdMap.empty [] []).2.1 := by
      intro hh
      rw [List.count_append] at h1
      have c1 := List.count_pos_iff.mpr hh
      have c2 := List.count_pos_iff.mpr hc
      omega
    rw [h2] at hnothot
    obtain ⟨w0, w1, w2⟩ := edgeProb2_le F bpi hn hmax hprob BB hBB v
    rw [Bool.eq_false_iff]
    intro htest
    rw [THRESHOLD_lt_divInt _ _ hmax hlt] at htest
    rcases lt_or_ge (toInt32 BB.count) 0 with hneg | hpos
    · have := w2 (le_of_lt hneg)
      omega
    · have := w1 hpos
      omega
  refine ⟨?_, ?_⟩
  · intro BB hBB v hv
    refine ⟨(edgeProb2_le F bpi hn hmax hprob BB hBB v).2.1, fun hc => ?_⟩
    have hmem : (BB.name, v) ∈ F.edges := (Func.mem_edges F _).mpr ⟨BB, hBB, rfl, hv⟩
    rw [calculateHotColdEdges_eq]
    simp only [List.nil_append, List.mem_filter, Bool.not_eq_true', not_and,
      Bool.not_eq_true]
    exact ⟨⟨hmem, hcold BB hBB v hc⟩, fun _ => hcold BB hBB v hc⟩
  · rw [calculateIngressEdges_eq_filter, calculateHotColdEdges_eq]
    simp only [List.nil_append, List.filter_filter]
    apply List.filter_congr
    intro e he
    obtain ⟨BB, hBB, h1, -⟩ := (Func.mem_edges F e).mp he
    by_cases hc : e.1 ∈ (calculateHotColdNodes F StdMap.empty [] []).2.2.1 ∧
        e.2 ∈ (calculateHotColdNodes F StdMap.empty [] []).2.1
    · have := hcold BB hBB e.2 (h1 ▸ hc.1)
      rw [← h1] at this
      simp [hc, this]
    · simp [hc]

/-- Witness for C29: `coldEntry`, whose entry block has count 10 of a maximum of 100; its
edge to the hot block 1 is cold and is the ingress edge. -/
theorem cold_source_cold_edge_witness :
    coldEntry.names.Nodup ∧ 0 < (calculateHotColdNodes coldEntry StdMap.empty [] []).2.2.2 ∧
      (calculateHotColdNodes coldEntry StdMap.empty [] []).2.2.1 = [0] ∧
      calculateIngressEdges
          (calculateHotColdEdges coldEntry evenBpi
            (calculateHotColdNodes coldEntry StdMap.empty [] []).1 [] []
            (calculateHotColdNodes coldEntry StdMap.empty [] []).2.2.2).2
          (calculateHotColdNodes coldEntry StdMap.empty [] []).2.1
          (calculateHotColdNodes coldEntry StdMap.empty [] []).2.2.1 [] =
        coldEntry.edges.filter (fun e =>
          decide (e.1 ∈ (calculateHotColdNodes coldEntry StdMap.empty [] []).2.2.1 ∧
            e.2 ∈ (calculateHotColdNodes coldEntry StdMap.empty [] []).2.1)) :=
  ⟨by decide, by decide, by decide,
    (cold_source_cold_edge coldEntry evenBpi (by decide) (by decide)
      (fun _ _ => by unfold evenBpi; norm_num)).2⟩

/-- C25.  On a function whose blocks end with a terminator, whose instructions have distinct
identities and whose operands name instructions of the function, with an INSERT map whose
edges leave blocks of the function and whose occurrences are instructions of the function,
`performRemoveAndInsert` returns, and in the function it leaves: every occurrence `e` of an
INSERT set has a slot; `e` is still in its block, with its opcode, and a load from the slot
of `e` that the run created precedes it there; no instruction has the result of `e` as an
operand; and every instruction of the original function is still in its block, with its
opcode and as many operands, where an operand that was the result of such an `e` is now the
result of a load from the slot of `e` that the run created, and every other operand is as it
was. -/
theorem performRemoveAndInsert_redirects_uses (inserts : StdMap Edge OccSet) (F : Func)
    (hname : ∀ p ∈ inserts.entries, p.1.1 ∈ F.names) (ht : ∀ B ∈ F, B.getTerminator ≠ none)
    (hids : (F.allInstrs.map Instruction.id).Nodup) (huses : F.usesResolve)
    (hv : ∀ p ∈ inserts.entries, ∀ e ∈ p.2, ∃ x ∈ F.allInstrs, x.id = e) :
    ∃ st, performRemoveAndInsert inserts (MotionState.initial F) = some st ∧
      (∀ p ∈ inserts.entries, ∀ e ∈ p.2, ∃ alloc, st.allocas.find? e = some alloc ∧
        (∀ B ∈ F, ∀ x ∈ B.instrs, x.id = e →
          ∃ B' ∈ st.F, B'.name = B.name ∧ ∃ x' lo, x'.id = e ∧ x'.opcode = x.opcode ∧
            Created.load e alloc lo ∈ st.created ∧
            [(⟨lo, Opcode.Load, [Value.inst alloc]⟩ : Instruction), x'].Sublist B'.instrs) ∧
        ∀ i ∈ st.F.allInstrs, Value.inst e ∉ i.operands) ∧
      ∀ B ∈ F, ∀ i ∈ B.instrs, ∃ B' ∈ st.F, B'.name = B.name ∧ ∃ i' ∈ B'.instrs,
        i'.id = i.id ∧ i'.opcode = i.opcode ∧ i'.operands.length = i.operands.length ∧
        ∀ k v, i.operands.get? k = some v →
          (∀ e, (∃ p ∈ inserts.entries, e ∈ p.2) → v = Value.inst e →
            ∃ alloc lo, st.allocas.find? e = some alloc ∧
              i'.operands.get? k = some (Value.inst lo) ∧
              Created.load e alloc lo ∈ st.created ∧
              (⟨lo, Opcode.Load, [Value.inst alloc]⟩ : Instruction) ∈ st.F.allInstrs) ∧
          ((∀ p ∈ inserts.entries, ∀ e ∈ p.2, v ≠ Value.inst e) →
            i'.operands.get? k = some v) := by
  obtain ⟨st, hst⟩ := motionPairs_total inserts.entries (MotionState.initial F) hname ht hv
  have hres : ∀ i ∈ F.allInstrs, ∀ o, Value.inst o ∈ i.operands →
      ∃ x ∈ F.allInstrs, x.id = o := by
    intro i hi o ho
    have h1 := huses i hi _ ho rfl
    obtain ⟨x, hx⟩ := Option.isSome_iff_exists.mp h1
    have h2 : F.getInstr o = some x := hx
    unfold Func.getInstr at h2
    have h3 := List.find?_some h2
    simp only [decide_eq_true_eq] at h3
    exact ⟨x, List.mem_of_find?_eq_some h2, h3⟩
  have hbase : ∀ p ∈ inserts.entries, ∀ e ∈ p.2, e < F.freshId := by
    intro p hp e he
    obtain ⟨x, hx, rfl⟩ := hv p hp e he
    exact lt_freshId F x hx
  obtain ⟨hw, -, -, -, hserved⟩ := motionPairs_wf F inserts.entries (MotionState.initial F) st
    hst (MotionWf_initial F (nodup_block_of_nodup F hids) hres) hbase
  obtain ⟨-, hext, -⟩ := motionPairs_inv inserts.entries (MotionState.initial F) st hst
    (SlotInv_initial F)
  obtain ⟨g, hF, hg⟩ := hw.orig
  -- an occurrence of an INSERT set is still in its block, behind a load from its slot
  have hpresent : ∀ e alloc lo, st.allocas.find? e = some alloc →
      Created.load e alloc lo ∈ st.created → ∀ B ∈ F, ∀ x ∈ B.instrs, x.id = e →
      ∃ x', x'.id = e ∧ x'.opcode = x.opcode ∧
        [(⟨lo, Opcode.Load, [Value.inst alloc]⟩ : Instruction), x'].Sublist (g B).instrs := by
    intro e alloc lo hf hl B hB x hx hxe
    have hB' : g B ∈ st.F := by rw [hF]; exact List.mem_map.mpr ⟨B, hB, rfl⟩
    obtain ⟨j, hj, hjid, hjop, -⟩ := (hg B).2 x hx
    obtain ⟨x', hx'id, hsub⟩ := hw.before e alloc lo hl (g B) hB' ⟨j, hj, hjid.trans hxe⟩
    have hx'mem : x' ∈ (g B).instrs := hsub.subset (by simp)
    have heq : x' = j := eq_of_id_eq (g B).instrs (hw.func.nodup (g B) hB') x' j hx'mem hj
      (by rw [hx'id, hjid, hxe])
    exact ⟨x', hx'id, by rw [heq, hjop], hsub⟩
  refine ⟨st, hst, ?_, ?_⟩
  · intro p hp e he
    obtain ⟨alloc, lo, hf, hl⟩ := hserved p hp e he
    refine ⟨alloc, hf, ?_, hw.noUse e alloc hf⟩
    intro B hB x hx hxe
    obtain ⟨x', h1, h2, h3⟩ := hpresent e alloc lo hf hl B hB x hx hxe
    exact ⟨g B, by rw [hF]; exact List.mem_map.mpr ⟨B, hB, rfl⟩, (hg B).1, x', lo, h1, h2,
      hl, h3⟩
  · intro B hB i hi
    have hB' : g B ∈ st.F := by rw [hF]; exact List.mem_map.mpr ⟨B, hB, rfl⟩
    obtain ⟨j, hj, hjid, hjop, hrel⟩ := (hg B).2 i hi
    refine ⟨g B, hB', (hg B).1, j, hj, hjid, hjop, hrel.length_eq.symm, ?_⟩
    intro k v hk
    obtain ⟨b, hb, hR⟩ := forall₂_get? hrel k v hk
    have hjall : j ∈ st.F.allInstrs := mem_allInstrs st.F (g B) hB' j hj
    constructor
    · rintro e ⟨p, hp, he⟩ rfl
      obtain ⟨alloc, lo0, hf, hl0⟩ := hserved p hp e he
      rcases hR with h1 | ⟨e0, al, lo, h1, h2, h3⟩
      · exfalso
        rw [h1] at hb
        exact hw.noUse e alloc hf j hjall (List.get?_mem hb)
      · simp only [Value.inst.injEq] at h1
        subst h1
        have hal := (hw.loads e al lo h3).1
        rw [hf] at hal
        simp only [Option.some.injEq] at hal
        subst hal
        refine ⟨alloc, lo, hf, by rw [hb, h2], h3, ?_⟩
        obtain ⟨x, hx, hxe⟩ := hv p hp e he
        unfold Func.allInstrs at hx
        obtain ⟨B0, hB0, hxB0⟩ := List.mem_flatMap.mp hx
        obtain ⟨x', -, -, hsub⟩ := hpresent e alloc lo hf h3 B0 hB0 x hxB0 hxe
        exact mem_allInstrs st.F (g B0)
          (by rw [hF]; exact List.mem_map.mpr ⟨B0, hB0, rfl⟩) _ (hsub.subset (by simp))
    · intro hnot
      rcases hR with h1 | ⟨e0, al, lo, h1, h2, h3⟩
      · rw [hb, h1]
      · exfalso
        have hal := (hw.loads e0 al lo h3).1
        rcases hext.only e0 al hal with h4 | ⟨p, hp, he⟩
        · simp [MotionState.initial, StdMap.find?_empty] at h4
        · exact hnot p hp e0 he h1

/-- Witness for C25: occurrence 12 of `sumLoop`, listed on two edges.  In the loop body the
loads 26 and 30 from the slot 22 precede the occurrence, and the store 13, which used the
occurrence, uses the load 26. -/
theorem performRemoveAndInsert_redirects_uses_witness :
    (performRemoveAndInsert twoEdgeInserts (MotionState.initial sumLoop)).map
        (fun st => (st.F.findBlock 2).map BasicBlock.instrs) =
      some (some [⟨11, Opcode.Load, [Value.other 100]⟩, ⟨26, Opcode.Load, [Value.inst 22]⟩,
        ⟨30, Opcode.Load, [Value.inst 22]⟩, ⟨12, Opcode.Add, [Value.inst 11, Value.other 5]⟩,
        ⟨13, Opcode.Store, [Value.inst 26, Value.other 100]⟩,
        ⟨14, Opcode.Load, [Value.other 201]⟩,
        ⟨15, Opcode.Store, [Value.inst 14, Value.other 200]⟩,
        ⟨16, Opcode.Store, [Value.other 0, Value.other 201]⟩,
        ⟨27, Opcode.Load, [Value.other 100]⟩,
        ⟨28, Opcode.Add, [Value.inst 27, Value.other 5]⟩,
        ⟨29, Opcode.Store, [Value.inst 28, Value.inst 22]⟩, ⟨17, Opcode.Other 2, []⟩]) ∧
    ∃ st, performRemoveAndInsert twoEdgeInserts (MotionState.initial sumLoop) = some st ∧
      ∃ alloc, st.allocas.find? 12 = some alloc ∧
        (∀ B ∈ sumLoop, ∀ x ∈ B.instrs, x.id = 12 →
          ∃ B' ∈ st.F, B'.name = B.name ∧ ∃ x' lo, x'.id = 12 ∧ x'.opcode = x.opcode ∧
            Created.load 12 alloc lo ∈ st.created ∧
            [(⟨lo, Opcode.Load, [Value.inst alloc]⟩ : Instruction), x'].Sublist B'.instrs) ∧
        ∀ i ∈ st.F.allInstrs, Value.inst 12 ∉ i.operands := by
  refine ⟨by decide, ?_⟩
  obtain ⟨st, hst, h1, -⟩ := performRemoveAndInsert_redirects_uses twoEdgeInserts sumLoop
    (by decide) (by decide) (by decide) (by unfold Func.usesResolve; decide) (by decide)
  exact ⟨st, hst, h1 ((0, 1), {12}) (by decide) 12 (by decide)⟩

/-- C24.  On a function whose blocks have a terminator, whose instructions have distinct
identities and whose operands name instructions of the function, with an INSERT map whose
edges leave blocks of the function and whose occurrences are instructions of the function
that are no terminators: for every entry `p` of the map and every occurrence `e` of its set,
the run of `performRemoveAndInsert` reaches the body of the inner loop for `e` (the entries
`done` before `p` and the occurrences `es1` before `e` are processed and return), and that
body turns the source block `U` of the edge, which ends with the terminator `t1`, into a
block that ends with: one clone for every operand of `e` that is an instruction, in operand
order, each with the opcode and the remapped operands of its operand; the clone of `e`,
whose operands that are instructions are results of those clones; the store of that clone
into the slot of `e`; and `t1`, still last.  What the block held before `t1` keeps its
order, with nothing added but the new slot and the new load.  The uses of `e` in the block
are redirected to the load, as everywhere. -/
theorem performRemoveAndInsert_adds_before_terminator (inserts : StdMap Edge OccSet)
    (F : Func) (hname : ∀ p ∈ inserts.entries, p.1.1 ∈ F.names)
    (ht : ∀ B ∈ F, B.getTerminator ≠ none)
    (hids : (F.allInstrs.map Instruction.id).Nodup) (huses : F.usesResolve)
    (hv : ∀ p ∈ inserts.entries, ∀ e ∈ p.2,
      ∃ x ∈ F.allInstrs, x.id = e ∧ x.opcode.isTerminator = false)
    (done rest : List (Edge × OccSet)) (p : Edge × OccSet)
    (hsplit : inserts.entries = done ++ p :: rest) (es1 es2 : List InstrId) (e : InstrId)
    (hes : valuesInOrder p.2 = es1 ++ e :: es2) :
    ∃ st0 entry fp toInsert t stA stB,
      motionPairs done (MotionState.initial F) = some st0 ∧
      st0.F.head? = some entry ∧ entry.getFirstNonPHI = some fp ∧
      st0.F.findBlock p.1.1 = some toInsert ∧ toInsert.getTerminator = some t ∧
      motionOccurrences p.1 (some fp.id) (some t.id) es1 st0 = some stA ∧
      motionOccurrence p.1 (some fp.id) (some t.id) stA e = some stB ∧
      ∃ U ∈ stA.F, ∃ U' ∈ stB.F, ∃ pre t1 mid x alloc n clones cloneId vmap,
        U.name = p.1.1 ∧ U'.name = p.1.1 ∧ U.instrs = pre ++ [t1] ∧ t1.id = t.id ∧
        t1.opcode = t.opcode ∧ stA.F.getInstr e = some x ∧
        stB.allocas.find? e = some alloc ∧
        operandClones stA.F x.operands n [] = (clones, cloneId, vmap) ∧
        List.Forall₂
          (fun c Inst => c.opcode = Inst.opcode ∧
            ∃ vm, c.operands = Inst.operands.map (remapValue vm))
          clones (x.operands.filterMap stA.F.asInstr) ∧
        (∀ k o Inst, x.operands.get? k = some (Value.inst o) → o ≠ e →
          stA.F.getInstr o = some Inst →
          ∃ c ∈ clones, c.opcode = Inst.opcode ∧
            (cloneAndRemap x cloneId ((e, cloneId) :: vmap)).operands.get? k =
              some (Value.inst c.id)) ∧
        pre.Sublist mid ∧
        (∀ i ∈ mid, i ∈ pre ∨ i = ⟨alloc, Opcode.Alloca, []⟩ ∨
          i = ⟨cloneId + 2, Opcode.Load, [Value.inst alloc]⟩) ∧
        U'.instrs =
          (mid ++ clones ++
            [cloneAndRemap x cloneId ((e, cloneId) :: vmap),
              ⟨cloneId + 1, Opcode.Store, [Value.inst cloneId, Value.inst alloc]⟩,
              t1]).map (Instruction.replaceUses e (cloneId + 2)) := by
  have hdone : ∀ q ∈ done, q ∈ inserts.entries := by
    intro q hq
    rw [hsplit]
    exact List.mem_append_left _ hq
  have hp : p ∈ inserts.entries := by
    rw [hsplit]
    exact List.mem_append_right _ (List.mem_cons_self _ _)
  have hres : ∀ i ∈ F.allInstrs, ∀ o, Value.inst o ∈ i.operands →
      ∃ x ∈ F.allInstrs, x.id = o := by
    intro i hi o ho
    have h1 := huses i hi _ ho rfl
    obtain ⟨x, hx⟩ := Option.isSome_iff_exists.mp h1
    have h2 : F.getInstr o = some x := hx
    exact ⟨x, List.mem_of_find?_eq_some h2, getInstr_id F o x h2⟩
  -- the entries before `p`
  obtain ⟨st0, hst0⟩ := motionPairs_total done (MotionState.initial F)
    (fun q hq => hname q (hdone q hq)) ht
    (fun q hq x hx => by
      obtain ⟨y, hy, hid, -⟩ := hv q (hdone q hq) x hx
      exact ⟨y, hy, hid⟩)
  obtain ⟨hw0, -⟩ := motionPairs_wf F done (MotionState.initial F) st0 hst0
    (MotionWf_initial F (nodup_block_of_nodup F hids) hres)
    (fun q hq x hx => by
      obtain ⟨y, hy, hid, -⟩ := hv q (hdone q hq) x hx
      exact hid ▸ lt_freshId F y hy)
  have hstep : FuncStep F st0.F := motionPairs_step done (MotionState.initial F) st0 hst0
  have ht0 := hstep.terminators ht
  obtain ⟨toInsert, hmem, hfind⟩ := findBlock_of_mem_names st0.F p.1.1
    (by rw [hstep.names]; exact hname p hp)
  obtain ⟨entry, hentry⟩ : ∃ entry, st0.F.head? = some entry := by
    cases hF : st0.F with
    | nil => rw [hF] at hmem; exact absurd hmem (List.not_mem_nil _)
    | cons B tl => exact ⟨B, rfl⟩
  obtain ⟨fp, -, hfp⟩ := getFirstNonPHI_some entry (ht0 entry (List.mem_of_mem_head? hentry))
  obtain ⟨t, hterm⟩ : ∃ t, toInsert.getTerminator = some t := by
    cases hc : toInsert.getTerminator with
    | none => exact absurd hc (ht0 toInsert hmem)
    | some t => exact ⟨t, rfl⟩
  obtain ⟨htt, pre0, hpre0⟩ := getTerminator_some toInsert t hterm
  have hname0 := (findBlock_some st0.F p.1.1 toInsert hfind).2
  have hocc : ∀ y ∈ valuesInOrder p.2,
      ∃ x0 ∈ F.allInstrs, x0.id = y ∧ x0.opcode.isTerminator = false :=
    fun y hy => hv p hp y ((mem_valuesInOrder p.2 y).mp hy)
  -- the occurrences before `e`
  obtain ⟨stA, hstA, hwA, U, hU, hnameU, pre, t1, hUi, ht1, hop1⟩ :=
    motionOccurrences_block F hids p.1 fp.id t.id es1 st0 hw0 toInsert pre0 t hmem hpre0 rfl
      htt (fun y hy => hocc y (by rw [hes]; exact List.mem_append_left _ hy))
  have htt1 : t1.opcode.isTerminator = true := by rw [hop1]; exact htt
  -- the body of the inner loop for `e`
  obtain ⟨hpre, hib, he, hne, -, x, hx, hops⟩ := motionOccurrence_ready F hids stA hwA U pre t1
    hU hUi htt1 e
    (hocc e (by rw [hes]; exact List.mem_append_right _ (List.mem_cons_self _ _)))
  obtain ⟨stB, alloc, n, mid, hstB, hfindB, -, -, hsub, hmid, U', hU', hnameU', hUi'⟩ :=
    motionOccurrence_block p.1 fp.id t1.id stA e x U pre t1 hU hUi rfl hpre hib he hne hx hops
  rw [ht1] at hstB
  refine ⟨st0, entry, fp, toInsert, t, stA, stB, hst0, hentry, hfp, hfind, hterm, hstA, hstB,
    U, hU, U', hU', pre, t1, mid, x, alloc, n, (operandClones stA.F x.operands n []).1,
    (operandClones stA.F x.operands n []).2.1, (operandClones stA.F x.operands n []).2.2,
    hnameU.trans hname0, (hnameU'.trans hnameU).trans hname0, hUi, ht1, hop1, hx, hfindB, rfl,
    operandClones_clones stA.F x.operands n [], ?_, hsub, hmid, hUi'⟩
  intro k o Inst hk hoe hg
  exact cloneAndRemap_operand stA.F x e n k o Inst hk hoe hg

/-- Witness for C24: occurrence 12 of `sumLoop` on the edge (0, 1), the first entry of the
map.  Block 0, which held its branch alone, ends with the clone 23 of the load, the clone 24
of the sum, the store 25 into the slot 22, and the branch. -/
theorem performRemoveAndInsert_adds_before_terminator_witness :
    (performRemoveAndInsert twoEdgeInserts (MotionState.initial sumLoop)).map
        (fun st => (st.F.findBlock 0).map BasicBlock.instrs) =
      some (some [⟨22, Opcode.Alloca, []⟩, ⟨23, Opcode.Load, [Value.other 100]⟩,
        ⟨24, Opcode.Add, [Value.inst 23, Value.other 5]⟩,
        ⟨25, Opcode.Store, [Value.inst 24, Value.inst 22]⟩, ⟨1, Opcode.Other 2, []⟩]) ∧
    ∃ stB : MotionState, ∃ U' ∈ stB.F, ∃ (t1 : Instruction) (mid : List Instruction)
        (x : Instruction) (alloc : InstrId) (clones : List Instruction) (cloneId : InstrId)
        (vmap : List (InstrId × InstrId)),
      U'.name = 0 ∧ stB.allocas.find? 12 = some alloc ∧
      U'.instrs =
        (mid ++ clones ++
          [cloneAndRemap x cloneId ((12, cloneId) :: vmap),
            ⟨cloneId + 1, Opcode.Store, [Value.inst cloneId, Value.inst alloc]⟩,
            t1]).map (Instruction.replaceUses 12 (cloneId + 2)) := by
  refine ⟨by decide, ?_⟩
  obtain ⟨-, -, -, -, -, -, stB, -, -, -, -, -, -, -, -, -, U', hU', -, t1, mid, x, alloc, -,
      clones, cloneId, vmap, -, hname, -, -, -, -, hfind, -, -, -, -, -, hinstrs⟩ :=
    performRemoveAndInsert_adds_before_terminator twoEdgeInserts sumLoop (by decide)
      (by decide) (by decide) (by unfold Func.usesResolve; decide) (by decide) []
      [((2, 1), {12})] ((0, 1), {12}) (by decide) [] [] 12 (by decide)
  exact ⟨stB, U', hU', t1, mid, x, alloc, clones, cloneId, vmap, hname, hfind, hinstrs⟩

end ISPRE3
